import Mathlib

/-!
OSC codec of mediapipe2osc: a shallow embedding and its verification.

Source files embedded here (all under `src/mediapipe/Osc/`):
`OscCommon.h`, `OscContent.h/.cpp`, `OscArgument.h/.cpp`, `OscMessage.h/.cpp`,
`OscBundle.h/.cpp`, `OscError.h`.

Conventions of the embedding.

* A `char` is a natural number below 256 (its bit pattern); a buffer, a
  `std::string` and a `std::vector<char>` are `List Nat`.
* A pointer into a source buffer is the list of the bytes from the pointer to
  the end of the underlying array; `&source[i]` is `source.drop i`.  A read
  past the end of the array has no defined result: the embedding returns
  `none`.
* A routine that fills a destination buffer stores its bytes at increasing
  indices `0, 1, 2, ...`; the embedding returns those bytes in index order
  together with the `size_t` the routine returns (`Written`).
* `size_t` is 64 bit, `int32_t`/`unsigned int` are 32 bit, the platform is
  little-endian (`LITTLE_ENDIAN_PLATFORM` is defined in `OscCommon.h`).
-/

namespace Osc

/-! ## Destination buffers -/

/-- Outcome of a routine writing to `char* destination`: `bytes` are the values
stored at `destination[0]`, `destination[1]`, ... in index order, `count` is the
returned `size_t`. -/
structure Written where
  bytes : List Nat
  count : Nat
deriving DecidableEq

/-! ## OscContent.cpp : SLIP framing -/

/-- Source: `static const char SlipEnd = 0xC0;` -/
def SlipEnd : Nat := 0xC0
/-- Source: `static const char SlipEsc = 0xDB;` -/
def SlipEsc : Nat := 0xDB
/-- Source: `static const char SlipEscEnd = 0xDC;` -/
def SlipEscEnd : Nat := 0xDC
/-- Source: `static const char SlipEscEsc = 0xDD;` -/
def SlipEscEsc : Nat := 0xDD

/-- The `for` loop of `OscContent::slipEncode`: the first argument is the part
of the source from `oscDataIndex` on, the second the bytes already stored
(`slipEncodedIndex` is their number). -/
def slipEncodeLoop : List Nat → List Nat → List Nat
  | [], dest => dest
  | c :: rest, dest =>
    if c = SlipEnd then slipEncodeLoop rest (dest ++ [SlipEsc, SlipEscEnd])
    else if c = SlipEsc then slipEncodeLoop rest (dest ++ [SlipEsc, SlipEscEsc])
    else slipEncodeLoop rest (dest ++ [c])

/-- Source: `OscContent::slipEncode (oscEncodedSource, sourceSize, slipEncodedDestination)`
with `sourceSize = oscEncodedSource.length`. -/
def slipEncode (oscEncodedSource : List Nat) : Written :=
  let dest := slipEncodeLoop oscEncodedSource [] ++ [SlipEnd]
  ⟨dest, dest.length⟩

/-- The `while` loop of `OscContent::slipDecode`: the first argument is the part
of the source from `sourceIndex` on, the second the bytes already stored
(`oscEncodedIndex` is their number).  `none`: the byte after an ESC is read
outside the buffer. -/
def slipDecodeLoop : List Nat → List Nat → Option Written
  | [], dest => some ⟨dest, dest.length⟩
  | c :: rest, dest =>
    if c = SlipEnd then some ⟨dest, dest.length⟩
    else if c = SlipEsc then
      match rest with
      | [] => none
      | e :: rest2 =>
        if e = SlipEscEnd then slipDecodeLoop rest2 (dest ++ [SlipEnd])
        else if e = SlipEscEsc then slipDecodeLoop rest2 (dest ++ [SlipEsc])
        else some ⟨dest, 0⟩
    else slipDecodeLoop rest (dest ++ [c])

/-- Source: `OscContent::slipDecode (slipEncodedSource, sourceSize, oscEncodedDestination)`
with `sourceSize = slipEncodedSource.length`.  `none`: a read outside the
source buffer (`slipEncodedSource[sourceSize - 1]` when `sourceSize` is 0). -/
def slipDecode (slipEncodedSource : List Nat) : Option Written :=
  match slipEncodedSource.getLast? with
  | none => none
  | some l =>
    if l ≠ SlipEnd then some ⟨[], 0⟩
    else slipDecodeLoop slipEncodedSource []

/-! ## OscCommon.h -/

/-- Source: `getPaddedSize (unpaddedSize)`: the argument raised to a multiple of four. -/
def getPaddedSize (unpaddedSize : Nat) : Nat :=
  if unpaddedSize % 4 = 0 then unpaddedSize else unpaddedSize + (4 - unpaddedSize % 4)

/-- Source: `terminateOscString (oscContents, oscStringSize, maxOscStringSize)`.  The
second argument holds the bytes stored so far (`oscStringSize` is their number);
the result is the bytes stored afterwards and the returned flag (`true`: the
string exceeds the maximum size).  The `do ... while (oscStringSize % 4 != 0)`
loop runs at most four times, which is the first argument at the call sites. -/
def terminateOscString : Nat → List Nat → Nat → List Nat × Bool
  | 0, oscContents, _ => (oscContents, false)
  | fuel + 1, oscContents, maxOscStringSize =>
    if oscContents.length ≥ maxOscStringSize then (oscContents, true)
    else
      let oscContents := oscContents ++ [0]
      if oscContents.length % 4 ≠ 0 then terminateOscString fuel oscContents maxOscStringSize
      else (oscContents, false)

/-! ## OscError.h -/

/-- Source: `enum OscError`. -/
inductive OscError where
  | OscErrorNone
  | OscErrorDestinationTooSmall
  | OscErrorSizeIsNotMultipleOfFour
  | OscErrorCallbackFunctionUndefined
  | OscErrorNotEnoughPartsInAddressPattern
  | OscErrorMessageToShort
  | OscErrorNoSlashAtStartOfMessage
  | OscErrorAddressPatternUnterminated
  | OscErrorTooManyArguments
  | OscErrorArgumentsSizeTooLarge
  | OscErrorUndefinedAddressPattern
  | OscErrorMessageSizeTooSmall
  | OscErrorMessageSizeTooLarge
  | OscErrorSourceEndsBeforeEndOfAddressPattern
  | OscErrorSourceEndsBeforeStartOfTypeTagString
  | OscErrorTypeTagStringToLong
  | OscErrorSourceEndsBeforeEndOfTypeTagString
  | OscErrorUnexpectedEndOfSource
  | OscErrorNoArgumentsAvailable
  | OscErrorUnexpectedArgumentType
  | OscErrorMessageTooShortForArgumentType
  | OscErrorBundleFull
  | OscErrorBundleSizeTooSmall
  | OscErrorBundleSizeTooLarge
  | OscErrorNoHashAtStartOfBundle
  | OscErrorMalformedBundleHeader
  | OscErrorMalformedElement
  | OscErrorSourceEndsBeforeBundleElementSize
  | OscErrorBundleElementNotAvailable
  | OscErrorBundleCouldNotAddBundleElement
  | OscErrorNegativeBundleElementSize
  | OscErrorInvalidElementSize
  | OscErrorInvalidContents
  | OscErrorPacketSizeTooLarge
  | OscErrorContentsEmpty
  | OscErrorEncodedSlipPacketTooLong
  | OscErrorUnexpectedByteAfterSlipEsc
  | OscErrorDecodedSlipPacketTooLong
deriving DecidableEq

/-! ## OscArgument.h : unions and byte order -/

/-- Source: `OscArgument::encodeArgument32`: `byte3` (most significant) to `byte0` of a
32-bit union value. -/
def encodeArgument32 (argument : Nat) : List Nat :=
  [argument / 2 ^ 24 % 256, argument / 2 ^ 16 % 256, argument / 2 ^ 8 % 256, argument % 256]

/-- Source: `OscArgument::encodeArgument64`: `byte7` (most significant) to `byte0` of a
64-bit union value. -/
def encodeArgument64 (argument : Nat) : List Nat :=
  [argument / 2 ^ 56 % 256, argument / 2 ^ 48 % 256, argument / 2 ^ 40 % 256,
   argument / 2 ^ 32 % 256, argument / 2 ^ 24 % 256, argument / 2 ^ 16 % 256,
   argument / 2 ^ 8 % 256, argument % 256]

/-- Source: `OscArgument::decodeArgument32 (source)`: `source[0]` becomes `byte3`, ...,
`source[3]` becomes `byte0`.  `none`: fewer than four bytes can be read. -/
def decodeArgument32 (source : List Nat) : Option Nat :=
  match source with
  | s0 :: s1 :: s2 :: s3 :: _ => some (s0 * 2 ^ 24 + s1 * 2 ^ 16 + s2 * 2 ^ 8 + s3)
  | _ => none

/-- Source: `OscArgument::decodeArgument64 (source)`.  `none`: fewer than eight bytes can
be read. -/
def decodeArgument64 (source : List Nat) : Option Nat :=
  match source with
  | s0 :: s1 :: s2 :: s3 :: s4 :: s5 :: s6 :: s7 :: _ =>
    some (s0 * 2 ^ 56 + s1 * 2 ^ 48 + s2 * 2 ^ 40 + s3 * 2 ^ 32
      + s4 * 2 ^ 24 + s5 * 2 ^ 16 + s6 * 2 ^ 8 + s7)
  | _ => none

/-- The member `int32` of `union OscArgument32`: the 32-bit pattern read as a
two's-complement integer. -/
def asInt32 (bits : Nat) : Int :=
  if bits % 2 ^ 32 < 2 ^ 31 then (bits % 2 ^ 32 : Nat) else (bits % 2 ^ 32 : Nat) - 2 ^ 32

/-- The 32-bit pattern of an `int32_t`. -/
def ofInt32 (v : Int) : Nat := (v % 2 ^ 32).toNat

/-- The member `int64` of `union OscArgument64`. -/
def asInt64 (bits : Nat) : Int :=
  if bits % 2 ^ 64 < 2 ^ 63 then (bits % 2 ^ 64 : Nat) else (bits % 2 ^ 64 : Nat) - 2 ^ 64

/-- The 64-bit pattern of an `int64_t`. -/
def ofInt64 (v : Int) : Nat := (v % 2 ^ 64).toNat

/-- Conversion of an arithmetic result to `unsigned int` (32 bits). -/
def toUInt32 (n : Nat) : Nat := n % 2 ^ 32

/-- Conversion of an arithmetic result to `size_t` (64 bits). -/
def toSizeT (n : Nat) : Nat := n % 2 ^ 64

/-- Conversion of an `int32_t` to `size_t` (sign extension to 64 bits). -/
def int32ToSizeT (v : Int) : Nat := (v % 2 ^ 64).toNat

/-- A `float` is its IEEE-754 binary32 bit pattern; this is "is a NaN". -/
def float32IsNaN (bits : Nat) : Bool :=
  bits / 2 ^ 23 % 2 ^ 8 == 255 && bits % 2 ^ 23 != 0

/-- The C++ `==` on two `float`s given by their bit patterns. -/
def float32Eq (a b : Nat) : Bool :=
  !float32IsNaN a && !float32IsNaN b &&
    (a % 2 ^ 32 == b % 2 ^ 32 || (a % 2 ^ 31 == 0 && b % 2 ^ 31 == 0))

/-- A `Float64` (`double`) is its IEEE-754 binary64 bit pattern; this is "is a NaN". -/
def float64IsNaN (bits : Nat) : Bool :=
  bits / 2 ^ 52 % 2 ^ 11 == 2047 && bits % 2 ^ 52 != 0

/-- The C++ `==` on two `double`s given by their bit patterns. -/
def float64Eq (a b : Nat) : Bool :=
  !float64IsNaN a && !float64IsNaN b &&
    (a % 2 ^ 64 == b % 2 ^ 64 || (a % 2 ^ 63 == 0 && b % 2 ^ 63 == 0))

/-- Source: `struct RgbaColour`. -/
structure RgbaColour where
  red : Nat
  green : Nat
  blue : Nat
  alpha : Nat
deriving DecidableEq

/-- Source: `struct MidiMessageData`. -/
structure MidiMessageData where
  portID : Nat
  status : Nat
  data1 : Nat
  data2 : Nat
deriving DecidableEq

/-- The 32-bit pattern of a `RgbaColour` inside `union OscArgument32` on the
little-endian layout: `alpha` is the least significant byte, `red` the most. -/
def RgbaColour.toBits (c : RgbaColour) : Nat :=
  c.red % 256 * 2 ^ 24 + c.green % 256 * 2 ^ 16 + c.blue % 256 * 2 ^ 8 + c.alpha % 256

/-- The member `rgbaColour` of `union OscArgument32`. -/
def RgbaColour.ofBits (bits : Nat) : RgbaColour :=
  ⟨bits / 2 ^ 24 % 256, bits / 2 ^ 16 % 256, bits / 2 ^ 8 % 256, bits % 256⟩

/-- The 32-bit pattern of a `MidiMessageData` inside `union OscArgument32` on
the little-endian layout: `data2` is the least significant byte, `portID` the
most. -/
def MidiMessageData.toBits (m : MidiMessageData) : Nat :=
  m.portID % 256 * 2 ^ 24 + m.status % 256 * 2 ^ 16 + m.data1 % 256 * 2 ^ 8 + m.data2 % 256

/-- The member `midiMessage` of `union OscArgument32`. -/
def MidiMessageData.ofBits (bits : Nat) : MidiMessageData :=
  ⟨bits / 2 ^ 24 % 256, bits / 2 ^ 16 % 256, bits / 2 ^ 8 % 256, bits % 256⟩

/-! ## OscArgument.h / OscArgument.cpp : class OscArgument -/

/-- Source: `Int32TypeTag = 'i'` -/
def Int32TypeTag : Nat := 105
/-- Source: `Float32TypeTag = 'f'` -/
def Float32TypeTag : Nat := 102
/-- Source: `StringTypeTag = 's'` -/
def StringTypeTag : Nat := 115
/-- Source: `BlobTypeTag = 'b'` -/
def BlobTypeTag : Nat := 98
/-- Source: `Int64TypeTag = 'h'` -/
def Int64TypeTag : Nat := 104
/-- Source: `Float64TypeTag = 'd'` -/
def Float64TypeTag : Nat := 100
/-- Source: `TimeTagTypeTag = 't'` -/
def TimeTagTypeTag : Nat := 116
/-- Source: `AlternateStringTypeTag = 'S'` -/
def AlternateStringTypeTag : Nat := 83
/-- Source: `CharacterTypeTag = 'c'` -/
def CharacterTypeTag : Nat := 99
/-- Source: `RgbaColourTypeTag = 'r'` -/
def RgbaColourTypeTag : Nat := 114
/-- Source: `MidiMessageTypeTag = 'm'` -/
def MidiMessageTypeTag : Nat := 109
/-- Source: `TrueTypeTag = 'T'` -/
def TrueTypeTag : Nat := 84
/-- Source: `FalseTypeTag = 'F'` -/
def FalseTypeTag : Nat := 70
/-- Source: `NilTypeTag = 'N'` -/
def NilTypeTag : Nat := 78
/-- Source: `InfinitumTypeTag = 'I'` -/
def InfinitumTypeTag : Nat := 73
/-- Source: `BeginArrayTypeTag = '['` -/
def BeginArrayTypeTag : Nat := 91
/-- Source: `EndArrayTypeTag = ']'` -/
def EndArrayTypeTag : Nat := 93

/-- The private members of `class OscArgument`.  `value` is the eight bytes of
`union ArgumentValue` as a number (byte `k` of the union is
`value / 256 ^ k % 256`); every member of the union starts at byte 0. -/
structure OscArgument where
  typeTag : Nat
  stringValue : List Nat
  blobValue : List Nat
  value : Nat
deriving DecidableEq

namespace OscArgument

/-- Source: `OscArgument::OscArgument()`: the string and the blob are empty; C++ leaves
`typeTag` and `value` indeterminate, here they are 0 (no type tag is 0). -/
def uninitialised : OscArgument := ⟨0, [], [], 0⟩

/-- Storing `bits` in the low `w` bits of the union, the other bytes untouched. -/
def storeLow (w : Nat) (old bits : Nat) : Nat := old / 2 ^ w * 2 ^ w + bits % 2 ^ w

/-- Source: `OscArgument::getType`. -/
def getType (a : OscArgument) : Nat := a.typeTag

/-- Source: `OscArgument::setInt32`. -/
def setInt32 (a : OscArgument) (newInt : Int) : OscArgument :=
  { a with typeTag := Int32TypeTag, value := storeLow 32 a.value (ofInt32 newInt) }
/-- Source: `OscArgument::getInt32`. -/
def getInt32 (a : OscArgument) : Int := asInt32 a.value

/-- Source: `OscArgument::setFloat32` (the `float` given by its bit pattern). -/
def setFloat32 (a : OscArgument) (newFloat32 : Nat) : OscArgument :=
  { a with typeTag := Float32TypeTag, value := storeLow 32 a.value newFloat32 }
/-- Source: `OscArgument::getFloat32` (bit pattern). -/
def getFloat32 (a : OscArgument) : Nat := a.value % 2 ^ 32

/-- Source: `OscArgument::setString`. -/
def setString (a : OscArgument) (newString : List Nat) : OscArgument :=
  { a with typeTag := StringTypeTag, stringValue := newString }
/-- Source: `OscArgument::getString`. -/
def getString (a : OscArgument) : List Nat := a.stringValue

/-- Source: `OscArgument::setBlob (bytes, numberOfBytes)`: the bytes are appended to
`blobValue` by `push_back`.  `bytes` is the memory from the pointer on.  `none`:
the loop reads outside that memory, or never ends because its
`unsigned int` counter cannot reach `numberOfBytes`. -/
def setBlob (a : OscArgument) (bytes : List Nat) (numberOfBytes : Nat) : Option OscArgument :=
  if numberOfBytes ≤ bytes.length ∧ numberOfBytes < 2 ^ 32 then
    some { a with typeTag := BlobTypeTag, blobValue := a.blobValue ++ bytes.take numberOfBytes }
  else none
/-- Source: `OscArgument::getBlobSize`. -/
def getBlobSize (a : OscArgument) : Nat := a.blobValue.length
/-- Source: `OscArgument::getBlob`. -/
def getBlob (a : OscArgument) : List Nat := a.blobValue

/-- Source: `OscArgument::setInt64`. -/
def setInt64 (a : OscArgument) (newInt64 : Int) : OscArgument :=
  { a with typeTag := Int64TypeTag, value := ofInt64 newInt64 }
/-- Source: `OscArgument::getInt64`. -/
def getInt64 (a : OscArgument) : Int := asInt64 a.value

/-- Source: `OscArgument::setFloat64` (the `double` given by its bit pattern). -/
def setFloat64 (a : OscArgument) (newFloat64 : Nat) : OscArgument :=
  { a with typeTag := Float64TypeTag, value := newFloat64 % 2 ^ 64 }
/-- Source: `OscArgument::getFloat64` (bit pattern). -/
def getFloat64 (a : OscArgument) : Nat := a.value % 2 ^ 64

/-- Source: `OscArgument::setTimeTag` (an `OscTimeTag` is its 64-bit `value`). -/
def setTimeTag (a : OscArgument) (newTimeTag : Nat) : OscArgument :=
  { a with typeTag := TimeTagTypeTag, value := newTimeTag % 2 ^ 64 }
/-- Source: `OscArgument::getTimeTag`. -/
def getTimeTag (a : OscArgument) : Nat := a.value % 2 ^ 64

/-- Source: `OscArgument::setAlternateString (const std::string&)`. -/
def setAlternateString (a : OscArgument) (newString : List Nat) : OscArgument :=
  { a with typeTag := AlternateStringTypeTag, stringValue := newString }
/-- Source: `OscArgument::getAlternateString`. -/
def getAlternateString (a : OscArgument) : List Nat := a.getString

/-- Source: `OscArgument::setCharacter`. -/
def setCharacter (a : OscArgument) (newCharacter : Nat) : OscArgument :=
  { a with typeTag := CharacterTypeTag, value := storeLow 8 a.value newCharacter }
/-- Source: `OscArgument::getCharacter`. -/
def getCharacter (a : OscArgument) : Nat := a.value % 256

/-- Source: `OscArgument::setRgbaColour (RgbaColour)`. -/
def setRgbaColour (a : OscArgument) (newRgbaColour : RgbaColour) : OscArgument :=
  { a with typeTag := RgbaColourTypeTag, value := storeLow 32 a.value newRgbaColour.toBits }
/-- Source: `OscArgument::getRgbaColour`. -/
def getRgbaColour (a : OscArgument) : RgbaColour := RgbaColour.ofBits a.value

/-- Source: `OscArgument::setMidiMessage (MidiMessageData)`. -/
def setMidiMessage (a : OscArgument) (newMidiMessage : MidiMessageData) : OscArgument :=
  { a with typeTag := MidiMessageTypeTag, value := storeLow 32 a.value newMidiMessage.toBits }
/-- Source: `OscArgument::getMidiMessage`. -/
def getMidiMessage (a : OscArgument) : MidiMessageData := MidiMessageData.ofBits a.value

/-- Source: `OscArgument::setBool`. -/
def setBool (a : OscArgument) (newBool : Bool) : OscArgument :=
  { a with typeTag := if newBool then TrueTypeTag else FalseTypeTag }
/-- Source: `OscArgument::setNil`. -/
def setNil (a : OscArgument) : OscArgument := { a with typeTag := NilTypeTag }
/-- Source: `OscArgument::setInfinitum`. -/
def setInfinitum (a : OscArgument) : OscArgument := { a with typeTag := InfinitumTypeTag }
/-- Source: `OscArgument::setBeginArray`. -/
def setBeginArray (a : OscArgument) : OscArgument := { a with typeTag := BeginArrayTypeTag }
/-- Source: `OscArgument::setEndArray`. -/
def setEndArray (a : OscArgument) : OscArgument := { a with typeTag := EndArrayTypeTag }

/-- Source: `OscArgument::getEncodedSize`.  The `default:` branch (`assert (false)`)
leaves `encodedSize` at 0. -/
def getEncodedSize (a : OscArgument) : Nat :=
  if a.typeTag = Int32TypeTag ∨ a.typeTag = Float32TypeTag ∨ a.typeTag = CharacterTypeTag
      ∨ a.typeTag = RgbaColourTypeTag ∨ a.typeTag = MidiMessageTypeTag then 4
  else if a.typeTag = StringTypeTag ∨ a.typeTag = AlternateStringTypeTag then
    getPaddedSize (a.stringValue.length + 1)
  else if a.typeTag = BlobTypeTag then 4 + getPaddedSize a.blobValue.length
  else if a.typeTag = Int64TypeTag ∨ a.typeTag = Float64TypeTag ∨ a.typeTag = TimeTagTypeTag then 8
  else 0

/-- The `for (char c : blobValue)` loop of `OscArgument::encode`: first the
blob bytes still to store, then the bytes stored so far (`index` is their
number).  The flag is `true` when the loop leaves through its `return 0`. -/
def encodeBlobLoop (encodedSize : Nat) : List Nat → List Nat → List Nat × Bool
  | [], destination => (destination, false)
  | c :: rest, destination =>
    if destination.length ≥ encodedSize then (destination, true)
    else encodeBlobLoop encodedSize rest (destination ++ [c])

/-- The `while (index % 4 != 0) destination[index++] = 0;` loop of
`OscArgument::encode`; it runs at most three times. -/
def encodeBlobPad : Nat → List Nat → List Nat
  | 0, destination => destination
  | fuel + 1, destination =>
    if destination.length % 4 ≠ 0 then encodeBlobPad fuel (destination ++ [0])
    else destination

/-- Source: `OscArgument::encode (destination, destinationSize)`. -/
def encode (a : OscArgument) (destinationSize : Nat) : Written :=
  let encodedSize := a.getEncodedSize
  if encodedSize > destinationSize then ⟨[], 0⟩
  else if a.typeTag = Int32TypeTag ∨ a.typeTag = Float32TypeTag
      ∨ a.typeTag = RgbaColourTypeTag ∨ a.typeTag = MidiMessageTypeTag then
    ⟨encodeArgument32 a.value, a.getEncodedSize⟩
  else if a.typeTag = Int64TypeTag ∨ a.typeTag = Float64TypeTag
      ∨ a.typeTag = TimeTagTypeTag then
    ⟨encodeArgument64 a.value, a.getEncodedSize⟩
  else if a.typeTag = CharacterTypeTag then
    ⟨[0, 0, 0, a.value % 256], a.getEncodedSize⟩
  else if a.typeTag = StringTypeTag ∨ a.typeTag = AlternateStringTypeTag then
    ⟨(List.range a.getEncodedSize).map
        (fun i => if i < a.stringValue.length then a.stringValue.getD i 0 else 0),
      a.getEncodedSize⟩
  else if a.typeTag = BlobTypeTag then
    match encodeBlobLoop a.getEncodedSize a.blobValue (encodeArgument32 a.blobValue.length) with
    | (destination, true) => ⟨destination, 0⟩
    | (destination, false) => ⟨encodeBlobPad 3 destination, a.getEncodedSize⟩
  else ⟨[], a.getEncodedSize⟩

/-- Source: `OscArgument::operator==`. -/
def eq (a other : OscArgument) : Bool :=
  if a.getType ≠ other.getType then false
  else if a.getType = Int32TypeTag then a.getInt32 == other.getInt32
  else if a.getType = Float32TypeTag then float32Eq a.getFloat32 other.getFloat32
  else if a.getType = StringTypeTag then a.getString == other.getString
  else if a.getType = BlobTypeTag then a.getBlob == other.getBlob
  else if a.getType = Int64TypeTag then a.getInt64 == other.getInt64
  else if a.getType = Float64TypeTag then float64Eq a.getFloat64 other.getFloat64
  else if a.getType = TimeTagTypeTag then a.getTimeTag == other.getTimeTag
  else if a.getType = AlternateStringTypeTag then
    a.getAlternateString == other.getAlternateString
  else if a.getType = CharacterTypeTag then a.getCharacter == other.getCharacter
  else if a.getType = RgbaColourTypeTag then a.getRgbaColour == other.getRgbaColour
  else if a.getType = MidiMessageTypeTag then a.getMidiMessage == other.getMidiMessage
  else if a.getType = TrueTypeTag ∨ a.getType = FalseTypeTag ∨ a.getType = NilTypeTag
      ∨ a.getType = InfinitumTypeTag ∨ a.getType = BeginArrayTypeTag
      ∨ a.getType = EndArrayTypeTag then true
  else false

/-- Source: `OscArgument::operator!=`. -/
def ne (a other : OscArgument) : Bool :=
  if a.getType ≠ other.getType then true
  else if a.getType = Int32TypeTag then a.getInt32 != other.getInt32
  else if a.getType = Float32TypeTag then !float32Eq a.getFloat32 other.getFloat32
  else if a.getType = StringTypeTag then a.getString != other.getString
  else if a.getType = BlobTypeTag then a.getBlob != other.getBlob
  else if a.getType = Int64TypeTag then a.getInt64 != other.getInt64
  else if a.getType = Float64TypeTag then !float64Eq a.getFloat64 other.getFloat64
  else if a.getType = TimeTagTypeTag then a.getTimeTag != other.getTimeTag
  else if a.getType = AlternateStringTypeTag then
    a.getAlternateString != other.getAlternateString
  else if a.getType = CharacterTypeTag then a.getCharacter != other.getCharacter
  else if a.getType = RgbaColourTypeTag then a.getRgbaColour != other.getRgbaColour
  else if a.getType = MidiMessageTypeTag then a.getMidiMessage != other.getMidiMessage
  else false

end OscArgument

/-! ## OscMessage.h / OscMessage.cpp -/

/-- Source: `stringLengthSafe (source, maxSize)`: `memchr` for a NUL among the first
`maxSize` bytes; the offset of the NUL, or `maxSize`.  `none`: `memchr` reads
outside the memory. -/
def stringLengthSafe : List Nat → Nat → Option Nat
  | _, 0 => some 0
  | [], _ + 1 => none
  | c :: rest, maxSize + 1 =>
    if c = 0 then some 0 else (stringLengthSafe rest maxSize).map (· + 1)

/-- The members of `class OscMessage`; `timeTag` is inherited from
`OscContent` (an `OscTimeTag` is its 64-bit `value`, 0 when constructed). -/
structure OscMessage where
  timeTag : Nat
  addressPattern : List Nat
  arguments : List OscArgument
deriving DecidableEq

/-- What a step of `OscMessage::decode` hands on: the value to continue with,
or the error code with which `decode` returns through `error (...)`. -/
inductive Step (α : Type) where
  | next (a : α)
  | fail (e : OscError)
deriving DecidableEq

namespace OscMessage

/-- Source: `MinOscMessageSize = sizeof ("/\0\0\0,\0\0")`. -/
def MinOscMessageSize : Nat := 8

/-- Source: `OscMessage::OscMessage()`. -/
def new : OscMessage := ⟨0, [], []⟩

/-- Source: `OscMessage::isEmpty`. -/
def isEmpty (m : OscMessage) : Bool :=
  m.addressPattern.isEmpty && m.arguments.length == 0

/-- Source: `OscMessage::isValid`. -/
def isValid (m : OscMessage) : Bool :=
  !m.isEmpty && decide (m.addressPattern.length ≥ 1) && m.addressPattern.getD 0 0 == 47

/-- Source: `OscMessage::clear`. -/
def clear (m : OscMessage) : OscMessage :=
  { m with addressPattern := [], arguments := [] }

/-- Source: `OscMessage::error`. -/
def error (m : OscMessage) (e : OscError) : OscMessage × OscError := (m.clear, e)

/-- Source: `OscMessage::getAddressPattern`. -/
def getAddressPattern (m : OscMessage) : List Nat := m.addressPattern

/-- Source: `OscMessage::appendAddressPattern`; the argument is the text of the
NUL-terminated string (so `*appendedParts` is its first byte, or NUL). -/
def appendAddressPattern (m : OscMessage) (appendedParts : List Nat) : OscMessage × OscError :=
  if appendedParts.getD 0 0 ≠ 47 then (m, .OscErrorNoSlashAtStartOfMessage)
  else ({ m with addressPattern := m.addressPattern ++ appendedParts }, .OscErrorNone)

/-- Source: `OscMessage::setAddressPattern`. -/
def setAddressPattern (m : OscMessage) (addressPattern : List Nat) : OscMessage × OscError :=
  m.appendAddressPattern addressPattern

/-- Source: `OscMessage::OscMessage (const char* addressPattern)`. -/
def withAddress (addressPattern : List Nat) : OscMessage :=
  (new.setAddressPattern addressPattern).1

/-- Source: `OscMessage::addInt32`. -/
def addInt32 (m : OscMessage) (value : Int) : OscMessage :=
  { m with arguments := m.arguments ++ [OscArgument.uninitialised.setInt32 value] }

/-- Source: `OscMessage::addFloat32` (the `float` given by its bit pattern). -/
def addFloat32 (m : OscMessage) (value : Nat) : OscMessage :=
  { m with arguments := m.arguments ++ [OscArgument.uninitialised.setFloat32 value] }

/-- Source: `OscMessage::addString`. -/
def addString (m : OscMessage) (stringValue : List Nat) : OscMessage :=
  { m with arguments := m.arguments ++ [OscArgument.uninitialised.setString stringValue] }

/-- Source: `OscMessage::getNumberOfArguments`. -/
def getNumberOfArguments (m : OscMessage) : Nat := m.arguments.length

/-- The loop `for (i...) if ((*this)[i] != other[i]) return ...;` shared by
`operator==` and `operator!=` (both vectors have the same length there): is
there an index at which `!=` holds. -/
def argumentsDiffer : List OscArgument → List OscArgument → Bool
  | a :: as, b :: bs => if a.ne b then true else argumentsDiffer as bs
  | _, _ => false

/-- Source: `OscMessage::operator==`. -/
def eq (m other : OscMessage) : Bool :=
  if m.addressPattern ≠ other.getAddressPattern then false
  else if m.getNumberOfArguments ≠ other.getNumberOfArguments then false
  else if argumentsDiffer m.arguments other.arguments then false
  else true

/-- Source: `OscMessage::operator!=`. -/
def ne (m other : OscMessage) : Bool :=
  if m.addressPattern ≠ other.getAddressPattern then true
  else if m.getNumberOfArguments ≠ other.getNumberOfArguments then true
  else if argumentsDiffer m.arguments other.arguments then true
  else false

/-- Source: `OscMessage::getEncodedArgumentsSize`. -/
def getEncodedArgumentsSize (m : OscMessage) : Nat :=
  (m.arguments.map OscArgument.getEncodedSize).sum

/-- Source: `OscMessage::getEncodedSize`. -/
def getEncodedSize (m : OscMessage) : Nat :=
  getPaddedSize (m.addressPattern.length + 1) + getPaddedSize (m.arguments.length + 1 + 1)
    + m.getEncodedArgumentsSize

/-- The `for (auto argument : arguments)` loop of `OscMessage::encode`: first
the arguments still to encode, then the bytes stored so far
(`destinationIndex` is their number). -/
def encodeArguments (destinationSize : Nat) : List OscArgument → List Nat → Written
  | [], destination => ⟨destination, destination.length⟩
  | argument :: rest, destination =>
    let w := argument.encode (destinationSize - destination.length)
    if w.count ≠ argument.getEncodedSize then ⟨destination ++ w.bytes, destination.length⟩
    else encodeArguments destinationSize rest (destination ++ w.bytes)

/-- Source: `OscMessage::encode (destination, destinationSize)`. -/
def encode (m : OscMessage) (destinationSize : Nat) : Written :=
  if m.addressPattern.length > destinationSize then ⟨[], 0⟩
  else
    match terminateOscString 4 m.addressPattern destinationSize with
    | (destination, true) => ⟨destination, destination.length⟩
    | (destination, false) =>
      if getPaddedSize (destination.length + m.arguments.length + 1 + 1) > destinationSize then
        ⟨destination, destination.length⟩
      else
        match terminateOscString 4
            (destination ++ [44] ++ m.arguments.map OscArgument.getType) destinationSize with
        | (destination, true) => ⟨destination, destination.length⟩
        | (destination, false) =>
          if destination.length + m.getEncodedArgumentsSize > destinationSize then
            ⟨destination, destination.length⟩
          else encodeArguments destinationSize m.arguments destination

/-- The loop reading the address pattern in `OscMessage::decode`.  The first
argument bounds the number of iterations (`source.length` at the call site:
every iteration reads a further byte of the memory unless `sourceIndex`
wraps).  `none`: a read outside the memory, or the bound is used up. -/
def decodeAddressPattern (source : List Nat) (sizeInBytes : Nat) :
    Nat → Nat → List Nat → Option (Step (Nat × List Nat))
  | 0, _, _ => none
  | fuel + 1, sourceIndex, addressPattern =>
    match source[sourceIndex]? with
    | none => none
    | some c =>
      if c = 0 then some (.next (sourceIndex, addressPattern))
      else if toUInt32 (sourceIndex + 1) ≥ sizeInBytes then
        some (.fail .OscErrorSourceEndsBeforeEndOfAddressPattern)
      else decodeAddressPattern source sizeInBytes fuel (toUInt32 (sourceIndex + 1))
        (addressPattern ++ [c])

/-- The loop `while (source[sourceIndex - 1] != ',')` of `OscMessage::decode`. -/
def decodeSkipToTypeTags (source : List Nat) (sizeInBytes : Nat) :
    Nat → Nat → Option (Step Nat)
  | 0, _ => none
  | fuel + 1, sourceIndex =>
    match source[toUInt32 (sourceIndex + 2 ^ 32 - 1)]? with
    | none => none
    | some c =>
      if c = 44 then some (.next sourceIndex)
      else if toUInt32 (sourceIndex + 1) ≥ sizeInBytes then
        some (.fail .OscErrorSourceEndsBeforeStartOfTypeTagString)
      else decodeSkipToTypeTags source sizeInBytes fuel (toUInt32 (sourceIndex + 1))

/-- The loop reading the type tag string in `OscMessage::decode`. -/
def decodeTypeTagString (source : List Nat) (sizeInBytes : Nat) :
    Nat → Nat → List Nat → Option (Step (Nat × List Nat))
  | 0, _, _ => none
  | fuel + 1, sourceIndex, typetagString =>
    match source[sourceIndex]? with
    | none => none
    | some c =>
      if c = 0 then some (.next (sourceIndex, typetagString))
      else if toUInt32 (sourceIndex + 1) ≥ sizeInBytes then
        some (.fail .OscErrorSourceEndsBeforeEndOfTypeTagString)
      else decodeTypeTagString source sizeInBytes fuel (toUInt32 (sourceIndex + 1))
        (typetagString ++ [c])

/-- The loop `do { if (++sourceIndex > sizeInBytes) return error (...); }
while (sourceIndex % 4 != 0);` of `OscMessage::decode`; it runs at most four
times, which is the first argument at the call site. -/
def decodeAdvanceToArguments (sizeInBytes : Nat) : Nat → Nat → Step Nat
  | 0, sourceIndex => .next sourceIndex
  | fuel + 1, sourceIndex =>
    if toUInt32 (sourceIndex + 1) > sizeInBytes then .fail .OscErrorUnexpectedEndOfSource
    else if toUInt32 (sourceIndex + 1) % 4 ≠ 0 then
      decodeAdvanceToArguments sizeInBytes fuel (toUInt32 (sourceIndex + 1))
    else .next (toUInt32 (sourceIndex + 1))

/-- The loop `for (int i = 0; source[sourceIndex + i] != '\0';) string +=
source[sourceIndex + i++];` of `OscMessage::decode` (`sourceIndex + i` is an
`unsigned int`). -/
def decodeStringValue (source : List Nat) (sourceIndex : Nat) :
    Nat → Nat → List Nat → Option (List Nat)
  | 0, _, _ => none
  | fuel + 1, i, string =>
    match source[toUInt32 (sourceIndex + i)]? with
    | none => none
    | some c =>
      if c = 0 then some string
      else decodeStringValue source sourceIndex fuel (i + 1) (string ++ [c])

/-- The body of the `switch (type)` of `OscMessage::decode` for one type tag:
the decoded argument, or the error.  `none`: a read outside the memory.  The loop
variable starts as `OscArgument.uninitialised`, that is with 0 in the two members its
constructor does not assign; `OscMessage.InPlace.decodeArgument` is the same body for any
content of those members, which matters for a type tag outside `enum TypeTag` only. -/
def decodeArgument (source : List Nat) (sizeInBytes sourceIndex type : Nat) :
    Option (Step OscArgument) :=
  let argument := OscArgument.uninitialised
  if type = Int32TypeTag ∨ type = Float32TypeTag ∨ type = CharacterTypeTag
      ∨ type = RgbaColourTypeTag ∨ type = MidiMessageTypeTag then
    if sourceIndex + 4 > sizeInBytes then some (.fail .OscErrorUnexpectedEndOfSource)
    else
      match decodeArgument32 (source.drop sourceIndex) with
      | none => none
      | some argument32 =>
        if type = Int32TypeTag then some (.next (argument.setInt32 (asInt32 argument32)))
        else if type = Float32TypeTag then some (.next (argument.setFloat32 argument32))
        else if type = CharacterTypeTag then
          match source[toUInt32 (sourceIndex + 3)]? with
          | none => none
          | some c => some (.next (argument.setCharacter c))
        else if type = RgbaColourTypeTag then
          some (.next (argument.setRgbaColour (RgbaColour.ofBits argument32)))
        else some (.next (argument.setMidiMessage (MidiMessageData.ofBits argument32)))
  else if type = StringTypeTag ∨ type = AlternateStringTypeTag then
    match stringLengthSafe (source.drop sourceIndex)
        (toSizeT (sizeInBytes + 2 ^ 64 - sourceIndex)) with
    | none => none
    | some length =>
      if length = 0 ∨ getPaddedSize (sourceIndex + length + 1) > sizeInBytes then
        some (.fail .OscErrorUnexpectedEndOfSource)
      else
        match decodeStringValue source sourceIndex source.length 0 [] with
        | none => none
        | some string =>
          if type = StringTypeTag then some (.next (argument.setString string))
          else some (.next (argument.setAlternateString string))
  else if type = BlobTypeTag then
    if sourceIndex + 4 > sizeInBytes then some (.fail .OscErrorUnexpectedEndOfSource)
    else
      match decodeArgument32 (source.drop sourceIndex) with
      | none => none
      | some argument32 =>
        let sizeCount := asInt32 argument32
        if toSizeT (sourceIndex + 4 + toSizeT (getPaddedSize (int32ToSizeT sizeCount)))
            > sizeInBytes then
          some (.fail .OscErrorUnexpectedEndOfSource)
        else
          match argument.setBlob (source.drop (sourceIndex + 4)) (int32ToSizeT sizeCount) with
          | none => none
          | some argument => some (.next argument)
  else if type = Int64TypeTag ∨ type = Float64TypeTag ∨ type = TimeTagTypeTag then
    if sourceIndex + 8 > sizeInBytes then some (.fail .OscErrorUnexpectedEndOfSource)
    else
      match decodeArgument64 (source.drop sourceIndex) with
      | none => none
      | some argument64 =>
        if type = Int64TypeTag then some (.next (argument.setInt64 (asInt64 argument64)))
        else if type = Float64TypeTag then some (.next (argument.setFloat64 argument64))
        else some (.next (argument.setTimeTag argument64))
  else if type = TrueTypeTag then some (.next (argument.setBool true))
  else if type = FalseTypeTag then some (.next (argument.setBool false))
  else if type = NilTypeTag then some (.next argument.setNil)
  else if type = InfinitumTypeTag then some (.next argument.setInfinitum)
  else if type = BeginArrayTypeTag then some (.next argument.setBeginArray)
  else if type = EndArrayTypeTag then some (.next argument.setEndArray)
  else some (.next argument)

/-- The loop `for (auto type : typetagString)` of `OscMessage::decode`: the type
tags still to handle, `sourceIndex`, and the arguments appended so far; the
result is the final argument list. -/
def decodeArguments (source : List Nat) (sizeInBytes : Nat) :
    List Nat → Nat → List OscArgument → Option (Step (List OscArgument))
  | [], _, arguments => some (.next arguments)
  | type :: rest, sourceIndex, arguments =>
    match decodeArgument source sizeInBytes sourceIndex type with
    | none => none
    | some (.fail e) => some (.fail e)
    | some (.next argument) =>
      decodeArguments source sizeInBytes rest
        (toUInt32 (sourceIndex + argument.getEncodedSize)) (arguments ++ [argument])

/-- Source: `OscMessage::decode (source, sizeInBytes)`: the message afterwards and the
returned error code.  `source` is the memory from the pointer on.  `none`: the
call has no defined result (a read outside the memory, or no return).  The address
pattern and the arguments read so far are carried by the loops and stored in the message
at the end; `OscMessage.InPlace.decode` stores them in the message as they are read, as
the C++ does, and gives the same result (`OscMessage.inPlace_decode_eq`). -/
def decode (m : OscMessage) (source : List Nat) (sizeInBytes : Nat) :
    Option (OscMessage × OscError) :=
  if sizeInBytes = 0 then some (m, .OscErrorMessageToShort)
  else if sizeInBytes % 4 ≠ 0 then some (m, .OscErrorSizeIsNotMultipleOfFour)
  else if sizeInBytes < MinOscMessageSize then some (m, .OscErrorMessageSizeTooSmall)
  else
    match source[0]? with
    | none => none
    | some c0 =>
      if c0 ≠ 47 then some (m, .OscErrorNoSlashAtStartOfMessage)
      else
        match stringLengthSafe source sizeInBytes with
        | none => none
        | some addressLength =>
          if addressLength > sizeInBytes then some (m, .OscErrorAddressPatternUnterminated)
          else
            match decodeAddressPattern source sizeInBytes source.length 0 m.addressPattern with
            | none => none
            | some (.fail e) => some (m.error e)
            | some (.next (sourceIndex, addressPattern)) =>
              match decodeSkipToTypeTags source sizeInBytes source.length sourceIndex with
              | none => none
              | some (.fail e) => some (m.error e)
              | some (.next sourceIndex) =>
                match stringLengthSafe (source.drop sourceIndex)
                    (toSizeT (sizeInBytes + 2 ^ 64 - sourceIndex)) with
                | none => none
                | some _ =>
                  match decodeTypeTagString source sizeInBytes source.length sourceIndex [] with
                  | none => none
                  | some (.fail e) => some (m.error e)
                  | some (.next (sourceIndex, typetagString)) =>
                    match decodeAdvanceToArguments sizeInBytes 4 sourceIndex with
                    | .fail e => some (m.error e)
                    | .next sourceIndex =>
                      match decodeArguments source sizeInBytes typetagString sourceIndex
                          m.arguments with
                      | none => none
                      | some (.fail e) => some (m.error e)
                      | some (.next arguments) =>
                        some ({ m with addressPattern := addressPattern,
                                       arguments := arguments }, .OscErrorNone)

/-- Source: `OscMessage::createFromEncodedData (source, sizeInBytes)`. -/
def createFromEncodedData (source : List Nat) (sizeInBytes : Nat) : Option OscMessage :=
  (new.decode source sizeInBytes).map (·.1)

end OscMessage

/-! ## OscBundle.h / OscBundle.cpp, OscContent.h -/

mutual
/-- The members of `class OscBundle`: `timeTag` (inherited from `OscContent`),
`header` and `elements`. -/
inductive OscBundle where
  | mk (timeTag : Nat) (header : List Nat) (elements : List OscContent)
/-- An object behind a `std::unique_ptr<OscContent>`: an `OscMessage` or an
`OscBundle`. -/
inductive OscContent where
  | message (m : OscMessage)
  | bundle (b : OscBundle)
end

namespace OscContent

/-- Source: `OscContent::isMessage`. -/
def isMessage : OscContent → Bool
  | .message _ => true
  | .bundle _ => false

/-- Source: `OscContent::isBundle`. -/
def isBundle : OscContent → Bool
  | .message _ => false
  | .bundle _ => true

/-- Source: `OscContent::encodedContentIsMessage (content)`: `*content == '/'`. -/
def encodedContentIsMessage (content : List Nat) : Option Bool :=
  content[0]?.map (· == 47)

/-- Source: `OscContent::encodedContentIsBundle (content)`: `*content == '#'`. -/
def encodedContentIsBundle (content : List Nat) : Option Bool :=
  content[0]?.map (· == 35)

end OscContent

namespace OscBundle

/-- Source: `OscBundle::BundleHeader = "#bundle"`. -/
def BundleHeader : List Nat := [35, 98, 117, 110, 100, 108, 101]

/-- Source: `OscBundle::MinimumBundleSize = BundleHeader.length() + sizeof ('\0') +
sizeof (OscArgument64)`. -/
def MinimumBundleSize : Nat := BundleHeader.length + 1 + 8

/-- Source: `OscBundle::OscBundle()`. -/
def new : OscBundle := .mk 0 BundleHeader []

/-- Source: `OscBundle::OscBundle (OscTimeTag t)`. -/
def withTimeTag (t : Nat) : OscBundle := .mk t BundleHeader []

/-- Source: `OscContent::getTimeTag` on a bundle. -/
def getTimeTag : OscBundle → Nat
  | .mk timeTag _ _ => timeTag

/-- The member `header`. -/
def header : OscBundle → List Nat
  | .mk _ header _ => header

/-- The member `elements`. -/
def elements : OscBundle → List OscContent
  | .mk _ _ elements => elements

/-- Source: `OscContent::setTimeTag` on a bundle. -/
def setTimeTag : OscBundle → Nat → OscBundle
  | .mk _ header elements, newTimeTag => .mk newTimeTag header elements

/-- Source: `OscBundle::size`. -/
def size (b : OscBundle) : Nat := b.elements.length

/-- Source: `OscBundle::isEmpty`. -/
def isEmpty (b : OscBundle) : Bool := b.elements.length == 0

/-- Source: `OscBundle::isValid`. -/
def isValid (b : OscBundle) : Bool := !b.header.isEmpty && b.header.getD 0 0 == 35

/-- Source: `OscBundle::error`: the elements are cleared and `header[0]` is set to NUL. -/
def error (b : OscBundle) (e : OscError) : OscBundle × OscError :=
  (.mk b.getTimeTag (b.header.set 0 0) [], e)

/-- Source: `OscBundle::addMessage`. -/
def addMessage (b : OscBundle) (messageToAdd : OscMessage) : OscBundle :=
  if messageToAdd.isValid then .mk b.getTimeTag b.header (b.elements ++ [.message messageToAdd])
  else b

/-- Source: `OscBundle::addBundle`. -/
def addBundle (b : OscBundle) (bundleToAdd : OscBundle) : OscBundle :=
  if bundleToAdd.isValid then .mk b.getTimeTag b.header (b.elements ++ [.bundle bundleToAdd])
  else b

end OscBundle

mutual
/-- Source: `OscBundle::getEncodedSize`. -/
def OscBundle.getEncodedSize : OscBundle → Nat
  | .mk _ header elements => header.length + 1 + 8 + OscBundle.getEncodedElementsSize elements
/-- The virtual `OscContent::getEncodedSize`. -/
def OscContent.getEncodedSize : OscContent → Nat
  | .message m => m.getEncodedSize
  | .bundle b => b.getEncodedSize
/-- Source: `OscBundle::getEncodedElementsSize` (as a function of `elements`). -/
def OscBundle.getEncodedElementsSize : List OscContent → Nat
  | [] => 0
  | c :: rest => 4 + c.getEncodedSize + OscBundle.getEncodedElementsSize rest
end

mutual
/-- Source: `OscBundle::encode (destination, destinationSize)`. -/
def OscBundle.encode : OscBundle → Nat → Written
  | .mk timeTag header elements, destinationSize =>
    if header.length > destinationSize then ⟨[], 0⟩
    else
      match terminateOscString 4 header destinationSize with
      | (destination, true) => ⟨destination, destination.length⟩
      | (destination, false) =>
        if destination.length + 8 > destinationSize then ⟨destination, destination.length⟩
        else
          OscBundle.encodeElements destinationSize elements
            (destination ++ encodeArgument64 timeTag)
/-- The virtual `OscContent::encode`. -/
def OscContent.encode : OscContent → Nat → Written
  | .message m, destinationSize => m.encode destinationSize
  | .bundle b, destinationSize => b.encode destinationSize
/-- The loop `for (auto& p : elements)` of `OscBundle::encode`: the elements
still to encode and the bytes stored so far (`destinationIndex` is their
number). -/
def OscBundle.encodeElements (destinationSize : Nat) : List OscContent → List Nat → Written
  | [], destination => ⟨destination, destination.length⟩
  | p :: rest, destination =>
    if destination.length + 4 > destinationSize then ⟨destination, destination.length⟩
    else
      OscBundle.encodeElements destinationSize rest
        (destination ++ encodeArgument32 p.getEncodedSize
          ++ (p.encode (destinationSize - (destination.length + 4))).bytes)
end

mutual
/-- Source: `OscBundle::operator!=`. -/
def OscBundle.ne : OscBundle → OscBundle → Bool
  | .mk timeTag _ elements, other =>
    if timeTag ≠ other.getTimeTag then true
    else if elements.length ≠ other.size then true
    else OscBundle.elementsDiffer elements other.elements
/-- The loop over the elements shared by `OscBundle::operator==` and
`operator!=` (both vectors have the same length there): is there an index at
which the content types differ or the elements are `!=`. -/
def OscBundle.elementsDiffer : List OscContent → List OscContent → Bool
  | .message c :: rest, .message cother :: restOther =>
    if c.ne cother then true else OscBundle.elementsDiffer rest restOther
  | .bundle c :: rest, .bundle cother :: restOther =>
    if c.ne cother then true else OscBundle.elementsDiffer rest restOther
  | .message _ :: _, .bundle _ :: _ => true
  | .bundle _ :: _, .message _ :: _ => true
  | _, _ => false
end

/-- Source: `OscBundle::operator==`. -/
def OscBundle.eq (b other : OscBundle) : Bool :=
  if b.getTimeTag ≠ other.getTimeTag then false
  else if b.size ≠ other.size then false
  else if OscBundle.elementsDiffer b.elements other.elements then false
  else true

/-- Source: `OscContent::isValid` (virtual). -/
def OscContent.isValid : OscContent → Bool
  | .message m => m.isValid
  | .bundle b => b.isValid

/-- Source: `OscContent::setTimeTag`. -/
def OscContent.setTimeTag : OscContent → Nat → OscContent
  | .message m, newTimeTag => .message { m with timeTag := newTimeTag }
  | .bundle b, newTimeTag => .bundle (b.setTimeTag newTimeTag)

/-- The text of the NUL-terminated string at a `const char*`.  `none`: no NUL
in the memory. -/
def cString : List Nat → Option (List Nat)
  | [] => none
  | c :: rest => if c = 0 then some [] else (cString rest).map (c :: ·)

mutual
/-- Source: `OscBundle::decode (source, sizeInBytes)`: the bundle afterwards and the
returned error code.  `source` is the memory from the pointer on.  The first
argument bounds the nesting of calls and loop iterations together
(`source.length` in `createFromEncodedData`).  `none`: the call has no defined
result (a read outside the memory, or no return within the bound). -/
def OscBundle.decode : Nat → OscBundle → List Nat → Nat → Option (OscBundle × OscError)
  | 0, _, _, _ => none
  | fuel + 1, b, source, sizeInBytes =>
    if sizeInBytes % 4 ≠ 0 then some (b.error .OscErrorSizeIsNotMultipleOfFour)
    else if sizeInBytes < OscBundle.MinimumBundleSize then
      some (b.error .OscErrorBundleSizeTooSmall)
    else
      match source[0]? with
      | none => none
      | some c0 =>
        if c0 ≠ 35 then some (b.error .OscErrorNoHashAtStartOfBundle)
        else
          match cString source with
          | none => none
          | some text =>
            if b.header ≠ text then some (b.error .OscErrorMalformedBundleHeader)
            else
              match decodeArgument64 (source.drop (b.header.length + 1)) with
              | none => none
              | some timeTag =>
                OscBundle.decodeElements fuel (b.setTimeTag timeTag) source sizeInBytes
                  (b.header.length + 1 + 8)
/-- The loop `while (sourceIndex < sizeInBytes)` of `OscBundle::decode`. -/
def OscBundle.decodeElements :
    Nat → OscBundle → List Nat → Nat → Nat → Option (OscBundle × OscError)
  | 0, _, _, _, _ => none
  | fuel + 1, b, source, sizeInBytes, sourceIndex =>
    if ¬ sourceIndex < sizeInBytes then some (b, .OscErrorNone)
    else if toSizeT (sourceIndex + 4) > sizeInBytes then
      some (b.error .OscErrorSourceEndsBeforeBundleElementSize)
    else
      match decodeArgument32 (source.drop sourceIndex) with
      | none => none
      | some elementSize =>
        let sourceIndex := toSizeT (sourceIndex + 4)
        if toSizeT (sourceIndex + int32ToSizeT (asInt32 elementSize)) > sizeInBytes then
          some (b.error .OscErrorUnexpectedEndOfSource)
        else
          match OscContent.encodedContentIsMessage (source.drop sourceIndex),
              OscContent.encodedContentIsBundle (source.drop sourceIndex) with
          | some true, _ =>
            match OscMessage.createFromEncodedData (source.drop sourceIndex)
                (int32ToSizeT (asInt32 elementSize)) with
            | none => none
            | some p =>
              if ¬ p.isValid then some (b.error .OscErrorMalformedElement)
              else
                OscBundle.decodeElements fuel
                  (.mk b.getTimeTag b.header
                    (b.elements ++ [.message { p with timeTag := b.getTimeTag }]))
                  source sizeInBytes
                  (toSizeT (sourceIndex + int32ToSizeT (asInt32 elementSize)))
          | some false, some true =>
            match OscBundle.decode fuel OscBundle.new (source.drop sourceIndex)
                (int32ToSizeT (asInt32 elementSize)) with
            | none => none
            | some (p, _) =>
              if ¬ p.isValid then some (b.error .OscErrorMalformedElement)
              else
                OscBundle.decodeElements fuel
                  (.mk b.getTimeTag b.header
                    (b.elements ++ [.bundle (p.setTimeTag b.getTimeTag)]))
                  source sizeInBytes
                  (toSizeT (sourceIndex + int32ToSizeT (asInt32 elementSize)))
          | some false, some false => some (b.error .OscErrorMalformedElement)
          | _, _ => none
end

/-- Source: `OscBundle::createFromEncodedData (source, sizeInBytes)`. -/
def OscBundle.createFromEncodedData (source : List Nat) (sizeInBytes : Nat) :
    Option OscBundle :=
  (OscBundle.decode (source.length + 1) OscBundle.new source sizeInBytes).map (·.1)

/-! ## Helpers for stating concrete inputs -/

/-- The bytes of an ASCII text. -/
def ascii (s : String) : List Nat := s.toList.map Char.toNat

/-! ## Canonical encodings and the portable fragment -/

/-- The bytes `slipEncode` stores for one source byte. -/
def slipEscape (c : Nat) : List Nat :=
  if c = SlipEnd then [SlipEsc, SlipEscEnd]
  else if c = SlipEsc then [SlipEsc, SlipEscEsc]
  else [c]

/-- The bytes an argument contributes to a message: what `encode` stores when the
destination is large enough. -/
def OscArgument.payload (a : OscArgument) : List Nat := (a.encode a.getEncodedSize).bytes

/-- The canonical encoding of a message. -/
def OscMessage.wire (m : OscMessage) : List Nat :=
  m.addressPattern
    ++ List.replicate (getPaddedSize (m.addressPattern.length + 1) - m.addressPattern.length) 0
    ++ [44] ++ m.arguments.map OscArgument.getType
    ++ List.replicate (getPaddedSize (m.arguments.length + 2) - (m.arguments.length + 1)) 0
    ++ (m.arguments.map OscArgument.payload).flatten

/-- The arguments that a decoder reads back unchanged from their payload: the type tag is
one of the seventeen of `enum TypeTag`, a `float` or `double` is not a NaN (a NaN is
`!=` to itself), a string is not empty and holds no NUL, and the size of a blob fits the
signed 32-bit size on the wire. -/
def OscArgument.Portable (a : OscArgument) : Prop :=
  a.typeTag = Int32TypeTag ∨ a.typeTag = CharacterTypeTag ∨ a.typeTag = RgbaColourTypeTag
  ∨ a.typeTag = MidiMessageTypeTag ∨ a.typeTag = Int64TypeTag ∨ a.typeTag = TimeTagTypeTag
  ∨ a.typeTag = TrueTypeTag ∨ a.typeTag = FalseTypeTag ∨ a.typeTag = NilTypeTag
  ∨ a.typeTag = InfinitumTypeTag ∨ a.typeTag = BeginArrayTypeTag
  ∨ a.typeTag = EndArrayTypeTag
  ∨ (a.typeTag = Float32TypeTag ∧ float32IsNaN a.getFloat32 = false)
  ∨ (a.typeTag = Float64TypeTag ∧ float64IsNaN a.getFloat64 = false)
  ∨ ((a.typeTag = StringTypeTag ∨ a.typeTag = AlternateStringTypeTag)
      ∧ a.stringValue ≠ [] ∧ ∀ c ∈ a.stringValue, c ≠ 0)
  ∨ (a.typeTag = BlobTypeTag ∧ a.blobValue.length < 2 ^ 31)

instance (a : OscArgument) : Decidable a.Portable := by
  unfold OscArgument.Portable; infer_instance

/-- The messages that `decode` reads back from `encode`: the address pattern starts with
'/', holds no NUL and does not end with ','; every argument is portable. -/
def OscMessage.Portable (m : OscMessage) : Prop :=
  m.addressPattern.head? = some 47 ∧ (∀ c ∈ m.addressPattern, c ≠ 0)
  ∧ m.addressPattern.getLast? ≠ some 44 ∧ ∀ a ∈ m.arguments, a.Portable

instance (m : OscMessage) : Decidable m.Portable := by
  unfold OscMessage.Portable; infer_instance

mutual
/-- The canonical encoding of a bundle. -/
def OscBundle.wire : OscBundle → List Nat
  | .mk timeTag header elements =>
    header ++ [0] ++ encodeArgument64 timeTag ++ OscBundle.wireElements elements
/-- The canonical encoding of a message or bundle. -/
def OscContent.wire : OscContent → List Nat
  | .message m => m.wire
  | .bundle b => b.wire
/-- The canonical encoding of the elements of a bundle: each is preceded by its size as
four bytes, most significant first. -/
def OscBundle.wireElements : List OscContent → List Nat
  | [] => []
  | c :: rest => encodeArgument32 c.getEncodedSize ++ c.wire ++ OscBundle.wireElements rest
end

mutual
/-- The invariant of the member `header`: it is `BundleHeader`, or `BundleHeader` with its
first byte set to NUL by `error`; the same holds in every nested bundle. -/
def OscBundle.headerInv : OscBundle → Bool
  | .mk _ header elements =>
    (header == OscBundle.BundleHeader || header == OscBundle.BundleHeader.set 0 0)
      && OscBundle.elementsHeaderInv elements
/-- The header invariant in every element of a list. -/
def OscBundle.elementsHeaderInv : List OscContent → Bool
  | [] => true
  | .message _ :: rest => OscBundle.elementsHeaderInv rest
  | .bundle b :: rest => b.headerInv && OscBundle.elementsHeaderInv rest
end

/-- The header invariant of a message or bundle. -/
def OscContent.headerInv : OscContent → Bool
  | .message _ => true
  | .bundle b => b.headerInv

mutual
/-- The bundles that `decode` reads back from `encode`: the header is `BundleHeader`, the
time tag is a 64-bit value, every contained message is portable, and every contained
bundle is portable and carries the time tag of the bundle that contains it. -/
def OscBundle.portable : OscBundle → Bool
  | .mk timeTag header elements =>
    header == OscBundle.BundleHeader && decide (timeTag < 2 ^ 64)
      && OscBundle.elementsPortable timeTag elements
/-- Portability of the elements of a bundle whose time tag is `timeTag`. -/
def OscBundle.elementsPortable (timeTag : Nat) : List OscContent → Bool
  | [] => true
  | .message m :: rest => decide m.Portable && OscBundle.elementsPortable timeTag rest
  | .bundle b :: rest =>
    b.getTimeTag == timeTag && b.portable && OscBundle.elementsPortable timeTag rest
end

/-! ## Time tags in a decoded bundle -/

/-- Source: `OscContent::getTimeTag`. -/
def OscContent.getTimeTag : OscContent → Nat
  | .message m => m.timeTag
  | .bundle b => b.getTimeTag

/-- The time tag of the first element of a list (0 for the empty list). -/
def OscBundle.firstTimeTag : List OscContent → Nat
  | [] => 0
  | c :: _ => c.getTimeTag

mutual
/-- Every element of the bundle, at every nesting depth, has the time tag of the bundle
that directly contains it. -/
def OscBundle.timeTagsInherited : OscBundle → Bool
  | .mk timeTag _ elements => OscBundle.elementsInherit timeTag elements
/-- Every element of the list has the time tag `timeTag`, and every bundle among them has
its time tag inherited at every depth. -/
def OscBundle.elementsInherit (timeTag : Nat) : List OscContent → Bool
  | [] => true
  | .message m :: rest => m.timeTag == timeTag && OscBundle.elementsInherit timeTag rest
  | .bundle b :: rest =>
    b.getTimeTag == timeTag && b.timeTagsInherited && OscBundle.elementsInherit timeTag rest
end

mutual
/-- In the bundle and in every bundle nested in it, the elements of one bundle all have the
same time tag (which need not be the time tag of that bundle). -/
def OscBundle.timeTagsShared : OscBundle → Bool
  | .mk _ _ elements => OscBundle.elementsShare (OscBundle.firstTimeTag elements) elements
/-- Every element of the list has the time tag `timeTag`, and in every bundle among them
the elements of one bundle share their time tag, at every depth. -/
def OscBundle.elementsShare (timeTag : Nat) : List OscContent → Bool
  | [] => true
  | .message m :: rest => m.timeTag == timeTag && OscBundle.elementsShare timeTag rest
  | .bundle b :: rest =>
    b.getTimeTag == timeTag && b.timeTagsShared && OscBundle.elementsShare timeTag rest
end

/-- What `OscBundle::decode` leaves behind, as a relation between the bundle and the
returned code: after an error the bundle has no element and is not valid; after
`OscErrorNone` the header is untouched and every element has the time tag of the bundle,
the elements of each nested bundle sharing one time tag. -/
def OscBundle.DecodeOutcome (p : OscBundle) (e : OscError) : Prop :=
  (e ≠ .OscErrorNone → p.size = 0 ∧ p.isValid = false)
  ∧ (e = .OscErrorNone →
      p.header = OscBundle.BundleHeader ∧ OscBundle.elementsShare p.getTimeTag p.elements = true)

/-! ## OscBundle::addContent -/

/-- Source: `OscContent::getAsMessage`: `assert (isMessage())`, then the object behind
`dynamic_cast<OscMessage*> (this)`.  `none`: the object is not a message (the assertion
fails; without assertions a null pointer is dereferenced). -/
def OscContent.getAsMessage : OscContent → Option OscMessage
  | .message m => some m
  | .bundle _ => none

/-- Source: `OscContent::getAsBundle`: `assert (isBundle())`, then the object behind
`dynamic_cast<OscBundle*> (this)`.  `none`: the object is not a bundle. -/
def OscContent.getAsBundle : OscContent → Option OscBundle
  | .message _ => none
  | .bundle b => some b

/-- Source: `OscBundle::addContent (contentToAdd)`.  The calls `getAsMessage()` and
`getAsBundle()` in its body have no object in front of them: they are made on `this`, the
bundle that receives the content.  `none`: the call has no defined result. -/
def OscBundle.addContent (b : OscBundle) (contentToAdd : OscContent) : Option OscBundle :=
  if contentToAdd.isMessage then (OscContent.bundle b).getAsMessage.map b.addMessage
  else if contentToAdd.isBundle then (OscContent.bundle b).getAsBundle.map b.addBundle
  else some b

/-! ## Payload of an argument -/

/-- The payload that an argument carries for its type tag, in the words of the
specification: the 32-bit value for 'i', 'r' and 'm', the 64-bit value for 'h' and 't', the
character for 'c', the text for 's' and 'S', the bytes for 'b'; a marker tag ('T', 'F', 'N',
'I', '[', ']') carries nothing. -/
def OscArgument.carried (a : OscArgument) : List Nat :=
  if a.typeTag = Int32TypeTag ∨ a.typeTag = RgbaColourTypeTag
      ∨ a.typeTag = MidiMessageTypeTag then [a.value % 2 ^ 32]
  else if a.typeTag = Int64TypeTag ∨ a.typeTag = TimeTagTypeTag then [a.value % 2 ^ 64]
  else if a.typeTag = CharacterTypeTag then [a.value % 256]
  else if a.typeTag = StringTypeTag ∨ a.typeTag = AlternateStringTypeTag then a.stringValue
  else if a.typeTag = BlobTypeTag then a.blobValue
  else []

/-- The type tags of `enum TypeTag` other than 'f' and 'd'. -/
def OscArgument.RecognisedNonFloat (a : OscArgument) : Prop :=
  a.typeTag = Int32TypeTag ∨ a.typeTag = StringTypeTag ∨ a.typeTag = BlobTypeTag
  ∨ a.typeTag = Int64TypeTag ∨ a.typeTag = TimeTagTypeTag
  ∨ a.typeTag = AlternateStringTypeTag ∨ a.typeTag = CharacterTypeTag
  ∨ a.typeTag = RgbaColourTypeTag ∨ a.typeTag = MidiMessageTypeTag
  ∨ a.typeTag = TrueTypeTag ∨ a.typeTag = FalseTypeTag ∨ a.typeTag = NilTypeTag
  ∨ a.typeTag = InfinitumTypeTag ∨ a.typeTag = BeginArrayTypeTag
  ∨ a.typeTag = EndArrayTypeTag

instance (a : OscArgument) : Decidable a.RecognisedNonFloat := by
  unfold OscArgument.RecognisedNonFloat; infer_instance

/-! ## OscContent.cpp : sizes of SLIP frames -/

/-- The `for` loop of `OscContent::getSlipEncodedSize`: the part of the source still to
visit and `slipEncodedSize` so far. -/
def getSlipEncodedSizeLoop : List Nat → Nat → Nat
  | [], slipEncodedSize => slipEncodedSize
  | c :: rest, slipEncodedSize =>
    if c = SlipEnd ∨ c = SlipEsc then getSlipEncodedSizeLoop rest (slipEncodedSize + 2)
    else getSlipEncodedSizeLoop rest (slipEncodedSize + 1)

/-- Source: `OscContent::getSlipEncodedSize (oscEncodedSource, sourceSizeInBytes)` with
`sourceSizeInBytes = oscEncodedSource.length`. -/
def getSlipEncodedSize (oscEncodedSource : List Nat) : Nat :=
  getSlipEncodedSizeLoop oscEncodedSource 0 + 1

/-- The `while` loop of `OscContent::getSlipDecodedSize`: the part of the source from
`sourceIndex` on and `oscEncodedIndex` so far.  `none`: the byte after an ESC is read
outside the buffer. -/
def getSlipDecodedSizeLoop : List Nat → Nat → Option Nat
  | [], oscEncodedIndex => some oscEncodedIndex
  | c :: rest, oscEncodedIndex =>
    if c = SlipEnd then some oscEncodedIndex
    else if c = SlipEsc then
      match rest with
      | [] => none
      | e :: rest2 =>
        if e = SlipEscEnd ∨ e = SlipEscEsc then getSlipDecodedSizeLoop rest2 (oscEncodedIndex + 1)
        else some 0
    else getSlipDecodedSizeLoop rest (oscEncodedIndex + 1)

/-- Source: `OscContent::getSlipDecodedSize (slipEncodedSource, sourceSize)` with
`sourceSize = slipEncodedSource.length`.  `none`: a read outside the source buffer
(`slipEncodedSource[sourceSize - 1]` when `sourceSize` is 0). -/
def getSlipDecodedSize (slipEncodedSource : List Nat) : Option Nat :=
  match slipEncodedSource.getLast? with
  | none => none
  | some l =>
    if l ≠ SlipEnd then some 0
    else getSlipDecodedSizeLoop slipEncodedSource 0

/-! ## OscArgument.h : union OscTimeTag -/

/-- The four bytes of a `uint32_t` in memory order on the little-endian layout. -/
def uint32Bytes (x : Nat) : List Nat :=
  [x % 256, x / 2 ^ 8 % 256, x / 2 ^ 16 % 256, x / 2 ^ 24 % 256]

/-- The unsigned number whose bytes in memory order (least significant first) are
given. -/
def ofLittleEndianBytes : List Nat → Nat
  | [] => 0
  | b :: rest => b + 256 * ofLittleEndianBytes rest

/-- Source: `OscTimeTag (uint32_t seconds, uint32_t fraction)`: the constructor stores
`dwordStruct.seconds` and `dwordStruct.fraction`, where the struct is
`{ uint32_t fraction; uint32_t seconds; }`: `fraction` lies in bytes 0 to 3 of the union and
`seconds` in bytes 4 to 7.  The result is the member `value` (a `uint64_t` over the same
eight bytes). -/
def OscTimeTag.ofSecondsFraction (seconds fraction : Nat) : Nat :=
  ofLittleEndianBytes (uint32Bytes fraction ++ uint32Bytes seconds)

/-! ## Type tags of `enum TypeTag` -/

/-- The character is one of the seventeen type tags of `enum TypeTag`. -/
def TypeTag.Recognised (t : Nat) : Prop :=
  t = Int32TypeTag ∨ t = Float32TypeTag ∨ t = StringTypeTag ∨ t = BlobTypeTag
  ∨ t = Int64TypeTag ∨ t = Float64TypeTag ∨ t = TimeTagTypeTag ∨ t = AlternateStringTypeTag
  ∨ t = CharacterTypeTag ∨ t = RgbaColourTypeTag ∨ t = MidiMessageTypeTag
  ∨ t = TrueTypeTag ∨ t = FalseTypeTag ∨ t = NilTypeTag ∨ t = InfinitumTypeTag
  ∨ t = BeginArrayTypeTag ∨ t = EndArrayTypeTag

instance (t : Nat) : Decidable (TypeTag.Recognised t) := by
  unfold TypeTag.Recognised; infer_instance

/-- Source: `OscArgument::getEncodedSize` with its assertion: `none` when the `default:`
branch (`assert (false)`, "this should never happen") is reached. -/
def OscArgument.getEncodedSizeAsserted (a : OscArgument) : Option Nat :=
  if a.typeTag = Int32TypeTag ∨ a.typeTag = Float32TypeTag ∨ a.typeTag = CharacterTypeTag
      ∨ a.typeTag = RgbaColourTypeTag ∨ a.typeTag = MidiMessageTypeTag then some 4
  else if a.typeTag = StringTypeTag ∨ a.typeTag = AlternateStringTypeTag then
    some (getPaddedSize (a.stringValue.length + 1))
  else if a.typeTag = BlobTypeTag then some (4 + getPaddedSize a.blobValue.length)
  else if a.typeTag = Int64TypeTag ∨ a.typeTag = Float64TypeTag
      ∨ a.typeTag = TimeTagTypeTag then some 8
  else if a.typeTag = TrueTypeTag ∨ a.typeTag = FalseTypeTag ∨ a.typeTag = NilTypeTag
      ∨ a.typeTag = InfinitumTypeTag ∨ a.typeTag = BeginArrayTypeTag
      ∨ a.typeTag = EndArrayTypeTag then some 0
  else none

/-! ## Calls on an OscMessage -/

/-- The public calls that change an `OscMessage`: `setAddressPattern`,
`appendAddressPattern` (with the text of the NUL-terminated string), the `add...` functions
(each appends one argument by `push_back`) and `clear`. -/
inductive OscMessage.Call where
  | setAddressPattern (text : List Nat)
  | appendAddressPattern (text : List Nat)
  | add (argument : OscArgument)
  | clear

/-- The message after one call. -/
def OscMessage.call (m : OscMessage) : OscMessage.Call → OscMessage
  | .setAddressPattern text => (m.setAddressPattern text).1
  | .appendAddressPattern text => (m.appendAddressPattern text).1
  | .add argument => { m with arguments := m.arguments ++ [argument] }
  | .clear => m.clear

/-- The message after a sequence of calls. -/
def OscMessage.calls (m : OscMessage) (cs : List OscMessage.Call) : OscMessage :=
  cs.foldl OscMessage.call m

/-- The address pattern of the message is empty or begins with '/'. -/
def OscMessage.AddressEmptyOrSlash (m : OscMessage) : Prop :=
  m.getAddressPattern = [] ∨ m.getAddressPattern.head? = some 47

instance (m : OscMessage) : Decidable m.AddressEmptyOrSlash := by
  unfold OscMessage.AddressEmptyOrSlash; infer_instance

/-! ## OscMessage::decode on the members of the message -/

/-- Source: `OscArgument::OscArgument()`: the constructor assigns neither `typeTag` nor
`value`, so a default-constructed argument holds in them whatever the memory held; the
string and the blob are empty.  The two indeterminate members are the parameters. -/
def OscArgument.defaultConstructed (typeTag value : Nat) : OscArgument :=
  ⟨typeTag, [], [], value⟩

namespace OscMessage
namespace InPlace

/-- How a part of `OscMessage::decode` ends: `decode` goes on with a value, or it returns
there, with the message as the `return` statement leaves it and the returned code. -/
inductive Flow (α : Type) where
  | next (a : α)
  | returned (r : OscMessage × OscError)
deriving DecidableEq

/-- The loop reading the address pattern in `OscMessage::decode`, on the message itself:
every character is appended to the member `addressPattern` when it is read, and the loop
leaves through `return error (...)` with what `error` makes of the message.  The first
argument bounds the number of iterations.  `none`: a read outside the memory, or the bound is
used up. -/
def decodeAddressPattern (source : List Nat) (sizeInBytes : Nat) :
    Nat → Nat → OscMessage → Option (Flow (Nat × OscMessage))
  | 0, _, _ => none
  | fuel + 1, sourceIndex, m =>
    match source[sourceIndex]? with
    | none => none
    | some c =>
      if c = 0 then some (.next (sourceIndex, m))
      else
        let m := { m with addressPattern := m.addressPattern ++ [c] }
        if toUInt32 (sourceIndex + 1) ≥ sizeInBytes then
          some (.returned (m.error .OscErrorSourceEndsBeforeEndOfAddressPattern))
        else decodeAddressPattern source sizeInBytes fuel (toUInt32 (sourceIndex + 1)) m

/-- The body of the `switch (type)` of `OscMessage::decode` for one type tag.  The first
argument is the loop variable `OscArgument argument;` as its constructor left it; a setter is
called on it for each of the seventeen type tags, and none in the `default:` branch, which
only prints a text.  The result is the argument that is pushed, or the error.  `none`: a
read outside the memory. -/
def decodeArgument (argument : OscArgument) (source : List Nat)
    (sizeInBytes sourceIndex type : Nat) : Option (Step OscArgument) :=
  if type = Int32TypeTag ∨ type = Float32TypeTag ∨ type = CharacterTypeTag
      ∨ type = RgbaColourTypeTag ∨ type = MidiMessageTypeTag then
    if sourceIndex + 4 > sizeInBytes then some (.fail .OscErrorUnexpectedEndOfSource)
    else
      match decodeArgument32 (source.drop sourceIndex) with
      | none => none
      | some argument32 =>
        if type = Int32TypeTag then some (.next (argument.setInt32 (asInt32 argument32)))
        else if type = Float32TypeTag then some (.next (argument.setFloat32 argument32))
        else if type = CharacterTypeTag then
          match source[toUInt32 (sourceIndex + 3)]? with
          | none => none
          | some c => some (.next (argument.setCharacter c))
        else if type = RgbaColourTypeTag then
          some (.next (argument.setRgbaColour (RgbaColour.ofBits argument32)))
        else some (.next (argument.setMidiMessage (MidiMessageData.ofBits argument32)))
  else if type = StringTypeTag ∨ type = AlternateStringTypeTag then
    match stringLengthSafe (source.drop sourceIndex)
        (toSizeT (sizeInBytes + 2 ^ 64 - sourceIndex)) with
    | none => none
    | some length =>
      if length = 0 ∨ getPaddedSize (sourceIndex + length + 1) > sizeInBytes then
        some (.fail .OscErrorUnexpectedEndOfSource)
      else
        match decodeStringValue source sourceIndex source.length 0 [] with
        | none => none
        | some string =>
          if type = StringTypeTag then some (.next (argument.setString string))
          else some (.next (argument.setAlternateString string))
  else if type = BlobTypeTag then
    if sourceIndex + 4 > sizeInBytes then some (.fail .OscErrorUnexpectedEndOfSource)
    else
      match decodeArgument32 (source.drop sourceIndex) with
      | none => none
      | some argument32 =>
        let sizeCount := asInt32 argument32
        if toSizeT (sourceIndex + 4 + toSizeT (getPaddedSize (int32ToSizeT sizeCount)))
            > sizeInBytes then
          some (.fail .OscErrorUnexpectedEndOfSource)
        else
          match argument.setBlob (source.drop (sourceIndex + 4)) (int32ToSizeT sizeCount) with
          | none => none
          | some argument => some (.next argument)
  else if type = Int64TypeTag ∨ type = Float64TypeTag ∨ type = TimeTagTypeTag then
    if sourceIndex + 8 > sizeInBytes then some (.fail .OscErrorUnexpectedEndOfSource)
    else
      match decodeArgument64 (source.drop sourceIndex) with
      | none => none
      | some argument64 =>
        if type = Int64TypeTag then some (.next (argument.setInt64 (asInt64 argument64)))
        else if type = Float64TypeTag then some (.next (argument.setFloat64 argument64))
        else some (.next (argument.setTimeTag argument64))
  else if type = TrueTypeTag then some (.next (argument.setBool true))
  else if type = FalseTypeTag then some (.next (argument.setBool false))
  else if type = NilTypeTag then some (.next argument.setNil)
  else if type = InfinitumTypeTag then some (.next argument.setInfinitum)
  else if type = BeginArrayTypeTag then some (.next argument.setBeginArray)
  else if type = EndArrayTypeTag then some (.next argument.setEndArray)
  else some (.next argument)

/-- The loop `for (auto type : typetagString)` of `OscMessage::decode`, on the message
itself: every argument is pushed onto the member `arguments` when it is decoded, the cursor
advances by `argument.getEncodedSize()` (with its assertion compiled out, see
`OscArgument.getEncodedSizeAsserted`), and the loop leaves through `return error (...)`
with what `error` makes of the message.  `indeterminate k` is the pair of the members
`typeTag` and `value` of the loop variable in iteration `k`, which its constructor does not
assign (on the usual stack they are what the iteration before left there). -/
def decodeArguments (source : List Nat) (sizeInBytes : Nat) :
    (Nat → Nat × Nat) → List Nat → Nat → OscMessage → Option (Flow OscMessage)
  | _, [], _, m => some (.next m)
  | indeterminate, type :: rest, sourceIndex, m =>
    match decodeArgument
        (OscArgument.defaultConstructed (indeterminate 0).1 (indeterminate 0).2)
        source sizeInBytes sourceIndex type with
    | none => none
    | some (.fail e) => some (.returned (m.error e))
    | some (.next argument) =>
      decodeArguments source sizeInBytes (fun k => indeterminate (k + 1)) rest
        (toUInt32 (sourceIndex + argument.getEncodedSize))
        { m with arguments := m.arguments ++ [argument] }

/-- Source: `OscMessage::decode (source, sizeInBytes)` on the message itself: the members
change as the source is read, every `return error (...)` hands the message of that moment to
`error`, and the four tests before the first read return their code without calling
`error`.  The result is the message afterwards and the returned code.  `source` is the
memory from the pointer on.  `none`: the call has no defined result (a read outside the
memory, or no return). -/
def decode (indeterminate : Nat → Nat × Nat) (m : OscMessage) (source : List Nat)
    (sizeInBytes : Nat) : Option (OscMessage × OscError) :=
  if sizeInBytes = 0 then some (m, .OscErrorMessageToShort)
  else if sizeInBytes % 4 ≠ 0 then some (m, .OscErrorSizeIsNotMultipleOfFour)
  else if sizeInBytes < MinOscMessageSize then some (m, .OscErrorMessageSizeTooSmall)
  else
    match source[0]? with
    | none => none
    | some c0 =>
      if c0 ≠ 47 then some (m, .OscErrorNoSlashAtStartOfMessage)
      else
        match stringLengthSafe source sizeInBytes with
        | none => none
        | some addressLength =>
          if addressLength > sizeInBytes then some (m, .OscErrorAddressPatternUnterminated)
          else
            match decodeAddressPattern source sizeInBytes source.length 0 m with
            | none => none
            | some (.returned r) => some r
            | some (.next (sourceIndex, m)) =>
              match OscMessage.decodeSkipToTypeTags source sizeInBytes source.length
                  sourceIndex with
              | none => none
              | some (.fail e) => some (m.error e)
              | some (.next sourceIndex) =>
                match stringLengthSafe (source.drop sourceIndex)
                    (toSizeT (sizeInBytes + 2 ^ 64 - sourceIndex)) with
                | none => none
                | some _ =>
                  match OscMessage.decodeTypeTagString source sizeInBytes source.length
                      sourceIndex [] with
                  | none => none
                  | some (.fail e) => some (m.error e)
                  | some (.next (sourceIndex, typetagString)) =>
                    match OscMessage.decodeAdvanceToArguments sizeInBytes 4 sourceIndex with
                    | .fail e => some (m.error e)
                    | .next sourceIndex =>
                      match decodeArguments source sizeInBytes indeterminate typetagString
                          sourceIndex m with
                      | none => none
                      | some (.returned r) => some r
                      | some (.next m) => some (m, .OscErrorNone)

/-- Source: `OscMessage::createFromEncodedData (source, sizeInBytes)`, through `decode` on
the members of the new message. -/
def createFromEncodedData (indeterminate : Nat → Nat × Nat) (source : List Nat)
    (sizeInBytes : Nat) : Option OscMessage :=
  (decode indeterminate OscMessage.new source sizeInBytes).map (·.1)

end InPlace
end OscMessage

/-! ## Theorems -/

theorem slipEncodeLoop_eq (x dest : List Nat) :
    slipEncodeLoop x dest = dest ++ (x.map slipEscape).flatten := by
  induction x generalizing dest with
  | nil => simp [slipEncodeLoop]
  | cons c rest ih =>
    unfold slipEncodeLoop
    by_cases h1 : c = SlipEnd
    · simp [h1, ih, slipEscape]
    · by_cases h2 : c = SlipEsc
      · simp [h1, h2, ih, slipEscape, SlipEsc, SlipEnd]
      · simp [h1, h2, ih, slipEscape]

theorem slipDecodeLoop_end (tail dest : List Nat) :
    slipDecodeLoop (SlipEnd :: tail) dest = some ⟨dest, dest.length⟩ := by
  cases tail <;> simp [slipDecodeLoop]

theorem slipDecodeLoop_plain (c : Nat) (tail dest : List Nat) (h1 : c ≠ SlipEnd)
    (h2 : c ≠ SlipEsc) : slipDecodeLoop (c :: tail) dest = slipDecodeLoop tail (dest ++ [c]) := by
  cases tail <;> simp [slipDecodeLoop, h1, h2]

theorem slipDecodeLoop_escEnd (tail dest : List Nat) :
    slipDecodeLoop (SlipEsc :: SlipEscEnd :: tail) dest
      = slipDecodeLoop tail (dest ++ [SlipEnd]) := by
  simp [slipDecodeLoop, SlipEsc, SlipEnd]

theorem slipDecodeLoop_escEsc (tail dest : List Nat) :
    slipDecodeLoop (SlipEsc :: SlipEscEsc :: tail) dest
      = slipDecodeLoop tail (dest ++ [SlipEsc]) := by
  simp [slipDecodeLoop, SlipEsc, SlipEnd, SlipEscEsc, SlipEscEnd]

theorem slipDecodeLoop_escaped (x tail dest : List Nat) :
    slipDecodeLoop ((x.map slipEscape).flatten ++ SlipEnd :: tail) dest
      = some ⟨dest ++ x, (dest ++ x).length⟩ := by
  induction x generalizing dest with
  | nil => simp [slipDecodeLoop_end]
  | cons c rest ih =>
    have step : slipDecodeLoop ((List.map slipEscape (c :: rest)).flatten ++ SlipEnd :: tail) dest
        = slipDecodeLoop ((List.map slipEscape rest).flatten ++ SlipEnd :: tail) (dest ++ [c]) := by
      by_cases h1 : c = SlipEnd
      · subst h1
        simp [slipEscape, slipDecodeLoop_escEnd]
      · by_cases h2 : c = SlipEsc
        · subst h2
          simp [slipEscape, slipDecodeLoop_escEsc, h1]
        · simp [slipEscape, slipDecodeLoop_plain, h1, h2]
    rw [step, ih]
    simp

/-- C3: for every byte sequence `x`, `slipDecode` run on the bytes produced by
`slipEncode x` (whose returned count is their number) stores exactly the bytes
of `x` and returns `x.length`. -/
theorem slipDecode_slipEncode (x : List Nat) :
    (slipEncode x).count = (slipEncode x).bytes.length ∧
    slipDecode (slipEncode x).bytes = some ⟨x, x.length⟩ := by
  refine ⟨rfl, ?_⟩
  simp only [slipEncode, slipDecode, slipEncodeLoop_eq, List.nil_append]
  rw [List.getLast?_concat]
  simp only [ne_eq, not_true_eq_false, if_false]
  simpa using slipDecodeLoop_escaped x [] []

theorem getPaddedSize_mod (n : Nat) : getPaddedSize n % 4 = 0 := by
  unfold getPaddedSize; split <;> omega

theorem getPaddedSize_bounds (n : Nat) : n ≤ getPaddedSize n ∧ getPaddedSize n < n + 4 := by
  unfold getPaddedSize; split <;> omega

theorem toUInt32_of_lt {n : Nat} (h : n < 2 ^ 32) : toUInt32 n = n :=
  Nat.mod_eq_of_lt h

theorem toUInt32_pred {n : Nat} (h : n < 2 ^ 32) : toUInt32 (n + 1 + 2 ^ 32 - 1) = n := by
  unfold toUInt32; omega

theorem toSizeT_of_lt {n : Nat} (h : n < 2 ^ 64) : toSizeT n = n :=
  Nat.mod_eq_of_lt h

theorem toSizeT_sub {a b : Nat} (h : b ≤ a) (ha : a < 2 ^ 64) :
    toSizeT (a + 2 ^ 64 - b) = a - b := by
  unfold toSizeT; omega

theorem asInt32_ofInt32 (v : Int) (h1 : -2 ^ 31 ≤ v) (h2 : v < 2 ^ 31) :
    asInt32 (ofInt32 v) = v := by
  unfold asInt32 ofInt32
  split <;> omega

theorem asInt64_ofInt64 (v : Int) (h1 : -2 ^ 63 ≤ v) (h2 : v < 2 ^ 63) :
    asInt64 (ofInt64 v) = v := by
  unfold asInt64 ofInt64
  split <;> omega

theorem ofInt32_lt (v : Int) : ofInt32 v < 2 ^ 32 := by
  unfold ofInt32; omega

theorem ofInt64_lt (v : Int) : ofInt64 v < 2 ^ 64 := by
  unfold ofInt64; omega

theorem decodeArgument32_encodeArgument32 (u : Nat) (rest : List Nat) :
    decodeArgument32 (encodeArgument32 u ++ rest) = some (u % 2 ^ 32) := by
  simp only [encodeArgument32, decodeArgument32, List.cons_append, List.nil_append,
    Option.some.injEq]
  omega

theorem decodeArgument64_encodeArgument64 (u : Nat) (rest : List Nat) :
    decodeArgument64 (encodeArgument64 u ++ rest) = some (u % 2 ^ 64) := by
  simp only [encodeArgument64, decodeArgument64, List.cons_append, List.nil_append,
    Option.some.injEq]
  omega

namespace OscArgument

theorem encode_of_le (a : OscArgument) (n : Nat) (h : a.getEncodedSize ≤ n) :
    a.encode n = a.encode a.getEncodedSize := by
  unfold encode
  simp [Nat.not_lt.mpr h]

theorem encodeBlobLoop_fits (encodedSize : Nat) (blob destination : List Nat)
    (h : destination.length + blob.length ≤ encodedSize) :
    encodeBlobLoop encodedSize blob destination = (destination ++ blob, false) := by
  induction blob generalizing destination with
  | nil => simp [encodeBlobLoop]
  | cons c rest ih =>
    simp only [List.length_cons] at h
    have h1 : ¬ destination.length ≥ encodedSize := by omega
    simp only [encodeBlobLoop, h1, if_false]
    rw [ih]
    · simp
    · simp; omega

theorem encodeBlobPad_eq (destination : List Nat) :
    encodeBlobPad 3 destination
      = destination ++ List.replicate (getPaddedSize destination.length - destination.length) 0 := by
  have hm : destination.length % 4 = 0 ∨ destination.length % 4 = 1 ∨ destination.length % 4 = 2
      ∨ destination.length % 4 = 3 := by omega
  rcases hm with h | h | h | h
  · simp [encodeBlobPad, getPaddedSize, h]
  · have e : getPaddedSize destination.length - destination.length = 3 := by
      unfold getPaddedSize; split <;> omega
    have h2 : (destination.length + 1) % 4 = 2 := by omega
    have h3 : (destination.length + 1 + 1) % 4 = 3 := by omega
    have h4 : (destination.length + 1 + 1 + 1) % 4 = 0 := by omega
    simp [encodeBlobPad, e, h, h2, h3, h4, List.replicate]
  · have e : getPaddedSize destination.length - destination.length = 2 := by
      unfold getPaddedSize; split <;> omega
    have h3 : (destination.length + 1) % 4 = 3 := by omega
    have h4 : (destination.length + 1 + 1) % 4 = 0 := by omega
    simp [encodeBlobPad, e, h, h3, h4, List.replicate]
  · have e : getPaddedSize destination.length - destination.length = 1 := by
      unfold getPaddedSize; split <;> omega
    have h4 : (destination.length + 1) % 4 = 0 := by omega
    simp [encodeBlobPad, e, h, h4, List.replicate]

theorem stringLoop_eq (s : List Nat) (k : Nat) (h : s.length ≤ k) :
    (List.range k).map (fun i => if i < s.length then s.getD i 0 else 0)
      = s ++ List.replicate (k - s.length) 0 := by
  apply List.ext_getElem
  · simp; omega
  · intro i h1 h2
    simp at h1 h2 ⊢
    by_cases hi : i < s.length
    · simp [hi, List.getElem_append_left, List.getD_eq_getElem?_getD, List.getElem?_eq_getElem]
    · simp [hi, List.getElem_append_right (Nat.le_of_not_lt hi)]

/-- String tags: what `encode` stores given enough room. -/
theorem encode_string (a : OscArgument) (n : Nat)
    (ht : a.typeTag = StringTypeTag ∨ a.typeTag = AlternateStringTypeTag)
    (hn : a.getEncodedSize ≤ n) :
    a.encode n = ⟨a.stringValue ++ List.replicate
      (getPaddedSize (a.stringValue.length + 1) - a.stringValue.length) 0,
      getPaddedSize (a.stringValue.length + 1)⟩ := by
  have hs : a.getEncodedSize = getPaddedSize (a.stringValue.length + 1) := by
    rcases ht with h | h <;>
      simp [getEncodedSize, h, StringTypeTag, AlternateStringTypeTag, Int32TypeTag,
        Float32TypeTag, CharacterTypeTag, RgbaColourTypeTag, MidiMessageTypeTag]
  have hb := getPaddedSize_bounds (a.stringValue.length + 1)
  rw [encode_of_le a n hn]
  unfold encode
  rw [hs, stringLoop_eq _ _ (by omega)]
  rcases ht with h | h <;>
    simp [h, StringTypeTag, AlternateStringTypeTag, Int32TypeTag, Float32TypeTag,
      CharacterTypeTag, RgbaColourTypeTag, MidiMessageTypeTag, Int64TypeTag, Float64TypeTag,
      TimeTagTypeTag]

/-- Blob tag: what `encode` stores given enough room. -/
theorem encode_blob (a : OscArgument) (n : Nat) (ht : a.typeTag = BlobTypeTag)
    (hn : a.getEncodedSize ≤ n) :
    a.encode n = ⟨encodeArgument32 a.blobValue.length ++ a.blobValue ++ List.replicate
      (getPaddedSize a.blobValue.length - a.blobValue.length) 0,
      4 + getPaddedSize a.blobValue.length⟩ := by
  have hs : a.getEncodedSize = 4 + getPaddedSize a.blobValue.length := by
    simp [getEncodedSize, ht, BlobTypeTag, StringTypeTag, AlternateStringTypeTag, Int32TypeTag,
        Float32TypeTag, CharacterTypeTag, RgbaColourTypeTag, MidiMessageTypeTag]
  have hb := getPaddedSize_bounds a.blobValue.length
  rw [encode_of_le a n hn]
  unfold encode
  rw [hs, encodeBlobLoop_fits _ _ _ (by simp [encodeArgument32]; omega)]
  have e : getPaddedSize (encodeArgument32 a.blobValue.length ++ a.blobValue).length
      - (encodeArgument32 a.blobValue.length ++ a.blobValue).length
      = getPaddedSize a.blobValue.length - a.blobValue.length := by
    simp only [List.length_append, encodeArgument32, List.length_cons, List.length_nil]
    unfold getPaddedSize
    split <;> split <;> omega
  simp only [encodeBlobPad_eq, e]
  simp [ht, BlobTypeTag, StringTypeTag, AlternateStringTypeTag, Int32TypeTag, Float32TypeTag,
      CharacterTypeTag, RgbaColourTypeTag, MidiMessageTypeTag, Int64TypeTag, Float64TypeTag,
      TimeTagTypeTag]

end OscArgument

/-! ## Argument codec: C7, C8, C9, C10 -/

/-- C7: an Int32 argument set to `v` encodes to the four bytes of the two's-complement
pattern of `v`, most significant first, and `decodeArgument32` reads `v` back from them; an
Int64 argument set to `w` and a TimeTag argument set to `t` encode to the eight bytes of the
64-bit pattern, most significant first, and `decodeArgument64` reads the value back. -/
theorem numeric_arguments_big_endian (a : OscArgument) (n32 n64 : Nat) (v w : Int) (t : Nat)
    (rest : List Nat)
    (hv : -2 ^ 31 ≤ v ∧ v < 2 ^ 31) (hw : -2 ^ 63 ≤ w ∧ w < 2 ^ 63) (ht : t < 2 ^ 64)
    (hn32 : 4 ≤ n32) (hn64 : 8 ≤ n64) :
    ((a.setInt32 v).encode n32
        = ⟨[(v % 2 ^ 32).toNat / 2 ^ 24, (v % 2 ^ 32).toNat / 2 ^ 16 % 256,
            (v % 2 ^ 32).toNat / 2 ^ 8 % 256, (v % 2 ^ 32).toNat % 256], 4⟩
      ∧ (decodeArgument32 (((a.setInt32 v).encode n32).bytes ++ rest)).map asInt32 = some v)
    ∧ ((a.setInt64 w).encode n64
        = ⟨[(w % 2 ^ 64).toNat / 2 ^ 56, (w % 2 ^ 64).toNat / 2 ^ 48 % 256,
            (w % 2 ^ 64).toNat / 2 ^ 40 % 256, (w % 2 ^ 64).toNat / 2 ^ 32 % 256,
            (w % 2 ^ 64).toNat / 2 ^ 24 % 256, (w % 2 ^ 64).toNat / 2 ^ 16 % 256,
            (w % 2 ^ 64).toNat / 2 ^ 8 % 256, (w % 2 ^ 64).toNat % 256], 8⟩
      ∧ (decodeArgument64 (((a.setInt64 w).encode n64).bytes ++ rest)).map asInt64 = some w)
    ∧ ((a.setTimeTag t).encode n64
        = ⟨[t / 2 ^ 56, t / 2 ^ 48 % 256, t / 2 ^ 40 % 256, t / 2 ^ 32 % 256,
            t / 2 ^ 24 % 256, t / 2 ^ 16 % 256, t / 2 ^ 8 % 256, t % 256], 8⟩
      ∧ decodeArgument64 (((a.setTimeTag t).encode n64).bytes ++ rest) = some t) := by
  have e32 : (a.setInt32 v).encode n32 = ⟨encodeArgument32 (ofInt32 v), 4⟩ := by
    have hs : (a.setInt32 v).getEncodedSize = 4 := by
      simp [OscArgument.getEncodedSize, OscArgument.setInt32]
    rw [OscArgument.encode_of_le _ _ (by omega)]
    unfold OscArgument.encode
    rw [hs]
    have hu := ofInt32_lt v
    simp only [OscArgument.setInt32, OscArgument.storeLow, encodeArgument32, gt_iff_lt,
      lt_self_iff_false, if_false, true_or, if_true, Written.mk.injEq, and_true,
      List.cons.injEq]
    omega
  have e64 : (a.setInt64 w).encode n64 = ⟨encodeArgument64 (ofInt64 w), 8⟩ := by
    have hs : (a.setInt64 w).getEncodedSize = 8 := by
      simp [OscArgument.getEncodedSize, OscArgument.setInt64, Int64TypeTag, Int32TypeTag,
        Float32TypeTag, CharacterTypeTag, RgbaColourTypeTag, MidiMessageTypeTag, StringTypeTag,
        AlternateStringTypeTag, BlobTypeTag]
    rw [OscArgument.encode_of_le _ _ (by omega)]
    unfold OscArgument.encode
    rw [hs]
    simp [OscArgument.setInt64, Int64TypeTag, Int32TypeTag, Float32TypeTag,
      RgbaColourTypeTag, MidiMessageTypeTag]
  have et : (a.setTimeTag t).encode n64 = ⟨encodeArgument64 t, 8⟩ := by
    have hs : (a.setTimeTag t).getEncodedSize = 8 := by
      simp [OscArgument.getEncodedSize, OscArgument.setTimeTag, TimeTagTypeTag, Int64TypeTag,
        Int32TypeTag, Float64TypeTag,
        Float32TypeTag, CharacterTypeTag, RgbaColourTypeTag, MidiMessageTypeTag, StringTypeTag,
        AlternateStringTypeTag, BlobTypeTag]
    rw [OscArgument.encode_of_le _ _ (by omega)]
    unfold OscArgument.encode
    rw [hs]
    have hm : t % 2 ^ 64 = t := Nat.mod_eq_of_lt ht
    simp only [OscArgument.setTimeTag, hm]
    simp [TimeTagTypeTag, Int64TypeTag, Int32TypeTag, Float32TypeTag,
      RgbaColourTypeTag, MidiMessageTypeTag]
  have hu32 := ofInt32_lt v
  have hu64 := ofInt64_lt w
  refine ⟨⟨?_, ?_⟩, ⟨?_, ?_⟩, ?_, ?_⟩
  · rw [e32]
    simp only [encodeArgument32, ofInt32, Written.mk.injEq, and_true, List.cons.injEq]
    unfold ofInt32 at hu32
    omega
  · rw [e32]
    simp only [decodeArgument32_encodeArgument32, Option.map_some', Option.some.injEq]
    rw [Nat.mod_eq_of_lt hu32]
    exact asInt32_ofInt32 v hv.1 hv.2
  · rw [e64]
    simp only [encodeArgument64, ofInt64, Written.mk.injEq, and_true, List.cons.injEq]
    unfold ofInt64 at hu64
    omega
  · rw [e64]
    simp only [decodeArgument64_encodeArgument64, Option.map_some', Option.some.injEq]
    rw [Nat.mod_eq_of_lt hu64]
    exact asInt64_ofInt64 w hw.1 hw.2
  · rw [et]
    simp only [encodeArgument64, Written.mk.injEq, and_true, List.cons.injEq]
    omega
  · rw [et]
    simp only [decodeArgument64_encodeArgument64, Option.some.injEq]
    exact Nat.mod_eq_of_lt ht

theorem numeric_arguments_big_endian_witness :
    (OscArgument.uninitialised.setInt32 (-2)).encode 4 = ⟨[255, 255, 255, 254], 4⟩
    ∧ (OscArgument.uninitialised.setInt64 (-2)).encode 8
        = ⟨[255, 255, 255, 255, 255, 255, 255, 254], 8⟩
    ∧ (OscArgument.uninitialised.setTimeTag (2 ^ 32 + 7)).encode 8
        = ⟨[0, 0, 0, 1, 0, 0, 0, 7], 8⟩ :=
  have h := numeric_arguments_big_endian OscArgument.uninitialised 4 8 (-2) (-2) (2 ^ 32 + 7) []
    (by decide) (by decide) (by decide) (by decide) (by decide)
  ⟨h.1.1, h.2.1.1, h.2.2.1⟩

theorem OscArgument.string_size (a : OscArgument)
    (ht : a.typeTag = StringTypeTag ∨ a.typeTag = AlternateStringTypeTag) :
    a.getEncodedSize = getPaddedSize (a.stringValue.length + 1) := by
  rcases ht with h | h <;>
    simp [OscArgument.getEncodedSize, h, StringTypeTag, AlternateStringTypeTag, Int32TypeTag,
      Float32TypeTag, CharacterTypeTag, RgbaColourTypeTag, MidiMessageTypeTag]

/-- C8: a String or AlternateString argument holding `s`, encoded into a destination of at
least `getEncodedSize()` bytes, stores the bytes of `s` followed by NUL bytes only; the total
is `getEncodedSize()`, the smallest multiple of 4 that is at least `s.length + 1` (so at
least one NUL follows `s`), and that total is the returned count. -/
theorem string_argument_layout (a : OscArgument) (n : Nat)
    (ht : a.typeTag = StringTypeTag ∨ a.typeTag = AlternateStringTypeTag)
    (hn : a.getEncodedSize ≤ n) :
    a.getEncodedSize % 4 = 0 ∧ a.stringValue.length + 1 ≤ a.getEncodedSize
      ∧ a.getEncodedSize < a.stringValue.length + 1 + 4
      ∧ (a.encode n).bytes
          = a.stringValue ++ List.replicate (a.getEncodedSize - a.stringValue.length) 0
      ∧ (a.encode n).bytes.length = a.getEncodedSize
      ∧ (a.encode n).count = a.getEncodedSize := by
  have hb := getPaddedSize_bounds (a.stringValue.length + 1)
  have hs : a.getEncodedSize = getPaddedSize (a.stringValue.length + 1) := by
    rcases ht with h | h <;>
      simp [OscArgument.getEncodedSize, h, StringTypeTag, AlternateStringTypeTag, Int32TypeTag,
        Float32TypeTag, CharacterTypeTag, RgbaColourTypeTag, MidiMessageTypeTag]
  rw [OscArgument.encode_string a n ht hn, hs]
  refine ⟨getPaddedSize_mod _, hb.1, hb.2, rfl, ?_, rfl⟩
  simp only [List.length_append, List.length_replicate]
  omega

theorem string_argument_layout_witness :
    (OscArgument.uninitialised.setString [100, 97, 116, 97]).getEncodedSize % 4 = 0
      ∧ 4 + 1 ≤ (OscArgument.uninitialised.setString [100, 97, 116, 97]).getEncodedSize
      ∧ (OscArgument.uninitialised.setString [100, 97, 116, 97]).getEncodedSize < 4 + 1 + 4
      ∧ ((OscArgument.uninitialised.setString [100, 97, 116, 97]).encode 8).bytes
          = [100, 97, 116, 97, 0, 0, 0, 0]
      ∧ ((OscArgument.uninitialised.setString [100, 97, 116, 97]).encode 8).bytes.length = 8
      ∧ ((OscArgument.uninitialised.setString [100, 97, 116, 97]).encode 8).count = 8 :=
  string_argument_layout (OscArgument.uninitialised.setString [100, 97, 116, 97]) 8
    (Or.inl rfl) (by decide)

/-- C10: for a String, AlternateString or Blob argument with raw payload length `n`,
`getEncodedSize()` is a multiple of 4 and at least `n + 1`; encoding into a destination of at
least that size stores exactly `getEncodedSize()` bytes and returns that number; for a Blob
the bytes are the 4-byte big-endian length, the raw bytes, then NUL bytes up to a multiple of 4. -/
theorem padded_argument_sizes (a : OscArgument) (capacity : Nat)
    (ht : a.typeTag = StringTypeTag ∨ a.typeTag = AlternateStringTypeTag
      ∨ a.typeTag = BlobTypeTag)
    (hn : a.getEncodedSize ≤ capacity) :
    a.getEncodedSize % 4 = 0
    ∧ (if a.typeTag = BlobTypeTag then a.blobValue.length else a.stringValue.length) + 1
        ≤ a.getEncodedSize
    ∧ (a.encode capacity).bytes.length = a.getEncodedSize
    ∧ (a.encode capacity).count = a.getEncodedSize
    ∧ (a.typeTag = BlobTypeTag →
        (a.encode capacity).bytes
          = [a.blobValue.length / 2 ^ 24 % 256, a.blobValue.length / 2 ^ 16 % 256,
              a.blobValue.length / 2 ^ 8 % 256, a.blobValue.length % 256]
            ++ a.blobValue
            ++ List.replicate (a.getEncodedSize - 4 - a.blobValue.length) 0) := by
  rcases ht with h | h | h
  · have hs := OscArgument.string_size a (Or.inl h)
    have hb := getPaddedSize_bounds (a.stringValue.length + 1)
    have hm := getPaddedSize_mod (a.stringValue.length + 1)
    have hnb : a.typeTag ≠ BlobTypeTag := by rw [h]; decide
    rw [OscArgument.encode_string a capacity (Or.inl h) hn, hs]
    simp only [hnb, if_false, false_implies, and_true, List.length_append,
      List.length_replicate]
    omega
  · have hs := OscArgument.string_size a (Or.inr h)
    have hb := getPaddedSize_bounds (a.stringValue.length + 1)
    have hm := getPaddedSize_mod (a.stringValue.length + 1)
    have hnb : a.typeTag ≠ BlobTypeTag := by rw [h]; decide
    rw [OscArgument.encode_string a capacity (Or.inr h) hn, hs]
    simp only [hnb, if_false, false_implies, and_true, List.length_append,
      List.length_replicate]
    omega
  · have hs : a.getEncodedSize = 4 + getPaddedSize a.blobValue.length := by
      simp [OscArgument.getEncodedSize, h, BlobTypeTag, StringTypeTag, AlternateStringTypeTag,
        Int32TypeTag, Float32TypeTag, CharacterTypeTag, RgbaColourTypeTag, MidiMessageTypeTag]
    have hb := getPaddedSize_bounds a.blobValue.length
    have hm := getPaddedSize_mod a.blobValue.length
    rw [OscArgument.encode_blob a capacity h hn, hs]
    simp only [h, if_true, List.length_append, List.length_replicate, encodeArgument32,
      List.length_cons, List.length_nil, true_implies]
    refine ⟨by omega, by omega, by omega, trivial, ?_⟩
    congr 2
    omega

theorem padded_argument_sizes_witness :
    (OscArgument.mk BlobTypeTag [] [1, 2, 3, 4, 5] 0).getEncodedSize = 12
    ∧ ((OscArgument.mk BlobTypeTag [] [1, 2, 3, 4, 5] 0).encode 12).bytes
        = [0, 0, 0, 5, 1, 2, 3, 4, 5, 0, 0, 0]
    ∧ ((OscArgument.mk BlobTypeTag [] [1, 2, 3, 4, 5] 0).encode 12).count = 12 :=
  have h := padded_argument_sizes (OscArgument.mk BlobTypeTag [] [1, 2, 3, 4, 5] 0) 12
    (Or.inr (Or.inr rfl)) (by decide)
  ⟨by decide, h.2.2.2.2 rfl, h.2.2.2.1⟩

theorem getElem?_of_drop (source : List Nat) (i k : Nat) :
    source[i + k]? = (source.drop i)[k]? := by
  simp [List.getElem?_drop]

/-- C9: an RgbaColour argument encodes to the bytes red, green, blue, alpha; a MidiMessage
argument to portID, status, data1, data2; a Character argument `ch` to 0, 0, 0, `ch`; and
the decoding of the tags 'r', 'm' and 'c' in `OscMessage::decode` recovers those fields from
the bytes (here found at `sourceIndex` in any source buffer). -/
theorem raw_arguments_layout (a : OscArgument) (n : Nat) (c : RgbaColour)
    (m : MidiMessageData) (ch : Nat) (source rest : List Nat) (sizeInBytes sourceIndex : Nat)
    (hc : c.red < 256 ∧ c.green < 256 ∧ c.blue < 256 ∧ c.alpha < 256)
    (hm : m.portID < 256 ∧ m.status < 256 ∧ m.data1 < 256 ∧ m.data2 < 256)
    (hch : ch < 256) (hn : 4 ≤ n)
    (hsz : sourceIndex + 4 ≤ sizeInBytes) (h32 : sourceIndex + 4 < 2 ^ 32) :
    (a.setRgbaColour c).encode n = ⟨[c.red, c.green, c.blue, c.alpha], 4⟩
    ∧ (a.setMidiMessage m).encode n = ⟨[m.portID, m.status, m.data1, m.data2], 4⟩
    ∧ (a.setCharacter ch).encode n = ⟨[0, 0, 0, ch], 4⟩
    ∧ (source.drop sourceIndex = [c.red, c.green, c.blue, c.alpha] ++ rest →
        ∃ x, OscMessage.decodeArgument source sizeInBytes sourceIndex RgbaColourTypeTag
            = some (.next x)
          ∧ x.typeTag = RgbaColourTypeTag ∧ x.getRgbaColour = c)
    ∧ (source.drop sourceIndex = [m.portID, m.status, m.data1, m.data2] ++ rest →
        ∃ x, OscMessage.decodeArgument source sizeInBytes sourceIndex MidiMessageTypeTag
            = some (.next x)
          ∧ x.typeTag = MidiMessageTypeTag ∧ x.getMidiMessage = m)
    ∧ (source.drop sourceIndex = [0, 0, 0, ch] ++ rest →
        ∃ x, OscMessage.decodeArgument source sizeInBytes sourceIndex CharacterTypeTag
            = some (.next x)
          ∧ x.typeTag = CharacterTypeTag ∧ x.getCharacter = ch) := by
  obtain ⟨hr, hg, hb, ha⟩ := hc
  obtain ⟨hp, hs, hd1, hd2⟩ := hm
  have hle : ¬ sourceIndex + 4 > sizeInBytes := by omega
  refine ⟨?_, ?_, ?_, ?_, ?_, ?_⟩
  · have hsz : (a.setRgbaColour c).getEncodedSize = 4 := by
      simp [OscArgument.getEncodedSize, OscArgument.setRgbaColour]
    rw [OscArgument.encode_of_le _ _ (by omega)]
    unfold OscArgument.encode
    rw [hsz]
    simp only [OscArgument.setRgbaColour, OscArgument.storeLow, RgbaColour.toBits,
      encodeArgument32, gt_iff_lt, lt_self_iff_false, if_false, or_true, true_or, if_true,
      Written.mk.injEq, and_true, List.cons.injEq]
    omega
  · have hsz : (a.setMidiMessage m).getEncodedSize = 4 := by
      simp [OscArgument.getEncodedSize, OscArgument.setMidiMessage]
    rw [OscArgument.encode_of_le _ _ (by omega)]
    unfold OscArgument.encode
    rw [hsz]
    simp only [OscArgument.setMidiMessage, OscArgument.storeLow, MidiMessageData.toBits,
      encodeArgument32, gt_iff_lt, lt_self_iff_false, if_false, or_true, true_or, if_true,
      Written.mk.injEq, and_true, List.cons.injEq]
    omega
  · have hsz : (a.setCharacter ch).getEncodedSize = 4 := by
      simp [OscArgument.getEncodedSize, OscArgument.setCharacter]
    rw [OscArgument.encode_of_le _ _ (by omega)]
    unfold OscArgument.encode
    rw [hsz]
    simp only [OscArgument.setCharacter, OscArgument.storeLow, CharacterTypeTag, Int32TypeTag,
      Float32TypeTag, RgbaColourTypeTag, MidiMessageTypeTag, Int64TypeTag, Float64TypeTag,
      TimeTagTypeTag]
    simp only [gt_iff_lt, lt_self_iff_false, if_false, Nat.reduceEqDiff, or_self, if_true,
      Written.mk.injEq, and_true, List.cons.injEq, true_and]
    omega
  · intro hsrc
    refine ⟨OscArgument.uninitialised.setRgbaColour (RgbaColour.ofBits
      (c.red * 2 ^ 24 + c.green * 2 ^ 16 + c.blue * 2 ^ 8 + c.alpha)), ?_, ?_, ?_⟩
    · unfold OscMessage.decodeArgument
      simp only [hsrc, decodeArgument32, List.cons_append, List.nil_append, hle, if_false,
        RgbaColourTypeTag, Int32TypeTag, Float32TypeTag, CharacterTypeTag, MidiMessageTypeTag]
      simp only [Nat.reduceEqDiff, or_true, or_false, false_or, if_true, if_false]
    · rfl
    · simp only [OscArgument.setRgbaColour, OscArgument.getRgbaColour, OscArgument.storeLow,
        OscArgument.uninitialised, RgbaColour.ofBits, RgbaColour.toBits]
      cases c
      simp only [RgbaColour.mk.injEq] at hr hg hb ha ⊢
      omega
  · intro hsrc
    refine ⟨OscArgument.uninitialised.setMidiMessage (MidiMessageData.ofBits
      (m.portID * 2 ^ 24 + m.status * 2 ^ 16 + m.data1 * 2 ^ 8 + m.data2)), ?_, ?_, ?_⟩
    · unfold OscMessage.decodeArgument
      simp only [hsrc, decodeArgument32, List.cons_append, List.nil_append, hle, if_false,
        RgbaColourTypeTag, Int32TypeTag, Float32TypeTag, CharacterTypeTag, MidiMessageTypeTag]
      simp only [Nat.reduceEqDiff, or_true, or_false, false_or, if_true, if_false]
    · rfl
    · simp only [OscArgument.setMidiMessage, OscArgument.getMidiMessage, OscArgument.storeLow,
        OscArgument.uninitialised, MidiMessageData.ofBits, MidiMessageData.toBits]
      cases m
      simp only [MidiMessageData.mk.injEq] at hp hs hd1 hd2 ⊢
      omega
  · intro hsrc
    have h3 : source[toUInt32 (sourceIndex + 3)]? = some ch := by
      unfold toUInt32
      rw [Nat.mod_eq_of_lt (by omega), getElem?_of_drop, hsrc]
      simp
    refine ⟨OscArgument.uninitialised.setCharacter ch, ?_, ?_, ?_⟩
    · unfold OscMessage.decodeArgument
      simp only [hsrc, h3, decodeArgument32, List.cons_append, List.nil_append, hle, if_false,
        RgbaColourTypeTag, Int32TypeTag, Float32TypeTag, CharacterTypeTag, MidiMessageTypeTag]
      simp only [Nat.reduceEqDiff, or_true, or_false, false_or, if_true, if_false]
    · rfl
    · simp only [OscArgument.setCharacter, OscArgument.getCharacter, OscArgument.storeLow,
        OscArgument.uninitialised]
      omega

theorem raw_arguments_layout_witness :
    (OscArgument.uninitialised.setRgbaColour ⟨1, 2, 3, 4⟩).encode 4 = ⟨[1, 2, 3, 4], 4⟩
    ∧ (OscArgument.uninitialised.setMidiMessage ⟨5, 6, 7, 8⟩).encode 4 = ⟨[5, 6, 7, 8], 4⟩
    ∧ (OscArgument.uninitialised.setCharacter 65).encode 4 = ⟨[0, 0, 0, 65], 4⟩ :=
  have h := raw_arguments_layout OscArgument.uninitialised 4 ⟨1, 2, 3, 4⟩ ⟨5, 6, 7, 8⟩ 65
    [0, 0, 0, 65] [] 4 0 (by decide) (by decide) (by decide) (by decide) (by decide) (by decide)
  ⟨h.1, h.2.1, h.2.2.1⟩

/-! ## Message layout: C5 -/

/-- C5: the message "/foo/bar" with an Int32 argument 42 and a String argument "hi" has
`getEncodedSize()` 24 and encodes to "/foo/bar" and 4 NULs, ",is" and 1 NUL, the bytes
00 00 00 2A, then "hi" and 2 NULs. -/
theorem foo_bar_encoding :
    (((OscMessage.withAddress (ascii "/foo/bar")).addInt32 42).addString (ascii "hi")).getEncodedSize = 24
    ∧ (((OscMessage.withAddress (ascii "/foo/bar")).addInt32 42).addString (ascii "hi")).encode 24
      = ⟨ascii "/foo/bar" ++ [0, 0, 0, 0] ++ ascii ",is" ++ [0] ++ [0x00, 0x00, 0x00, 0x2A]
          ++ ascii "hi" ++ [0, 0], 24⟩ := by
  decide

theorem terminateOscString_fits (oscContents : List Nat) (maxOscStringSize : Nat)
    (h : getPaddedSize (oscContents.length + 1) ≤ maxOscStringSize) :
    terminateOscString 4 oscContents maxOscStringSize
      = (oscContents ++ List.replicate
          (getPaddedSize (oscContents.length + 1) - oscContents.length) 0, false) := by
  have hm : oscContents.length % 4 = 0 ∨ oscContents.length % 4 = 1
      ∨ oscContents.length % 4 = 2 ∨ oscContents.length % 4 = 3 := by omega
  have hb := getPaddedSize_bounds (oscContents.length + 1)
  rcases hm with h0 | h0 | h0 | h0
  · have e : getPaddedSize (oscContents.length + 1) - oscContents.length = 4 := by
      unfold getPaddedSize; split <;> omega
    have g0 : ¬ oscContents.length ≥ maxOscStringSize := by omega
    have g1 : ¬ oscContents.length + 1 ≥ maxOscStringSize := by omega
    have g2 : ¬ oscContents.length + 1 + 1 ≥ maxOscStringSize := by omega
    have g3 : ¬ oscContents.length + 1 + 1 + 1 ≥ maxOscStringSize := by omega
    have m1 : (oscContents.length + 1) % 4 ≠ 0 := by omega
    have m2 : (oscContents.length + 1 + 1) % 4 ≠ 0 := by omega
    have m3 : (oscContents.length + 1 + 1 + 1) % 4 ≠ 0 := by omega
    have m4 : (oscContents.length + 1 + 1 + 1 + 1) % 4 = 0 := by omega
    simp [terminateOscString, e, g0, g1, g2, g3, m1, m2, m3, m4, List.replicate]
  · have e : getPaddedSize (oscContents.length + 1) - oscContents.length = 3 := by
      unfold getPaddedSize; split <;> omega
    have g0 : ¬ oscContents.length ≥ maxOscStringSize := by omega
    have g1 : ¬ oscContents.length + 1 ≥ maxOscStringSize := by omega
    have g2 : ¬ oscContents.length + 1 + 1 ≥ maxOscStringSize := by omega
    have m1 : (oscContents.length + 1) % 4 ≠ 0 := by omega
    have m2 : (oscContents.length + 1 + 1) % 4 ≠ 0 := by omega
    have m3 : (oscContents.length + 1 + 1 + 1) % 4 = 0 := by omega
    simp [terminateOscString, e, g0, g1, g2, m1, m2, m3, List.replicate]
  · have e : getPaddedSize (oscContents.length + 1) - oscContents.length = 2 := by
      unfold getPaddedSize; split <;> omega
    have g0 : ¬ oscContents.length ≥ maxOscStringSize := by omega
    have g1 : ¬ oscContents.length + 1 ≥ maxOscStringSize := by omega
    have m1 : (oscContents.length + 1) % 4 ≠ 0 := by omega
    have m2 : (oscContents.length + 1 + 1) % 4 = 0 := by omega
    simp [terminateOscString, e, g0, g1, m1, m2, List.replicate]
  · have e : getPaddedSize (oscContents.length + 1) - oscContents.length = 1 := by
      unfold getPaddedSize; split <;> omega
    have g0 : ¬ oscContents.length ≥ maxOscStringSize := by omega
    have m1 : (oscContents.length + 1) % 4 = 0 := by omega
    simp [terminateOscString, e, g0, m1, List.replicate]

namespace OscArgument

theorem argument_encode_fits (a : OscArgument) (n : Nat) (h : a.getEncodedSize ≤ n) :
    a.encode n = ⟨a.payload, a.getEncodedSize⟩ ∧ a.payload.length = a.getEncodedSize := by
  rw [encode_of_le a n h]
  unfold payload
  by_cases hs : a.typeTag = StringTypeTag ∨ a.typeTag = AlternateStringTypeTag
  · have e := encode_string a a.getEncodedSize hs (Nat.le_refl _)
    have hsz : a.getEncodedSize = getPaddedSize (a.stringValue.length + 1) := by
      rcases hs with h | h <;>
        simp [getEncodedSize, h, StringTypeTag, AlternateStringTypeTag, Int32TypeTag,
          Float32TypeTag, CharacterTypeTag, RgbaColourTypeTag, MidiMessageTypeTag]
    have hb := getPaddedSize_bounds (a.stringValue.length + 1)
    rw [e, hsz]
    simp only [List.length_append, List.length_replicate, true_and]
    omega
  · by_cases hb : a.typeTag = BlobTypeTag
    · have e := encode_blob a a.getEncodedSize hb (Nat.le_refl _)
      have hsz : a.getEncodedSize = 4 + getPaddedSize a.blobValue.length := by
        simp [getEncodedSize, hb, BlobTypeTag, StringTypeTag, AlternateStringTypeTag,
          Int32TypeTag, Float32TypeTag, CharacterTypeTag, RgbaColourTypeTag, MidiMessageTypeTag]
      have hbd := getPaddedSize_bounds a.blobValue.length
      rw [e, hsz]
      simp only [List.length_append, List.length_replicate, encodeArgument32, List.length_cons,
        List.length_nil, true_and]
      omega
    · simp only [not_or] at hs
      unfold encode getEncodedSize
      simp only [hs.1, hs.2, hb, false_or, if_false, or_false]
      split_ifs <;> simp_all [encodeArgument32, encodeArgument64, Int32TypeTag, Float32TypeTag,
        CharacterTypeTag, RgbaColourTypeTag, MidiMessageTypeTag, Int64TypeTag, Float64TypeTag,
        TimeTagTypeTag]

end OscArgument

namespace OscMessage

theorem encodeArguments_fits (destinationSize : Nat) (arguments : List OscArgument)
    (destination : List Nat)
    (h : destination.length + (arguments.map OscArgument.getEncodedSize).sum ≤ destinationSize) :
    encodeArguments destinationSize arguments destination
      = ⟨destination ++ (arguments.map OscArgument.payload).flatten,
          destination.length + (arguments.map OscArgument.getEncodedSize).sum⟩ := by
  induction arguments generalizing destination with
  | nil => simp [encodeArguments]
  | cons a rest ih =>
    simp only [List.map_cons, List.sum_cons] at h
    obtain ⟨e, hl⟩ := OscArgument.argument_encode_fits a (destinationSize - destination.length) (by omega)
    simp only [encodeArguments, e, ne_eq, not_true_eq_false, if_false]
    rw [ih]
    · simp [hl]; omega
    · simp [hl]; omega

theorem message_encode_fits (m : OscMessage) (n : Nat) (h : m.getEncodedSize ≤ n) :
    m.encode n = ⟨m.wire, m.getEncodedSize⟩ := by
  unfold getEncodedSize getEncodedArgumentsSize at h
  have ha := getPaddedSize_bounds (m.addressPattern.length + 1)
  have ham := getPaddedSize_mod (m.addressPattern.length + 1)
  have ht := getPaddedSize_bounds (m.arguments.length + 1 + 1)
  have htm := getPaddedSize_mod (m.arguments.length + 1 + 1)
  unfold encode
  have h1 : ¬ m.addressPattern.length > n := by omega
  simp only [h1, if_false]
  rw [terminateOscString_fits _ _ (by omega)]
  simp only
  have hl1 : (m.addressPattern ++ List.replicate
      (getPaddedSize (m.addressPattern.length + 1) - m.addressPattern.length) 0).length
      = getPaddedSize (m.addressPattern.length + 1) := by
    simp; omega
  have hp : getPaddedSize (getPaddedSize (m.addressPattern.length + 1) + m.arguments.length + 1 + 1)
      = getPaddedSize (m.addressPattern.length + 1) + getPaddedSize (m.arguments.length + 1 + 1) := by
    revert ham
    generalize getPaddedSize (m.addressPattern.length + 1) = A
    intro ham
    unfold getPaddedSize
    split <;> split <;> omega
  rw [hl1, hp]
  have h2 : ¬ getPaddedSize (m.addressPattern.length + 1)
      + getPaddedSize (m.arguments.length + 1 + 1) > n := by omega
  simp only [h2, if_false]
  have hl2 : (m.addressPattern ++ List.replicate
      (getPaddedSize (m.addressPattern.length + 1) - m.addressPattern.length) 0 ++ [44]
      ++ m.arguments.map OscArgument.getType).length
      = getPaddedSize (m.addressPattern.length + 1) + m.arguments.length + 1 := by
    simp; omega
  have hp2 : getPaddedSize (getPaddedSize (m.addressPattern.length + 1) + m.arguments.length + 1 + 1)
      - (getPaddedSize (m.addressPattern.length + 1) + m.arguments.length + 1)
      = getPaddedSize (m.arguments.length + 2) - (m.arguments.length + 1) := by
    rw [hp]
    show _ = getPaddedSize (m.arguments.length + 1 + 1) - (m.arguments.length + 1)
    omega
  rw [terminateOscString_fits _ _ (by rw [hl2, hp]; omega)]
  simp only [hl2, hp2]
  have hl3 : (m.addressPattern ++ List.replicate
      (getPaddedSize (m.addressPattern.length + 1) - m.addressPattern.length) 0 ++ [44]
      ++ m.arguments.map OscArgument.getType
      ++ List.replicate (getPaddedSize (m.arguments.length + 2) - (m.arguments.length + 1)) 0).length
      = getPaddedSize (m.addressPattern.length + 1) + getPaddedSize (m.arguments.length + 1 + 1) := by
    have e2 : getPaddedSize (m.arguments.length + 2) = getPaddedSize (m.arguments.length + 1 + 1) := rfl
    simp; omega
  have h3 : ¬ (m.addressPattern ++ List.replicate
      (getPaddedSize (m.addressPattern.length + 1) - m.addressPattern.length) 0 ++ [44]
      ++ m.arguments.map OscArgument.getType
      ++ List.replicate (getPaddedSize (m.arguments.length + 2) - (m.arguments.length + 1)) 0).length
      + m.getEncodedArgumentsSize > n := by
    rw [hl3]; unfold getEncodedArgumentsSize; omega
  simp only [h3, if_false]
  rw [encodeArguments_fits _ _ _ (by rw [hl3]; omega), hl3]
  simp [wire, getEncodedSize, getEncodedArgumentsSize]

end OscMessage

theorem drop_eq_cons {source : List Nat} {i c : Nat} {tl : List Nat}
    (h : source.drop i = c :: tl) : source[i]? = some c ∧ source.drop (i + 1) = tl := by
  constructor
  · have := List.getElem?_drop source i 0
    rw [h] at this
    simpa using this.symm
  · have : source.drop (i + 1) = (source.drop i).drop 1 := by
      rw [List.drop_drop, Nat.add_comm]
    rw [this, h]
    rfl

theorem drop_append_drop {source : List Nat} {i : Nat} {s tl : List Nat}
    (h : source.drop i = s ++ tl) : source.drop (i + s.length) = tl := by
  have : source.drop (i + s.length) = (source.drop i).drop s.length := by
    rw [List.drop_drop, Nat.add_comm]
  rw [this, h]
  simp

theorem length_of_drop {source : List Nat} {i : Nat} {s : List Nat}
    (h : source.drop i = s) : i + s.length ≤ source.length ∨ s = [] := by
  by_cases hs : s = []
  · exact Or.inr hs
  · left
    have hl : (source.drop i).length = s.length := by rw [h]
    rw [List.length_drop] at hl
    have : s.length ≠ 0 := by
      intro h0; exact hs (List.length_eq_zero.mp h0)
    omega

theorem stringLengthSafe_scan (s t : List Nat) (maxSize : Nat) (h0 : ∀ c ∈ s, c ≠ 0)
    (hm : s.length < maxSize) : stringLengthSafe (s ++ 0 :: t) maxSize = some s.length := by
  induction s generalizing maxSize with
  | nil =>
    cases maxSize with
    | zero => omega
    | succ n => simp [stringLengthSafe]
  | cons c s ih =>
    cases maxSize with
    | zero => omega
    | succ n =>
      have hc : c ≠ 0 := h0 c (List.mem_cons_self _ _)
      have e := ih n (fun x hx => h0 x (List.mem_cons_of_mem _ hx)) (by simpa using hm)
      rw [List.cons_append]
      unfold stringLengthSafe
      simp only [hc, if_false, e]
      simp

namespace OscMessage

theorem decodeAddressPattern_scan (source : List Nat) (sizeInBytes : Nat) (s t : List Nat) :
    ∀ (fuel i : Nat) (acc : List Nat), source.drop i = s ++ 0 :: t → (∀ c ∈ s, c ≠ 0) →
      i + s.length < sizeInBytes → i + s.length < 2 ^ 32 → s.length < fuel →
      decodeAddressPattern source sizeInBytes fuel i acc = some (.next (i + s.length, acc ++ s)) := by
  induction s with
  | nil =>
    intro fuel i acc hd _ _ _ hf
    cases fuel with
    | zero => simp at hf
    | succ f =>
      have := (drop_eq_cons (by simpa using hd)).1
      simp [decodeAddressPattern, this]
  | cons c s ih =>
    intro fuel i acc hd h0 hs h32 hf
    cases fuel with
    | zero => simp at hf
    | succ f =>
      obtain ⟨h1, h2⟩ := drop_eq_cons (by simpa using hd)
      have hc : c ≠ 0 := h0 c (List.mem_cons_self _ _)
      simp only [List.length_cons] at hs h32 hf
      have hmod : toUInt32 (i + 1) = i + 1 := toUInt32_of_lt (by omega)
      have hlt : ¬ (i + 1 ≥ sizeInBytes) := by omega
      simp only [decodeAddressPattern, h1, hc, if_false, hmod, hlt]
      rw [ih f (i + 1) (acc ++ [c]) h2 (fun x hx => h0 x (List.mem_cons_of_mem _ hx))
        (by omega) (by omega) (by omega)]
      simp only [List.length_cons, List.append_assoc, List.singleton_append]
      congr 3
      omega

theorem decodeTypeTagString_scan (source : List Nat) (sizeInBytes : Nat) (s t : List Nat) :
    ∀ (fuel i : Nat) (acc : List Nat), source.drop i = s ++ 0 :: t → (∀ c ∈ s, c ≠ 0) →
      i + s.length < sizeInBytes → i + s.length < 2 ^ 32 → s.length < fuel →
      decodeTypeTagString source sizeInBytes fuel i acc = some (.next (i + s.length, acc ++ s)) := by
  induction s with
  | nil =>
    intro fuel i acc hd _ _ _ hf
    cases fuel with
    | zero => simp at hf
    | succ f =>
      have := (drop_eq_cons (by simpa using hd)).1
      simp [decodeTypeTagString, this]
  | cons c s ih =>
    intro fuel i acc hd h0 hs h32 hf
    cases fuel with
    | zero => simp at hf
    | succ f =>
      obtain ⟨h1, h2⟩ := drop_eq_cons (by simpa using hd)
      have hc : c ≠ 0 := h0 c (List.mem_cons_self _ _)
      simp only [List.length_cons] at hs h32 hf
      have hmod : toUInt32 (i + 1) = i + 1 := toUInt32_of_lt (by omega)
      have hlt : ¬ (i + 1 ≥ sizeInBytes) := by omega
      simp only [decodeTypeTagString, h1, hc, if_false, hmod, hlt]
      rw [ih f (i + 1) (acc ++ [c]) h2 (fun x hx => h0 x (List.mem_cons_of_mem _ hx))
        (by omega) (by omega) (by omega)]
      simp only [List.length_cons, List.append_assoc, List.singleton_append]
      congr 3
      omega

theorem decodeStringValue_scan (source : List Nat) (sourceIndex : Nat) (s t : List Nat) :
    ∀ (fuel i : Nat) (acc : List Nat), source.drop (sourceIndex + i) = s ++ 0 :: t →
      (∀ c ∈ s, c ≠ 0) → sourceIndex + i + s.length < 2 ^ 32 → s.length < fuel →
      decodeStringValue source sourceIndex fuel i acc = some (acc ++ s) := by
  induction s with
  | nil =>
    intro fuel i acc hd _ h32 hf
    cases fuel with
    | zero => simp at hf
    | succ f =>
      have := (drop_eq_cons (by simpa using hd)).1
      simp only [List.length_nil, Nat.add_zero] at h32
      simp [decodeStringValue, toUInt32_of_lt h32, this]
  | cons c s ih =>
    intro fuel i acc hd h0 h32 hf
    cases fuel with
    | zero => simp at hf
    | succ f =>
      obtain ⟨h1, h2⟩ := drop_eq_cons (by simpa using hd)
      have hc : c ≠ 0 := h0 c (List.mem_cons_self _ _)
      simp only [List.length_cons] at h32 hf
      have hmod : toUInt32 (sourceIndex + i) = sourceIndex + i := toUInt32_of_lt (by omega)
      simp only [decodeStringValue, hmod, h1, hc, if_false]
      rw [ih f (i + 1) (acc ++ [c]) (by rw [← Nat.add_assoc]; exact h2)
        (fun x hx => h0 x (List.mem_cons_of_mem _ hx)) (by omega) (by omega)]
      simp

/-- The skip loop: from `i`, the bytes at `i - 1 .. j - 2` are not commas and the byte at
`j - 1` is a comma. -/
theorem decodeSkipToTypeTags_scan (source : List Nat) (sizeInBytes : Nat) (z t : List Nat) :
    ∀ (fuel i : Nat), source.drop i = z ++ 44 :: t → (∀ c ∈ z, c ≠ 44) →
      i + z.length + 1 < sizeInBytes → i + z.length + 1 < 2 ^ 32 → z.length < fuel →
      decodeSkipToTypeTags source sizeInBytes fuel (i + 1)
        = some (.next (i + z.length + 1)) := by
  induction z with
  | nil =>
    intro fuel i hd _ _ h32 hf
    cases fuel with
    | zero => simp at hf
    | succ f =>
      have := (drop_eq_cons (by simpa using hd)).1
      simp only [List.length_nil, Nat.add_zero] at h32
      have hm : toUInt32 (i + 1 + 2 ^ 32 - 1) = i := toUInt32_pred (by omega)
      simp only [decodeSkipToTypeTags, hm, this, if_true, List.length_nil, Nat.add_zero]
  | cons c z ih =>
    intro fuel i hd h0 hs h32 hf
    cases fuel with
    | zero => simp at hf
    | succ f =>
      obtain ⟨h1, h2⟩ := drop_eq_cons (by simpa using hd)
      have hc : c ≠ 44 := h0 c (List.mem_cons_self _ _)
      simp only [List.length_cons] at hs h32 hf
      have hm : toUInt32 (i + 1 + 2 ^ 32 - 1) = i := toUInt32_pred (by omega)
      have hmod : toUInt32 (i + 1 + 1) = i + 1 + 1 := toUInt32_of_lt (by omega)
      have hlt : ¬ (i + 1 + 1 ≥ sizeInBytes) := by omega
      rw [decodeSkipToTypeTags, hm]
      simp only [h1]
      rw [if_neg hc, hmod, if_neg hlt]
      rw [ih f (i + 1) h2 (fun x hx => h0 x (List.mem_cons_of_mem _ hx))
        (by omega) (by omega) (by omega)]
      have e : i + 1 + z.length + 1 = i + (z.length + 1) + 1 := by omega
      simp only [List.length_cons, e]

theorem decodeAdvanceToArguments_eq (sizeInBytes i : Nat) (h32 : i + 4 < 2 ^ 32)
    (hs : getPaddedSize (i + 1) ≤ sizeInBytes) :
    decodeAdvanceToArguments sizeInBytes 4 i = .next (getPaddedSize (i + 1)) := by
  have hb := getPaddedSize_bounds (i + 1)
  have hm : i % 4 = 0 ∨ i % 4 = 1 ∨ i % 4 = 2 ∨ i % 4 = 3 := by omega
  have e1 : toUInt32 (i + 1) = i + 1 := toUInt32_of_lt (by omega)
  have e2 : toUInt32 (i + 1 + 1) = i + 1 + 1 := toUInt32_of_lt (by omega)
  have e3 : toUInt32 (i + 1 + 1 + 1) = i + 1 + 1 + 1 := toUInt32_of_lt (by omega)
  have e4 : toUInt32 (i + 1 + 1 + 1 + 1) = i + 1 + 1 + 1 + 1 := toUInt32_of_lt (by omega)
  rcases hm with h | h | h | h
  · have e : getPaddedSize (i + 1) = i + 1 + 1 + 1 + 1 := by
      unfold getPaddedSize; split <;> omega
    rw [e] at hs ⊢
    have g1 : ¬ i + 1 > sizeInBytes := by omega
    have g2 : ¬ i + 1 + 1 > sizeInBytes := by omega
    have g3 : ¬ i + 1 + 1 + 1 > sizeInBytes := by omega
    have g4 : ¬ i + 1 + 1 + 1 + 1 > sizeInBytes := by omega
    have m1 : (i + 1) % 4 ≠ 0 := by omega
    have m2 : (i + 1 + 1) % 4 ≠ 0 := by omega
    have m3 : (i + 1 + 1 + 1) % 4 ≠ 0 := by omega
    have m4 : ¬ (i + 1 + 1 + 1 + 1) % 4 ≠ 0 := by omega
    simp only [decodeAdvanceToArguments, e1, e2, e3, e4, g1, g2, g3, g4, m1, m2, m3, m4,
      if_false, if_true, ne_eq, not_false_eq_true]
  · have e : getPaddedSize (i + 1) = i + 1 + 1 + 1 := by
      unfold getPaddedSize; split <;> omega
    rw [e] at hs ⊢
    have g1 : ¬ i + 1 > sizeInBytes := by omega
    have g2 : ¬ i + 1 + 1 > sizeInBytes := by omega
    have g3 : ¬ i + 1 + 1 + 1 > sizeInBytes := by omega
    have m1 : (i + 1) % 4 ≠ 0 := by omega
    have m2 : (i + 1 + 1) % 4 ≠ 0 := by omega
    have m3 : ¬ (i + 1 + 1 + 1) % 4 ≠ 0 := by omega
    simp only [decodeAdvanceToArguments, e1, e2, e3, g1, g2, g3, m1, m2, m3,
      if_false, if_true, ne_eq, not_false_eq_true]
  · have e : getPaddedSize (i + 1) = i + 1 + 1 := by
      unfold getPaddedSize; split <;> omega
    rw [e] at hs ⊢
    have g1 : ¬ i + 1 > sizeInBytes := by omega
    have g2 : ¬ i + 1 + 1 > sizeInBytes := by omega
    have m1 : (i + 1) % 4 ≠ 0 := by omega
    have m2 : ¬ (i + 1 + 1) % 4 ≠ 0 := by omega
    simp only [decodeAdvanceToArguments, e1, e2, g1, g2, m1, m2,
      if_false, if_true, ne_eq, not_false_eq_true]
  · have e : getPaddedSize (i + 1) = i + 1 := by
      unfold getPaddedSize; split <;> omega
    rw [e] at hs ⊢
    have g1 : ¬ i + 1 > sizeInBytes := by omega
    have m1 : ¬ (i + 1) % 4 ≠ 0 := by omega
    simp only [decodeAdvanceToArguments, e1, g1, m1, if_false, if_true, ne_eq,
      not_false_eq_true]

end OscMessage

namespace OscArgument

theorem float32Eq_self (x : Nat) (h : float32IsNaN x = false) : float32Eq x x = true := by
  unfold float32Eq; simp [h]

theorem float64Eq_self (x : Nat) (h : float64IsNaN x = false) : float64Eq x x = true := by
  unfold float64Eq; simp [h]

theorem ne_false_int32 (d a : OscArgument) (hd : d.typeTag = Int32TypeTag)
    (ha : a.typeTag = Int32TypeTag) (hv : d.value % 2 ^ 32 = a.value % 2 ^ 32) :
    d.ne a = false := by
  have e : d.getInt32 = a.getInt32 := by
    simp only [getInt32, asInt32, hv]
  simp [ne, getType, hd, ha, e]

theorem ne_false_float32 (d a : OscArgument) (hd : d.typeTag = Float32TypeTag)
    (ha : a.typeTag = Float32TypeTag) (hv : d.value % 2 ^ 32 = a.value % 2 ^ 32)
    (hn : float32IsNaN a.getFloat32 = false) : d.ne a = false := by
  have e : d.getFloat32 = a.getFloat32 := by
    simp only [getFloat32, hv]
  simp [ne, getType, hd, ha, e, float32Eq_self _ hn, Float32TypeTag, Int32TypeTag]

theorem ne_false_rgba (d a : OscArgument) (hd : d.typeTag = RgbaColourTypeTag)
    (ha : a.typeTag = RgbaColourTypeTag) (hv : d.value % 2 ^ 32 = a.value % 2 ^ 32) :
    d.ne a = false := by
  have e : d.getRgbaColour = a.getRgbaColour := by
    simp only [getRgbaColour, RgbaColour.ofBits, RgbaColour.mk.injEq]
    omega
  simp [ne, getType, hd, ha, e, RgbaColourTypeTag, Float32TypeTag, Int32TypeTag, StringTypeTag,
    BlobTypeTag, Int64TypeTag, Float64TypeTag, TimeTagTypeTag, AlternateStringTypeTag,
    CharacterTypeTag]

theorem ne_false_midi (d a : OscArgument) (hd : d.typeTag = MidiMessageTypeTag)
    (ha : a.typeTag = MidiMessageTypeTag) (hv : d.value % 2 ^ 32 = a.value % 2 ^ 32) :
    d.ne a = false := by
  have e : d.getMidiMessage = a.getMidiMessage := by
    simp only [getMidiMessage, MidiMessageData.ofBits, MidiMessageData.mk.injEq]
    omega
  simp [ne, getType, hd, ha, e, MidiMessageTypeTag, RgbaColourTypeTag, Float32TypeTag,
    Int32TypeTag, StringTypeTag,
    BlobTypeTag, Int64TypeTag, Float64TypeTag, TimeTagTypeTag, AlternateStringTypeTag,
    CharacterTypeTag]

theorem ne_false_character (d a : OscArgument) (hd : d.typeTag = CharacterTypeTag)
    (ha : a.typeTag = CharacterTypeTag) (hv : d.value % 256 = a.value % 256) :
    d.ne a = false := by
  have e : d.getCharacter = a.getCharacter := by
    simp only [getCharacter, hv]
  simp [ne, getType, hd, ha, e, MidiMessageTypeTag, RgbaColourTypeTag, Float32TypeTag,
    Int32TypeTag, StringTypeTag,
    BlobTypeTag, Int64TypeTag, Float64TypeTag, TimeTagTypeTag, AlternateStringTypeTag,
    CharacterTypeTag]

theorem ne_false_int64 (d a : OscArgument) (hd : d.typeTag = Int64TypeTag)
    (ha : a.typeTag = Int64TypeTag) (hv : d.value % 2 ^ 64 = a.value % 2 ^ 64) :
    d.ne a = false := by
  have e : d.getInt64 = a.getInt64 := by
    simp only [getInt64, asInt64, hv]
  simp [ne, getType, hd, ha, e, Float32TypeTag,
    Int32TypeTag, StringTypeTag, BlobTypeTag, Int64TypeTag]

theorem ne_false_float64 (d a : OscArgument) (hd : d.typeTag = Float64TypeTag)
    (ha : a.typeTag = Float64TypeTag) (hv : d.value % 2 ^ 64 = a.value % 2 ^ 64)
    (hn : float64IsNaN a.getFloat64 = false) : d.ne a = false := by
  have e : d.getFloat64 = a.getFloat64 := by
    simp only [getFloat64, hv]
  simp [ne, getType, hd, ha, e, float64Eq_self _ hn, Float32TypeTag,
    Int32TypeTag, StringTypeTag, BlobTypeTag, Int64TypeTag, Float64TypeTag]

theorem ne_false_timeTag (d a : OscArgument) (hd : d.typeTag = TimeTagTypeTag)
    (ha : a.typeTag = TimeTagTypeTag) (hv : d.value % 2 ^ 64 = a.value % 2 ^ 64) :
    d.ne a = false := by
  have e : d.getTimeTag = a.getTimeTag := by
    simp only [getTimeTag, hv]
  simp [ne, getType, hd, ha, e, Float32TypeTag,
    Int32TypeTag, StringTypeTag, BlobTypeTag, Int64TypeTag, Float64TypeTag, TimeTagTypeTag]

theorem ne_false_string (d a : OscArgument)
    (ha : a.typeTag = StringTypeTag ∨ a.typeTag = AlternateStringTypeTag)
    (hd : d.typeTag = a.typeTag) (hv : d.stringValue = a.stringValue) :
    d.ne a = false := by
  rcases ha with ha | ha
  · rw [ha] at hd
    simp [ne, getType, hd, ha, getString, hv, Float32TypeTag,
      Int32TypeTag, StringTypeTag]
  · rw [ha] at hd
    simp [ne, getType, hd, ha, getString, getAlternateString, hv, Float32TypeTag,
      Int32TypeTag, StringTypeTag, BlobTypeTag, Int64TypeTag, Float64TypeTag, TimeTagTypeTag,
      AlternateStringTypeTag]

theorem ne_false_blob (d a : OscArgument) (hd : d.typeTag = BlobTypeTag)
    (ha : a.typeTag = BlobTypeTag) (hv : d.blobValue = a.blobValue) :
    d.ne a = false := by
  simp [ne, getType, hd, ha, getBlob, hv, Float32TypeTag,
    Int32TypeTag, StringTypeTag, BlobTypeTag]

theorem ne_false_marker (d a : OscArgument)
    (ha : a.typeTag = TrueTypeTag ∨ a.typeTag = FalseTypeTag ∨ a.typeTag = NilTypeTag
      ∨ a.typeTag = InfinitumTypeTag ∨ a.typeTag = BeginArrayTypeTag
      ∨ a.typeTag = EndArrayTypeTag)
    (hd : d.typeTag = a.typeTag) : d.ne a = false := by
  rcases ha with ha | ha | ha | ha | ha | ha <;>
  · rw [ha] at hd
    simp [ne, getType, hd, ha, MidiMessageTypeTag, RgbaColourTypeTag, Float32TypeTag,
      Int32TypeTag, StringTypeTag,
      BlobTypeTag, Int64TypeTag, Float64TypeTag, TimeTagTypeTag, AlternateStringTypeTag,
      CharacterTypeTag, TrueTypeTag, FalseTypeTag, NilTypeTag, InfinitumTypeTag,
      BeginArrayTypeTag, EndArrayTypeTag]

end OscArgument

namespace OscArgument

theorem size_32 (a : OscArgument)
    (h : a.typeTag = Int32TypeTag ∨ a.typeTag = Float32TypeTag ∨ a.typeTag = CharacterTypeTag
      ∨ a.typeTag = RgbaColourTypeTag ∨ a.typeTag = MidiMessageTypeTag) :
    a.getEncodedSize = 4 := by
  unfold getEncodedSize
  rw [if_pos h]

theorem size_string (a : OscArgument)
    (h : a.typeTag = StringTypeTag ∨ a.typeTag = AlternateStringTypeTag) :
    a.getEncodedSize = getPaddedSize (a.stringValue.length + 1) := by
  rcases h with h | h <;>
    simp [getEncodedSize, h, StringTypeTag, AlternateStringTypeTag, Int32TypeTag,
      Float32TypeTag, CharacterTypeTag, RgbaColourTypeTag, MidiMessageTypeTag]

theorem size_blob (a : OscArgument) (h : a.typeTag = BlobTypeTag) :
    a.getEncodedSize = 4 + getPaddedSize a.blobValue.length := by
  simp [getEncodedSize, h, BlobTypeTag, StringTypeTag, AlternateStringTypeTag, Int32TypeTag,
    Float32TypeTag, CharacterTypeTag, RgbaColourTypeTag, MidiMessageTypeTag]

theorem size_64 (a : OscArgument)
    (h : a.typeTag = Int64TypeTag ∨ a.typeTag = Float64TypeTag ∨ a.typeTag = TimeTagTypeTag) :
    a.getEncodedSize = 8 := by
  rcases h with h | h | h <;>
    simp [getEncodedSize, h, BlobTypeTag, StringTypeTag, AlternateStringTypeTag, Int32TypeTag,
      Float32TypeTag, CharacterTypeTag, RgbaColourTypeTag, MidiMessageTypeTag, Int64TypeTag,
      Float64TypeTag, TimeTagTypeTag]

theorem size_marker (a : OscArgument)
    (h : a.typeTag = TrueTypeTag ∨ a.typeTag = FalseTypeTag ∨ a.typeTag = NilTypeTag
      ∨ a.typeTag = InfinitumTypeTag ∨ a.typeTag = BeginArrayTypeTag
      ∨ a.typeTag = EndArrayTypeTag) :
    a.getEncodedSize = 0 := by
  rcases h with h | h | h | h | h | h <;>
    simp [getEncodedSize, h, BlobTypeTag, StringTypeTag, AlternateStringTypeTag, Int32TypeTag,
      Float32TypeTag, CharacterTypeTag, RgbaColourTypeTag, MidiMessageTypeTag, Int64TypeTag,
      Float64TypeTag, TimeTagTypeTag, TrueTypeTag, FalseTypeTag, NilTypeTag, InfinitumTypeTag,
      BeginArrayTypeTag, EndArrayTypeTag]

theorem payload_32 (a : OscArgument)
    (h : a.typeTag = Int32TypeTag ∨ a.typeTag = Float32TypeTag
      ∨ a.typeTag = RgbaColourTypeTag ∨ a.typeTag = MidiMessageTypeTag) :
    a.payload = encodeArgument32 a.value := by
  have hs : a.getEncodedSize = 4 := by
    apply size_32; tauto
  unfold payload encode
  rw [if_neg (by omega), if_pos h]

theorem payload_character (a : OscArgument) (h : a.typeTag = CharacterTypeTag) :
    a.payload = [0, 0, 0, a.value % 256] := by
  have hs : a.getEncodedSize = 4 := by
    apply size_32; tauto
  unfold payload encode
  simp [hs, h, CharacterTypeTag, RgbaColourTypeTag, MidiMessageTypeTag,
    Int32TypeTag, Float32TypeTag, Int64TypeTag, Float64TypeTag, TimeTagTypeTag]

theorem payload_64 (a : OscArgument)
    (h : a.typeTag = Int64TypeTag ∨ a.typeTag = Float64TypeTag ∨ a.typeTag = TimeTagTypeTag) :
    a.payload = encodeArgument64 a.value := by
  have hs : a.getEncodedSize = 8 := size_64 a h
  unfold payload encode
  rw [if_neg (by omega), if_neg, if_pos h]
  rcases h with h | h | h <;>
    simp [h, RgbaColourTypeTag, MidiMessageTypeTag,
      Int32TypeTag, Float32TypeTag, Int64TypeTag, Float64TypeTag, TimeTagTypeTag]

theorem payload_string (a : OscArgument)
    (h : a.typeTag = StringTypeTag ∨ a.typeTag = AlternateStringTypeTag) :
    a.payload = a.stringValue ++ List.replicate
      (getPaddedSize (a.stringValue.length + 1) - a.stringValue.length) 0 := by
  unfold payload
  rw [encode_string a _ h (Nat.le_refl _)]

theorem payload_blob (a : OscArgument) (h : a.typeTag = BlobTypeTag) :
    a.payload = encodeArgument32 a.blobValue.length ++ a.blobValue ++ List.replicate
      (getPaddedSize a.blobValue.length - a.blobValue.length) 0 := by
  unfold payload
  rw [encode_blob a _ h (Nat.le_refl _)]

end OscArgument

namespace OscMessage

theorem decodeArgument_int32 (source : List Nat) (sizeInBytes sourceIndex u : Nat)
    (hs : sourceIndex + 4 ≤ sizeInBytes)
    (hu : decodeArgument32 (source.drop sourceIndex) = some u) :
    decodeArgument source sizeInBytes sourceIndex Int32TypeTag
      = some (.next (OscArgument.uninitialised.setInt32 (asInt32 u))) := by
  unfold decodeArgument
  rw [if_pos (by simp), if_neg (by omega), hu]
  simp

theorem decodeArgument_float32 (source : List Nat) (sizeInBytes sourceIndex u : Nat)
    (hs : sourceIndex + 4 ≤ sizeInBytes)
    (hu : decodeArgument32 (source.drop sourceIndex) = some u) :
    decodeArgument source sizeInBytes sourceIndex Float32TypeTag
      = some (.next (OscArgument.uninitialised.setFloat32 u)) := by
  unfold decodeArgument
  rw [if_pos (by simp), if_neg (by omega), hu]
  simp [Float32TypeTag, Int32TypeTag]

theorem decodeArgument_character (source : List Nat) (sizeInBytes sourceIndex u c : Nat)
    (hs : sourceIndex + 4 ≤ sizeInBytes)
    (hu : decodeArgument32 (source.drop sourceIndex) = some u)
    (hc : source[toUInt32 (sourceIndex + 3)]? = some c) :
    decodeArgument source sizeInBytes sourceIndex CharacterTypeTag
      = some (.next (OscArgument.uninitialised.setCharacter c)) := by
  unfold decodeArgument
  rw [if_pos (by simp), if_neg (by omega), hu]
  simp [CharacterTypeTag, Float32TypeTag, Int32TypeTag, hc]

theorem decodeArgument_rgba (source : List Nat) (sizeInBytes sourceIndex u : Nat)
    (hs : sourceIndex + 4 ≤ sizeInBytes)
    (hu : decodeArgument32 (source.drop sourceIndex) = some u) :
    decodeArgument source sizeInBytes sourceIndex RgbaColourTypeTag
      = some (.next (OscArgument.uninitialised.setRgbaColour (RgbaColour.ofBits u))) := by
  unfold decodeArgument
  rw [if_pos (by simp), if_neg (by omega), hu]
  simp [RgbaColourTypeTag, CharacterTypeTag, Float32TypeTag, Int32TypeTag]

theorem decodeArgument_midi (source : List Nat) (sizeInBytes sourceIndex u : Nat)
    (hs : sourceIndex + 4 ≤ sizeInBytes)
    (hu : decodeArgument32 (source.drop sourceIndex) = some u) :
    decodeArgument source sizeInBytes sourceIndex MidiMessageTypeTag
      = some (.next (OscArgument.uninitialised.setMidiMessage (MidiMessageData.ofBits u))) := by
  unfold decodeArgument
  rw [if_pos (by simp), if_neg (by omega), hu]
  simp [MidiMessageTypeTag, RgbaColourTypeTag, CharacterTypeTag, Float32TypeTag, Int32TypeTag]

theorem decodeArgument_int64 (source : List Nat) (sizeInBytes sourceIndex u : Nat)
    (hs : sourceIndex + 8 ≤ sizeInBytes)
    (hu : decodeArgument64 (source.drop sourceIndex) = some u) :
    decodeArgument source sizeInBytes sourceIndex Int64TypeTag
      = some (.next (OscArgument.uninitialised.setInt64 (asInt64 u))) := by
  unfold decodeArgument
  rw [if_neg (by decide), if_neg (by decide), if_neg (by decide), if_pos (by simp),
    if_neg (by omega), hu]
  simp

theorem decodeArgument_float64 (source : List Nat) (sizeInBytes sourceIndex u : Nat)
    (hs : sourceIndex + 8 ≤ sizeInBytes)
    (hu : decodeArgument64 (source.drop sourceIndex) = some u) :
    decodeArgument source sizeInBytes sourceIndex Float64TypeTag
      = some (.next (OscArgument.uninitialised.setFloat64 u)) := by
  unfold decodeArgument
  rw [if_neg (by decide), if_neg (by decide), if_neg (by decide), if_pos (by simp),
    if_neg (by omega), hu]
  simp [Float64TypeTag, Int64TypeTag]

theorem decodeArgument_timeTag (source : List Nat) (sizeInBytes sourceIndex u : Nat)
    (hs : sourceIndex + 8 ≤ sizeInBytes)
    (hu : decodeArgument64 (source.drop sourceIndex) = some u) :
    decodeArgument source sizeInBytes sourceIndex TimeTagTypeTag
      = some (.next (OscArgument.uninitialised.setTimeTag u)) := by
  unfold decodeArgument
  rw [if_neg (by decide), if_neg (by decide), if_neg (by decide), if_pos (by simp),
    if_neg (by omega), hu]
  simp [TimeTagTypeTag, Float64TypeTag, Int64TypeTag]

theorem decodeArgument_marker (source : List Nat) (sizeInBytes sourceIndex : Nat) :
    decodeArgument source sizeInBytes sourceIndex TrueTypeTag
      = some (.next (OscArgument.uninitialised.setBool true))
    ∧ decodeArgument source sizeInBytes sourceIndex FalseTypeTag
      = some (.next (OscArgument.uninitialised.setBool false))
    ∧ decodeArgument source sizeInBytes sourceIndex NilTypeTag
      = some (.next OscArgument.uninitialised.setNil)
    ∧ decodeArgument source sizeInBytes sourceIndex InfinitumTypeTag
      = some (.next OscArgument.uninitialised.setInfinitum)
    ∧ decodeArgument source sizeInBytes sourceIndex BeginArrayTypeTag
      = some (.next OscArgument.uninitialised.setBeginArray)
    ∧ decodeArgument source sizeInBytes sourceIndex EndArrayTypeTag
      = some (.next OscArgument.uninitialised.setEndArray) := by
  refine ⟨?_, ?_, ?_, ?_, ?_, ?_⟩ <;>
  · unfold decodeArgument
    simp [MidiMessageTypeTag, RgbaColourTypeTag, Float32TypeTag,
      Int32TypeTag, StringTypeTag,
      BlobTypeTag, Int64TypeTag, Float64TypeTag, TimeTagTypeTag, AlternateStringTypeTag,
      CharacterTypeTag, TrueTypeTag, FalseTypeTag, NilTypeTag, InfinitumTypeTag,
      BeginArrayTypeTag, EndArrayTypeTag]

theorem decodeArgument_string (source : List Nat) (sizeInBytes sourceIndex type : Nat)
    (s : List Nat) (length : Nat)
    (ht : type = StringTypeTag ∨ type = AlternateStringTypeTag)
    (hl : stringLengthSafe (source.drop sourceIndex)
      (toSizeT (sizeInBytes + 2 ^ 64 - sourceIndex)) = some length)
    (h0 : length ≠ 0) (hp : getPaddedSize (sourceIndex + length + 1) ≤ sizeInBytes)
    (hv : decodeStringValue source sourceIndex source.length 0 [] = some s) :
    decodeArgument source sizeInBytes sourceIndex type
      = some (.next (if type = StringTypeTag then OscArgument.uninitialised.setString s
          else OscArgument.uninitialised.setAlternateString s)) := by
  unfold decodeArgument
  rw [if_neg (by rcases ht with h | h <;> rw [h] <;> decide), if_pos ht, hl]
  simp only
  rw [if_neg (by simp only [h0, false_or]; omega), hv]
  simp only
  split <;> rfl

theorem decodeArgument_blob (source : List Nat) (sizeInBytes sourceIndex u : Nat)
    (x : OscArgument)
    (hs : sourceIndex + 4 ≤ sizeInBytes)
    (hu : decodeArgument32 (source.drop sourceIndex) = some u)
    (hc : toSizeT (sourceIndex + 4 + toSizeT (getPaddedSize (int32ToSizeT (asInt32 u))))
      ≤ sizeInBytes)
    (hb : OscArgument.uninitialised.setBlob (source.drop (sourceIndex + 4))
      (int32ToSizeT (asInt32 u)) = some x) :
    decodeArgument source sizeInBytes sourceIndex BlobTypeTag = some (.next x) := by
  unfold decodeArgument
  rw [if_neg (by decide), if_neg (by decide), if_pos rfl, if_neg (by omega), hu]
  simp only
  rw [if_neg (by omega), hb]

end OscMessage

theorem getPaddedSize_add (i x : Nat) (h : i % 4 = 0) :
    getPaddedSize (i + x) = i + getPaddedSize x := by
  unfold getPaddedSize
  split <;> split <;> omega

theorem replicate_pad (k : Nat) (h : 1 ≤ k) (rest : List Nat) :
    List.replicate k 0 ++ rest = 0 :: (List.replicate (k - 1) 0 ++ rest) := by
  cases k with
  | zero => omega
  | succ n => simp [List.replicate]

namespace OscMessage

theorem decodeArgument_payload_string (a : OscArgument) (source rest : List Nat)
    (sizeInBytes sourceIndex : Nat)
    (ht : a.typeTag = StringTypeTag ∨ a.typeTag = AlternateStringTypeTag)
    (hne : a.stringValue ≠ []) (h0 : ∀ c ∈ a.stringValue, c ≠ 0)
    (hd : source.drop sourceIndex = a.payload ++ rest) (h4 : sourceIndex % 4 = 0)
    (hs : sourceIndex + a.getEncodedSize ≤ sizeInBytes) (h32 : sizeInBytes < 2 ^ 32) :
    ∃ d, decodeArgument source sizeInBytes sourceIndex a.typeTag = some (.next d)
      ∧ d.typeTag = a.typeTag ∧ d.getEncodedSize = a.getEncodedSize ∧ d.ne a = false := by
  have hsz := OscArgument.size_string a ht
  have hb := getPaddedSize_bounds (a.stringValue.length + 1)
  rw [hsz] at hs
  rw [OscArgument.payload_string a ht, List.append_assoc,
    replicate_pad _ (by omega)] at hd
  have hlen : a.stringValue.length < source.length := by
    have := congrArg List.length hd
    simp only [List.length_drop, List.length_append, List.length_cons] at this
    omega
  have hl : stringLengthSafe (source.drop sourceIndex)
      (toSizeT (sizeInBytes + 2 ^ 64 - sourceIndex)) = some a.stringValue.length := by
    rw [toSizeT_sub (by omega) (by omega), hd]
    exact stringLengthSafe_scan _ _ _ h0 (by omega)
  have hv : decodeStringValue source sourceIndex source.length 0 [] = some a.stringValue := by
    have := decodeStringValue_scan source sourceIndex a.stringValue _ source.length 0 []
      (by simpa using hd) h0 (by omega) hlen
    simpa using this
  have hl0 : a.stringValue.length ≠ 0 := by
    intro h; exact hne (List.length_eq_zero.mp h)
  have hp : getPaddedSize (sourceIndex + a.stringValue.length + 1) ≤ sizeInBytes := by
    rw [Nat.add_assoc, getPaddedSize_add _ _ h4]; omega
  refine ⟨_, decodeArgument_string source sizeInBytes sourceIndex a.typeTag a.stringValue _
    ht hl hl0 hp hv, ?_, ?_, ?_⟩
  · rcases ht with h | h <;> rw [h] <;> simp [OscArgument.setString,
      OscArgument.setAlternateString, StringTypeTag, AlternateStringTypeTag]
  · rw [hsz]
    rcases ht with h | h
    · rw [h, if_pos rfl, OscArgument.size_string _ (Or.inl rfl)]; rfl
    · rw [h, if_neg (by decide), OscArgument.size_string _ (Or.inr rfl)]; rfl
  · apply OscArgument.ne_false_string _ _ ht
    · rcases ht with h | h <;> rw [h] <;> simp [OscArgument.setString,
        OscArgument.setAlternateString, StringTypeTag, AlternateStringTypeTag]
    · split <;> rfl

theorem decodeArgument_payload_blob (a : OscArgument) (source rest : List Nat)
    (sizeInBytes sourceIndex : Nat)
    (ht : a.typeTag = BlobTypeTag) (hlen : a.blobValue.length < 2 ^ 31)
    (hd : source.drop sourceIndex = a.payload ++ rest)
    (hs : sourceIndex + a.getEncodedSize ≤ sizeInBytes) (h32 : sizeInBytes < 2 ^ 32) :
    ∃ d, decodeArgument source sizeInBytes sourceIndex a.typeTag = some (.next d)
      ∧ d.typeTag = a.typeTag ∧ d.getEncodedSize = a.getEncodedSize ∧ d.ne a = false := by
  have hsz := OscArgument.size_blob a ht
  have hb := getPaddedSize_bounds a.blobValue.length
  rw [hsz] at hs
  rw [OscArgument.payload_blob a ht, List.append_assoc, List.append_assoc] at hd
  have hu : decodeArgument32 (source.drop sourceIndex) = some a.blobValue.length := by
    rw [hd, decodeArgument32_encodeArgument32, Nat.mod_eq_of_lt (by omega)]
  have hi : int32ToSizeT (asInt32 a.blobValue.length) = a.blobValue.length := by
    unfold int32ToSizeT asInt32
    split <;> omega
  have hd4 : source.drop (sourceIndex + 4)
      = a.blobValue ++ (List.replicate
        (getPaddedSize a.blobValue.length - a.blobValue.length) 0 ++ rest) := by
    have := drop_append_drop hd
    simpa [encodeArgument32] using this
  have hc : toSizeT (sourceIndex + 4 + toSizeT (getPaddedSize
      (int32ToSizeT (asInt32 a.blobValue.length)))) ≤ sizeInBytes := by
    rw [hi, toSizeT_of_lt (n := getPaddedSize a.blobValue.length) (by omega),
      toSizeT_of_lt (by omega)]
    omega
  have hsb : OscArgument.uninitialised.setBlob (source.drop (sourceIndex + 4))
      (int32ToSizeT (asInt32 a.blobValue.length))
      = some { OscArgument.uninitialised with
          typeTag := BlobTypeTag, blobValue := a.blobValue } := by
    rw [hi, hd4]
    unfold OscArgument.setBlob
    rw [if_pos (by simp; omega)]
    simp [OscArgument.uninitialised]
  rw [ht]
  refine ⟨_, decodeArgument_blob source sizeInBytes sourceIndex _ _ (by omega) hu hc hsb,
    rfl, ?_, ?_⟩
  · rw [hsz, OscArgument.size_blob _ rfl]
  · exact OscArgument.ne_false_blob _ _ rfl ht rfl

end OscMessage

namespace OscMessage

theorem decodeArgument_payload (a : OscArgument) (hp : a.Portable) (source rest : List Nat)
    (sizeInBytes sourceIndex : Nat)
    (hd : source.drop sourceIndex = a.payload ++ rest) (h4 : sourceIndex % 4 = 0)
    (hs : sourceIndex + a.getEncodedSize ≤ sizeInBytes) (h32 : sizeInBytes < 2 ^ 32) :
    ∃ d, decodeArgument source sizeInBytes sourceIndex a.typeTag = some (.next d)
      ∧ d.typeTag = a.typeTag ∧ d.getEncodedSize = a.getEncodedSize ∧ d.ne a = false := by
  rcases hp with h | h | h | h | h | h | h | h | h | h | h | h | ⟨h, hn⟩ | ⟨h, hn⟩
    | ⟨h, hne, h0⟩ | ⟨h, hl⟩
  · -- Int32
    have hsz := OscArgument.size_32 a (by tauto)
    rw [OscArgument.payload_32 a (by tauto)] at hd
    have hu := decodeArgument32_encodeArgument32 a.value rest
    rw [← hd] at hu
    rw [h]
    refine ⟨_, decodeArgument_int32 source sizeInBytes sourceIndex _ (by omega) hu, rfl, ?_, ?_⟩
    · rw [hsz, OscArgument.size_32 _ (Or.inl rfl)]
    · apply OscArgument.ne_false_int32 _ _ rfl h
      simp only [OscArgument.setInt32, OscArgument.storeLow, OscArgument.uninitialised,
        ofInt32, asInt32]
      split <;> omega
  · -- Character
    have hsz := OscArgument.size_32 a (by tauto)
    rw [OscArgument.payload_character a h] at hd
    have hu : decodeArgument32 (source.drop sourceIndex) = some (a.value % 256) := by
      rw [hd]; simp [decodeArgument32]
    have h3 : source[toUInt32 (sourceIndex + 3)]? = some (a.value % 256) := by
      rw [toUInt32_of_lt (by omega), getElem?_of_drop, hd]
      simp
    rw [h]
    refine ⟨_, decodeArgument_character source sizeInBytes sourceIndex _ _ (by omega) hu h3,
      rfl, ?_, ?_⟩
    · rw [hsz, OscArgument.size_32 _ (Or.inr (Or.inr (Or.inl rfl)))]
    · apply OscArgument.ne_false_character _ _ rfl h
      simp only [OscArgument.setCharacter, OscArgument.storeLow, OscArgument.uninitialised]
      omega
  · -- RgbaColour
    have hsz := OscArgument.size_32 a (by tauto)
    rw [OscArgument.payload_32 a (by tauto)] at hd
    have hu := decodeArgument32_encodeArgument32 a.value rest
    rw [← hd] at hu
    rw [h]
    refine ⟨_, decodeArgument_rgba source sizeInBytes sourceIndex _ (by omega) hu, rfl, ?_, ?_⟩
    · rw [hsz, OscArgument.size_32 _ (Or.inr (Or.inr (Or.inr (Or.inl rfl))))]
    · apply OscArgument.ne_false_rgba _ _ rfl h
      simp only [OscArgument.setRgbaColour, OscArgument.storeLow, OscArgument.uninitialised,
        RgbaColour.ofBits, RgbaColour.toBits]
      omega
  · -- MidiMessage
    have hsz := OscArgument.size_32 a (by tauto)
    rw [OscArgument.payload_32 a (by tauto)] at hd
    have hu := decodeArgument32_encodeArgument32 a.value rest
    rw [← hd] at hu
    rw [h]
    refine ⟨_, decodeArgument_midi source sizeInBytes sourceIndex _ (by omega) hu, rfl, ?_, ?_⟩
    · rw [hsz, OscArgument.size_32 _ (Or.inr (Or.inr (Or.inr (Or.inr rfl))))]
    · apply OscArgument.ne_false_midi _ _ rfl h
      simp only [OscArgument.setMidiMessage, OscArgument.storeLow, OscArgument.uninitialised,
        MidiMessageData.ofBits, MidiMessageData.toBits]
      omega
  · -- Int64
    have hsz := OscArgument.size_64 a (by tauto)
    rw [OscArgument.payload_64 a (by tauto)] at hd
    have hu := decodeArgument64_encodeArgument64 a.value rest
    rw [← hd] at hu
    rw [h]
    refine ⟨_, decodeArgument_int64 source sizeInBytes sourceIndex _ (by omega) hu, rfl, ?_, ?_⟩
    · rw [hsz, OscArgument.size_64 _ (Or.inl rfl)]
    · apply OscArgument.ne_false_int64 _ _ rfl h
      simp only [OscArgument.setInt64, ofInt64, asInt64]
      split <;> omega
  · -- TimeTag
    have hsz := OscArgument.size_64 a (by tauto)
    rw [OscArgument.payload_64 a (by tauto)] at hd
    have hu := decodeArgument64_encodeArgument64 a.value rest
    rw [← hd] at hu
    rw [h]
    refine ⟨_, decodeArgument_timeTag source sizeInBytes sourceIndex _ (by omega) hu, rfl, ?_, ?_⟩
    · rw [hsz, OscArgument.size_64 _ (Or.inr (Or.inr rfl))]
    · apply OscArgument.ne_false_timeTag _ _ rfl h
      simp only [OscArgument.setTimeTag]
      omega
  · rw [h]
    exact ⟨_, (decodeArgument_marker source sizeInBytes sourceIndex).1, rfl,
      by rw [OscArgument.size_marker a (by tauto), OscArgument.size_marker _ (Or.inl rfl)],
      OscArgument.ne_false_marker _ _ (by tauto) (by rw [h]; rfl)⟩
  · rw [h]
    exact ⟨_, (decodeArgument_marker source sizeInBytes sourceIndex).2.1, rfl,
      by rw [OscArgument.size_marker a (by tauto),
        OscArgument.size_marker _ (Or.inr (Or.inl rfl))],
      OscArgument.ne_false_marker _ _ (by tauto) (by rw [h]; rfl)⟩
  · rw [h]
    exact ⟨_, (decodeArgument_marker source sizeInBytes sourceIndex).2.2.1, rfl,
      by rw [OscArgument.size_marker a (by tauto),
        OscArgument.size_marker _ (Or.inr (Or.inr (Or.inl rfl)))],
      OscArgument.ne_false_marker _ _ (by tauto) (by rw [h]; rfl)⟩
  · rw [h]
    exact ⟨_, (decodeArgument_marker source sizeInBytes sourceIndex).2.2.2.1, rfl,
      by rw [OscArgument.size_marker a (by tauto),
        OscArgument.size_marker _ (Or.inr (Or.inr (Or.inr (Or.inl rfl))))],
      OscArgument.ne_false_marker _ _ (by tauto) (by rw [h]; rfl)⟩
  · rw [h]
    exact ⟨_, (decodeArgument_marker source sizeInBytes sourceIndex).2.2.2.2.1, rfl,
      by rw [OscArgument.size_marker a (by tauto),
        OscArgument.size_marker _ (Or.inr (Or.inr (Or.inr (Or.inr (Or.inl rfl)))))],
      OscArgument.ne_false_marker _ _ (by tauto) (by rw [h]; rfl)⟩
  · rw [h]
    exact ⟨_, (decodeArgument_marker source sizeInBytes sourceIndex).2.2.2.2.2, rfl,
      by rw [OscArgument.size_marker a (by tauto),
        OscArgument.size_marker _ (Or.inr (Or.inr (Or.inr (Or.inr (Or.inr rfl)))))],
      OscArgument.ne_false_marker _ _ (by tauto) (by rw [h]; rfl)⟩
  · -- Float32
    have hsz := OscArgument.size_32 a (by tauto)
    rw [OscArgument.payload_32 a (by tauto)] at hd
    have hu := decodeArgument32_encodeArgument32 a.value rest
    rw [← hd] at hu
    rw [h]
    refine ⟨_, decodeArgument_float32 source sizeInBytes sourceIndex _ (by omega) hu,
      rfl, ?_, ?_⟩
    · rw [hsz, OscArgument.size_32 _ (Or.inr (Or.inl rfl))]
    · apply OscArgument.ne_false_float32 _ _ rfl h _ hn
      simp only [OscArgument.setFloat32, OscArgument.storeLow, OscArgument.uninitialised]
      omega
  · -- Float64
    have hsz := OscArgument.size_64 a (by tauto)
    rw [OscArgument.payload_64 a (by tauto)] at hd
    have hu := decodeArgument64_encodeArgument64 a.value rest
    rw [← hd] at hu
    rw [h]
    refine ⟨_, decodeArgument_float64 source sizeInBytes sourceIndex _ (by omega) hu,
      rfl, ?_, ?_⟩
    · rw [hsz, OscArgument.size_64 _ (Or.inr (Or.inl rfl))]
    · apply OscArgument.ne_false_float64 _ _ rfl h _ hn
      simp only [OscArgument.setFloat64]
      omega
  · exact decodeArgument_payload_string a source rest sizeInBytes sourceIndex h hne h0 hd h4
      hs h32
  · exact decodeArgument_payload_blob a source rest sizeInBytes sourceIndex h hl hd hs h32

theorem argument_size_mod_four (a : OscArgument) : a.getEncodedSize % 4 = 0 := by
  unfold OscArgument.getEncodedSize
  have h1 := getPaddedSize_mod (a.stringValue.length + 1)
  have h2 := getPaddedSize_mod a.blobValue.length
  split_ifs <;> omega

theorem argumentsDiffer_append (ds as : List OscArgument) (d a : OscArgument)
    (hl : ds.length = as.length) (h : argumentsDiffer ds as = false) (hne : d.ne a = false) :
    argumentsDiffer (ds ++ [d]) (as ++ [a]) = false := by
  induction ds generalizing as with
  | nil =>
    cases as with
    | nil => simp [argumentsDiffer, hne]
    | cons _ _ => simp at hl
  | cons x xs ih =>
    cases as with
    | nil => simp at hl
    | cons y ys =>
      simp only [List.cons_append, argumentsDiffer] at h ⊢
      by_cases hxy : x.ne y = true
      · simp [hxy] at h
      · simp only [hxy, if_false] at h ⊢
        exact ih ys (by simpa using hl) h

/-- The loop over the type tags reads back the arguments `as` from their payloads. -/
theorem decodeArguments_payload (source : List Nat) (sizeInBytes : Nat)
    (h32 : sizeInBytes < 2 ^ 32) (as : List OscArgument) :
    ∀ (sourceIndex : Nat) (done orig : List OscArgument) (rest : List Nat),
      (∀ a ∈ as, a.Portable) →
      source.drop sourceIndex = (as.map OscArgument.payload).flatten ++ rest →
      sourceIndex % 4 = 0 →
      sourceIndex + (as.map OscArgument.getEncodedSize).sum ≤ sizeInBytes →
      done.length = orig.length → argumentsDiffer done orig = false →
      ∃ ds, decodeArguments source sizeInBytes (as.map OscArgument.getType) sourceIndex done
          = some (.next ds)
        ∧ ds.length = (orig ++ as).length ∧ argumentsDiffer ds (orig ++ as) = false := by
  induction as with
  | nil =>
    intro sourceIndex done orig rest _ _ _ _ hl hdiff
    exact ⟨done, by simp [decodeArguments], by simpa using hl, by simpa using hdiff⟩
  | cons a as ih =>
    intro sourceIndex done orig rest hp hd h4 hs hl hdiff
    simp only [List.map_cons, List.flatten_cons, List.sum_cons, List.append_assoc] at hd hs
    obtain ⟨d, hdec, htag, hsz, hne⟩ := decodeArgument_payload a
      (hp a (List.mem_cons_self _ _)) source _ sizeInBytes sourceIndex hd h4 (by omega) h32
    have hpl := (OscArgument.argument_encode_fits a a.getEncodedSize (Nat.le_refl _)).2
    have hd2 := drop_append_drop hd
    rw [hpl] at hd2
    have hm := argument_size_mod_four a
    obtain ⟨ds, h1, h2, h3⟩ := ih (sourceIndex + a.getEncodedSize) (done ++ [d]) (orig ++ [a])
      rest (fun x hx => hp x (List.mem_cons_of_mem _ hx)) hd2 (by omega) (by omega)
      (by simp [hl]) (argumentsDiffer_append _ _ _ _ hl hdiff hne)
    refine ⟨ds, ?_, by simpa using h2, by simpa using h3⟩
    simp only [List.map_cons, decodeArguments, OscArgument.getType, hdec, hsz]
    rw [toUInt32_of_lt (by omega)]
    exact h1

end OscMessage

theorem replicate_zero_cons (k : Nat) (h : 1 ≤ k) :
    List.replicate k 0 = 0 :: List.replicate (k - 1) 0 := by
  cases k with
  | zero => omega
  | succ n => simp [List.replicate]

theorem drop_append_drop_at {source : List Nat} {i j : Nat} {s tl : List Nat}
    (h : source.drop i = s ++ tl) (hj : j = i + s.length) : source.drop j = tl := by
  rw [hj]; exact drop_append_drop h

namespace OscArgument

theorem Portable.typeTag_ne_zero {a : OscArgument} (h : a.Portable) : a.typeTag ≠ 0 := by
  rcases h with h | h | h | h | h | h | h | h | h | h | h | h | ⟨h, _⟩ | ⟨h, _⟩
    | ⟨h | h, _⟩ | ⟨h, _⟩ <;> rw [h] <;> decide

end OscArgument

namespace OscMessage

theorem message_wire_length (m : OscMessage) : m.wire.length = m.getEncodedSize := by
  have h := message_encode_fits m m.getEncodedSize (Nat.le_refl _)
  have ha := getPaddedSize_bounds (m.addressPattern.length + 1)
  have ht := getPaddedSize_bounds (m.arguments.length + 2)
  have e2 : getPaddedSize (m.arguments.length + 2)
      = getPaddedSize (m.arguments.length + 1 + 1) := rfl
  have hp : ∀ l : List OscArgument, (l.map OscArgument.payload).flatten.length
      = (l.map OscArgument.getEncodedSize).sum := by
    intro l
    induction l with
    | nil => rfl
    | cons a l ih =>
      simp only [List.map_cons, List.flatten_cons, List.length_append, List.sum_cons, ih,
        (OscArgument.argument_encode_fits a a.getEncodedSize (Nat.le_refl _)).2]
  simp only [wire, getEncodedSize, getEncodedArgumentsSize, List.length_append,
    List.length_replicate, List.length_map, List.length_cons, List.length_nil, hp]
  omega

theorem sum_sizes_mod_four (l : List OscArgument) :
    (l.map OscArgument.getEncodedSize).sum % 4 = 0 := by
  induction l with
  | nil => rfl
  | cons a l ih =>
    have := argument_size_mod_four a
    simp only [List.map_cons, List.sum_cons]
    omega

/-- Decoding the encoding of a portable message (followed by any bytes `rest`). -/
theorem message_decode_wire (m : OscMessage) (hp : m.Portable) (h32 : m.getEncodedSize < 2 ^ 32)
    (rest : List Nat) :
    ∃ ds, OscMessage.new.decode (m.wire ++ rest) m.getEncodedSize
        = some (⟨0, m.addressPattern, ds⟩, .OscErrorNone)
      ∧ ds.length = m.arguments.length ∧ argumentsDiffer ds m.arguments = false := by
  obtain ⟨hhead, hnul, hlast, hargs⟩ := hp
  -- sizes
  have hwl := message_wire_length m
  have hA := getPaddedSize_bounds (m.addressPattern.length + 1)
  have hAm := getPaddedSize_mod (m.addressPattern.length + 1)
  have hT := getPaddedSize_bounds (m.arguments.length + 2)
  have hTm := getPaddedSize_mod (m.arguments.length + 2)
  have hS : m.getEncodedSize = getPaddedSize (m.addressPattern.length + 1)
      + getPaddedSize (m.arguments.length + 2)
      + (m.arguments.map OscArgument.getEncodedSize).sum := rfl
  have hane : m.addressPattern ≠ [] := by
    intro h; rw [h] at hhead; simp at hhead
  have hal : 1 ≤ m.addressPattern.length := by
    cases hx : m.addressPattern with
    | nil => exact absurd hx hane
    | cons _ _ => simp
  generalize hsrc : m.wire ++ rest = source at *
  have hlen : m.getEncodedSize ≤ source.length := by
    rw [← hsrc, List.length_append, hwl]; omega
  -- the segments of the source
  have d0 : source.drop 0 = m.addressPattern
      ++ (0 :: (List.replicate (getPaddedSize (m.addressPattern.length + 1)
          - m.addressPattern.length - 1) 0
        ++ (44 :: (m.arguments.map OscArgument.getType
          ++ (0 :: (List.replicate (getPaddedSize (m.arguments.length + 2)
              - (m.arguments.length + 1) - 1) 0
            ++ ((m.arguments.map OscArgument.payload).flatten ++ rest))))))) := by
    rw [← hsrc, List.drop_zero]
    unfold wire
    rw [replicate_zero_cons (getPaddedSize (m.addressPattern.length + 1)
      - m.addressPattern.length) (by omega), replicate_zero_cons (getPaddedSize
        (m.arguments.length + 2) - (m.arguments.length + 1)) (by omega)]
    simp only [List.append_assoc, List.cons_append, List.nil_append, List.append_nil]
  have dA := drop_append_drop_at (j := m.addressPattern.length) d0 (by simp)
  have dA1 := drop_append_drop_at (j := getPaddedSize (m.addressPattern.length + 1))
    (s := 0 :: List.replicate (getPaddedSize
      (m.addressPattern.length + 1) - m.addressPattern.length - 1) 0) (by rw [dA]; rfl)
    (by simp only [List.length_cons, List.length_replicate]; omega)
  have dA2 := (drop_eq_cons dA1).2
  have dT := drop_append_drop_at (j := getPaddedSize (m.addressPattern.length + 1) + 1
    + m.arguments.length) dA2 (by simp)
  have dT1 := drop_append_drop_at (j := getPaddedSize (m.addressPattern.length + 1)
      + getPaddedSize (m.arguments.length + 2))
    (s := 0 :: List.replicate (getPaddedSize
      (m.arguments.length + 2) - (m.arguments.length + 1) - 1) 0) (by rw [dT]; rfl)
    (by simp only [List.length_cons, List.length_replicate]; omega)
  -- the last byte of the address pattern
  have dL : source.drop (m.addressPattern.length - 1)
      = (m.addressPattern.getLast hane :: List.replicate (getPaddedSize
          (m.addressPattern.length + 1) - m.addressPattern.length) 0)
        ++ 44 :: (m.arguments.map OscArgument.getType
          ++ (0 :: (List.replicate (getPaddedSize (m.arguments.length + 2)
              - (m.arguments.length + 1) - 1) 0
            ++ ((m.arguments.map OscArgument.payload).flatten ++ rest)))) := by
    have e := List.dropLast_append_getLast hane
    obtain ⟨tl, htl⟩ : ∃ tl, tl = 0 :: (List.replicate (getPaddedSize
        (m.addressPattern.length + 1) - m.addressPattern.length - 1) 0
        ++ (44 :: (m.arguments.map OscArgument.getType
          ++ (0 :: (List.replicate (getPaddedSize (m.arguments.length + 2)
              - (m.arguments.length + 1) - 1) 0
            ++ ((m.arguments.map OscArgument.payload).flatten ++ rest)))))) := ⟨_, rfl⟩
    have d0' : source.drop 0 = m.addressPattern.dropLast
        ++ ([m.addressPattern.getLast hane] ++ tl) := by
      rw [← List.append_assoc, e, htl]; exact d0
    have := drop_append_drop_at (j := m.addressPattern.length - 1) d0'
      (by simp only [List.length_dropLast, Nat.zero_add])
    rw [this, htl, replicate_zero_cons (getPaddedSize (m.addressPattern.length + 1)
      - m.addressPattern.length) (by omega)]
    simp
  have hz : ∀ c ∈ (m.addressPattern.getLast hane :: List.replicate (getPaddedSize
      (m.addressPattern.length + 1) - m.addressPattern.length) 0), c ≠ 44 := by
    intro c hc
    simp only [List.mem_cons, List.mem_replicate] at hc
    rcases hc with hc | ⟨_, hc⟩
    · intro h44
      apply hlast
      rw [List.getLast?_eq_getLast _ hane, ← hc, h44]
    · rw [hc]; decide
  have htags : ∀ c ∈ m.arguments.map OscArgument.getType, c ≠ 0 := by
    intro c hc
    simp only [List.mem_map] at hc
    obtain ⟨a, ha, rfl⟩ := hc
    exact (hargs a ha).typeTag_ne_zero
  -- the steps of decode
  have h0 : source[0]? = some 47 := by
    have : source = source.drop 0 := by simp
    rw [this, d0]
    cases hx : m.addressPattern with
    | nil => exact absurd hx hane
    | cons c cs =>
      rw [hx] at hhead
      simp only [List.head?_cons, Option.some.injEq] at hhead
      simp [hhead]
  have s1 : stringLengthSafe source m.getEncodedSize = some m.addressPattern.length := by
    have : source = source.drop 0 := by simp
    rw [this, d0]
    exact stringLengthSafe_scan _ _ _ hnul (by omega)
  have s2 := decodeAddressPattern_scan source m.getEncodedSize m.addressPattern _
    source.length 0 [] d0 hnul (by omega) (by omega) (by omega)
  have s3 := decodeSkipToTypeTags_scan source m.getEncodedSize _ _ source.length
    (m.addressPattern.length - 1) dL hz
    (by simp only [List.length_cons, List.length_replicate]; omega)
    (by simp only [List.length_cons, List.length_replicate]; omega)
    (by simp only [List.length_cons, List.length_replicate]; omega)
  have e3 : m.addressPattern.length - 1 + (m.addressPattern.getLast hane :: List.replicate
      (getPaddedSize (m.addressPattern.length + 1) - m.addressPattern.length) 0).length + 1
      = getPaddedSize (m.addressPattern.length + 1) + 1 := by
    simp only [List.length_cons, List.length_replicate]; omega
  have e3' : m.addressPattern.length - 1 + 1 = m.addressPattern.length := by omega
  rw [e3, e3'] at s3
  have s4 : stringLengthSafe (source.drop (getPaddedSize (m.addressPattern.length + 1) + 1))
      (toSizeT (m.getEncodedSize + 2 ^ 64 - (getPaddedSize (m.addressPattern.length + 1) + 1)))
      = some (m.arguments.map OscArgument.getType).length := by
    rw [toSizeT_sub (by omega) (by omega), dA2]
    exact stringLengthSafe_scan _ _ _ htags (by simp only [List.length_map]; omega)
  have s5 := decodeTypeTagString_scan source m.getEncodedSize _ _ source.length
    (getPaddedSize (m.addressPattern.length + 1) + 1) [] dA2 htags
    (by simp only [List.length_map]; omega) (by simp only [List.length_map]; omega)
    (by simp only [List.length_map]; omega)
  simp only [List.length_map, List.nil_append] at s5
  have e6 : getPaddedSize (getPaddedSize (m.addressPattern.length + 1) + 1
      + m.arguments.length + 1)
      = getPaddedSize (m.addressPattern.length + 1) + getPaddedSize (m.arguments.length + 2) := by
    have : getPaddedSize (m.addressPattern.length + 1) + 1 + m.arguments.length + 1
        = getPaddedSize (m.addressPattern.length + 1) + (m.arguments.length + 2) := by omega
    rw [this, getPaddedSize_add _ _ hAm]
  have s6 := decodeAdvanceToArguments_eq m.getEncodedSize
    (getPaddedSize (m.addressPattern.length + 1) + 1 + m.arguments.length)
    (by omega) (by rw [e6]; omega)
  rw [e6] at s6
  obtain ⟨ds, s7, hl, hdiff⟩ := decodeArguments_payload source m.getEncodedSize h32 m.arguments
    (getPaddedSize (m.addressPattern.length + 1) + getPaddedSize (m.arguments.length + 2))
    [] [] rest hargs dT1 (by omega) (by omega) rfl rfl
  refine ⟨ds, ?_, by simpa using hl, by simpa using hdiff⟩
  unfold decode
  have hsm := sum_sizes_mod_four m.arguments
  have c1 : ¬ m.getEncodedSize = 0 := by omega
  have c2 : ¬ m.getEncodedSize % 4 ≠ 0 := by omega
  have c3 : ¬ m.getEncodedSize < MinOscMessageSize := by
    unfold MinOscMessageSize; omega
  rw [if_neg c1, if_neg c2, if_neg c3, h0]
  simp only [ne_eq, not_true_eq_false, if_false, s1]
  rw [if_neg (by omega)]
  simp only [new, s2, Nat.zero_add, List.nil_append, s3, s4, s5, s6, s7]

end OscMessage

/-- C4: `OscMessage::encode` into a destination of at least `getEncodedSize()` bytes stores
the address pattern, then NUL bytes up to the next multiple of 4 (1 to 4 of them), then ','
and the type tag of each argument in order, then NUL bytes up to the next multiple of 4 (1
to 4 of them), then the encoded payload of each argument in order; it returns
`getEncodedSize()`, the number of bytes stored. -/
theorem message_encode_layout (m : OscMessage) (n : Nat) (h : m.getEncodedSize ≤ n) :
    (m.encode n).bytes
        = m.addressPattern ++ List.replicate (4 - m.addressPattern.length % 4) 0
          ++ [44] ++ m.arguments.map OscArgument.getType
          ++ List.replicate (4 - (1 + m.arguments.length) % 4) 0
          ++ (m.arguments.map (fun x => (x.encode x.getEncodedSize).bytes)).flatten
      ∧ (m.encode n).count = m.getEncodedSize
      ∧ (m.encode n).bytes.length = m.getEncodedSize := by
  have k1 : getPaddedSize (m.addressPattern.length + 1) - m.addressPattern.length
      = 4 - m.addressPattern.length % 4 := by
    unfold getPaddedSize; split <;> omega
  have k2 : getPaddedSize (m.arguments.length + 2) - (m.arguments.length + 1)
      = 4 - (1 + m.arguments.length) % 4 := by
    unfold getPaddedSize; split <;> omega
  rw [OscMessage.message_encode_fits m n h]
  refine ⟨?_, rfl, OscMessage.message_wire_length m⟩
  show m.wire = _
  unfold OscMessage.wire
  rw [k1, k2]
  rfl

theorem message_encode_layout_witness :
    (((OscMessage.withAddress (ascii "/a")).addInt32 7).encode 12).bytes
        = ascii "/a" ++ List.replicate (4 - 2 % 4) 0
          ++ [44] ++ [Int32TypeTag] ++ List.replicate (4 - (1 + 1) % 4) 0
          ++ [[0, 0, 0, 7]].flatten
      ∧ (((OscMessage.withAddress (ascii "/a")).addInt32 7).encode 12).count = 12
      ∧ (((OscMessage.withAddress (ascii "/a")).addInt32 7).encode 12).bytes.length = 12 :=
  message_encode_layout ((OscMessage.withAddress (ascii "/a")).addInt32 7) 12 (by decide)

/-- C1 (amended): a valid message whose address pattern holds no NUL and does not end in
',', whose arguments are portable (recognised tag, strings non-empty and NUL-free, no NaN,
blob size below 2^31) and whose encoded size is below 2^32 is read back by
`createFromEncodedData` from its encoding as a message `==` to it. -/
theorem message_roundtrip (m : OscMessage) (hp : m.Portable) (h32 : m.getEncodedSize < 2 ^ 32) :
    m.isValid = true
    ∧ (m.encode m.getEncodedSize).count = m.getEncodedSize
    ∧ (OscMessage.createFromEncodedData (m.encode m.getEncodedSize).bytes m.getEncodedSize).map
        (fun d => d.eq m) = some true := by
  refine ⟨?_, ?_, ?_⟩
  · obtain ⟨hhead, _, _, _⟩ := hp
    cases hx : m.addressPattern with
    | nil => rw [hx] at hhead; simp at hhead
    | cons c cs =>
      rw [hx] at hhead
      simp only [List.head?_cons, Option.some.injEq] at hhead
      simp [OscMessage.isValid, OscMessage.isEmpty, hx, hhead]
  · rw [OscMessage.message_encode_fits m _ (Nat.le_refl _)]
  · rw [OscMessage.message_encode_fits m _ (Nat.le_refl _)]
    obtain ⟨ds, hdec, hl, hdiff⟩ := OscMessage.message_decode_wire m hp h32 []
    rw [List.append_nil] at hdec
    simp only [OscMessage.createFromEncodedData, hdec, Option.map_some', Option.some.injEq]
    simp [OscMessage.eq, OscMessage.getAddressPattern, OscMessage.getNumberOfArguments, hl,
      hdiff]

theorem message_roundtrip_witness :
    (((OscMessage.withAddress (ascii "/foo/bar")).addInt32 42).addString (ascii "hi")).isValid
      = true
    ∧ ((((OscMessage.withAddress (ascii "/foo/bar")).addInt32 42).addString (ascii "hi")).encode
        (((OscMessage.withAddress (ascii "/foo/bar")).addInt32 42).addString
          (ascii "hi")).getEncodedSize).count
      = (((OscMessage.withAddress (ascii "/foo/bar")).addInt32 42).addString
          (ascii "hi")).getEncodedSize
    ∧ (OscMessage.createFromEncodedData
        ((((OscMessage.withAddress (ascii "/foo/bar")).addInt32 42).addString
          (ascii "hi")).encode
          (((OscMessage.withAddress (ascii "/foo/bar")).addInt32 42).addString
            (ascii "hi")).getEncodedSize).bytes
        (((OscMessage.withAddress (ascii "/foo/bar")).addInt32 42).addString
          (ascii "hi")).getEncodedSize).map
        (fun d => d.eq
          (((OscMessage.withAddress (ascii "/foo/bar")).addInt32 42).addString (ascii "hi")))
      = some true :=
  message_roundtrip (((OscMessage.withAddress (ascii "/foo/bar")).addInt32 42).addString
    (ascii "hi")) (by decide) (by decide)

/-- C1 as stated fails: each of these valid messages with recognised argument tags is not
read back `==` from its encoding: one with an empty string argument (decode fails and
leaves the message empty), one whose address ends in ',' (the argument is lost), and one
with a NaN `float` argument (a NaN is `!=` to itself). -/
theorem message_roundtrip_counterexample :
    (((OscMessage.withAddress (ascii "/a")).addString []).isValid = true
      ∧ ((OscMessage.withAddress (ascii "/a")).addString []).getEncodedSize = 12
      ∧ (OscMessage.new.decode
          (((OscMessage.withAddress (ascii "/a")).addString []).encode 12).bytes 12)
        = some (OscMessage.new, .OscErrorUnexpectedEndOfSource)
      ∧ (OscMessage.createFromEncodedData
          (((OscMessage.withAddress (ascii "/a")).addString []).encode 12).bytes 12).map
          (fun d => d.eq ((OscMessage.withAddress (ascii "/a")).addString [])) = some false)
    ∧ (((OscMessage.withAddress (ascii "/a,")).addInt32 5).isValid = true
      ∧ ((OscMessage.withAddress (ascii "/a,")).addInt32 5).getEncodedSize = 12
      ∧ (OscMessage.createFromEncodedData
          (((OscMessage.withAddress (ascii "/a,")).addInt32 5).encode 12).bytes 12)
        = some ⟨0, ascii "/a,", []⟩
      ∧ (OscMessage.createFromEncodedData
          (((OscMessage.withAddress (ascii "/a,")).addInt32 5).encode 12).bytes 12).map
          (fun d => d.eq ((OscMessage.withAddress (ascii "/a,")).addInt32 5)) = some false)
    ∧ (((OscMessage.withAddress (ascii "/a")).addFloat32 0x7FC00000).isValid = true
      ∧ ((OscMessage.withAddress (ascii "/a")).addFloat32 0x7FC00000).getEncodedSize = 12
      ∧ (OscMessage.createFromEncodedData
          (((OscMessage.withAddress (ascii "/a")).addFloat32 0x7FC00000).encode 12).bytes 12).map
          (fun d => d.eq ((OscMessage.withAddress (ascii "/a")).addFloat32 0x7FC00000))
        = some false) := by
  decide

theorem OscBundle.header_length_of_inv (header : List Nat)
    (h : (header == OscBundle.BundleHeader || header == OscBundle.BundleHeader.set 0 0) = true) :
    header.length = 7 := by
  simp only [Bool.or_eq_true, beq_iff_eq] at h
  rcases h with h | h <;> rw [h] <;> rfl

mutual
theorem OscBundle.bundle_wire_length : ∀ (b : OscBundle), b.wire.length = b.getEncodedSize
  | .mk timeTag header elements => by
    simp only [OscBundle.wire, OscBundle.getEncodedSize, List.length_append,
      OscBundle.wireElements_length elements, encodeArgument64, List.length_cons,
      List.length_nil]
theorem OscBundle.wireElements_length : ∀ (elements : List OscContent),
    (OscBundle.wireElements elements).length = OscBundle.getEncodedElementsSize elements
  | [] => rfl
  | .message m :: rest => by
    simp only [OscBundle.wireElements, OscBundle.getEncodedElementsSize, List.length_append,
      OscBundle.wireElements_length rest, OscContent.wire, OscContent.getEncodedSize,
      OscMessage.message_wire_length, encodeArgument32, List.length_cons, List.length_nil]
  | .bundle b :: rest => by
    simp only [OscBundle.wireElements, OscBundle.getEncodedElementsSize, List.length_append,
      OscBundle.wireElements_length rest, OscContent.wire, OscContent.getEncodedSize,
      OscBundle.bundle_wire_length b, encodeArgument32, List.length_cons, List.length_nil]
end

mutual
theorem OscBundle.bundle_encode_fits : ∀ (b : OscBundle), b.headerInv = true →
    ∀ n, b.getEncodedSize ≤ n → b.encode n = ⟨b.wire, b.getEncodedSize⟩
  | .mk timeTag header elements, hinv, n, hn => by
    simp only [OscBundle.headerInv, Bool.and_eq_true] at hinv
    have hl := OscBundle.header_length_of_inv header hinv.1
    simp only [OscBundle.getEncodedSize] at hn ⊢
    unfold OscBundle.encode
    have hp : getPaddedSize (header.length + 1) = 8 := by rw [hl]; rfl
    rw [if_neg (by omega), terminateOscString_fits _ _ (by rw [hp]; omega), hp]
    simp only [hl, List.length_append, List.length_replicate]
    rw [if_neg (by omega)]
    have := OscBundle.encodeElements_fits elements hinv.2 n
      (header ++ List.replicate (8 - 7) 0 ++ encodeArgument64 timeTag)
      (by simp [encodeArgument64, hl]; omega)
    rw [this]
    simp [OscBundle.wire, encodeArgument64, hl, List.replicate]
theorem OscBundle.encodeElements_fits : ∀ (elements : List OscContent),
    OscBundle.elementsHeaderInv elements = true → ∀ (n : Nat) (destination : List Nat),
    destination.length + OscBundle.getEncodedElementsSize elements ≤ n →
    OscBundle.encodeElements n elements destination
      = ⟨destination ++ OscBundle.wireElements elements,
          destination.length + OscBundle.getEncodedElementsSize elements⟩
  | [], _, n, destination, _ => by
    simp [OscBundle.encodeElements, OscBundle.wireElements, OscBundle.getEncodedElementsSize]
  | .message m :: rest, hinv, n, destination, hn => by
    simp only [OscBundle.elementsHeaderInv] at hinv
    simp only [OscBundle.getEncodedElementsSize, OscContent.getEncodedSize] at hn
    unfold OscBundle.encodeElements
    rw [if_neg (by omega)]
    simp only [OscContent.encode, OscContent.getEncodedSize]
    rw [OscMessage.message_encode_fits m _ (by omega)]
    have := OscBundle.encodeElements_fits rest hinv n
      (destination ++ encodeArgument32 m.getEncodedSize ++ m.wire)
      (by simp [encodeArgument32, OscMessage.message_wire_length]; omega)
    rw [this]
    simp [OscBundle.wireElements, OscContent.wire, OscContent.getEncodedSize,
      OscBundle.getEncodedElementsSize, encodeArgument32, OscMessage.message_wire_length]
    omega
  | .bundle b :: rest, hinv, n, destination, hn => by
    simp only [OscBundle.elementsHeaderInv, Bool.and_eq_true] at hinv
    simp only [OscBundle.getEncodedElementsSize, OscContent.getEncodedSize] at hn
    unfold OscBundle.encodeElements
    rw [if_neg (by omega)]
    simp only [OscContent.encode, OscContent.getEncodedSize]
    have hb := OscBundle.bundle_encode_fits b hinv.1 (n - (destination.length + 4)) (by omega)
    rw [hb]
    have hwl : b.wire.length = b.getEncodedSize := OscBundle.bundle_wire_length b
    have := OscBundle.encodeElements_fits rest hinv.2 n
      (destination ++ encodeArgument32 b.getEncodedSize ++ b.wire)
      (by simp [encodeArgument32, hwl]; omega)
    rw [this]
    simp [OscBundle.wireElements, OscContent.wire, OscContent.getEncodedSize,
      OscBundle.getEncodedElementsSize, encodeArgument32, hwl]
    omega
end

theorem OscContent.content_encode_fits (c : OscContent) (h : c.headerInv = true) (n : Nat)
    (hn : c.getEncodedSize ≤ n) : c.encode n = ⟨c.wire, c.getEncodedSize⟩ := by
  cases c with
  | message m => exact OscMessage.message_encode_fits m n hn
  | bundle b => exact OscBundle.bundle_encode_fits b h n hn

theorem OscBundle.wireElements_eq (elements : List OscContent)
    (h : OscBundle.elementsHeaderInv elements = true) :
    OscBundle.wireElements elements
      = (elements.map (fun e => encodeArgument32 e.getEncodedSize
          ++ (e.encode e.getEncodedSize).bytes)).flatten := by
  induction elements with
  | nil => rfl
  | cons c rest ih =>
    cases c with
    | message m =>
      simp only [OscBundle.elementsHeaderInv] at h
      simp only [OscBundle.wireElements, List.map_cons, List.flatten_cons, ih h,
        OscContent.content_encode_fits (.message m) rfl _ (Nat.le_refl _)]
    | bundle b =>
      simp only [OscBundle.elementsHeaderInv, Bool.and_eq_true] at h
      simp only [OscBundle.wireElements, List.map_cons, List.flatten_cons, ih h.2,
        OscContent.content_encode_fits (.bundle b) h.1 _ (Nat.le_refl _)]

theorem OscBundle.elements_size_le (elements : List OscContent) :
    ∀ e ∈ elements, e.getEncodedSize ≤ OscBundle.getEncodedElementsSize elements := by
  induction elements with
  | nil => intro e he; simp at he
  | cons c rest ih =>
    intro e he
    simp only [List.mem_cons] at he
    simp only [OscBundle.getEncodedElementsSize]
    rcases he with he | he
    · rw [he]; omega
    · have := ih e he; omega

/-- C6: `OscBundle::encode` of a valid bundle into a destination of at least
`getEncodedSize()` bytes stores "#bundle" and a NUL, the eight bytes of the time tag, most
significant first, and then for each element in order its `getEncodedSize()` as four bytes,
most significant first, followed by that element's own encoding; it returns
`getEncodedSize()`, the number of bytes stored. -/
theorem bundle_encode_layout (b : OscBundle) (n : Nat) (hv : b.isValid = true)
    (hinv : b.headerInv = true) (ht : b.getTimeTag < 2 ^ 64) (hs : b.getEncodedSize < 2 ^ 31)
    (hn : b.getEncodedSize ≤ n) :
    (b.encode n).bytes
      = ascii "#bundle" ++ [0]
        ++ [b.getTimeTag / 2 ^ 56, b.getTimeTag / 2 ^ 48 % 256, b.getTimeTag / 2 ^ 40 % 256,
            b.getTimeTag / 2 ^ 32 % 256, b.getTimeTag / 2 ^ 24 % 256,
            b.getTimeTag / 2 ^ 16 % 256, b.getTimeTag / 2 ^ 8 % 256, b.getTimeTag % 256]
        ++ (b.elements.map (fun e =>
            [e.getEncodedSize / 2 ^ 24, e.getEncodedSize / 2 ^ 16 % 256,
              e.getEncodedSize / 2 ^ 8 % 256, e.getEncodedSize % 256]
            ++ (e.encode e.getEncodedSize).bytes)).flatten
    ∧ (b.encode n).count = b.getEncodedSize
    ∧ (b.encode n).bytes.length = b.getEncodedSize := by
  rw [OscBundle.bundle_encode_fits b hinv n hn]
  refine ⟨?_, rfl, OscBundle.bundle_wire_length b⟩
  cases b with
  | mk timeTag header elements =>
    simp only [OscBundle.headerInv, Bool.and_eq_true, Bool.or_eq_true, beq_iff_eq] at hinv
    simp only [OscBundle.isValid, OscBundle.header] at hv
    simp only [OscBundle.getTimeTag] at ht
    have hh : header = ascii "#bundle" := by
      rcases hinv.1 with h | h
      · rw [h]; decide
      · rw [h] at hv; simp [OscBundle.BundleHeader] at hv
    have hsz : ∀ e ∈ elements, e.getEncodedSize < 2 ^ 31 := by
      intro e he
      have := OscBundle.elements_size_le elements e he
      simp only [OscBundle.getEncodedSize] at hs
      omega
    have hmap : elements.map (fun e => encodeArgument32 e.getEncodedSize
          ++ (e.encode e.getEncodedSize).bytes)
        = elements.map (fun e =>
            [e.getEncodedSize / 2 ^ 24, e.getEncodedSize / 2 ^ 16 % 256,
              e.getEncodedSize / 2 ^ 8 % 256, e.getEncodedSize % 256]
            ++ (e.encode e.getEncodedSize).bytes) := by
      apply List.map_congr_left
      intro e he
      have := hsz e he
      have e1 : e.getEncodedSize / 2 ^ 24 % 256 = e.getEncodedSize / 2 ^ 24 := by omega
      simp only [encodeArgument32, e1]
    have e56 : timeTag / 2 ^ 56 % 256 = timeTag / 2 ^ 56 := by omega
    simp only [OscBundle.wire, OscBundle.wireElements_eq elements hinv.2, hmap, hh,
      OscBundle.getTimeTag, OscBundle.elements, encodeArgument64, e56]

theorem bundle_encode_layout_witness :
    (((OscBundle.withTimeTag (2 ^ 32)).addMessage (OscMessage.withAddress (ascii "/x"))).encode
        28).bytes
      = ascii "#bundle" ++ [0] ++ [0, 0, 0, 1, 0, 0, 0, 0]
        ++ [[0, 0, 0, 8] ++ (ascii "/x" ++ [0, 0, 44, 0, 0, 0])].flatten
    ∧ (((OscBundle.withTimeTag (2 ^ 32)).addMessage (OscMessage.withAddress (ascii "/x"))).encode
        28).count = 28
    ∧ (((OscBundle.withTimeTag (2 ^ 32)).addMessage (OscMessage.withAddress (ascii "/x"))).encode
        28).bytes.length = 28 :=
  bundle_encode_layout
    ((OscBundle.withTimeTag (2 ^ 32)).addMessage (OscMessage.withAddress (ascii "/x"))) 28
    (by decide) (by decide) (by decide) (by decide) (by decide)

theorem int32ToSizeT_asInt32 (n : Nat) (h : n < 2 ^ 31) : int32ToSizeT (asInt32 n) = n := by
  unfold int32ToSizeT asInt32
  split <;> omega

theorem cString_scan (s t : List Nat) (h0 : ∀ c ∈ s, c ≠ 0) :
    cString (s ++ 0 :: t) = some s := by
  induction s with
  | nil => simp [cString]
  | cons c s ih =>
    have hc : c ≠ 0 := h0 c (List.mem_cons_self _ _)
    rw [List.cons_append]
    unfold cString
    rw [if_neg hc, ih (fun x hx => h0 x (List.mem_cons_of_mem _ hx))]
    rfl

namespace OscBundle

theorem elementsDiffer_append (es os : List OscContent) (e o : OscContent)
    (hl : es.length = os.length) (h : elementsDiffer es os = false)
    (he : elementsDiffer [e] [o] = false) :
    elementsDiffer (es ++ [e]) (os ++ [o]) = false := by
  induction es generalizing os with
  | nil =>
    cases os with
    | nil => simpa using he
    | cons _ _ => simp at hl
  | cons x xs ih =>
    cases os with
    | nil => simp at hl
    | cons y ys =>
      have hl' : xs.length = ys.length := by simpa using hl
      cases x with
      | message mx =>
        cases y with
        | message my =>
          simp only [List.cons_append, elementsDiffer] at h ⊢
          by_cases hxy : mx.ne my = true
          · simp [hxy] at h
          · simp only [hxy, if_false] at h ⊢
            exact ih ys hl' h
        | bundle _ => simp [elementsDiffer] at h
      | bundle bx =>
        cases y with
        | message _ => simp [elementsDiffer] at h
        | bundle b2 =>
          simp only [List.cons_append, elementsDiffer] at h ⊢
          by_cases hxy : bx.ne b2 = true
          · simp [hxy] at h
          · simp only [hxy, if_false] at h ⊢
            exact ih ys hl' h

theorem decodeElements_done (fuel : Nat) (b : OscBundle) (source : List Nat)
    (sizeInBytes sourceIndex : Nat) (h : ¬ sourceIndex < sizeInBytes) :
    decodeElements (fuel + 1) b source sizeInBytes sourceIndex = some (b, .OscErrorNone) := by
  rw [decodeElements, if_pos h]

theorem decodeElements_message (fuel : Nat) (b : OscBundle) (source : List Nat)
    (sizeInBytes sourceIndex elementSize : Nat) (p : OscMessage)
    (h1 : sourceIndex + 4 + elementSize ≤ sizeInBytes) (h2 : sizeInBytes < 2 ^ 63)
    (hu : decodeArgument32 (source.drop sourceIndex) = some elementSize)
    (hes : elementSize < 2 ^ 31)
    (hc : (source.drop (sourceIndex + 4))[0]? = some 47)
    (hm : OscMessage.createFromEncodedData (source.drop (sourceIndex + 4)) elementSize = some p)
    (hv : p.isValid = true) :
    decodeElements (fuel + 1) b source sizeInBytes sourceIndex
      = decodeElements fuel
          (.mk b.getTimeTag b.header (b.elements ++ [.message { p with timeTag := b.getTimeTag }]))
          source sizeInBytes (sourceIndex + 4 + elementSize) := by
  rw [decodeElements]
  have e4 : toSizeT (sourceIndex + 4) = sourceIndex + 4 := toSizeT_of_lt (by omega)
  have e5 : toSizeT (sourceIndex + 4 + elementSize) = sourceIndex + 4 + elementSize :=
    toSizeT_of_lt (by omega)
  rw [if_neg (by omega), e4, if_neg (by omega), hu]
  simp only [int32ToSizeT_asInt32 _ hes, e5]
  rw [if_neg (by omega)]
  simp only [OscContent.encodedContentIsMessage, hc, Option.map_some', beq_self_eq_true, hm, hv,
    not_true_eq_false, if_false]

theorem decodeElements_bundle (fuel : Nat) (b : OscBundle) (source : List Nat)
    (sizeInBytes sourceIndex elementSize : Nat) (p : OscBundle) (e : OscError)
    (h1 : sourceIndex + 4 + elementSize ≤ sizeInBytes) (h2 : sizeInBytes < 2 ^ 63)
    (hu : decodeArgument32 (source.drop sourceIndex) = some elementSize)
    (hes : elementSize < 2 ^ 31)
    (hc : (source.drop (sourceIndex + 4))[0]? = some 35)
    (hm : decode fuel OscBundle.new (source.drop (sourceIndex + 4)) elementSize = some (p, e))
    (hv : p.isValid = true) :
    decodeElements (fuel + 1) b source sizeInBytes sourceIndex
      = decodeElements fuel
          (.mk b.getTimeTag b.header (b.elements ++ [.bundle (p.setTimeTag b.getTimeTag)]))
          source sizeInBytes (sourceIndex + 4 + elementSize) := by
  rw [decodeElements]
  have e4 : toSizeT (sourceIndex + 4) = sourceIndex + 4 := toSizeT_of_lt (by omega)
  have e5 : toSizeT (sourceIndex + 4 + elementSize) = sourceIndex + 4 + elementSize :=
    toSizeT_of_lt (by omega)
  rw [if_neg (by omega), e4, if_neg (by omega), hu]
  simp only [int32ToSizeT_asInt32 _ hes, e5]
  rw [if_neg (by omega)]
  have b1 : ((35 : Nat) == 47) = false := by decide
  have b2 : ((35 : Nat) == 35) = true := by decide
  simp only [OscContent.encodedContentIsMessage, OscContent.encodedContentIsBundle, hc,
    Option.map_some', b1, b2, hm, hv, not_true_eq_false, if_false]

theorem decode_header (fuel : Nat) (source : List Nat) (sizeInBytes timeTag : Nat)
    (t : List Nat) (h4 : sizeInBytes % 4 = 0) (h16 : 16 ≤ sizeInBytes)
    (hs : source = BundleHeader ++ 0 :: (encodeArgument64 timeTag ++ t))
    (ht : timeTag < 2 ^ 64) :
    decode (fuel + 1) OscBundle.new source sizeInBytes
      = decodeElements fuel (.mk timeTag BundleHeader []) source sizeInBytes 16 := by
  rw [decode]
  have hc := cString_scan BundleHeader (encodeArgument64 timeTag ++ t) (by decide)
  rw [← hs] at hc
  have h0 : source[0]? = some 35 := by rw [hs]; rfl
  have hd : decodeArgument64 (source.drop (OscBundle.new.header.length + 1))
      = some timeTag := by
    have : source.drop (OscBundle.new.header.length + 1) = encodeArgument64 timeTag ++ t := by
      rw [hs]; rfl
    rw [this, decodeArgument64_encodeArgument64, Nat.mod_eq_of_lt ht]
  rw [if_neg (by omega), if_neg (by unfold MinimumBundleSize; simp [BundleHeader]; omega), h0]
  simp only [ne_eq, not_true_eq_false, if_false, hc, hd]
  rfl

end OscBundle

theorem OscMessage.isValid_of_head (t : Nat) (addressPattern : List Nat)
    (arguments : List OscArgument) (h : addressPattern.head? = some 47) :
    (OscMessage.mk t addressPattern arguments).isValid = true := by
  cases addressPattern with
  | nil => simp at h
  | cons c cs =>
    simp only [List.head?_cons, Option.some.injEq] at h
    simp [OscMessage.isValid, OscMessage.isEmpty, h]

theorem OscMessage.message_wire_head (m : OscMessage) (h : m.addressPattern.head? = some 47)
    (rest : List Nat) : (m.wire ++ rest)[0]? = some 47 := by
  unfold OscMessage.wire
  cases hx : m.addressPattern with
  | nil => rw [hx] at h; simp at h
  | cons c cs =>
    rw [hx] at h
    simp only [List.head?_cons, Option.some.injEq] at h
    simp [h]

theorem OscMessage.message_ne_false_of (p m : OscMessage) (ha : p.addressPattern = m.addressPattern)
    (hl : p.arguments.length = m.arguments.length)
    (hd : OscMessage.argumentsDiffer p.arguments m.arguments = false) : p.ne m = false := by
  simp [OscMessage.ne, OscMessage.getAddressPattern, OscMessage.getNumberOfArguments, ha, hl, hd]

theorem OscMessage.size_mod_four_message (m : OscMessage) : m.getEncodedSize % 4 = 0 := by
  have h1 := getPaddedSize_mod (m.addressPattern.length + 1)
  have h2 := getPaddedSize_mod (m.arguments.length + 1 + 1)
  have h3 := OscMessage.sum_sizes_mod_four m.arguments
  simp only [OscMessage.getEncodedSize, OscMessage.getEncodedArgumentsSize]
  omega

namespace OscBundle

mutual
theorem bundle_size_mod_four : ∀ (b : OscBundle), b.portable = true → b.getEncodedSize % 4 = 0
  | .mk timeTag header elements, hp => by
    simp only [portable, Bool.and_eq_true, beq_iff_eq, decide_eq_true_eq] at hp
    have := elementsSize_mod_four elements timeTag hp.2
    have hl7 : BundleHeader.length = 7 := rfl
    simp only [getEncodedSize, hp.1.1, hl7]
    omega
theorem elementsSize_mod_four : ∀ (elements : List OscContent) (timeTag : Nat),
    elementsPortable timeTag elements = true → getEncodedElementsSize elements % 4 = 0
  | [], _, _ => rfl
  | .message m :: elements, timeTag, hp => by
    simp only [elementsPortable, Bool.and_eq_true] at hp
    have h1 := elementsSize_mod_four elements timeTag hp.2
    have h2 := OscMessage.size_mod_four_message m
    simp only [getEncodedElementsSize, OscContent.getEncodedSize]
    omega
  | .bundle b :: elements, timeTag, hp => by
    simp only [elementsPortable, Bool.and_eq_true] at hp
    have h1 := elementsSize_mod_four elements timeTag hp.2
    have h2 := bundle_size_mod_four b hp.1.2
    simp only [getEncodedElementsSize, OscContent.getEncodedSize]
    omega
end

theorem bundle_wire_head (b : OscBundle) (h : b.portable = true) (rest : List Nat) :
    (b.wire ++ rest)[0]? = some 35 := by
  cases b with
  | mk timeTag header elements =>
    simp only [portable, Bool.and_eq_true, beq_iff_eq] at h
    simp [wire, h.1.1, BundleHeader]

theorem bundle_ne_false_of (t : Nat) (header : List Nat) (es : List OscContent) (b : OscBundle)
    (ht : t = b.getTimeTag) (hl : es.length = b.elements.length)
    (hd : elementsDiffer es b.elements = false) : (OscBundle.mk t header es).ne b = false := by
  simp [OscBundle.ne, OscBundle.size, ht, hl, hd]

mutual
theorem bundle_decode_wire : ∀ (b : OscBundle), b.portable = true → b.getEncodedSize < 2 ^ 31 →
    ∀ (fuel : Nat) (rest : List Nat), b.getEncodedSize ≤ fuel →
    ∃ es, decode fuel OscBundle.new (b.wire ++ rest) b.getEncodedSize
        = some (.mk b.getTimeTag BundleHeader es, .OscErrorNone)
      ∧ es.length = b.elements.length ∧ elementsDiffer es b.elements = false
  | .mk timeTag header elements, hp, hs, fuel, rest, hf => by
    simp only [portable, Bool.and_eq_true, beq_iff_eq, decide_eq_true_eq] at hp
    obtain ⟨⟨hh, ht⟩, hel⟩ := hp
    simp only [hh, getEncodedSize, getTimeTag, OscBundle.elements] at hs hf ⊢
    have hl7 : BundleHeader.length = 7 := rfl
    rw [hl7] at hs hf ⊢
    cases fuel with
    | zero => omega
    | succ f =>
      have hm4 : (7 + 1 + 8 + getEncodedElementsSize elements) % 4 = 0 := by
        have := elementsSize_mod_four elements timeTag hel
        omega
      have hsrc : (OscBundle.mk timeTag BundleHeader elements).wire ++ rest
          = BundleHeader ++ 0 :: (encodeArgument64 timeTag ++ (wireElements elements ++ rest)) := by
        simp [wire]
      rw [decode_header f _ _ timeTag _ hm4 (by omega) hsrc ht]
      have hd16 : ((OscBundle.mk timeTag BundleHeader elements).wire ++ rest).drop 16
          = wireElements elements ++ rest := by
        rw [hsrc]; rfl
      obtain ⟨es, h1, h2, h3⟩ := decodeElements_wire elements timeTag hel f _
        (7 + 1 + 8 + getEncodedElementsSize elements) 16 [] [] rest hd16 (by omega) hs
        (by omega) rfl rfl
      exact ⟨es, h1, by simpa using h2, by simpa using h3⟩
theorem decodeElements_wire : ∀ (elements : List OscContent) (timeTag : Nat),
    elementsPortable timeTag elements = true →
    ∀ (fuel : Nat) (source : List Nat) (sizeInBytes sourceIndex : Nat)
      (acc orig : List OscContent) (rest : List Nat),
    source.drop sourceIndex = wireElements elements ++ rest →
    sourceIndex + getEncodedElementsSize elements = sizeInBytes → sizeInBytes < 2 ^ 31 →
    getEncodedElementsSize elements + 1 ≤ fuel →
    acc.length = orig.length → elementsDiffer acc orig = false →
    ∃ es, decodeElements fuel (.mk timeTag BundleHeader acc) source sizeInBytes sourceIndex
        = some (.mk timeTag BundleHeader es, .OscErrorNone)
      ∧ es.length = (orig ++ elements).length ∧ elementsDiffer es (orig ++ elements) = false
  | [], timeTag, _, fuel, source, sizeInBytes, sourceIndex, acc, orig, rest, _, hsz, _, hf,
      hl, hd => by
    simp only [getEncodedElementsSize, Nat.add_zero, Nat.zero_add] at hsz hf
    cases fuel with
    | zero => omega
    | succ f =>
      rw [decodeElements_done f _ _ _ _ (by omega)]
      exact ⟨acc, rfl, by simpa using hl, by simpa using hd⟩
  | .message m :: elements, timeTag, hp, fuel, source, sizeInBytes, sourceIndex, acc, orig,
      rest, hsrc, hsz, h31, hf, hl, hd => by
    simp only [elementsPortable, Bool.and_eq_true, decide_eq_true_eq] at hp
    obtain ⟨hm, hel⟩ := hp
    simp only [getEncodedElementsSize, OscContent.getEncodedSize] at hsz hf
    simp only [wireElements, OscContent.wire, OscContent.getEncodedSize,
      List.append_assoc] at hsrc
    cases fuel with
    | zero => omega
    | succ f =>
      have hu : decodeArgument32 (source.drop sourceIndex) = some m.getEncodedSize := by
        rw [hsrc, decodeArgument32_encodeArgument32, Nat.mod_eq_of_lt (by omega)]
      have hd4 : source.drop (sourceIndex + 4)
          = m.wire ++ (wireElements elements ++ rest) :=
        drop_append_drop_at hsrc (by simp [encodeArgument32])
      obtain ⟨ds, hdec, hdl, hdd⟩ := OscMessage.message_decode_wire m hm (by omega)
        (wireElements elements ++ rest)
      have hcreate : OscMessage.createFromEncodedData (source.drop (sourceIndex + 4))
          m.getEncodedSize = some ⟨0, m.addressPattern, ds⟩ := by
        rw [hd4]
        simp only [OscMessage.createFromEncodedData, hdec, Option.map_some']
      rw [decodeElements_message f _ source sizeInBytes sourceIndex m.getEncodedSize _
        (by omega) (by omega) hu (by omega)
        (by rw [hd4]; exact OscMessage.message_wire_head m hm.1 _) hcreate
        (OscMessage.isValid_of_head _ _ _ hm.1)]
      have hd5 : source.drop (sourceIndex + 4 + m.getEncodedSize)
          = wireElements elements ++ rest :=
        drop_append_drop_at hd4 (by rw [OscMessage.message_wire_length])
      obtain ⟨es, h1, h2, h3⟩ := decodeElements_wire elements timeTag hel f source sizeInBytes
        (sourceIndex + 4 + m.getEncodedSize)
        (acc ++ [.message ⟨timeTag, m.addressPattern, ds⟩]) (orig ++ [.message m]) rest hd5
        (by omega) h31 (by omega) (by simp [hl])
        (elementsDiffer_append _ _ _ _ hl hd (by
          simp only [elementsDiffer]
          rw [OscMessage.message_ne_false_of ⟨timeTag, m.addressPattern, ds⟩ m rfl hdl hdd]
          rfl))
      exact ⟨es, h1, by simpa using h2, by simpa using h3⟩
  | .bundle b :: elements, timeTag, hp, fuel, source, sizeInBytes, sourceIndex, acc, orig,
      rest, hsrc, hsz, h31, hf, hl, hd => by
    simp only [elementsPortable, Bool.and_eq_true, beq_iff_eq] at hp
    obtain ⟨⟨htt, hb⟩, hel⟩ := hp
    simp only [getEncodedElementsSize, OscContent.getEncodedSize] at hsz hf
    simp only [wireElements, OscContent.wire, OscContent.getEncodedSize,
      List.append_assoc] at hsrc
    cases fuel with
    | zero => omega
    | succ f =>
      have hu : decodeArgument32 (source.drop sourceIndex) = some b.getEncodedSize := by
        rw [hsrc, decodeArgument32_encodeArgument32, Nat.mod_eq_of_lt (by omega)]
      have hd4 : source.drop (sourceIndex + 4)
          = b.wire ++ (wireElements elements ++ rest) :=
        drop_append_drop_at hsrc (by simp [encodeArgument32])
      obtain ⟨bs, hdec, hbl, hbd⟩ := bundle_decode_wire b hb (by omega) f
        (wireElements elements ++ rest) (by omega)
      rw [← hd4] at hdec
      have hhead : (source.drop (sourceIndex + 4))[0]? = some 35 := by
        rw [hd4]
        exact bundle_wire_head b hb _
      rw [decodeElements_bundle f _ source sizeInBytes sourceIndex b.getEncodedSize _ _
        (by omega) (by omega) hu (by omega) hhead hdec (by rfl)]
      have hd5 : source.drop (sourceIndex + 4 + b.getEncodedSize)
          = wireElements elements ++ rest :=
        drop_append_drop_at hd4 (by rw [bundle_wire_length])
      obtain ⟨es, h1, h2, h3⟩ := decodeElements_wire elements timeTag hel f source sizeInBytes
        (sourceIndex + 4 + b.getEncodedSize)
        (acc ++ [.bundle (.mk timeTag BundleHeader bs)]) (orig ++ [.bundle b]) rest hd5
        (by omega) h31 (by omega) (by simp [hl])
        (elementsDiffer_append _ _ _ _ hl hd (by
          simp only [elementsDiffer]
          rw [bundle_ne_false_of _ _ _ b htt.symm hbl hbd]
          rfl))
      exact ⟨es, h1, by simpa using h2, by simpa using h3⟩
end

end OscBundle

namespace OscBundle

mutual
theorem headerInv_of_portable : ∀ (b : OscBundle), b.portable = true → b.headerInv = true
  | .mk timeTag header es, hp => by
    simp only [portable, Bool.and_eq_true, beq_iff_eq, decide_eq_true_eq] at hp
    simp only [headerInv, Bool.and_eq_true, Bool.or_eq_true, beq_iff_eq]
    exact ⟨Or.inl hp.1.1, elementsHeaderInv_of_portable es timeTag hp.2⟩
theorem elementsHeaderInv_of_portable : ∀ (es : List OscContent) (timeTag : Nat),
    elementsPortable timeTag es = true → elementsHeaderInv es = true
  | [], _, _ => rfl
  | .message m :: es, timeTag, hp => by
    simp only [elementsPortable, Bool.and_eq_true] at hp
    simp only [elementsHeaderInv]
    exact elementsHeaderInv_of_portable es timeTag hp.2
  | .bundle b :: es, timeTag, hp => by
    simp only [elementsPortable, Bool.and_eq_true] at hp
    simp only [elementsHeaderInv, Bool.and_eq_true]
    exact ⟨headerInv_of_portable b hp.1.2, elementsHeaderInv_of_portable es timeTag hp.2⟩
end

end OscBundle

/-- C2 (amended): a valid bundle in which every nested bundle, at every depth, carries the
time tag of the bundle that contains it, whose messages are portable (see C1), whose time
tag is a 64-bit value and whose encoded size is below 2^31 is read back by
`createFromEncodedData` from its encoding as a bundle `==` to it, with as many elements. -/
theorem bundle_roundtrip (b : OscBundle) (hp : b.portable = true)
    (hs : b.getEncodedSize < 2 ^ 31) :
    b.isValid = true
    ∧ (b.encode b.getEncodedSize).count = b.getEncodedSize
    ∧ (OscBundle.createFromEncodedData (b.encode b.getEncodedSize).bytes b.getEncodedSize).map
        (fun d => (d.eq b, d.size)) = some (true, b.size) := by
  have hinv := OscBundle.headerInv_of_portable b hp
  rw [OscBundle.bundle_encode_fits b hinv _ (Nat.le_refl _)]
  refine ⟨?_, rfl, ?_⟩
  · cases b with
    | mk timeTag header es =>
      simp only [OscBundle.portable, Bool.and_eq_true, beq_iff_eq] at hp
      simp [OscBundle.isValid, OscBundle.header, hp.1.1, OscBundle.BundleHeader]
  · obtain ⟨es, hdec, hl, hd⟩ := OscBundle.bundle_decode_wire b hp hs (b.wire.length + 1) []
      (by rw [OscBundle.bundle_wire_length]; omega)
    rw [List.append_nil] at hdec
    simp only [OscBundle.createFromEncodedData, hdec, Option.map_some', Option.some.injEq]
    have e1 : (OscBundle.mk b.getTimeTag OscBundle.BundleHeader es).getTimeTag
        = b.getTimeTag := rfl
    have e2 : (OscBundle.mk b.getTimeTag OscBundle.BundleHeader es).elements = es := rfl
    simp [OscBundle.eq, OscBundle.size, e1, e2, hl, hd]

theorem bundle_roundtrip_witness :
    (((OscBundle.withTimeTag (2 ^ 32)).addMessage (OscMessage.withAddress (ascii "/x"))).addBundle
      ((OscBundle.withTimeTag (2 ^ 32)).addBundle
        ((OscBundle.withTimeTag (2 ^ 32)).addMessage
          ((OscMessage.withAddress (ascii "/y")).addInt32 (-1))))).isValid = true
    ∧ ((((OscBundle.withTimeTag (2 ^ 32)).addMessage
        (OscMessage.withAddress (ascii "/x"))).addBundle
      ((OscBundle.withTimeTag (2 ^ 32)).addBundle
        ((OscBundle.withTimeTag (2 ^ 32)).addMessage
          ((OscMessage.withAddress (ascii "/y")).addInt32 (-1))))).encode
        ((((OscBundle.withTimeTag (2 ^ 32)).addMessage
          (OscMessage.withAddress (ascii "/x"))).addBundle
        ((OscBundle.withTimeTag (2 ^ 32)).addBundle
          ((OscBundle.withTimeTag (2 ^ 32)).addMessage
            ((OscMessage.withAddress (ascii "/y")).addInt32 (-1))))).getEncodedSize)).count
      = (((OscBundle.withTimeTag (2 ^ 32)).addMessage
          (OscMessage.withAddress (ascii "/x"))).addBundle
        ((OscBundle.withTimeTag (2 ^ 32)).addBundle
          ((OscBundle.withTimeTag (2 ^ 32)).addMessage
            ((OscMessage.withAddress (ascii "/y")).addInt32 (-1))))).getEncodedSize
    ∧ (OscBundle.createFromEncodedData
        ((((OscBundle.withTimeTag (2 ^ 32)).addMessage
          (OscMessage.withAddress (ascii "/x"))).addBundle
        ((OscBundle.withTimeTag (2 ^ 32)).addBundle
          ((OscBundle.withTimeTag (2 ^ 32)).addMessage
            ((OscMessage.withAddress (ascii "/y")).addInt32 (-1))))).encode
          ((((OscBundle.withTimeTag (2 ^ 32)).addMessage
            (OscMessage.withAddress (ascii "/x"))).addBundle
          ((OscBundle.withTimeTag (2 ^ 32)).addBundle
            ((OscBundle.withTimeTag (2 ^ 32)).addMessage
              ((OscMessage.withAddress (ascii "/y")).addInt32 (-1))))).getEncodedSize)).bytes
        (((OscBundle.withTimeTag (2 ^ 32)).addMessage
          (OscMessage.withAddress (ascii "/x"))).addBundle
        ((OscBundle.withTimeTag (2 ^ 32)).addBundle
          ((OscBundle.withTimeTag (2 ^ 32)).addMessage
            ((OscMessage.withAddress (ascii "/y")).addInt32 (-1))))).getEncodedSize).map
        (fun d => (d.eq
          (((OscBundle.withTimeTag (2 ^ 32)).addMessage
            (OscMessage.withAddress (ascii "/x"))).addBundle
          ((OscBundle.withTimeTag (2 ^ 32)).addBundle
            ((OscBundle.withTimeTag (2 ^ 32)).addMessage
              ((OscMessage.withAddress (ascii "/y")).addInt32 (-1))))), d.size))
      = some (true, (((OscBundle.withTimeTag (2 ^ 32)).addMessage
          (OscMessage.withAddress (ascii "/x"))).addBundle
        ((OscBundle.withTimeTag (2 ^ 32)).addBundle
          ((OscBundle.withTimeTag (2 ^ 32)).addMessage
            ((OscMessage.withAddress (ascii "/y")).addInt32 (-1))))).size) :=
  bundle_roundtrip
    (((OscBundle.withTimeTag (2 ^ 32)).addMessage (OscMessage.withAddress (ascii "/x"))).addBundle
      ((OscBundle.withTimeTag (2 ^ 32)).addBundle
        ((OscBundle.withTimeTag (2 ^ 32)).addMessage
          ((OscMessage.withAddress (ascii "/y")).addInt32 (-1)))))
    (by decide) (by decide)

/-- C2 as stated fails: the valid bundle with time tag 1 that holds a bundle with time tag 2
that holds a bundle with time tag 3 is not read back `==` from its 56-byte encoding:
decode overwrites the time tag of each decoded element with that of its parent, so the
middle bundle comes back with time tag 1 and the innermost with time tag 2. -/
theorem bundle_roundtrip_counterexample :
    ((OscBundle.withTimeTag 1).addBundle
      ((OscBundle.withTimeTag 2).addBundle (OscBundle.withTimeTag 3))).isValid = true
    ∧ ((OscBundle.withTimeTag 1).addBundle
      ((OscBundle.withTimeTag 2).addBundle (OscBundle.withTimeTag 3))).getEncodedSize = 56
    ∧ (((OscBundle.withTimeTag 1).addBundle
      ((OscBundle.withTimeTag 2).addBundle (OscBundle.withTimeTag 3))).encode 56).count = 56
    ∧ (OscBundle.createFromEncodedData
        (((OscBundle.withTimeTag 1).addBundle
          ((OscBundle.withTimeTag 2).addBundle (OscBundle.withTimeTag 3))).encode 56).bytes 56).map
        (fun d => (d.eq ((OscBundle.withTimeTag 1).addBundle
            ((OscBundle.withTimeTag 2).addBundle (OscBundle.withTimeTag 3))),
          d.eq ((OscBundle.withTimeTag 1).addBundle
            ((OscBundle.withTimeTag 1).addBundle (OscBundle.withTimeTag 2)))))
      = some (false, true) := by
  decide

theorem OscArgument.encode_of_lt (a : OscArgument) (n : Nat) (h : n < a.getEncodedSize) :
    a.encode n = ⟨[], 0⟩ := by
  unfold OscArgument.encode
  simp [h]

/-- C14: `OscArgument::encode` into a destination smaller than `getEncodedSize()` returns 0
and stores no byte; into a destination of at least `getEncodedSize()` bytes it returns
`getEncodedSize()` and stores exactly that many bytes; for the tags 'T', 'F', 'N', 'I', '['
and ']' that number is 0 and no byte is stored. -/
theorem argument_encode_all_or_nothing (a : OscArgument) (n : Nat) :
    (n < a.getEncodedSize → a.encode n = ⟨[], 0⟩)
    ∧ (a.getEncodedSize ≤ n →
        (a.encode n).count = a.getEncodedSize
        ∧ (a.encode n).bytes.length = a.getEncodedSize)
    ∧ (a.typeTag = TrueTypeTag ∨ a.typeTag = FalseTypeTag ∨ a.typeTag = NilTypeTag
        ∨ a.typeTag = InfinitumTypeTag ∨ a.typeTag = BeginArrayTypeTag
        ∨ a.typeTag = EndArrayTypeTag →
        a.getEncodedSize = 0 ∧ a.encode n = ⟨[], 0⟩) := by
  refine ⟨OscArgument.encode_of_lt a n, ?_, ?_⟩
  · intro h
    obtain ⟨e, hl⟩ := OscArgument.argument_encode_fits a n h
    rw [e]
    exact ⟨rfl, hl⟩
  · intro h
    have hs := OscArgument.size_marker a h
    obtain ⟨e, hl⟩ := OscArgument.argument_encode_fits a n (by omega)
    rw [e, hs]
    rw [hs] at hl
    refine ⟨rfl, ?_⟩
    rw [List.length_eq_zero.mp hl]

theorem argument_encode_all_or_nothing_witness :
    (OscArgument.mk BlobTypeTag [] [1, 2, 3, 4, 5] 0).encode 11 = ⟨[], 0⟩
    ∧ ((OscArgument.mk BlobTypeTag [] [1, 2, 3, 4, 5] 0).encode 13).count = 12
    ∧ ((OscArgument.mk BlobTypeTag [] [1, 2, 3, 4, 5] 0).encode 13).bytes.length = 12
    ∧ (OscArgument.uninitialised.setBool true).encode 0 = ⟨[], 0⟩ :=
  ⟨(argument_encode_all_or_nothing (OscArgument.mk BlobTypeTag [] [1, 2, 3, 4, 5] 0) 11).1
      (by decide),
    ((argument_encode_all_or_nothing (OscArgument.mk BlobTypeTag [] [1, 2, 3, 4, 5] 0) 13).2.1
      (by decide)).1,
    ((argument_encode_all_or_nothing (OscArgument.mk BlobTypeTag [] [1, 2, 3, 4, 5] 0) 13).2.1
      (by decide)).2,
    ((argument_encode_all_or_nothing (OscArgument.uninitialised.setBool true) 0).2.2
      (Or.inl rfl)).2⟩

theorem terminateOscString_le (fuel : Nat) (oscContents : List Nat) (maxOscStringSize : Nat)
    (h : oscContents.length ≤ maxOscStringSize) :
    (terminateOscString fuel oscContents maxOscStringSize).1.length ≤ maxOscStringSize := by
  induction fuel generalizing oscContents with
  | zero => simpa [terminateOscString] using h
  | succ f ih =>
    rw [terminateOscString]
    by_cases h1 : oscContents.length ≥ maxOscStringSize
    · rw [if_pos h1]; exact h
    · rw [if_neg h1]
      have h2 : (oscContents ++ [0]).length ≤ maxOscStringSize := by
        simp only [List.length_append, List.length_cons, List.length_nil]; omega
      by_cases h3 : (oscContents ++ [0]).length % 4 ≠ 0
      · simp only [h3, ne_eq, not_false_eq_true, if_true]
        exact ih _ h2
      · simp only [h3, if_false]
        exact h2

theorem OscMessage.encodeArguments_le (destinationSize : Nat) (arguments : List OscArgument)
    (destination : List Nat) (h : destination.length ≤ destinationSize) :
    (OscMessage.encodeArguments destinationSize arguments destination).bytes.length
        ≤ destinationSize
    ∧ (OscMessage.encodeArguments destinationSize arguments destination).count
        = (OscMessage.encodeArguments destinationSize arguments destination).bytes.length := by
  induction arguments generalizing destination with
  | nil => simpa [OscMessage.encodeArguments] using h
  | cons a rest ih =>
    rw [OscMessage.encodeArguments]
    by_cases hs : a.getEncodedSize ≤ destinationSize - destination.length
    · obtain ⟨e, hl⟩ := OscArgument.argument_encode_fits a _ hs
      simp only [e, ne_eq, not_true_eq_false, if_false]
      exact ih _ (by simp only [List.length_append, hl]; omega)
    · have e := OscArgument.encode_of_lt a _ (Nat.lt_of_not_le hs)
      have hne : (0 : Nat) ≠ a.getEncodedSize := by omega
      simp only [e, ne_eq, hne, not_false_eq_true, if_true, List.append_nil]
      exact ⟨h, trivial⟩

theorem OscMessage.message_encode_le (m : OscMessage) (n : Nat) :
    (m.encode n).bytes.length ≤ n ∧ (m.encode n).count = (m.encode n).bytes.length := by
  unfold OscMessage.encode
  by_cases h1 : m.addressPattern.length > n
  · simp [h1]
  · rw [if_neg h1]
    have t1 := terminateOscString_le 4 m.addressPattern n (by omega)
    rcases hd : terminateOscString 4 m.addressPattern n with ⟨d, flag⟩
    rw [hd] at t1
    simp only at t1
    cases flag with
    | true => exact ⟨t1, rfl⟩
    | false =>
      simp only
      by_cases h2 : getPaddedSize (d.length + m.arguments.length + 1 + 1) > n
      · rw [if_pos h2]; exact ⟨t1, rfl⟩
      · rw [if_neg h2]
        have hb := getPaddedSize_bounds (d.length + m.arguments.length + 1 + 1)
        have t2 := terminateOscString_le 4
          (d ++ [44] ++ m.arguments.map OscArgument.getType) n
          (by simp only [List.length_append, List.length_cons, List.length_nil,
                List.length_map]; omega)
        rcases hd2 : terminateOscString 4
          (d ++ [44] ++ m.arguments.map OscArgument.getType) n with ⟨d2, flag2⟩
        rw [hd2] at t2
        simp only at t2
        cases flag2 with
        | true => exact ⟨t2, rfl⟩
        | false =>
          simp only
          by_cases h3 : d2.length + m.getEncodedArgumentsSize > n
          · rw [if_pos h3]; exact ⟨t2, rfl⟩
          · rw [if_neg h3]
            exact OscMessage.encodeArguments_le n m.arguments d2 t2

mutual
theorem OscBundle.bundle_encode_le : ∀ (b : OscBundle) (n : Nat),
    (b.encode n).bytes.length ≤ n ∧ (b.encode n).count = (b.encode n).bytes.length
  | .mk timeTag header elements, n => by
    unfold OscBundle.encode
    by_cases h1 : header.length > n
    · simp [h1]
    · rw [if_neg h1]
      have t1 := terminateOscString_le 4 header n (by omega)
      rcases hd : terminateOscString 4 header n with ⟨d, flag⟩
      rw [hd] at t1
      simp only at t1
      cases flag with
      | true => exact ⟨t1, rfl⟩
      | false =>
        simp only
        by_cases h2 : d.length + 8 > n
        · rw [if_pos h2]; exact ⟨t1, rfl⟩
        · rw [if_neg h2]
          exact OscBundle.encodeElements_le elements n (d ++ encodeArgument64 timeTag)
            (by simp only [List.length_append, encodeArgument64, List.length_cons,
                  List.length_nil]; omega)
theorem OscBundle.encodeElements_le : ∀ (elements : List OscContent) (n : Nat)
    (destination : List Nat), destination.length ≤ n →
    (OscBundle.encodeElements n elements destination).bytes.length ≤ n
    ∧ (OscBundle.encodeElements n elements destination).count
        = (OscBundle.encodeElements n elements destination).bytes.length
  | [], n, destination, h => by
    simpa [OscBundle.encodeElements] using h
  | .message m :: rest, n, destination, h => by
    unfold OscBundle.encodeElements
    by_cases h1 : destination.length + 4 > n
    · rw [if_pos h1]; exact ⟨h, rfl⟩
    · rw [if_neg h1]
      have hm := (OscMessage.message_encode_le m (n - (destination.length + 4))).1
      exact OscBundle.encodeElements_le rest n _
        (by simp only [List.length_append, encodeArgument32, List.length_cons,
              List.length_nil, OscContent.encode]; omega)
  | .bundle b :: rest, n, destination, h => by
    unfold OscBundle.encodeElements
    by_cases h1 : destination.length + 4 > n
    · rw [if_pos h1]; exact ⟨h, rfl⟩
    · rw [if_neg h1]
      have hb := (OscBundle.bundle_encode_le b (n - (destination.length + 4))).1
      exact OscBundle.encodeElements_le rest n _
        (by simp only [List.length_append, encodeArgument32, List.length_cons,
              List.length_nil, OscContent.encode]; omega)
end

/-- C13: for every message, every bundle and every destination capacity `n`, `encode`
stores bytes only at the indices below `n` (the stored bytes, in index order from 0, are at
most `n`) and returns a count that is at most `n`, namely the number of bytes stored; the
bundle may hold elements that do not fit and are cut short. -/
theorem encode_within_capacity (m : OscMessage) (b : OscBundle) (n : Nat) :
    ((m.encode n).bytes.length ≤ n ∧ (m.encode n).count ≤ n
      ∧ (m.encode n).count = (m.encode n).bytes.length)
    ∧ ((b.encode n).bytes.length ≤ n ∧ (b.encode n).count ≤ n
      ∧ (b.encode n).count = (b.encode n).bytes.length) := by
  have hm := OscMessage.message_encode_le m n
  have hb := OscBundle.bundle_encode_le b n
  exact ⟨⟨hm.1, by rw [hm.2]; exact hm.1, hm.2⟩, ⟨hb.1, by rw [hb.2]; exact hb.1, hb.2⟩⟩

/-- C12: `encode` of a message, and of a bundle (the member `header` of the bundle and of
every bundle nested in it being the 7-byte bundle header, as the class keeps it; a valid
bundle is one of these), returns `getEncodedSize()` when the destination capacity is at
least `getEncodedSize()` and a strictly smaller value when the capacity is smaller. -/
theorem encode_count_reports_fit (m : OscMessage) (b : OscBundle) (n : Nat)
    (hinv : b.headerInv = true) :
    (m.getEncodedSize ≤ n → (m.encode n).count = m.getEncodedSize)
    ∧ (n < m.getEncodedSize → (m.encode n).count < m.getEncodedSize)
    ∧ (b.getEncodedSize ≤ n → (b.encode n).count = b.getEncodedSize)
    ∧ (n < b.getEncodedSize → (b.encode n).count < b.getEncodedSize) := by
  refine ⟨?_, ?_, ?_, ?_⟩
  · intro h
    rw [OscMessage.message_encode_fits m n h]
  · intro h
    have hm := OscMessage.message_encode_le m n
    omega
  · intro h
    rw [OscBundle.bundle_encode_fits b hinv n h]
  · intro h
    have hb := OscBundle.bundle_encode_le b n
    omega

theorem encode_count_reports_fit_witness :
    (((OscMessage.withAddress (ascii "/a")).addInt32 7).encode 12).count = 12
    ∧ (((OscMessage.withAddress (ascii "/a")).addInt32 7).encode 11).count < 12
    ∧ (((OscBundle.withTimeTag 1).addMessage
        ((OscMessage.withAddress (ascii "/a")).addInt32 7)).encode 32).count = 32
    ∧ (((OscBundle.withTimeTag 1).addMessage
        ((OscMessage.withAddress (ascii "/a")).addInt32 7)).encode 31).count < 32 :=
  have h12 := encode_count_reports_fit ((OscMessage.withAddress (ascii "/a")).addInt32 7)
    ((OscBundle.withTimeTag 1).addMessage ((OscMessage.withAddress (ascii "/a")).addInt32 7))
    12 (by decide)
  have h11 := encode_count_reports_fit ((OscMessage.withAddress (ascii "/a")).addInt32 7)
    ((OscBundle.withTimeTag 1).addMessage ((OscMessage.withAddress (ascii "/a")).addInt32 7))
    11 (by decide)
  have h32 := encode_count_reports_fit ((OscMessage.withAddress (ascii "/a")).addInt32 7)
    ((OscBundle.withTimeTag 1).addMessage ((OscMessage.withAddress (ascii "/a")).addInt32 7))
    32 (by decide)
  have h31 := encode_count_reports_fit ((OscMessage.withAddress (ascii "/a")).addInt32 7)
    ((OscBundle.withTimeTag 1).addMessage ((OscMessage.withAddress (ascii "/a")).addInt32 7))
    31 (by decide)
  ⟨h12.1 (by decide), h11.2.1 (by decide), h32.2.2.1 (by decide), h31.2.2.2 (by decide)⟩

theorem OscBundle.isValid_error (b : OscBundle) (e : OscError) :
    (b.error e).1.isValid = false ∧ (b.error e).1.size = 0 ∧ (b.error e).2 = e := by
  cases b with
  | mk timeTag header elements =>
    refine ⟨?_, rfl, rfl⟩
    cases header with
    | nil => rfl
    | cons c cs => rfl

/-- C18: when the size of the source is not a multiple of 4, `OscMessage::decode` returns
`OscErrorSizeIsNotMultipleOfFour` whatever the source holds, and the message that
`createFromEncodedData` returns is empty and not valid; `OscBundle::decode` returns
`OscErrorSizeIsNotMultipleOfFour`, and the bundle that `createFromEncodedData` returns is
not valid and has no element. -/
theorem decode_rejects_unaligned_size (source : List Nat) (sizeInBytes : Nat)
    (h : sizeInBytes % 4 ≠ 0) :
    OscMessage.new.decode source sizeInBytes
        = some (OscMessage.new, .OscErrorSizeIsNotMultipleOfFour)
    ∧ (OscMessage.createFromEncodedData source sizeInBytes).map
        (fun m => (m.isEmpty, m.isValid)) = some (true, false)
    ∧ (OscBundle.decode (source.length + 1) OscBundle.new source sizeInBytes).map (·.2)
        = some .OscErrorSizeIsNotMultipleOfFour
    ∧ (OscBundle.createFromEncodedData source sizeInBytes).map
        (fun b => (b.isValid, b.size)) = some (false, 0) := by
  have h0 : sizeInBytes ≠ 0 := by
    intro h0; rw [h0] at h; exact h rfl
  have hm : OscMessage.new.decode source sizeInBytes
      = some (OscMessage.new, .OscErrorSizeIsNotMultipleOfFour) := by
    unfold OscMessage.decode
    rw [if_neg h0, if_pos h]
  have hb : OscBundle.decode (source.length + 1) OscBundle.new source sizeInBytes
      = some (OscBundle.new.error .OscErrorSizeIsNotMultipleOfFour) := by
    rw [OscBundle.decode, if_pos h]
  refine ⟨hm, ?_, ?_, ?_⟩
  · simp only [OscMessage.createFromEncodedData, hm, Option.map_some']
    rfl
  · rw [hb]; rfl
  · simp only [OscBundle.createFromEncodedData, hb, Option.map_some']
    rfl

theorem decode_rejects_unaligned_size_witness :
    OscMessage.new.decode (ascii "/a" ++ [0, 0] ++ ascii ",") 5
        = some (OscMessage.new, .OscErrorSizeIsNotMultipleOfFour)
    ∧ (OscBundle.createFromEncodedData (ascii "#bundle" ++ [0, 0, 0, 0, 0, 0, 0, 0, 1, 0]) 18).map
        (fun b => (b.isValid, b.size)) = some (false, 0) :=
  ⟨(decode_rejects_unaligned_size (ascii "/a" ++ [0, 0] ++ ascii ",") 5 (by decide)).1,
    (decode_rejects_unaligned_size (ascii "#bundle" ++ [0, 0, 0, 0, 0, 0, 0, 0, 1, 0]) 18
      (by decide)).2.2.2⟩

/-- C19: `OscBundle::decode` of 15 bytes fails whatever the bytes are (the returned bundle is
not valid); `OscBundle::decode` of the 16 bytes "#bundle", NUL and eight bytes `t0 ... t7`
returns `OscErrorNone`, and the bundle is valid, has no element and has the time tag whose
eight bytes, most significant first, are `t0 ... t7`. -/
theorem bundle_decode_minimum_size (source : List Nat) (t0 t1 t2 t3 t4 t5 t6 t7 : Nat) :
    ((OscBundle.decode (source.length + 1) OscBundle.new source 15).map
        (fun r => (decide (r.2 = .OscErrorNone), r.1.isValid)) = some (false, false)
      ∧ (OscBundle.createFromEncodedData source 15).map (·.isValid) = some false)
    ∧ (OscBundle.decode 17 OscBundle.new
          (OscBundle.BundleHeader ++ [0] ++ [t0, t1, t2, t3, t4, t5, t6, t7]) 16
        = some (.mk (t0 * 2 ^ 56 + t1 * 2 ^ 48 + t2 * 2 ^ 40 + t3 * 2 ^ 32
              + t4 * 2 ^ 24 + t5 * 2 ^ 16 + t6 * 2 ^ 8 + t7) OscBundle.BundleHeader [],
            .OscErrorNone)
      ∧ (OscBundle.createFromEncodedData
          (OscBundle.BundleHeader ++ [0] ++ [t0, t1, t2, t3, t4, t5, t6, t7]) 16).map
          (fun b => (b.isValid, b.size, b.getTimeTag))
        = some (true, 0, t0 * 2 ^ 56 + t1 * 2 ^ 48 + t2 * 2 ^ 40 + t3 * 2 ^ 32
              + t4 * 2 ^ 24 + t5 * 2 ^ 16 + t6 * 2 ^ 8 + t7)) := by
  have hb : OscBundle.decode (source.length + 1) OscBundle.new source 15
      = some (OscBundle.new.error .OscErrorSizeIsNotMultipleOfFour) := by
    rw [OscBundle.decode, if_pos (by decide)]
  have h16 : OscBundle.decode 17 OscBundle.new
        (OscBundle.BundleHeader ++ [0] ++ [t0, t1, t2, t3, t4, t5, t6, t7]) 16
      = some (.mk (t0 * 2 ^ 56 + t1 * 2 ^ 48 + t2 * 2 ^ 40 + t3 * 2 ^ 32
            + t4 * 2 ^ 24 + t5 * 2 ^ 16 + t6 * 2 ^ 8 + t7) OscBundle.BundleHeader [],
          .OscErrorNone) := by
    rw [OscBundle.decode, if_neg (by decide), if_neg (by decide)]
    have hc : cString (OscBundle.BundleHeader ++ [0] ++ [t0, t1, t2, t3, t4, t5, t6, t7])
        = some OscBundle.BundleHeader := by
      have := cString_scan OscBundle.BundleHeader [t0, t1, t2, t3, t4, t5, t6, t7] (by decide)
      simpa using this
    have h0 : (OscBundle.BundleHeader ++ [0] ++ [t0, t1, t2, t3, t4, t5, t6, t7])[0]?
        = some 35 := rfl
    simp only [h0, hc, ne_eq, not_true_eq_false, if_false]
    have hd : decodeArgument64 ((OscBundle.BundleHeader ++ [0]
          ++ [t0, t1, t2, t3, t4, t5, t6, t7]).drop (OscBundle.new.header.length + 1))
        = some (t0 * 2 ^ 56 + t1 * 2 ^ 48 + t2 * 2 ^ 40 + t3 * 2 ^ 32
            + t4 * 2 ^ 24 + t5 * 2 ^ 16 + t6 * 2 ^ 8 + t7) := rfl
    rw [hd]
    simp only
    rw [OscBundle.decodeElements_done _ _ _ _ _ (by decide)]
    rfl
  refine ⟨⟨?_, ?_⟩, h16, ?_⟩
  · rw [hb]; rfl
  · simp only [OscBundle.createFromEncodedData, hb, Option.map_some']
    rfl
  · have hl : (OscBundle.BundleHeader ++ [0] ++ [t0, t1, t2, t3, t4, t5, t6, t7]).length + 1
        = 17 := rfl
    simp only [OscBundle.createFromEncodedData, hl, h16, Option.map_some']
    rfl

/-- C11 (the code at a failing input): the 12 bytes "/a", 2 NULs, ",b", 2 NULs and
FF FF FF FF hold a blob argument at `sourceIndex` 8 whose declared length is -1.  As a
`size_t` that length is 2^64 - 1, `getPaddedSize` of it wraps to 0, so the test
`sourceIndex + 4 + getPaddedSize (sizeCount) > sizeInBytes` compares 12 with 12 and does
not reject; `setBlob` is then called with 2^64 - 1 bytes to copy from the end of the
buffer, and `decode` does not return `OscErrorUnexpectedEndOfSource` (it has no defined
result).  The same holds for the declared length -8 at a blob that is followed by bytes. -/
theorem blob_negative_length_not_rejected :
    (asInt32 0xFFFFFFFF = -1
      ∧ int32ToSizeT (-1) = 2 ^ 64 - 1
      ∧ toSizeT (getPaddedSize (int32ToSizeT (-1))) = 0
      ∧ toSizeT (8 + 4 + toSizeT (getPaddedSize (int32ToSizeT (-1)))) = 12
      ∧ OscArgument.uninitialised.setBlob [] (2 ^ 64 - 1) = none
      ∧ OscMessage.decodeArgument
          (ascii "/a" ++ [0, 0] ++ ascii ",b" ++ [0, 0] ++ [255, 255, 255, 255]) 12 8 BlobTypeTag
        = none
      ∧ OscMessage.new.decode
          (ascii "/a" ++ [0, 0] ++ ascii ",b" ++ [0, 0] ++ [255, 255, 255, 255]) 12
        = none)
    ∧ (asInt32 0xFFFFFFF8 = -8
      ∧ toSizeT (8 + 4 + toSizeT (getPaddedSize (int32ToSizeT (-8)))) = 4
      ∧ OscMessage.new.decode
          (ascii "/a" ++ [0, 0] ++ ascii ",bi" ++ [0] ++ [255, 255, 255, 248] ++ [0, 0, 0, 1]) 16
        = none) := by
  decide

namespace OscMessage

theorem decodeAddressPattern_result (source : List Nat) (sizeInBytes : Nat) :
    ∀ (fuel sourceIndex : Nat) (addressPattern : List Nat) (r : Step (Nat × List Nat)),
    decodeAddressPattern source sizeInBytes fuel sourceIndex addressPattern = some r →
    (∀ e, r = .fail e → e = .OscErrorSourceEndsBeforeEndOfAddressPattern)
    ∧ (∀ i ap, r = .next (i, ap) → ∃ s, ap = addressPattern ++ s)
  | 0, _, _, _, h => by simp [decodeAddressPattern] at h
  | fuel + 1, sourceIndex, addressPattern, r, h => by
    rw [decodeAddressPattern] at h
    cases hc : source[sourceIndex]? with
    | none => rw [hc] at h; cases h
    | some c =>
      simp only [hc] at h
      by_cases h0 : c = 0
      · simp only [h0, if_true, Option.some.injEq] at h
        subst h
        refine ⟨fun e he => (by cases he), fun i ap he => ?_⟩
        cases he
        exact ⟨[], by simp⟩
      · simp only [h0, if_false] at h
        by_cases h1 : toUInt32 (sourceIndex + 1) ≥ sizeInBytes
        · simp only [h1, if_true, Option.some.injEq] at h
          subst h
          refine ⟨fun e he => ?_, fun i ap he => (by cases he)⟩
          cases he
          rfl
        · simp only [h1, if_false] at h
          obtain ⟨f1, f2⟩ := decodeAddressPattern_result source sizeInBytes fuel _ _ r h
          refine ⟨f1, fun i ap he => ?_⟩
          obtain ⟨s, hs⟩ := f2 i ap he
          exact ⟨c :: s, by rw [hs]; simp⟩

theorem decodeSkipToTypeTags_result (source : List Nat) (sizeInBytes : Nat) :
    ∀ (fuel sourceIndex : Nat) (e : OscError),
    decodeSkipToTypeTags source sizeInBytes fuel sourceIndex = some (.fail e) →
    e = .OscErrorSourceEndsBeforeStartOfTypeTagString
  | 0, _, _, h => by simp [decodeSkipToTypeTags] at h
  | fuel + 1, sourceIndex, e, h => by
    rw [decodeSkipToTypeTags] at h
    cases hc : source[toUInt32 (sourceIndex + 2 ^ 32 - 1)]? with
    | none => rw [hc] at h; cases h
    | some c =>
      rw [hc] at h
      simp only at h
      by_cases h0 : c = 44
      · rw [if_pos h0] at h; cases h
      · simp only [h0, if_false] at h
        by_cases h1 : toUInt32 (sourceIndex + 1) ≥ sizeInBytes
        · simp only [h1, if_true, Option.some.injEq, Step.fail.injEq] at h
          exact h.symm
        · simp only [h1, if_false] at h
          exact decodeSkipToTypeTags_result source sizeInBytes fuel _ e h

theorem decodeTypeTagString_result (source : List Nat) (sizeInBytes : Nat) :
    ∀ (fuel sourceIndex : Nat) (typetagString : List Nat) (e : OscError),
    decodeTypeTagString source sizeInBytes fuel sourceIndex typetagString = some (.fail e) →
    e = .OscErrorSourceEndsBeforeEndOfTypeTagString
  | 0, _, _, _, h => by simp [decodeTypeTagString] at h
  | fuel + 1, sourceIndex, typetagString, e, h => by
    rw [decodeTypeTagString] at h
    cases hc : source[sourceIndex]? with
    | none => simp [hc] at h
    | some c =>
      simp only [hc] at h
      by_cases h0 : c = 0
      · simp [h0] at h
      · simp only [h0, if_false] at h
        by_cases h1 : toUInt32 (sourceIndex + 1) ≥ sizeInBytes
        · simp only [h1, if_true, Option.some.injEq, Step.fail.injEq] at h
          exact h.symm
        · simp only [h1, if_false] at h
          exact decodeTypeTagString_result source sizeInBytes fuel _ _ e h

theorem decodeAdvanceToArguments_result (sizeInBytes : Nat) :
    ∀ (fuel sourceIndex : Nat) (e : OscError),
    decodeAdvanceToArguments sizeInBytes fuel sourceIndex = .fail e →
    e = .OscErrorUnexpectedEndOfSource
  | 0, _, _, h => by simp [decodeAdvanceToArguments] at h
  | fuel + 1, sourceIndex, e, h => by
    rw [decodeAdvanceToArguments] at h
    by_cases h1 : toUInt32 (sourceIndex + 1) > sizeInBytes
    · simp only [h1, if_true, Step.fail.injEq] at h
      exact h.symm
    · simp only [h1, if_false] at h
      by_cases h2 : toUInt32 (sourceIndex + 1) % 4 ≠ 0
      · simp only [h2, ne_eq, not_false_eq_true, if_true] at h
        exact decodeAdvanceToArguments_result sizeInBytes fuel _ e h
      · simp [h2] at h

theorem decodeArgument_result (source : List Nat) (sizeInBytes sourceIndex type : Nat)
    (e : OscError)
    (h : decodeArgument source sizeInBytes sourceIndex type = some (.fail e)) :
    e = .OscErrorUnexpectedEndOfSource := by
  unfold decodeArgument at h
  simp only at h
  by_cases t1 : type = Int32TypeTag ∨ type = Float32TypeTag ∨ type = CharacterTypeTag
      ∨ type = RgbaColourTypeTag ∨ type = MidiMessageTypeTag
  · rw [if_pos t1] at h
    by_cases b : sourceIndex + 4 > sizeInBytes
    · rw [if_pos b] at h
      simp only [Option.some.injEq, Step.fail.injEq] at h
      exact h.symm
    · rw [if_neg b] at h
      cases hu : decodeArgument32 (source.drop sourceIndex) with
      | none => rw [hu] at h; cases h
      | some u =>
        rw [hu] at h
        simp only at h
        split_ifs at h
        · cases h
        · cases h
        · cases hc : source[toUInt32 (sourceIndex + 3)]? with
          | none => rw [hc] at h; cases h
          | some c => rw [hc] at h; cases h
        · cases h
        · cases h
  · rw [if_neg t1] at h
    by_cases t2 : type = StringTypeTag ∨ type = AlternateStringTypeTag
    · rw [if_pos t2] at h
      cases hl : stringLengthSafe (source.drop sourceIndex)
          (toSizeT (sizeInBytes + 2 ^ 64 - sourceIndex)) with
      | none => rw [hl] at h; cases h
      | some length =>
        rw [hl] at h
        simp only at h
        by_cases b : length = 0 ∨ getPaddedSize (sourceIndex + length + 1) > sizeInBytes
        · rw [if_pos b] at h
          simp only [Option.some.injEq, Step.fail.injEq] at h
          exact h.symm
        · rw [if_neg b] at h
          cases hs : decodeStringValue source sourceIndex source.length 0 [] with
          | none => rw [hs] at h; cases h
          | some string =>
            rw [hs] at h
            simp only at h
            split_ifs at h <;> cases h
    · rw [if_neg t2] at h
      by_cases t3 : type = BlobTypeTag
      · rw [if_pos t3] at h
        by_cases b : sourceIndex + 4 > sizeInBytes
        · rw [if_pos b] at h
          simp only [Option.some.injEq, Step.fail.injEq] at h
          exact h.symm
        · rw [if_neg b] at h
          cases hu : decodeArgument32 (source.drop sourceIndex) with
          | none => rw [hu] at h; cases h
          | some u =>
            rw [hu] at h
            simp only at h
            by_cases b2 : toSizeT (sourceIndex + 4
                + toSizeT (getPaddedSize (int32ToSizeT (asInt32 u)))) > sizeInBytes
            · rw [if_pos b2] at h
              simp only [Option.some.injEq, Step.fail.injEq] at h
              exact h.symm
            · rw [if_neg b2] at h
              cases hb : OscArgument.uninitialised.setBlob (source.drop (sourceIndex + 4))
                  (int32ToSizeT (asInt32 u)) with
              | none => rw [hb] at h; cases h
              | some a => rw [hb] at h; cases h
      · rw [if_neg t3] at h
        by_cases t4 : type = Int64TypeTag ∨ type = Float64TypeTag ∨ type = TimeTagTypeTag
        · rw [if_pos t4] at h
          by_cases b : sourceIndex + 8 > sizeInBytes
          · rw [if_pos b] at h
            simp only [Option.some.injEq, Step.fail.injEq] at h
            exact h.symm
          · rw [if_neg b] at h
            cases hu : decodeArgument64 (source.drop sourceIndex) with
            | none => rw [hu] at h; cases h
            | some u =>
              rw [hu] at h
              simp only at h
              split_ifs at h <;> cases h
        · rw [if_neg t4] at h
          split_ifs at h <;> cases h

theorem decodeArguments_result (source : List Nat) (sizeInBytes : Nat) :
    ∀ (types : List Nat) (sourceIndex : Nat) (arguments : List OscArgument) (e : OscError),
    decodeArguments source sizeInBytes types sourceIndex arguments = some (.fail e) →
    e = .OscErrorUnexpectedEndOfSource
  | [], _, _, _, h => by simp [decodeArguments] at h
  | type :: rest, sourceIndex, arguments, e, h => by
    rw [decodeArguments] at h
    cases hd : decodeArgument source sizeInBytes sourceIndex type with
    | none => simp [hd] at h
    | some r =>
      cases r with
      | fail e2 =>
        simp only [hd, Option.some.injEq, Step.fail.injEq] at h
        rw [← h]
        exact decodeArgument_result _ _ _ _ _ hd
      | next a =>
        simp only [hd] at h
        exact decodeArguments_result source sizeInBytes rest _ _ e h

end OscMessage

namespace OscMessage

theorem decodeAddressPattern_head (source : List Nat) (sizeInBytes fuel i : Nat)
    (ap : List Nat) (h0 : source[0]? = some 47)
    (h : decodeAddressPattern source sizeInBytes fuel 0 [] = some (.next (i, ap))) :
    ap.head? = some 47 := by
  cases fuel with
  | zero => simp [decodeAddressPattern] at h
  | succ f =>
    rw [decodeAddressPattern, h0] at h
    simp only at h
    rw [if_neg (by decide)] at h
    by_cases h1 : toUInt32 (0 + 1) ≥ sizeInBytes
    · rw [if_pos h1] at h; cases h
    · rw [if_neg h1] at h
      obtain ⟨s, hs⟩ := (decodeAddressPattern_result source sizeInBytes f _ _ _ h).2 i ap rfl
      rw [hs]
      rfl

theorem decode_new_result (source : List Nat) (sizeInBytes : Nat) (m : OscMessage)
    (e : OscError) (h : OscMessage.new.decode source sizeInBytes = some (m, e)) :
    (e ≠ .OscErrorNone → m = OscMessage.new)
    ∧ (e = .OscErrorNone → m.addressPattern.head? = some 47) := by
  have herr : ∀ e2 : OscError, e2 ≠ .OscErrorNone →
      OscMessage.new.error e2 = (m, e) →
      (e ≠ .OscErrorNone → m = OscMessage.new)
      ∧ (e = .OscErrorNone → m.addressPattern.head? = some 47) := by
    intro e2 hne heq
    simp only [OscMessage.error, OscMessage.clear, Prod.mk.injEq] at heq
    obtain ⟨hm, he⟩ := heq
    subst he
    exact ⟨fun _ => hm.symm, fun hc => absurd hc hne⟩
  have hearly : ∀ e2 : OscError, e2 ≠ .OscErrorNone →
      (OscMessage.new, e2) = (m, e) →
      (e ≠ .OscErrorNone → m = OscMessage.new)
      ∧ (e = .OscErrorNone → m.addressPattern.head? = some 47) := by
    intro e2 hne heq
    simp only [Prod.mk.injEq] at heq
    obtain ⟨hm, he⟩ := heq
    subst he
    exact ⟨fun _ => hm.symm, fun hc => absurd hc hne⟩
  unfold OscMessage.decode at h
  by_cases c1 : sizeInBytes = 0
  · rw [if_pos c1] at h
    exact hearly _ (by decide) (Option.some.inj h)
  rw [if_neg c1] at h
  by_cases c2 : sizeInBytes % 4 ≠ 0
  · rw [if_pos c2] at h
    exact hearly _ (by decide) (Option.some.inj h)
  rw [if_neg c2] at h
  by_cases c3 : sizeInBytes < MinOscMessageSize
  · rw [if_pos c3] at h
    exact hearly _ (by decide) (Option.some.inj h)
  rw [if_neg c3] at h
  cases h0 : source[0]? with
  | none => rw [h0] at h; cases h
  | some c0 =>
    rw [h0] at h
    simp only at h
    by_cases c4 : c0 ≠ 47
    · rw [if_pos c4] at h
      exact hearly _ (by decide) (Option.some.inj h)
    rw [if_neg c4] at h
    have hc0 : c0 = 47 := by
      by_contra hx; exact c4 hx
    subst hc0
    cases hl : stringLengthSafe source sizeInBytes with
    | none => rw [hl] at h; cases h
    | some addressLength =>
      rw [hl] at h
      simp only at h
      by_cases c5 : addressLength > sizeInBytes
      · rw [if_pos c5] at h
        exact hearly _ (by decide) (Option.some.inj h)
      rw [if_neg c5] at h
      cases ha : decodeAddressPattern source sizeInBytes source.length 0
          OscMessage.new.addressPattern with
      | none => rw [ha] at h; cases h
      | some r1 =>
        rw [ha] at h
        cases r1 with
        | fail e1 =>
          simp only at h
          have := (decodeAddressPattern_result _ _ _ _ _ _ ha).1 e1 rfl
          exact herr e1 (by rw [this]; decide) (Option.some.inj h)
        | next p1 =>
          obtain ⟨i1, ap⟩ := p1
          simp only at h
          have hhead := decodeAddressPattern_head source sizeInBytes source.length i1 ap h0 ha
          cases hs : decodeSkipToTypeTags source sizeInBytes source.length i1 with
          | none => rw [hs] at h; cases h
          | some r2 =>
            rw [hs] at h
            cases r2 with
            | fail e2 =>
              simp only at h
              have := decodeSkipToTypeTags_result _ _ _ _ _ hs
              exact herr e2 (by rw [this]; decide) (Option.some.inj h)
            | next i2 =>
              simp only at h
              cases hl2 : stringLengthSafe (source.drop i2)
                  (toSizeT (sizeInBytes + 2 ^ 64 - i2)) with
              | none => rw [hl2] at h; cases h
              | some l2 =>
                rw [hl2] at h
                simp only at h
                cases ht : decodeTypeTagString source sizeInBytes source.length i2 [] with
                | none => rw [ht] at h; cases h
                | some r3 =>
                  rw [ht] at h
                  cases r3 with
                  | fail e3 =>
                    simp only at h
                    have := decodeTypeTagString_result _ _ _ _ _ _ ht
                    exact herr e3 (by rw [this]; decide) (Option.some.inj h)
                  | next p3 =>
                    obtain ⟨i3, tags⟩ := p3
                    simp only at h
                    cases hadv : decodeAdvanceToArguments sizeInBytes 4 i3 with
                    | fail e4 =>
                      rw [hadv] at h
                      simp only at h
                      have := decodeAdvanceToArguments_result _ _ _ _ hadv
                      exact herr e4 (by rw [this]; decide) (Option.some.inj h)
                    | next i4 =>
                      rw [hadv] at h
                      simp only at h
                      cases hargs : decodeArguments source sizeInBytes tags i4
                          OscMessage.new.arguments with
                      | none => rw [hargs] at h; cases h
                      | some r5 =>
                        rw [hargs] at h
                        cases r5 with
                        | fail e5 =>
                          simp only at h
                          have := decodeArguments_result _ _ _ _ _ _ hargs
                          exact herr e5 (by rw [this]; decide) (Option.some.inj h)
                        | next arguments =>
                          simp only [Option.some.injEq, Prod.mk.injEq] at h
                          obtain ⟨hm, he⟩ := h
                          subst hm
                          subst he
                          exact ⟨fun hc => absurd rfl hc, fun _ => hhead⟩

end OscMessage

theorem stringLengthSafe_total : ∀ (l : List Nat) (maxSize : Nat), maxSize ≤ l.length →
    ∃ k, stringLengthSafe l maxSize = some k ∧ k ≤ maxSize
      ∧ (k < maxSize → ∃ s t, l = s ++ 0 :: t ∧ s.length = k ∧ ∀ c ∈ s, c ≠ 0)
  | l, 0, _ => ⟨0, by cases l <;> rfl, Nat.le_refl _, fun h => absurd h (by omega)⟩
  | [], n + 1, h => by simp at h
  | c :: rest, n + 1, h => by
    by_cases hc : c = 0
    · refine ⟨0, by simp [stringLengthSafe, hc], by omega, fun _ => ⟨[], rest, ?_, rfl, ?_⟩⟩
      · rw [hc]; rfl
      · intro x hx; simp at hx
    · obtain ⟨k, hk, hle, hdec⟩ := stringLengthSafe_total rest n (by simpa using h)
      refine ⟨k + 1, by simp [stringLengthSafe, hc, hk], by omega, fun hlt => ?_⟩
      obtain ⟨s, t, e, hl, h0⟩ := hdec (by omega)
      refine ⟨c :: s, t, by rw [e]; rfl, by simp [hl], ?_⟩
      intro x hx
      rcases List.mem_cons.mp hx with hx | hx
      · rw [hx]; exact hc
      · exact h0 x hx

theorem getElem?_of_lt (source : List Nat) (i : Nat) (h : i < source.length) :
    ∃ c, source[i]? = some c ∧ c ∈ source :=
  ⟨source[i], List.getElem?_eq_getElem h, List.getElem_mem h⟩

theorem drop_four (source : List Nat) (i : Nat) (h : i + 4 ≤ source.length) :
    ∃ a b c d tl, source.drop i = a :: b :: c :: d :: tl
      ∧ a ∈ source ∧ b ∈ source ∧ c ∈ source ∧ d ∈ source := by
  have hl : (source.drop i).length = source.length - i := List.length_drop i source
  have hm : ∀ x ∈ source.drop i, x ∈ source := fun x hx => List.mem_of_mem_drop hx
  rcases hd : source.drop i with _ | ⟨a, _ | ⟨b, _ | ⟨c, _ | ⟨d, tl⟩⟩⟩⟩
  · rw [hd] at hl; simp at hl; omega
  · rw [hd] at hl; simp at hl; omega
  · rw [hd] at hl; simp at hl; omega
  · rw [hd] at hl; simp at hl; omega
  · rw [hd] at hm
    exact ⟨a, b, c, d, tl, rfl, hm a (by simp), hm b (by simp), hm c (by simp),
      hm d (by simp)⟩

theorem decodeArgument64_total (source : List Nat) (i : Nat) (h : i + 8 ≤ source.length) :
    ∃ u, decodeArgument64 (source.drop i) = some u := by
  have hl : (source.drop i).length = source.length - i := List.length_drop i source
  rcases hd : source.drop i with
    _ | ⟨a, _ | ⟨b, _ | ⟨c, _ | ⟨d, _ | ⟨e, _ | ⟨f, _ | ⟨g, _ | ⟨k, tl⟩⟩⟩⟩⟩⟩⟩⟩
  all_goals first
    | (rw [hd] at hl; simp at hl; omega)
    | exact ⟨_, rfl⟩

namespace OscMessage

theorem decodeAddressPattern_total (source : List Nat) (sizeInBytes : Nat)
    (hs : sizeInBytes ≤ source.length) (h32 : sizeInBytes < 2 ^ 32) :
    ∀ (fuel sourceIndex : Nat) (addressPattern : List Nat),
    sourceIndex < sizeInBytes → sizeInBytes - sourceIndex ≤ fuel →
    ∃ r, decodeAddressPattern source sizeInBytes fuel sourceIndex addressPattern = some r
      ∧ ∀ i ap, r = .next (i, ap) → sourceIndex ≤ i ∧ i < sizeInBytes
  | 0, sourceIndex, _, h1, h2 => by omega
  | fuel + 1, sourceIndex, addressPattern, h1, h2 => by
    obtain ⟨c, hc, _⟩ := getElem?_of_lt source sourceIndex (by omega)
    rw [decodeAddressPattern, hc]
    simp only
    by_cases h0 : c = 0
    · rw [if_pos h0]
      refine ⟨_, rfl, fun i ap he => ?_⟩
      cases he
      exact ⟨Nat.le_refl _, h1⟩
    · rw [if_neg h0, toUInt32_of_lt (by omega)]
      by_cases h3 : sourceIndex + 1 ≥ sizeInBytes
      · rw [if_pos h3]
        exact ⟨_, rfl, fun i ap he => (by cases he)⟩
      · rw [if_neg h3]
        obtain ⟨r, hr, hp⟩ := decodeAddressPattern_total source sizeInBytes hs h32 fuel
          (sourceIndex + 1) (addressPattern ++ [c]) (by omega) (by omega)
        refine ⟨r, hr, fun i ap he => ?_⟩
        have := hp i ap he
        omega

theorem decodeSkipToTypeTags_total (source : List Nat) (sizeInBytes : Nat)
    (hs : sizeInBytes ≤ source.length) (h32 : sizeInBytes < 2 ^ 32) :
    ∀ (fuel sourceIndex : Nat),
    1 ≤ sourceIndex → sourceIndex < sizeInBytes → sizeInBytes - sourceIndex ≤ fuel →
    ∃ r, decodeSkipToTypeTags source sizeInBytes fuel sourceIndex = some r
      ∧ ∀ i, r = .next i → sourceIndex ≤ i ∧ i < sizeInBytes
  | 0, sourceIndex, _, h1, h2 => by omega
  | fuel + 1, sourceIndex, h0, h1, h2 => by
    have e : toUInt32 (sourceIndex + 2 ^ 32 - 1) = sourceIndex - 1 := by
      unfold toUInt32; omega
    obtain ⟨c, hc, _⟩ := getElem?_of_lt source (sourceIndex - 1) (by omega)
    rw [decodeSkipToTypeTags, e, hc]
    simp only
    by_cases hc0 : c = 44
    · rw [if_pos hc0]
      refine ⟨_, rfl, fun i he => ?_⟩
      cases he
      exact ⟨Nat.le_refl _, h1⟩
    · rw [if_neg hc0, toUInt32_of_lt (by omega)]
      by_cases h3 : sourceIndex + 1 ≥ sizeInBytes
      · rw [if_pos h3]
        exact ⟨_, rfl, fun i he => (by cases he)⟩
      · rw [if_neg h3]
        obtain ⟨r, hr, hp⟩ := decodeSkipToTypeTags_total source sizeInBytes hs h32 fuel
          (sourceIndex + 1) (by omega) (by omega) (by omega)
        refine ⟨r, hr, fun i he => ?_⟩
        have := hp i he
        omega

theorem decodeTypeTagString_total (source : List Nat) (sizeInBytes : Nat)
    (hs : sizeInBytes ≤ source.length) (h32 : sizeInBytes < 2 ^ 32) :
    ∀ (fuel sourceIndex : Nat) (typetagString : List Nat),
    sourceIndex < sizeInBytes → sizeInBytes - sourceIndex ≤ fuel →
    ∃ r, decodeTypeTagString source sizeInBytes fuel sourceIndex typetagString = some r
      ∧ ∀ i tags, r = .next (i, tags) → sourceIndex ≤ i ∧ i < sizeInBytes
  | 0, sourceIndex, _, h1, h2 => by omega
  | fuel + 1, sourceIndex, typetagString, h1, h2 => by
    obtain ⟨c, hc, _⟩ := getElem?_of_lt source sourceIndex (by omega)
    rw [decodeTypeTagString, hc]
    simp only
    by_cases h0 : c = 0
    · rw [if_pos h0]
      refine ⟨_, rfl, fun i ap he => ?_⟩
      cases he
      exact ⟨Nat.le_refl _, h1⟩
    · rw [if_neg h0, toUInt32_of_lt (by omega)]
      by_cases h3 : sourceIndex + 1 ≥ sizeInBytes
      · rw [if_pos h3]
        exact ⟨_, rfl, fun i ap he => (by cases he)⟩
      · rw [if_neg h3]
        obtain ⟨r, hr, hp⟩ := decodeTypeTagString_total source sizeInBytes hs h32 fuel
          (sourceIndex + 1) (typetagString ++ [c]) (by omega) (by omega)
        refine ⟨r, hr, fun i ap he => ?_⟩
        have := hp i ap he
        omega

theorem decodeAdvanceToArguments_aligned (sizeInBytes : Nat) (h32 : sizeInBytes < 2 ^ 32)
    (hm : sizeInBytes % 4 = 0) :
    ∀ (fuel sourceIndex i : Nat), sourceIndex < sizeInBytes → 4 - sourceIndex % 4 ≤ fuel →
    decodeAdvanceToArguments sizeInBytes fuel sourceIndex = .next i →
    i ≤ sizeInBytes ∧ i % 4 = 0
  | 0, sourceIndex, _, _, h2, _ => by omega
  | fuel + 1, sourceIndex, i, h1, h2, h => by
    rw [decodeAdvanceToArguments, toUInt32_of_lt (by omega)] at h
    by_cases h3 : sourceIndex + 1 > sizeInBytes
    · rw [if_pos h3] at h; cases h
    · rw [if_neg h3] at h
      by_cases h4 : (sourceIndex + 1) % 4 ≠ 0
      · rw [if_pos h4] at h
        exact decodeAdvanceToArguments_aligned sizeInBytes h32 hm fuel (sourceIndex + 1) i
          (by omega) (by omega) h
      · rw [if_neg h4] at h
        cases h
        constructor <;> omega

end OscMessage

namespace OscMessage

theorem decodeArgument_total (source : List Nat) (sizeInBytes sourceIndex type : Nat)
    (hs : sizeInBytes ≤ source.length) (h32 : sizeInBytes < 2 ^ 32)
    (hb : ∀ c ∈ source, c < 128) (hi : sourceIndex ≤ sizeInBytes) (hm : sourceIndex % 4 = 0) :
    ∃ r, decodeArgument source sizeInBytes sourceIndex type = some r
      ∧ ∀ a, r = .next a → sourceIndex + a.getEncodedSize ≤ sizeInBytes := by
  by_cases t1 : type = Int32TypeTag ∨ type = Float32TypeTag ∨ type = CharacterTypeTag
      ∨ type = RgbaColourTypeTag ∨ type = MidiMessageTypeTag
  · by_cases b : sourceIndex + 4 > sizeInBytes
    · unfold decodeArgument
      simp only
      rw [if_pos t1, if_pos b]
      exact ⟨_, rfl, fun a he => (by cases he)⟩
    · obtain ⟨x0, x1, x2, x3, tl, hd, _⟩ := drop_four source sourceIndex (by omega)
      have hu : decodeArgument32 (source.drop sourceIndex)
          = some (x0 * 2 ^ 24 + x1 * 2 ^ 16 + x2 * 2 ^ 8 + x3) := by rw [hd]; rfl
      obtain ⟨c, hc, _⟩ := getElem?_of_lt source (sourceIndex + 3) (by omega)
      rw [← toUInt32_of_lt (show sourceIndex + 3 < 2 ^ 32 by omega)] at hc
      rcases t1 with h | h | h | h | h
      · rw [h, decodeArgument_int32 _ _ _ _ (by omega) hu]
        refine ⟨_, rfl, fun a he => ?_⟩
        cases he
        rw [OscArgument.size_32 _ (Or.inl rfl)]; omega
      · rw [h, decodeArgument_float32 _ _ _ _ (by omega) hu]
        refine ⟨_, rfl, fun a he => ?_⟩
        cases he
        rw [OscArgument.size_32 _ (Or.inr (Or.inl rfl))]; omega
      · rw [h, decodeArgument_character _ _ _ _ c (by omega) hu hc]
        refine ⟨_, rfl, fun a he => ?_⟩
        cases he
        rw [OscArgument.size_32 _ (Or.inr (Or.inr (Or.inl rfl)))]; omega
      · rw [h, decodeArgument_rgba _ _ _ _ (by omega) hu]
        refine ⟨_, rfl, fun a he => ?_⟩
        cases he
        rw [OscArgument.size_32 _ (Or.inr (Or.inr (Or.inr (Or.inl rfl))))]; omega
      · rw [h, decodeArgument_midi _ _ _ _ (by omega) hu]
        refine ⟨_, rfl, fun a he => ?_⟩
        cases he
        rw [OscArgument.size_32 _ (Or.inr (Or.inr (Or.inr (Or.inr rfl))))]; omega
  by_cases t2 : type = StringTypeTag ∨ type = AlternateStringTypeTag
  · have e : toSizeT (sizeInBytes + 2 ^ 64 - sourceIndex) = sizeInBytes - sourceIndex :=
      toSizeT_sub hi (by omega)
    obtain ⟨k, hk, hle, hdec⟩ := stringLengthSafe_total (source.drop sourceIndex)
      (sizeInBytes - sourceIndex) (by rw [List.length_drop]; omega)
    by_cases b : k = 0 ∨ getPaddedSize (sourceIndex + k + 1) > sizeInBytes
    · unfold decodeArgument
      simp only
      rw [if_neg t1, if_pos t2, e, hk]
      simp only
      rw [if_pos b]
      exact ⟨_, rfl, fun a he => (by cases he)⟩
    · have hb1 := getPaddedSize_bounds (sourceIndex + k + 1)
      have hk0 : k ≠ 0 := fun h => b (Or.inl h)
      have hp : getPaddedSize (sourceIndex + k + 1) ≤ sizeInBytes := by
        by_contra hx; exact b (Or.inr (by omega))
      obtain ⟨s, t, hst, hl, h0⟩ := hdec (by omega)
      have hv : decodeStringValue source sourceIndex source.length 0 [] = some ([] ++ s) :=
        decodeStringValue_scan source sourceIndex s t source.length 0 [] (by simpa using hst)
          h0 (by omega) (by omega)
      rw [← e] at hk
      rw [decodeArgument_string source sizeInBytes sourceIndex type ([] ++ s) k t2 hk hk0 hp hv]
      refine ⟨_, rfl, fun a he => ?_⟩
      cases he
      have hadd := getPaddedSize_add sourceIndex (k + 1) hm
      have e2 : sourceIndex + (k + 1) = sourceIndex + k + 1 := by omega
      rw [e2] at hadd
      split_ifs
      · rw [OscArgument.size_string _ (Or.inl rfl)]
        simp only [OscArgument.setString, List.nil_append, hl]
        omega
      · rw [OscArgument.size_string _ (Or.inr rfl)]
        simp only [OscArgument.setAlternateString, List.nil_append, hl]
        omega
  by_cases t3 : type = BlobTypeTag
  · subst t3
    by_cases b : sourceIndex + 4 > sizeInBytes
    · unfold decodeArgument
      simp only
      rw [if_neg t1, if_neg t2, if_pos trivial, if_pos b]
      exact ⟨_, rfl, fun a he => (by cases he)⟩
    · obtain ⟨x0, x1, x2, x3, tl, hd, m0, m1, m2, m3⟩ := drop_four source sourceIndex (by omega)
      have b0 := hb x0 m0
      have b1 := hb x1 m1
      have b2 := hb x2 m2
      have b3 := hb x3 m3
      obtain ⟨u, hu0⟩ : ∃ u, u = x0 * 2 ^ 24 + x1 * 2 ^ 16 + x2 * 2 ^ 8 + x3 := ⟨_, rfl⟩
      have hu : decodeArgument32 (source.drop sourceIndex) = some u := by rw [hd, hu0]; rfl
      have h31 : u < 2 ^ 31 := by omega
      have e1 : int32ToSizeT (asInt32 u) = u := int32ToSizeT_asInt32 u h31
      have hpb := getPaddedSize_bounds u
      have e2 : toSizeT (getPaddedSize u) = getPaddedSize u := toSizeT_of_lt (by omega)
      have e3 : toSizeT (sourceIndex + 4 + getPaddedSize u) = sourceIndex + 4 + getPaddedSize u :=
        toSizeT_of_lt (by omega)
      by_cases b4 : sourceIndex + 4 + getPaddedSize u > sizeInBytes
      · unfold decodeArgument
        simp only
        rw [if_neg t1, if_neg t2, if_pos trivial, if_neg b, hu]
        simp only
        rw [e1, e2, e3, if_pos b4]
        exact ⟨_, rfl, fun a he => (by cases he)⟩
      · have hlen : (source.drop (sourceIndex + 4)).length = source.length - (sourceIndex + 4) :=
          List.length_drop _ _
        have hsb : OscArgument.uninitialised.setBlob (source.drop (sourceIndex + 4))
            (int32ToSizeT (asInt32 u))
            = some { OscArgument.uninitialised with
                typeTag := BlobTypeTag,
                blobValue := OscArgument.uninitialised.blobValue
                  ++ (source.drop (sourceIndex + 4)).take u } := by
          rw [e1]
          unfold OscArgument.setBlob
          rw [if_pos ⟨by omega, by omega⟩]
        rw [decodeArgument_blob source sizeInBytes sourceIndex u _ (by omega) hu
          (by rw [e1, e2, e3]; omega) hsb]
        refine ⟨_, rfl, fun a he => ?_⟩
        cases he
        rw [OscArgument.size_blob _ rfl]
        have hbl : (OscArgument.uninitialised.blobValue
            ++ (source.drop (sourceIndex + 4)).take u).length = u := by
          simp only [OscArgument.uninitialised, List.nil_append, List.length_take, hlen]
          omega
        simp only [hbl]
        omega
  by_cases t4 : type = Int64TypeTag ∨ type = Float64TypeTag ∨ type = TimeTagTypeTag
  · by_cases b : sourceIndex + 8 > sizeInBytes
    · unfold decodeArgument
      simp only
      rw [if_neg t1, if_neg t2, if_neg t3, if_pos t4, if_pos b]
      exact ⟨_, rfl, fun a he => (by cases he)⟩
    · obtain ⟨u, hu⟩ := decodeArgument64_total source sourceIndex (by omega)
      rcases t4 with h | h | h
      · rw [h, decodeArgument_int64 _ _ _ _ (by omega) hu]
        refine ⟨_, rfl, fun a he => ?_⟩
        cases he
        rw [OscArgument.size_64 _ (Or.inl rfl)]; omega
      · rw [h, decodeArgument_float64 _ _ _ _ (by omega) hu]
        refine ⟨_, rfl, fun a he => ?_⟩
        cases he
        rw [OscArgument.size_64 _ (Or.inr (Or.inl rfl))]; omega
      · rw [h, decodeArgument_timeTag _ _ _ _ (by omega) hu]
        refine ⟨_, rfl, fun a he => ?_⟩
        cases he
        rw [OscArgument.size_64 _ (Or.inr (Or.inr rfl))]; omega
  unfold decodeArgument
  simp only
  rw [if_neg t1, if_neg t2, if_neg t3, if_neg t4]
  split_ifs
  all_goals
    refine ⟨_, rfl, fun a he => ?_⟩
    cases he
    exact hi

theorem decodeArguments_total (source : List Nat) (sizeInBytes : Nat)
    (hs : sizeInBytes ≤ source.length) (h32 : sizeInBytes < 2 ^ 32)
    (hb : ∀ c ∈ source, c < 128) :
    ∀ (types : List Nat) (sourceIndex : Nat) (arguments : List OscArgument),
    sourceIndex ≤ sizeInBytes → sourceIndex % 4 = 0 →
    ∃ r, decodeArguments source sizeInBytes types sourceIndex arguments = some r
  | [], _, _, _, _ => ⟨_, rfl⟩
  | type :: rest, sourceIndex, arguments, hi, hm => by
    obtain ⟨r, hr, hp⟩ := decodeArgument_total source sizeInBytes sourceIndex type hs h32 hb hi hm
    rw [decodeArguments, hr]
    cases r with
    | fail e => exact ⟨_, rfl⟩
    | next a =>
      simp only
      have h1 := hp a rfl
      have h2 := argument_size_mod_four a
      rw [toUInt32_of_lt (by omega)]
      exact decodeArguments_total source sizeInBytes hs h32 hb rest _ _ h1 (by omega)

theorem decode_total (source : List Nat) (sizeInBytes : Nat) (m : OscMessage)
    (hs : sizeInBytes ≤ source.length) (h32 : sizeInBytes < 2 ^ 32)
    (hb : ∀ c ∈ source, c < 128) :
    ∃ r, m.decode source sizeInBytes = some r := by
  unfold OscMessage.decode
  by_cases c1 : sizeInBytes = 0
  · rw [if_pos c1]; exact ⟨_, rfl⟩
  rw [if_neg c1]
  by_cases c2 : sizeInBytes % 4 ≠ 0
  · rw [if_pos c2]; exact ⟨_, rfl⟩
  rw [if_neg c2]
  by_cases c3 : sizeInBytes < MinOscMessageSize
  · rw [if_pos c3]; exact ⟨_, rfl⟩
  rw [if_neg c3]
  have h8 : 8 ≤ sizeInBytes := by
    unfold MinOscMessageSize at c3; omega
  obtain ⟨c0, h0, _⟩ := getElem?_of_lt source 0 (by omega)
  rw [h0]
  simp only
  by_cases c4 : c0 ≠ 47
  · rw [if_pos c4]; exact ⟨_, rfl⟩
  rw [if_neg c4]
  have hc0 : c0 = 47 := by
    by_contra hx; exact c4 hx
  subst hc0
  obtain ⟨k, hk, _, _⟩ := stringLengthSafe_total source sizeInBytes hs
  rw [hk]
  simp only
  by_cases c5 : k > sizeInBytes
  · rw [if_pos c5]; exact ⟨_, rfl⟩
  rw [if_neg c5]
  obtain ⟨r1, hr1, hp1⟩ := decodeAddressPattern_total source sizeInBytes hs h32 source.length 0
    m.addressPattern (by omega) (by omega)
  cases fuel1 : source.length with
  | zero => omega
  | succ f =>
    have hstep : decodeAddressPattern source sizeInBytes (f + 1) 0 m.addressPattern
        = decodeAddressPattern source sizeInBytes f 1 (m.addressPattern ++ [47]) := by
      rw [decodeAddressPattern, h0]
      simp only
      rw [if_neg (by decide), toUInt32_of_lt (by omega), if_neg (by omega)]
    obtain ⟨r1b, hr1b, hp1b⟩ := decodeAddressPattern_total source sizeInBytes hs h32 f 1
      (m.addressPattern ++ [47]) (by omega) (by omega)
    rw [hstep, hr1b]
    cases r1b with
    | fail e => exact ⟨_, rfl⟩
    | next p1 =>
      obtain ⟨i1, ap⟩ := p1
      simp only
      have hi1 := hp1b i1 ap rfl
      obtain ⟨r2, hr2, hp2⟩ := decodeSkipToTypeTags_total source sizeInBytes hs h32 (f + 1) i1
        hi1.1 hi1.2 (by omega)
      rw [hr2]
      cases r2 with
      | fail e => exact ⟨_, rfl⟩
      | next i2 =>
        simp only
        have hi2 := hp2 i2 rfl
        have e : toSizeT (sizeInBytes + 2 ^ 64 - i2) = sizeInBytes - i2 :=
          toSizeT_sub (by omega) (by omega)
        obtain ⟨k2, hk2, _, _⟩ := stringLengthSafe_total (source.drop i2) (sizeInBytes - i2)
          (by rw [List.length_drop]; omega)
        rw [e, hk2]
        simp only
        obtain ⟨r3, hr3, hp3⟩ := decodeTypeTagString_total source sizeInBytes hs h32 (f + 1) i2
          [] (by omega) (by omega)
        rw [hr3]
        cases r3 with
        | fail e => exact ⟨_, rfl⟩
        | next p3 =>
          obtain ⟨i3, tags⟩ := p3
          simp only
          have hi3 := hp3 i3 tags rfl
          cases hadv : decodeAdvanceToArguments sizeInBytes 4 i3 with
          | fail e => exact ⟨_, rfl⟩
          | next i4 =>
            simp only
            have hi4 := decodeAdvanceToArguments_aligned sizeInBytes h32 (by omega) 4 i3 i4
              hi3.2 (by omega) hadv
            obtain ⟨r5, hr5⟩ := decodeArguments_total source sizeInBytes hs h32 hb tags i4
              m.arguments hi4.1 hi4.2
            rw [hr5]
            cases r5 with
            | fail e => exact ⟨_, rfl⟩
            | next args => exact ⟨_, rfl⟩

end OscMessage

namespace OscBundle

theorem elementsShare_append (t : Nat) (es : List OscContent) (c : OscContent)
    (h : elementsShare t es = true) (hc : elementsShare t [c] = true) :
    elementsShare t (es ++ [c]) = true := by
  induction es with
  | nil => simpa using hc
  | cons x xs ih =>
    cases x with
    | message m =>
      simp only [List.cons_append, elementsShare, Bool.and_eq_true] at h ⊢
      exact ⟨h.1, ih h.2⟩
    | bundle b =>
      simp only [List.cons_append, elementsShare, Bool.and_eq_true] at h ⊢
      exact ⟨h.1, ih h.2⟩

theorem elementsShare_first (t : Nat) (es : List OscContent)
    (h : elementsShare t es = true) : elementsShare (firstTimeTag es) es = true := by
  cases es with
  | nil => rfl
  | cons x xs =>
    cases x with
    | message m =>
      have h1 := h
      simp only [elementsShare, Bool.and_eq_true, beq_iff_eq] at h1
      have e : firstTimeTag (OscContent.message m :: xs) = t := h1.1
      rw [e]; exact h
    | bundle b =>
      have h1 := h
      simp only [elementsShare, Bool.and_eq_true, beq_iff_eq] at h1
      have e : firstTimeTag (OscContent.bundle b :: xs) = t := h1.1.1
      rw [e]; exact h

theorem outcome_of_error (b p : OscBundle) (e2 e : OscError) (hne : e2 ≠ .OscErrorNone)
    (h : b.error e2 = (p, e)) : DecodeOutcome p e := by
  have hv := OscBundle.isValid_error b e2
  rw [h] at hv
  obtain ⟨h1, h2, h3⟩ := hv
  simp only at h1 h2 h3
  subst h3
  exact ⟨fun _ => ⟨h2, h1⟩, fun hc => absurd hc hne⟩

theorem decode_outcome : ∀ (fuel : Nat),
    (∀ (source : List Nat) (sizeInBytes : Nat) (p : OscBundle) (e : OscError),
      decode fuel OscBundle.new source sizeInBytes = some (p, e) → DecodeOutcome p e)
    ∧ (∀ (b : OscBundle) (source : List Nat) (sizeInBytes sourceIndex : Nat) (p : OscBundle)
        (e : OscError), b.header = BundleHeader →
      elementsShare b.getTimeTag b.elements = true →
      decodeElements fuel b source sizeInBytes sourceIndex = some (p, e) → DecodeOutcome p e)
  | 0 => by
    constructor
    · intro source sizeInBytes p e h
      rw [decode] at h; cases h
    · intro b source sizeInBytes sourceIndex p e _ _ h
      rw [decodeElements] at h; cases h
  | fuel + 1 => by
    obtain ⟨ihd, ihe⟩ := decode_outcome fuel
    constructor
    · intro source sizeInBytes p e h
      rw [decode] at h
      by_cases c1 : sizeInBytes % 4 ≠ 0
      · rw [if_pos c1] at h
        exact outcome_of_error _ _ _ _ (by decide) (Option.some.inj h)
      rw [if_neg c1] at h
      by_cases c2 : sizeInBytes < MinimumBundleSize
      · rw [if_pos c2] at h
        exact outcome_of_error _ _ _ _ (by decide) (Option.some.inj h)
      rw [if_neg c2] at h
      cases h0 : source[0]? with
      | none => rw [h0] at h; cases h
      | some c0 =>
        rw [h0] at h
        simp only at h
        by_cases c3 : c0 ≠ 35
        · rw [if_pos c3] at h
          exact outcome_of_error _ _ _ _ (by decide) (Option.some.inj h)
        rw [if_neg c3] at h
        cases hcs : cString source with
        | none => rw [hcs] at h; cases h
        | some text =>
          rw [hcs] at h
          simp only at h
          by_cases c4 : OscBundle.new.header ≠ text
          · rw [if_pos c4] at h
            exact outcome_of_error _ _ _ _ (by decide) (Option.some.inj h)
          rw [if_neg c4] at h
          cases htt : decodeArgument64 (source.drop (OscBundle.new.header.length + 1)) with
          | none => rw [htt] at h; cases h
          | some timeTag =>
            rw [htt] at h
            simp only at h
            exact ihe (OscBundle.new.setTimeTag timeTag) source sizeInBytes _ p e rfl rfl h
    · intro b source sizeInBytes sourceIndex p e hh hsh h
      rw [decodeElements] at h
      by_cases c1 : ¬ sourceIndex < sizeInBytes
      · rw [if_pos c1] at h
        simp only [Option.some.injEq, Prod.mk.injEq] at h
        obtain ⟨hp, he⟩ := h
        subst hp
        subst he
        exact ⟨fun hc => absurd rfl hc, fun _ => ⟨hh, hsh⟩⟩
      rw [if_neg c1] at h
      by_cases c2 : toSizeT (sourceIndex + 4) > sizeInBytes
      · rw [if_pos c2] at h
        exact outcome_of_error _ _ _ _ (by decide) (Option.some.inj h)
      rw [if_neg c2] at h
      cases hsz : decodeArgument32 (source.drop sourceIndex) with
      | none => rw [hsz] at h; cases h
      | some elementSize =>
        rw [hsz] at h
        simp only at h
        by_cases c3 : toSizeT (toSizeT (sourceIndex + 4) + int32ToSizeT (asInt32 elementSize))
            > sizeInBytes
        · rw [if_pos c3] at h
          exact outcome_of_error _ _ _ _ (by decide) (Option.some.inj h)
        rw [if_neg c3] at h
        have hb' : ∀ (c : OscContent), c.getTimeTag = b.getTimeTag →
            (∀ x, c = .bundle x → x.timeTagsShared = true) →
            elementsShare b.getTimeTag (b.elements ++ [c]) = true := by
          intro c hc hx
          apply elementsShare_append _ _ _ hsh
          cases c with
          | message m =>
            simp only [elementsShare, Bool.and_eq_true, beq_iff_eq, and_true]
            exact hc
          | bundle x =>
            simp only [elementsShare, Bool.and_eq_true, beq_iff_eq, and_true]
            exact ⟨hc, hx x rfl⟩
        cases hm : OscContent.encodedContentIsMessage
            (source.drop (toSizeT (sourceIndex + 4))) with
        | none => rw [hm] at h; cases h
        | some isM =>
          rw [hm] at h
          cases isM with
          | true =>
            simp only at h
            cases hcr : OscMessage.createFromEncodedData
                (source.drop (toSizeT (sourceIndex + 4)))
                (int32ToSizeT (asInt32 elementSize)) with
            | none => rw [hcr] at h; cases h
            | some m =>
              rw [hcr] at h
              simp only at h
              by_cases c4 : ¬ m.isValid = true
              · rw [if_pos c4] at h
                exact outcome_of_error _ _ _ _ (by decide) (Option.some.inj h)
              rw [if_neg c4] at h
              have hnew : elementsShare b.getTimeTag
                  (b.elements ++ [OscContent.message { m with timeTag := b.getTimeTag }])
                  = true :=
                hb' (OscContent.message { m with timeTag := b.getTimeTag }) rfl
                  (fun x hx => by cases hx)
              exact ihe (OscBundle.mk b.getTimeTag b.header
                  (b.elements ++ [OscContent.message { m with timeTag := b.getTimeTag }]))
                source sizeInBytes _ p e hh hnew h
          | false =>
            cases hbn : OscContent.encodedContentIsBundle
                (source.drop (toSizeT (sourceIndex + 4))) with
            | none => rw [hbn] at h; cases h
            | some isB =>
              rw [hbn] at h
              cases isB with
              | false =>
                simp only at h
                exact outcome_of_error _ _ _ _ (by decide) (Option.some.inj h)
              | true =>
                simp only at h
                cases hcr : decode fuel OscBundle.new
                    (source.drop (toSizeT (sourceIndex + 4)))
                    (int32ToSizeT (asInt32 elementSize)) with
                | none => rw [hcr] at h; cases h
                | some r =>
                  obtain ⟨q, eq⟩ := r
                  rw [hcr] at h
                  simp only at h
                  by_cases c4 : ¬ q.isValid = true
                  · rw [if_pos c4] at h
                    exact outcome_of_error _ _ _ _ (by decide) (Option.some.inj h)
                  rw [if_neg c4] at h
                  have hq := ihd _ _ q eq hcr
                  have heq : eq = .OscErrorNone := by
                    by_contra hx
                    have := (hq.1 hx).2
                    rw [this] at c4
                    exact c4 (by simp)
                  have hq2 := (hq.2 heq).2
                  have hnew : elementsShare b.getTimeTag
                      (b.elements ++ [OscContent.bundle (q.setTimeTag b.getTimeTag)])
                      = true := by
                    refine hb' (OscContent.bundle (q.setTimeTag b.getTimeTag)) ?_ ?_
                    · cases q with
                      | mk t hd es => rfl
                    · intro x hx
                      cases hx
                      cases q with
                      | mk t hd es =>
                        exact elementsShare_first _ _ hq2
                  exact ihe (OscBundle.mk b.getTimeTag b.header
                      (b.elements ++ [OscContent.bundle (q.setTimeTag b.getTimeTag)]))
                    source sizeInBytes _ p e hh hnew h

end OscBundle

theorem OscMessage.decodeArgument_blob_rejects (source : List Nat)
    (sizeInBytes sourceIndex u : Nat)
    (hs : sourceIndex + 4 ≤ sizeInBytes) (h63 : sizeInBytes < 2 ^ 63)
    (hu : decodeArgument32 (source.drop sourceIndex) = some u)
    (hd : u < 2 ^ 31) (hbig : sourceIndex + 4 + u > sizeInBytes) :
    OscMessage.decodeArgument source sizeInBytes sourceIndex BlobTypeTag
      = some (.fail .OscErrorUnexpectedEndOfSource) := by
  have e1 : int32ToSizeT (asInt32 u) = u := int32ToSizeT_asInt32 u hd
  have hpb := getPaddedSize_bounds u
  have e2 : toSizeT (getPaddedSize u) = getPaddedSize u := toSizeT_of_lt (by omega)
  have e3 : toSizeT (sourceIndex + 4 + getPaddedSize u) = sourceIndex + 4 + getPaddedSize u :=
    toSizeT_of_lt (by omega)
  unfold OscMessage.decodeArgument
  rw [if_neg (by decide), if_neg (by decide), if_pos rfl, if_neg (by omega), hu]
  simp only
  rw [e1, e2, e3, if_pos (by omega)]

namespace OscBundle

end OscBundle

theorem cString_total : ∀ (l : List Nat), l.getLast? = some 0 → ∃ s, cString l = some s
  | [], h => by simp at h
  | c :: rest, h => by
    by_cases hc : c = 0
    · exact ⟨[], by simp [cString, hc]⟩
    · cases rest with
      | nil =>
        simp only [List.getLast?_singleton, Option.some.injEq] at h
        exact absurd h hc
      | cons d tl =>
        rw [List.getLast?_cons_cons] at h
        obtain ⟨s, hs⟩ := cString_total (d :: tl) h
        exact ⟨c :: s, by rw [cString, if_neg hc, hs]; rfl⟩

namespace OscBundle

theorem bundle_decode_total_aux : ∀ (fuel : Nat),
    (∀ (source : List Nat) (sizeInBytes : Nat),
      sizeInBytes < source.length → source.length < 2 ^ 31 → (∀ c ∈ source, c < 128) →
      source.getLast? = some 0 → sizeInBytes + 1 ≤ fuel →
      ∃ r, decode fuel OscBundle.new source sizeInBytes = some r)
    ∧ (∀ (b : OscBundle) (source : List Nat) (sizeInBytes sourceIndex : Nat),
      sizeInBytes < source.length → source.length < 2 ^ 31 → (∀ c ∈ source, c < 128) →
      source.getLast? = some 0 → sizeInBytes - sourceIndex + 1 ≤ fuel →
      ∃ r, decodeElements fuel b source sizeInBytes sourceIndex = some r)
  | 0 => by
    constructor
    · intro source sizeInBytes _ _ _ _ hf; omega
    · intro b source sizeInBytes sourceIndex _ _ _ _ hf; omega
  | fuel + 1 => by
    obtain ⟨ihd, ihe⟩ := bundle_decode_total_aux fuel
    constructor
    · intro source sizeInBytes hs h31 hb hnul hf
      rw [decode]
      by_cases c1 : sizeInBytes % 4 ≠ 0
      · rw [if_pos c1]; exact ⟨_, rfl⟩
      rw [if_neg c1]
      by_cases c2 : sizeInBytes < MinimumBundleSize
      · rw [if_pos c2]; exact ⟨_, rfl⟩
      rw [if_neg c2]
      have h16 : 16 ≤ sizeInBytes := by
        have : MinimumBundleSize = 16 := rfl
        omega
      obtain ⟨c0, h0, _⟩ := getElem?_of_lt source 0 (by omega)
      rw [h0]
      simp only
      by_cases c3 : c0 ≠ 35
      · rw [if_pos c3]; exact ⟨_, rfl⟩
      rw [if_neg c3]
      obtain ⟨text, htext⟩ := cString_total source hnul
      rw [htext]
      simp only
      by_cases c4 : OscBundle.new.header ≠ text
      · rw [if_pos c4]; exact ⟨_, rfl⟩
      rw [if_neg c4]
      have hl7 : OscBundle.new.header.length + 1 = 8 := rfl
      obtain ⟨tt, htt⟩ := decodeArgument64_total source 8 (by omega)
      rw [hl7, htt]
      simp only
      exact ihe _ source sizeInBytes _ hs h31 hb hnul (by omega)
    · intro b source sizeInBytes sourceIndex hs h31 hb hnul hf
      rw [decodeElements]
      by_cases c1 : ¬ sourceIndex < sizeInBytes
      · rw [if_pos c1]; exact ⟨_, rfl⟩
      rw [if_neg c1]
      have e4 : toSizeT (sourceIndex + 4) = sourceIndex + 4 := toSizeT_of_lt (by omega)
      rw [e4]
      by_cases c2 : sourceIndex + 4 > sizeInBytes
      · rw [if_pos c2]; exact ⟨_, rfl⟩
      rw [if_neg c2]
      obtain ⟨x0, x1, x2, x3, tl, hd, m0, m1, m2, m3⟩ := drop_four source sourceIndex (by omega)
      have b0 := hb x0 m0
      have b1 := hb x1 m1
      have b2 := hb x2 m2
      have b3 := hb x3 m3
      obtain ⟨u, hu0⟩ : ∃ u, u = x0 * 2 ^ 24 + x1 * 2 ^ 16 + x2 * 2 ^ 8 + x3 := ⟨_, rfl⟩
      have hu : decodeArgument32 (source.drop sourceIndex) = some u := by rw [hd, hu0]; rfl
      have hu31 : u < 2 ^ 31 := by omega
      rw [hu]
      simp only
      rw [int32ToSizeT_asInt32 u hu31]
      have e5 : toSizeT (sourceIndex + 4 + u) = sourceIndex + 4 + u :=
        toSizeT_of_lt (by omega)
      rw [e5]
      by_cases c3 : sourceIndex + 4 + u > sizeInBytes
      · rw [if_pos c3]; exact ⟨_, rfl⟩
      rw [if_neg c3]
      have hlen : (source.drop (sourceIndex + 4)).length = source.length - (sourceIndex + 4) :=
        List.length_drop _ _
      have hb2 : ∀ c ∈ source.drop (sourceIndex + 4), c < 128 :=
        fun c hc => hb c (List.mem_of_mem_drop hc)
      have hnul2 : (source.drop (sourceIndex + 4)).getLast? = some 0 := by
        rw [List.getLast?_drop, if_neg (by omega)]; exact hnul
      obtain ⟨ch, hch, _⟩ := getElem?_of_lt (source.drop (sourceIndex + 4)) 0 (by omega)
      simp only [OscContent.encodedContentIsMessage, OscContent.encodedContentIsBundle, hch,
        Option.map_some']
      by_cases k1 : ch = 47
      · have k1b : (ch == 47) = true := by rw [k1]; rfl
        rw [k1b]
        simp only
        obtain ⟨⟨m, e⟩, hm⟩ := OscMessage.decode_total (source.drop (sourceIndex + 4)) u
          OscMessage.new (by omega) (by omega) hb2
        have hcm : OscMessage.createFromEncodedData (source.drop (sourceIndex + 4)) u
            = some m := by
          simp [OscMessage.createFromEncodedData, hm]
        rw [hcm]
        simp only
        by_cases k2 : ¬ m.isValid = true
        · rw [if_pos k2]; exact ⟨_, rfl⟩
        rw [if_neg k2]
        exact ihe _ source sizeInBytes _ hs h31 hb hnul (by omega)
      · have k1b : (ch == 47) = false := by
          simp only [beq_eq_false_iff_ne, ne_eq]; exact k1
        rw [k1b]
        by_cases k3 : ch = 35
        · have k3b : (ch == 35) = true := by rw [k3]; rfl
          rw [k3b]
          simp only
          obtain ⟨⟨q, eq⟩, hq⟩ := ihd (source.drop (sourceIndex + 4)) u (by omega) (by omega)
            hb2 hnul2 (by omega)
          rw [hq]
          simp only
          by_cases k2 : ¬ q.isValid = true
          · rw [if_pos k2]; exact ⟨_, rfl⟩
          rw [if_neg k2]
          exact ihe _ source sizeInBytes _ hs h31 hb hnul (by omega)
        · have k3b : (ch == 35) = false := by
            simp only [beq_eq_false_iff_ne, ne_eq]; exact k3
          rw [k3b]
          exact ⟨_, rfl⟩

theorem bundle_decode_total (source : List Nat) (sizeInBytes : Nat)
    (hs : sizeInBytes < source.length) (h31 : source.length < 2 ^ 31)
    (hb : ∀ c ∈ source, c < 128) (hnul : source.getLast? = some 0) :
    ∃ r, decode (source.length + 1) OscBundle.new source sizeInBytes = some r :=
  (bundle_decode_total_aux (source.length + 1)).1 source sizeInBytes hs h31 hb hnul (by omega)

end OscBundle

/-- C16: whenever `OscBundle::decode`, called by `createFromEncodedData` on a new bundle,
returns an error code, the bundle has no element (`size()` is 0) and is not valid, also
when elements had been decoded and appended before the failure; whenever it returns
`OscErrorNone`, the bundle is valid.  This holds for every bound `fuel` on the number of
loop iterations and nested calls within which `decode` returns.  `decode` does return, within
the bound that `createFromEncodedData` is given here, for every source made of bytes below
128 that a NUL follows in memory (the memory being shorter than 2^31 bytes). -/
theorem bundle_decode_transactional (source : List Nat) (sizeInBytes : Nat) :
    (∀ fuel b e, OscBundle.decode fuel OscBundle.new source sizeInBytes = some (b, e) →
      (e ≠ .OscErrorNone → b.size = 0 ∧ b.isValid = false)
      ∧ (e = .OscErrorNone → b.isValid = true))
    ∧ (sizeInBytes < source.length → source.length < 2 ^ 31 → (∀ c ∈ source, c < 128) →
        source.getLast? = some 0 →
        ∃ b e, OscBundle.decode (source.length + 1) OscBundle.new source sizeInBytes
            = some (b, e)
          ∧ OscBundle.createFromEncodedData source sizeInBytes = some b) := by
  refine ⟨fun fuel b e h => ?_, fun hs h31 hb hnul => ?_⟩
  · obtain ⟨h1, h2⟩ := (OscBundle.decode_outcome fuel).1 source sizeInBytes b e h
    refine ⟨h1, fun he => ?_⟩
    have hh := (h2 he).1
    cases b with
    | mk t hd es =>
      simp only [OscBundle.header] at hh
      rw [hh]
      rfl
  · obtain ⟨⟨b, e⟩, hr⟩ := OscBundle.bundle_decode_total source sizeInBytes hs h31 hb hnul
    exact ⟨b, e, hr, by simp [OscBundle.createFromEncodedData, hr]⟩

theorem bundle_decode_transactional_witness :
    (OscBundle.decode 42 OscBundle.new
        (ascii "#bundle" ++ [0] ++ [0, 0, 0, 0, 0, 0, 0, 1]
          ++ [0, 0, 0, 8] ++ ascii "/a" ++ [0, 0] ++ ascii "," ++ [0, 0, 0]
          ++ [0, 0, 0, 8] ++ ascii "xxxxxxxx" ++ [0]) 40
      = some (.mk 1 (0 :: ascii "bundle") [], .OscErrorMalformedElement)
      ∧ (OscBundle.mk 1 (0 :: ascii "bundle") []).size = 0
      ∧ (OscBundle.mk 1 (0 :: ascii "bundle") []).isValid = false)
    ∧ (OscBundle.decode 30 OscBundle.new
        (ascii "#bundle" ++ [0] ++ [0, 0, 0, 0, 0, 0, 0, 1]
          ++ [0, 0, 0, 8] ++ ascii "/a" ++ [0, 0] ++ ascii "," ++ [0, 0, 0] ++ [0]) 28
      = some (.mk 1 (ascii "#bundle") [.message ⟨1, ascii "/a", []⟩], .OscErrorNone)
      ∧ (OscBundle.mk 1 (ascii "#bundle") [.message ⟨1, ascii "/a", []⟩]).isValid = true)
    ∧ (∃ b e, OscBundle.decode
          ((ascii "#bundle" ++ [0] ++ [0, 0, 0, 0, 0, 0, 0, 1]
            ++ [0, 0, 0, 8] ++ ascii "/a" ++ [0, 0] ++ ascii "," ++ [0, 0, 0]
            ++ [0, 0, 0, 8] ++ ascii "xxxxxxxx" ++ [0]).length + 1) OscBundle.new
          (ascii "#bundle" ++ [0] ++ [0, 0, 0, 0, 0, 0, 0, 1]
            ++ [0, 0, 0, 8] ++ ascii "/a" ++ [0, 0] ++ ascii "," ++ [0, 0, 0]
            ++ [0, 0, 0, 8] ++ ascii "xxxxxxxx" ++ [0]) 40 = some (b, e)
        ∧ OscBundle.createFromEncodedData
          (ascii "#bundle" ++ [0] ++ [0, 0, 0, 0, 0, 0, 0, 1]
            ++ [0, 0, 0, 8] ++ ascii "/a" ++ [0, 0] ++ ascii "," ++ [0, 0, 0]
            ++ [0, 0, 0, 8] ++ ascii "xxxxxxxx" ++ [0]) 40 = some b) :=
  ⟨⟨rfl,
      ((bundle_decode_transactional
        (ascii "#bundle" ++ [0] ++ [0, 0, 0, 0, 0, 0, 0, 1]
          ++ [0, 0, 0, 8] ++ ascii "/a" ++ [0, 0] ++ ascii "," ++ [0, 0, 0]
          ++ [0, 0, 0, 8] ++ ascii "xxxxxxxx" ++ [0]) 40).1 42
        (.mk 1 (0 :: ascii "bundle") []) .OscErrorMalformedElement (by rfl)).1 (by decide)⟩,
    ⟨rfl,
      ((bundle_decode_transactional
        (ascii "#bundle" ++ [0] ++ [0, 0, 0, 0, 0, 0, 0, 1]
          ++ [0, 0, 0, 8] ++ ascii "/a" ++ [0, 0] ++ ascii "," ++ [0, 0, 0] ++ [0]) 28).1 30
        (.mk 1 (ascii "#bundle") [.message ⟨1, ascii "/a", []⟩]) .OscErrorNone
        (by rfl)).2 rfl⟩,
    (bundle_decode_transactional
      (ascii "#bundle" ++ [0] ++ [0, 0, 0, 0, 0, 0, 0, 1]
        ++ [0, 0, 0, 8] ++ ascii "/a" ++ [0, 0] ++ ascii "," ++ [0, 0, 0]
        ++ [0, 0, 0, 8] ++ ascii "xxxxxxxx" ++ [0]) 40).2
      (by decide) (by decide) (by decide) (by decide)⟩

/-! ## Malformed bundle elements: C21, C22 -/
namespace OscBundle

end OscBundle

/-- C22 (amended): for every source buffer for which `OscBundle::createFromEncodedData`
returns a bundle: the bundle is not valid exactly when `decode` reported an error, and in
that case the bundle is empty as well.  (An empty bundle alone does not show an error.) -/
theorem bundle_invalid_iff_error (source : List Nat) (sizeInBytes : Nat) (b : OscBundle)
    (h : OscBundle.createFromEncodedData source sizeInBytes = some b) :
    ∃ e, OscBundle.decode (source.length + 1) OscBundle.new source sizeInBytes = some (b, e)
      ∧ (b.isValid = false ↔ e ≠ .OscErrorNone)
      ∧ (e ≠ .OscErrorNone → b.isEmpty = true) := by
  unfold OscBundle.createFromEncodedData at h
  cases hd : OscBundle.decode (source.length + 1) OscBundle.new source sizeInBytes with
  | none => rw [hd] at h; cases h
  | some r =>
    obtain ⟨p, e⟩ := r
    rw [hd] at h
    simp only [Option.map_some', Option.some.injEq] at h
    subst h
    obtain ⟨h1, h2⟩ := (OscBundle.decode_outcome (source.length + 1)).1 source sizeInBytes p e hd
    refine ⟨e, rfl, ⟨fun hv he => ?_, fun he => (h1 he).2⟩, fun he => ?_⟩
    · have hh := (h2 he).1
      cases p with
      | mk t hdr es =>
        simp only [OscBundle.header] at hh
        rw [hh] at hv
        cases hv
    · have hs := (h1 he).1
      unfold OscBundle.isEmpty
      unfold OscBundle.size at hs
      rw [hs]
      rfl

theorem bundle_invalid_iff_error_witness :
    ∃ e, OscBundle.decode ((ascii "#bundle" ++ [0] ++ [0, 0, 0, 0, 0, 0, 0, 1]
            ++ [0, 0, 0, 8] ++ ascii "xxxxxxxx").length + 1) OscBundle.new
          (ascii "#bundle" ++ [0] ++ [0, 0, 0, 0, 0, 0, 0, 1]
            ++ [0, 0, 0, 8] ++ ascii "xxxxxxxx") 28
        = some (.mk 1 (0 :: ascii "bundle") [], e)
      ∧ ((OscBundle.mk 1 (0 :: ascii "bundle") []).isValid = false ↔ e ≠ .OscErrorNone)
      ∧ (e ≠ .OscErrorNone → (OscBundle.mk 1 (0 :: ascii "bundle") []).isEmpty = true) :=
  bundle_invalid_iff_error
    (ascii "#bundle" ++ [0] ++ [0, 0, 0, 0, 0, 0, 0, 1] ++ [0, 0, 0, 8] ++ ascii "xxxxxxxx") 28
    (.mk 1 (0 :: ascii "bundle") []) (by rfl)

/-- C22 as stated fails: the 16 bytes "#bundle", NUL and the time tag 1 are a well-formed
bundle without elements.  `decode` returns `OscErrorNone`, and the bundle that
`createFromEncodedData` returns is empty (`isEmpty()` is true) and valid. -/
theorem bundle_invalid_iff_error_counterexample :
    (OscBundle.decode 17 OscBundle.new
        (ascii "#bundle" ++ [0] ++ [0, 0, 0, 0, 0, 0, 0, 1]) 16).map
      (fun r => (r.2, r.1.isEmpty, r.1.isValid)) = some (.OscErrorNone, true, true)
    ∧ (OscBundle.createFromEncodedData
        (ascii "#bundle" ++ [0] ++ [0, 0, 0, 0, 0, 0, 0, 1]) 16).map
      (fun b => (b.isEmpty, b.isValid, b.getTimeTag)) = some (true, true, 1) := by
  decide

/-! ## Message validity and address pattern, `addContent`, SLIP encoding: C23 - C26, C28 -/

/-- C23: for every state of an `OscMessage` (any time tag, any address string, any argument
list) `isValid()` is true exactly when the address pattern is not empty and its first
character is '/'; the default-constructed message is empty and not valid; a message with at
least one argument and an empty address pattern is not empty and not valid. -/
theorem message_valid_iff_slash :
    (∀ m : OscMessage, m.isValid = true
        ↔ (m.addressPattern ≠ [] ∧ m.addressPattern.head? = some 47))
    ∧ (OscMessage.new.isEmpty = true ∧ OscMessage.new.isValid = false)
    ∧ (∀ (timeTag : Nat) (a : OscArgument) (arguments : List OscArgument),
        (OscMessage.mk timeTag [] (a :: arguments)).isEmpty = false
        ∧ (OscMessage.mk timeTag [] (a :: arguments)).isValid = false) := by
  refine ⟨fun m => ?_, ⟨rfl, rfl⟩, fun timeTag a arguments => ⟨rfl, rfl⟩⟩
  obtain ⟨t, ap, args⟩ := m
  cases ap with
  | nil => simp [OscMessage.isValid, OscMessage.isEmpty]
  | cons c rest => simp [OscMessage.isValid, OscMessage.isEmpty]

/-- C24: for every message and every text (the characters of a NUL-terminated string
before its NUL): when the first character of the text is not '/', which includes the empty
text, `setAddressPattern` and `appendAddressPattern` return
`OscErrorNoSlashAtStartOfMessage` and the message (address pattern, arguments) is unchanged;
when it is '/', `appendAddressPattern` returns `OscErrorNone`, the new address pattern is
the old one followed by the text, and the arguments are unchanged. -/
theorem address_pattern_needs_slash (m : OscMessage) (text : List Nat) :
    (text.head? ≠ some 47 →
      m.setAddressPattern text = (m, .OscErrorNoSlashAtStartOfMessage)
      ∧ m.appendAddressPattern text = (m, .OscErrorNoSlashAtStartOfMessage))
    ∧ (text.head? = some 47 →
      (m.appendAddressPattern text).2 = .OscErrorNone
      ∧ (m.appendAddressPattern text).1.getAddressPattern = m.getAddressPattern ++ text
      ∧ (m.appendAddressPattern text).1.arguments = m.arguments) := by
  cases text with
  | nil =>
    refine ⟨fun _ => ⟨rfl, rfl⟩, fun h => ?_⟩
    simp at h
  | cons c rest =>
    by_cases hc : c = 47
    · subst hc
      refine ⟨fun h => ?_, fun _ => ⟨rfl, rfl, rfl⟩⟩
      simp at h
    · refine ⟨fun _ => ?_, fun h => ?_⟩
      · simp [OscMessage.setAddressPattern, OscMessage.appendAddressPattern, hc]
      · simp at h
        exact absurd h hc

theorem address_pattern_needs_slash_witness :
    ((OscMessage.withAddress (ascii "/a")).addInt32 7).setAddressPattern (ascii "b/c")
        = ((OscMessage.withAddress (ascii "/a")).addInt32 7, .OscErrorNoSlashAtStartOfMessage)
    ∧ ((OscMessage.withAddress (ascii "/a")).addInt32 7).appendAddressPattern []
        = ((OscMessage.withAddress (ascii "/a")).addInt32 7, .OscErrorNoSlashAtStartOfMessage)
    ∧ (((OscMessage.withAddress (ascii "/a")).addInt32 7).appendAddressPattern
        (ascii "/b")).1.getAddressPattern = ascii "/a" ++ ascii "/b" :=
  ⟨((address_pattern_needs_slash ((OscMessage.withAddress (ascii "/a")).addInt32 7)
      (ascii "b/c")).1 (by decide)).1,
    ((address_pattern_needs_slash ((OscMessage.withAddress (ascii "/a")).addInt32 7)
      []).1 (by decide)).2,
    ((address_pattern_needs_slash ((OscMessage.withAddress (ascii "/a")).addInt32 7)
      (ascii "/b")).2 (by decide)).2.1⟩

/-- C25 fails in the code: `setAddressPattern` only calls `appendAddressPattern`, so for
every message and every text beginning with '/' the address pattern afterwards is the old
address pattern followed by the text.  On the message with address pattern "/a",
`setAddressPattern ("/b")` returns `OscErrorNone` and leaves the address pattern "/a/b",
which is not "/b". -/
theorem setAddressPattern_appends :
    (∀ (m : OscMessage) (rest : List Nat),
        (m.setAddressPattern (47 :: rest)).2 = .OscErrorNone
        ∧ (m.setAddressPattern (47 :: rest)).1.getAddressPattern
            = m.getAddressPattern ++ 47 :: rest)
    ∧ ((OscMessage.withAddress (ascii "/a")).setAddressPattern (ascii "/b")).2 = .OscErrorNone
    ∧ ((OscMessage.withAddress (ascii "/a")).setAddressPattern (ascii "/b")).1.getAddressPattern
        = ascii "/a/b"
    ∧ ((OscMessage.withAddress (ascii "/a")).setAddressPattern (ascii "/b")).1.getAddressPattern
        ≠ ascii "/b" := by
  refine ⟨fun m rest => ⟨rfl, rfl⟩, by decide, by decide, by decide⟩

/-- C26 fails in the code: `addContent` passes `this->getAsMessage()` or
`this->getAsBundle()`, not the content it was given.  For a message the call has no defined
result (the bundle is not a message: `assert (isMessage())` fails).  For a bundle the
receiving bundle adds a copy of itself: with `B` of time tag 1 and `c` a bundle of time
tag 2, `B.addContent (c)` leaves one element in `B`, a bundle of time tag 1, which is `!=`
to `c`. -/
theorem addContent_ignores_argument :
    (∀ (b : OscBundle) (m : OscMessage), b.addContent (.message m) = none)
    ∧ (∀ (b c : OscBundle), b.addContent (.bundle c) = some (b.addBundle b))
    ∧ (OscBundle.withTimeTag 1).isValid = true
    ∧ (OscBundle.withTimeTag 2).isValid = true
    ∧ (OscMessage.withAddress (ascii "/a")).isValid = true
    ∧ ((OscBundle.withTimeTag 1).addContent
          (.message (OscMessage.withAddress (ascii "/a")))).isSome = false
    ∧ ((OscBundle.withTimeTag 1).addContent (.bundle (OscBundle.withTimeTag 2))).map
          (fun r => (r.size, r.elements.map OscContent.getTimeTag,
            r.elements.map (fun x =>
              match x with
              | .bundle y => y.ne (OscBundle.withTimeTag 2)
              | .message _ => true)))
        = some (1, [1], [true]) := by
  refine ⟨fun b m => rfl, fun b c => rfl, by decide, by decide, by decide, by decide,
    by decide⟩

/-- C28: for every byte sequence `x`, `slipEncode` stores exactly the concatenation, over
the bytes of `x`, of 0xDB 0xDC for a byte 0xC0, of 0xDB 0xDD for a byte 0xDB and of the
byte itself otherwise, followed by one 0xC0, and returns the number of bytes stored. -/
theorem slipEncode_layout (x : List Nat) :
    (slipEncode x).bytes
        = (x.map (fun c =>
            if c = 0xC0 then [0xDB, 0xDC] else if c = 0xDB then [0xDB, 0xDD] else [c])).flatten
          ++ [0xC0]
    ∧ (slipEncode x).count
        = ((x.map (fun c =>
            if c = 0xC0 then [0xDB, 0xDC] else if c = 0xDB then [0xDB, 0xDD] else [c])).flatten
          ++ [0xC0]).length := by
  have h : (fun c : Nat =>
      if c = 0xC0 then [0xDB, 0xDC] else if c = 0xDB then [0xDB, 0xDD] else [c])
      = slipEscape := by
    funext c; rfl
  rw [h]
  simp only [slipEncode, slipEncodeLoop_eq, List.nil_append, and_self]
  trivial

/-! ## Equality of arguments: C27 -/

theorem asInt32_eq_iff (x y : Nat) : asInt32 x = asInt32 y ↔ x % 2 ^ 32 = y % 2 ^ 32 := by
  unfold asInt32
  constructor
  · intro h
    split at h <;> split at h <;> omega
  · intro h
    rw [h]

theorem asInt64_eq_iff (x y : Nat) : asInt64 x = asInt64 y ↔ x % 2 ^ 64 = y % 2 ^ 64 := by
  unfold asInt64
  constructor
  · intro h
    split at h <;> split at h <;> omega
  · intro h
    rw [h]

theorem rgbaColour_ofBits_eq_iff (x y : Nat) :
    RgbaColour.ofBits x = RgbaColour.ofBits y ↔ x % 2 ^ 32 = y % 2 ^ 32 := by
  unfold RgbaColour.ofBits
  constructor
  · intro h
    simp only [RgbaColour.mk.injEq] at h
    omega
  · intro h
    have e1 : x / 2 ^ 24 % 256 = y / 2 ^ 24 % 256 := by omega
    have e2 : x / 2 ^ 16 % 256 = y / 2 ^ 16 % 256 := by omega
    have e3 : x / 2 ^ 8 % 256 = y / 2 ^ 8 % 256 := by omega
    have e4 : x % 256 = y % 256 := by omega
    rw [e1, e2, e3, e4]

theorem midiMessage_ofBits_eq_iff (x y : Nat) :
    MidiMessageData.ofBits x = MidiMessageData.ofBits y ↔ x % 2 ^ 32 = y % 2 ^ 32 := by
  unfold MidiMessageData.ofBits
  constructor
  · intro h
    simp only [MidiMessageData.mk.injEq] at h
    omega
  · intro h
    have e1 : x / 2 ^ 24 % 256 = y / 2 ^ 24 % 256 := by omega
    have e2 : x / 2 ^ 16 % 256 = y / 2 ^ 16 % 256 := by omega
    have e3 : x / 2 ^ 8 % 256 = y / 2 ^ 8 % 256 := by omega
    have e4 : x % 256 = y % 256 := by omega
    rw [e1, e2, e3, e4]

namespace OscArgument

theorem eq_iff_carried (a b : OscArgument) (ha : a.RecognisedNonFloat)
    (ht : a.typeTag = b.typeTag) : a.eq b = true ↔ a.carried = b.carried := by
  unfold OscArgument.eq OscArgument.carried getType
  rw [← ht, if_neg (not_not.mpr rfl)]
  unfold RecognisedNonFloat at ha
  simp only [Int32TypeTag, Float32TypeTag, StringTypeTag, BlobTypeTag, Int64TypeTag,
    Float64TypeTag, TimeTagTypeTag, AlternateStringTypeTag, CharacterTypeTag,
    RgbaColourTypeTag, MidiMessageTypeTag, TrueTypeTag, FalseTypeTag, NilTypeTag,
    InfinitumTypeTag, BeginArrayTypeTag, EndArrayTypeTag] at ha ⊢
  rcases ha with h | h | h | h | h | h | h | h | h | h | h | h | h | h | h <;>
    simp [h, getInt32, getString, getBlob, getInt64, getTimeTag, getAlternateString,
      getCharacter, getRgbaColour, getMidiMessage, asInt32_eq_iff, asInt64_eq_iff,
      rgbaColour_ofBits_eq_iff, midiMessage_ofBits_eq_iff]

theorem ne_eq_not_eq (a b : OscArgument) (ha : a.RecognisedNonFloat) :
    a.ne b = !a.eq b := by
  unfold OscArgument.ne OscArgument.eq
  by_cases ht : a.getType ≠ b.getType
  · rw [if_pos ht, if_pos ht]; rfl
  rw [if_neg ht, if_neg ht]
  unfold RecognisedNonFloat at ha
  unfold getType
  simp only [Int32TypeTag, Float32TypeTag, StringTypeTag, BlobTypeTag, Int64TypeTag,
    Float64TypeTag, TimeTagTypeTag, AlternateStringTypeTag, CharacterTypeTag,
    RgbaColourTypeTag, MidiMessageTypeTag, TrueTypeTag, FalseTypeTag, NilTypeTag,
    InfinitumTypeTag, BeginArrayTypeTag, EndArrayTypeTag] at ha ⊢
  rcases ha with h | h | h | h | h | h | h | h | h | h | h | h | h | h | h <;>
    simp [h, bne]

end OscArgument

/-- C27: for all arguments `a` and `b` whose type tags are among the tags of
`enum TypeTag` other than 'f' and 'd': `a == b` holds exactly when the type tags are equal
and the payloads carried for that tag are equal (a marker tag 'T', 'F', 'N', 'I', '[', ']'
carries no payload, so two arguments with the same marker tag are equal; a True argument is
never equal to a False argument); and `a != b` is the negation of `a == b`. -/
theorem argument_equality (a b : OscArgument) (ha : a.RecognisedNonFloat)
    (hb : b.RecognisedNonFloat) :
    (a.eq b = true ↔ (a.getType = b.getType ∧ a.carried = b.carried))
    ∧ ((a.getType = TrueTypeTag ∨ a.getType = FalseTypeTag ∨ a.getType = NilTypeTag
          ∨ a.getType = InfinitumTypeTag ∨ a.getType = BeginArrayTypeTag
          ∨ a.getType = EndArrayTypeTag) → a.getType = b.getType → a.eq b = true)
    ∧ (a.getType = TrueTypeTag → b.getType = FalseTypeTag → a.eq b = false)
    ∧ a.ne b = !a.eq b
    ∧ b.ne a = !b.eq a := by
  have key : a.eq b = true ↔ (a.getType = b.getType ∧ a.carried = b.carried) := by
    by_cases ht : a.typeTag = b.typeTag
    · rw [OscArgument.eq_iff_carried a b ha ht]
      exact ⟨fun h => ⟨ht, h⟩, fun h => h.2⟩
    · constructor
      · intro h
        unfold OscArgument.eq at h
        rw [if_pos (show a.getType ≠ b.getType from ht)] at h
        cases h
      · intro h
        exact absurd h.1 ht
  refine ⟨key, fun hm ht => ?_, fun h1 h2 => ?_, OscArgument.ne_eq_not_eq a b ha,
    OscArgument.ne_eq_not_eq b a hb⟩
  · rw [key]
    refine ⟨ht, ?_⟩
    have ht2 : b.typeTag = a.typeTag := ht.symm
    unfold OscArgument.carried
    rw [ht2]
    unfold OscArgument.getType at hm
    simp only [Int32TypeTag, StringTypeTag, BlobTypeTag, Int64TypeTag,
      TimeTagTypeTag, AlternateStringTypeTag, CharacterTypeTag,
      RgbaColourTypeTag, MidiMessageTypeTag, TrueTypeTag, FalseTypeTag, NilTypeTag,
      InfinitumTypeTag, BeginArrayTypeTag, EndArrayTypeTag] at hm ⊢
    rcases hm with h | h | h | h | h | h <;> simp [h]
  · unfold OscArgument.eq
    rw [if_pos (by rw [h1, h2]; decide)]

theorem argument_equality_witness :
    ((OscArgument.uninitialised.setInt32 5).eq (OscArgument.uninitialised.setInt32 5) = true
      ↔ ((OscArgument.uninitialised.setInt32 5).getType
            = (OscArgument.uninitialised.setInt32 5).getType
          ∧ (OscArgument.uninitialised.setInt32 5).carried
            = (OscArgument.uninitialised.setInt32 5).carried))
    ∧ (OscArgument.uninitialised.setBool true).eq (OscArgument.uninitialised.setBool false)
        = false
    ∧ (OscArgument.uninitialised.setBool true).ne (OscArgument.uninitialised.setBool false)
        = !(OscArgument.uninitialised.setBool true).eq (OscArgument.uninitialised.setBool false)
    ∧ (OscArgument.uninitialised.setString (ascii "ab")).eq
        (OscArgument.uninitialised.setString (ascii "ac")) = false
    ∧ (OscArgument.uninitialised.setNil).eq (OscArgument.uninitialised.setNil) = true :=
  ⟨(argument_equality (OscArgument.uninitialised.setInt32 5)
      (OscArgument.uninitialised.setInt32 5) (by decide) (by decide)).1,
    (argument_equality (OscArgument.uninitialised.setBool true)
      (OscArgument.uninitialised.setBool false) (by decide) (by decide)).2.2.1 rfl rfl,
    (argument_equality (OscArgument.uninitialised.setBool true)
      (OscArgument.uninitialised.setBool false) (by decide) (by decide)).2.2.2.1,
    by decide,
    (argument_equality (OscArgument.uninitialised.setNil)
      (OscArgument.uninitialised.setNil) (by decide) (by decide)).2.1
      (Or.inr (Or.inr (Or.inl rfl))) rfl⟩

/-! ## SLIP decoding: C29, C30 -/

theorem slipDecodeLoop_bad_escape (e : Nat) (rest : List Nat) (h1 : e ≠ SlipEscEnd)
    (h2 : e ≠ SlipEscEsc) : ∀ (n : Nat) (p dest : List Nat), p.length ≤ n →
    (∀ c ∈ p, c ≠ SlipEnd) →
    (slipDecodeLoop (p ++ SlipEsc :: e :: rest) dest).map (·.count) = some 0
  | 0, p, dest, hn, _ => by
    have hp : p = [] := List.length_eq_zero.mp (by omega)
    subst hp
    have hne : SlipEsc ≠ SlipEnd := by decide
    simp [slipDecodeLoop, h1, h2, hne]
  | n + 1, [], dest, _, _ => by
    have hne : SlipEsc ≠ SlipEnd := by decide
    simp [slipDecodeLoop, h1, h2, hne]
  | n + 1, c :: p, dest, hn, hp => by
    have hc : c ≠ SlipEnd := hp c (List.mem_cons_self _ _)
    have hp2 : ∀ d ∈ p, d ≠ SlipEnd := fun d hd => hp d (List.mem_cons_of_mem _ hd)
    simp only [List.length_cons] at hn
    by_cases hesc : c = SlipEsc
    · subst hesc
      cases p with
      | nil =>
        have hne : SlipEsc ≠ SlipEnd := by decide
        have k1 : SlipEsc ≠ SlipEscEnd := by decide
        have k2 : SlipEsc ≠ SlipEscEsc := by decide
        simp [slipDecodeLoop, hne, k1, k2]
      | cons d p2 =>
        have hp3 : ∀ x ∈ p2, x ≠ SlipEnd := fun x hx => hp2 x (List.mem_cons_of_mem _ hx)
        simp only [List.length_cons] at hn
        simp only [List.cons_append, slipDecodeLoop, if_neg hc, if_true]
        by_cases d1 : d = SlipEscEnd
        · rw [if_pos d1]
          exact slipDecodeLoop_bad_escape e rest h1 h2 n p2 _ (by omega) hp3
        · rw [if_neg d1]
          by_cases d2 : d = SlipEscEsc
          · rw [if_pos d2]
            exact slipDecodeLoop_bad_escape e rest h1 h2 n p2 _ (by omega) hp3
          · rw [if_neg d2]
            rfl
    · rw [List.cons_append, slipDecodeLoop_plain c _ dest hc hesc]
      exact slipDecodeLoop_bad_escape e rest h1 h2 n p _ (by omega) hp2

theorem slipDecodeLoop_stops_at_end : ∀ (n : Nat) (p dest tail : List Nat), p.length ≤ n →
    (∀ c ∈ p, c ≠ SlipEnd) →
    slipDecodeLoop (p ++ SlipEnd :: tail) dest = slipDecodeLoop (p ++ [SlipEnd]) dest
    ∧ (slipDecodeLoop (p ++ [SlipEnd]) dest).isSome = true
  | 0, p, dest, tail, hn, _ => by
    have hp : p = [] := List.length_eq_zero.mp (by omega)
    subst hp
    simp [slipDecodeLoop_end]
  | n + 1, [], dest, tail, _, _ => by
    simp [slipDecodeLoop_end]
  | n + 1, c :: p, dest, tail, hn, hp => by
    have hc : c ≠ SlipEnd := hp c (List.mem_cons_self _ _)
    have hp2 : ∀ d ∈ p, d ≠ SlipEnd := fun d hd => hp d (List.mem_cons_of_mem _ hd)
    simp only [List.length_cons] at hn
    by_cases hesc : c = SlipEsc
    · subst hesc
      cases p with
      | nil =>
        have k1 : SlipEnd ≠ SlipEscEnd := by decide
        have k2 : SlipEnd ≠ SlipEscEsc := by decide
        simp [slipDecodeLoop, hc, k1, k2]
      | cons d p2 =>
        have hp3 : ∀ x ∈ p2, x ≠ SlipEnd := fun x hx => hp2 x (List.mem_cons_of_mem _ hx)
        simp only [List.length_cons] at hn
        simp only [List.cons_append, slipDecodeLoop, if_neg hc, if_true]
        by_cases d1 : d = SlipEscEnd
        · rw [if_pos d1, if_pos d1]
          exact slipDecodeLoop_stops_at_end n p2 _ tail (by omega) hp3
        · rw [if_neg d1, if_neg d1]
          by_cases d2 : d = SlipEscEsc
          · rw [if_pos d2, if_pos d2]
            exact slipDecodeLoop_stops_at_end n p2 _ tail (by omega) hp3
          · rw [if_neg d2, if_neg d2]
            exact ⟨rfl, rfl⟩
    · rw [List.cons_append, List.cons_append, slipDecodeLoop_plain c _ dest hc hesc,
        slipDecodeLoop_plain c _ dest hc hesc]
      exact slipDecodeLoop_stops_at_end n p _ tail (by omega) hp2

/-- C29: for every source buffer that is not empty, `slipDecode` returns 0 (and stores
nothing) when the last byte of the buffer is not 0xC0; and it returns 0 when a byte 0xDB
that has no byte 0xC0 before it is directly followed by a byte other than 0xDC and
0xDD. -/
theorem slipDecode_rejects (source : List Nat) :
    (∀ l, source.getLast? = some l → l ≠ 0xC0 → slipDecode source = some ⟨[], 0⟩)
    ∧ (∀ (p : List Nat) (e : Nat) (rest : List Nat), source = p ++ 0xDB :: e :: rest →
        (∀ c ∈ p, c ≠ 0xC0) → e ≠ 0xDC → e ≠ 0xDD →
        (slipDecode source).map (·.count) = some 0) := by
  constructor
  · intro l hl hne
    unfold slipDecode
    rw [hl]
    simp only
    rw [if_pos (show l ≠ SlipEnd from hne)]
  · intro p e rest hsrc hp h1 h2
    unfold slipDecode
    cases hl : source.getLast? with
    | none =>
      rw [List.getLast?_eq_none_iff] at hl
      rw [hl] at hsrc
      simp at hsrc
    | some l =>
      simp only
      by_cases hne : l ≠ SlipEnd
      · rw [if_pos hne]; rfl
      · rw [if_neg hne, hsrc]
        exact slipDecodeLoop_bad_escape e rest h1 h2 p.length p [] (le_refl _) hp

theorem slipDecode_rejects_witness :
    slipDecode [0x41, 0xC0, 0x42] = some ⟨[], 0⟩
    ∧ (slipDecode [0x41, 0xDB, 0xDD, 0xDB, 0x42, 0xC0]).map (·.count) = some 0
    ∧ (slipDecode [0x41, 0xDB, 0xC0]).map (·.count) = some 0 :=
  ⟨(slipDecode_rejects [0x41, 0xC0, 0x42]).1 0x42 rfl (by decide),
    (slipDecode_rejects [0x41, 0xDB, 0xDD, 0xDB, 0x42, 0xC0]).2 [0x41, 0xDB, 0xDD] 0x42 [0xC0]
      rfl (by decide) (by decide) (by decide),
    (slipDecode_rejects [0x41, 0xDB, 0xC0]).2 [0x41] 0xC0 [] rfl (by decide) (by decide)
      (by decide)⟩

/-- C30: for every byte sequence `p` that holds no byte 0xC0 and every byte sequence `q`,
`slipDecode` of `p ++ [0xC0] ++ q ++ [0xC0]` has the same result (stored bytes and returned
value) as `slipDecode` of `p ++ [0xC0]`, and that result is defined: decoding stops at the
first END byte. -/
theorem slipDecode_stops_at_first_end (p q : List Nat) (hp : ∀ c ∈ p, c ≠ 0xC0) :
    slipDecode (p ++ [0xC0] ++ q ++ [0xC0]) = slipDecode (p ++ [0xC0])
    ∧ (slipDecode (p ++ [0xC0])).isSome = true := by
  have ha : slipDecode (p ++ [0xC0] ++ q ++ [0xC0])
      = slipDecodeLoop (p ++ SlipEnd :: (q ++ [SlipEnd])) [] := by
    unfold slipDecode
    rw [List.getLast?_concat]
    simp only [ne_eq, SlipEnd, not_true_eq_false, if_false, List.append_assoc,
      List.singleton_append, List.cons_append, List.nil_append]
  have hb : slipDecode (p ++ [0xC0]) = slipDecodeLoop (p ++ [SlipEnd]) [] := by
    unfold slipDecode
    rw [List.getLast?_concat]
    simp only [ne_eq, SlipEnd, not_true_eq_false, if_false]
  obtain ⟨h1, h2⟩ := slipDecodeLoop_stops_at_end p.length p [] (q ++ [SlipEnd]) (le_refl _) hp
  rw [ha, hb]
  exact ⟨h1, h2⟩

theorem slipDecode_stops_at_first_end_witness :
    (slipDecode ([0x41, 0xDB, 0xDC] ++ [0xC0] ++ [0x42, 0xDB, 0x00] ++ [0xC0])
        = slipDecode ([0x41, 0xDB, 0xDC] ++ [0xC0])
      ∧ (slipDecode ([0x41, 0xDB, 0xDC] ++ [0xC0])).isSome = true)
    ∧ slipDecode ([0x41, 0xDB, 0xDC] ++ [0xC0]) = some ⟨[0x41, 0xC0], 2⟩ :=
  ⟨slipDecode_stops_at_first_end [0x41, 0xDB, 0xDC] [0x42, 0xDB, 0x00] (by decide),
    by decide⟩

/-! ## Sizes and safety of the SLIP routines: C31, C35, C36 -/

theorem slipEscape_length_sum (x : List Nat) (n : Nat) :
    getSlipEncodedSizeLoop x n = n + (x.map slipEscape).flatten.length := by
  induction x generalizing n with
  | nil => simp [getSlipEncodedSizeLoop]
  | cons c rest ih =>
    unfold getSlipEncodedSizeLoop
    by_cases h1 : c = SlipEnd
    · rw [if_pos (Or.inl h1), ih]
      simp [slipEscape, h1]
      omega
    · by_cases h2 : c = SlipEsc
      · rw [if_pos (Or.inr h2), ih]
        subst h2
        have hne : SlipEsc ≠ SlipEnd := by decide
        simp [slipEscape, hne]
        omega
      · rw [if_neg (by intro h; rcases h with h | h; exact h1 h; exact h2 h), ih]
        simp [slipEscape, h1, h2]
        omega

theorem getSlipDecodedSizeLoop_eq : ∀ (k : Nat) (l dest : List Nat), l.length ≤ k →
    getSlipDecodedSizeLoop l dest.length = (slipDecodeLoop l dest).map (·.count)
  | _, [], dest, _ => by simp [getSlipDecodedSizeLoop, slipDecodeLoop]
  | 0, c :: rest, dest, hk => by simp at hk
  | k + 1, c :: rest, dest, hk => by
    simp only [List.length_cons] at hk
    unfold getSlipDecodedSizeLoop slipDecodeLoop
    by_cases h1 : c = SlipEnd
    · rw [if_pos h1, if_pos h1]; rfl
    rw [if_neg h1, if_neg h1]
    by_cases h2 : c = SlipEsc
    · rw [if_pos h2, if_pos h2]
      cases rest with
      | nil => rfl
      | cons e rest2 =>
        simp only [List.length_cons] at hk
        simp only
        by_cases e1 : e = SlipEscEnd
        · rw [if_pos (Or.inl e1), if_pos e1]
          have := getSlipDecodedSizeLoop_eq k rest2 (dest ++ [SlipEnd]) (by omega)
          simpa using this
        · by_cases e2 : e = SlipEscEsc
          · rw [if_pos (Or.inr e2), if_neg e1, if_pos e2]
            have := getSlipDecodedSizeLoop_eq k rest2 (dest ++ [SlipEsc]) (by omega)
            simpa using this
          · rw [if_neg (by intro h; rcases h with h | h; exact e1 h; exact e2 h), if_neg e1,
              if_neg e2]
            rfl
    · rw [if_neg h2, if_neg h2]
      have := getSlipDecodedSizeLoop_eq k rest (dest ++ [c]) (by omega)
      simpa using this

theorem getLast?_tail_of_ne (c : Nat) (rest : List Nat) (h : (c :: rest).getLast? = some SlipEnd)
    (hc : c ≠ SlipEnd) : ∃ d tl, rest = d :: tl ∧ (d :: tl).getLast? = some SlipEnd := by
  cases rest with
  | nil =>
    simp only [List.getLast?_singleton, Option.some.injEq] at h
    exact absurd h hc
  | cons d tl =>
    rw [List.getLast?_cons_cons] at h
    exact ⟨d, tl, rfl, h⟩

theorem slipDecodeLoop_total : ∀ (k : Nat) (l dest : List Nat), l.length ≤ k →
    l.getLast? = some SlipEnd →
    ∃ w, slipDecodeLoop l dest = some w ∧ w.bytes.length + 1 ≤ dest.length + l.length
      ∧ w.count ≤ w.bytes.length
  | _, [], dest, _, h => by simp at h
  | 0, c :: rest, dest, hk, _ => by simp at hk
  | k + 1, c :: rest, dest, hk, h => by
    simp only [List.length_cons] at hk
    unfold slipDecodeLoop
    by_cases h1 : c = SlipEnd
    · rw [if_pos h1]
      exact ⟨_, rfl, by simp, le_refl _⟩
    rw [if_neg h1]
    obtain ⟨d, tl, hr, hl⟩ := getLast?_tail_of_ne c rest h h1
    subst hr
    simp only [List.length_cons] at hk
    by_cases h2 : c = SlipEsc
    · rw [if_pos h2]
      simp only
      by_cases e1 : d = SlipEscEnd
      · rw [if_pos e1]
        have hd : d ≠ SlipEnd := by rw [e1]; decide
        obtain ⟨d2, tl2, hr2, hl2⟩ := getLast?_tail_of_ne d tl hl hd
        subst hr2
        obtain ⟨w, hw, hb, hc⟩ := slipDecodeLoop_total k (d2 :: tl2) (dest ++ [SlipEnd])
          (by simp only [List.length_cons] at hk ⊢; omega) hl2
        refine ⟨w, hw, ?_, hc⟩
        simp only [List.length_append, List.length_cons, List.length_nil] at hb ⊢
        omega
      · rw [if_neg e1]
        by_cases e2 : d = SlipEscEsc
        · rw [if_pos e2]
          have hd : d ≠ SlipEnd := by rw [e2]; decide
          obtain ⟨d2, tl2, hr2, hl2⟩ := getLast?_tail_of_ne d tl hl hd
          subst hr2
          obtain ⟨w, hw, hb, hc⟩ := slipDecodeLoop_total k (d2 :: tl2) (dest ++ [SlipEsc])
            (by simp only [List.length_cons] at hk ⊢; omega) hl2
          refine ⟨w, hw, ?_, hc⟩
          simp only [List.length_append, List.length_cons, List.length_nil] at hb ⊢
          omega
        · rw [if_neg e2]
          exact ⟨_, rfl, by simp only [List.length_cons]; omega, Nat.zero_le _⟩
    · rw [if_neg h2]
      obtain ⟨w, hw, hb, hc⟩ := slipDecodeLoop_total k (d :: tl) (dest ++ [c])
        (by simp only [List.length_cons]; omega) hl
      refine ⟨w, hw, ?_, hc⟩
      simp only [List.length_append, List.length_cons, List.length_nil] at hb ⊢
      omega

theorem slipDecode_total (source : List Nat) (hne : source ≠ []) :
    ∃ w, slipDecode source = some w ∧ w.bytes.length ≤ source.length - 1
      ∧ getSlipDecodedSize source = some w.count := by
  unfold slipDecode getSlipDecodedSize
  cases hl : source.getLast? with
  | none =>
    rw [List.getLast?_eq_none_iff] at hl
    exact absurd hl hne
  | some l =>
    simp only
    by_cases h : l ≠ SlipEnd
    · rw [if_pos h, if_pos h]
      exact ⟨_, rfl, by simp, rfl⟩
    · rw [if_neg h, if_neg h]
      have hl2 : source.getLast? = some SlipEnd := by
        rw [hl]; simp only [ne_eq, not_not] at h; rw [h]
      obtain ⟨w, hw, hb, _⟩ := slipDecodeLoop_total source.length source [] (le_refl _) hl2
      refine ⟨w, hw, ?_, ?_⟩
      · simp only [List.length_nil] at hb; omega
      · have := getSlipDecodedSizeLoop_eq source.length source [] (le_refl _)
        simp only [List.length_nil] at this
        rw [this, hw]
        rfl

/-- C31: for every byte sequence `x`, `getSlipEncodedSize` of `x` is the count that
`slipEncode` of `x` returns; for every byte sequence `y` that is not empty, well-formed or
not, `slipDecode` of `y` returns a count and `getSlipDecodedSize` of `y` returns the same
number. -/
theorem slip_sizes_agree :
    (∀ x : List Nat, getSlipEncodedSize x = (slipEncode x).count)
    ∧ (∀ y : List Nat, y ≠ [] →
        (slipDecode y).isSome = true
        ∧ getSlipDecodedSize y = (slipDecode y).map (·.count)) := by
  constructor
  · intro x
    unfold getSlipEncodedSize slipEncode
    rw [slipEscape_length_sum, slipEncodeLoop_eq]
    simp
  · intro y hy
    obtain ⟨w, hw, _, hs⟩ := slipDecode_total y hy
    rw [hw, hs]
    exact ⟨rfl, rfl⟩

theorem slip_sizes_agree_witness :
    (getSlipEncodedSize [0x41, 0xC0, 0xDB] = (slipEncode [0x41, 0xC0, 0xDB]).count
      ∧ (slipEncode [0x41, 0xC0, 0xDB]).count = 6)
    ∧ ((slipDecode [0x41, 0xDB, 0xDC, 0xC0]).isSome = true
      ∧ getSlipDecodedSize [0x41, 0xDB, 0xDC, 0xC0]
          = (slipDecode [0x41, 0xDB, 0xDC, 0xC0]).map (·.count))
    ∧ ((slipDecode [0x41, 0xDB, 0x42, 0xC0]).isSome = true
      ∧ getSlipDecodedSize [0x41, 0xDB, 0x42, 0xC0]
          = (slipDecode [0x41, 0xDB, 0x42, 0xC0]).map (·.count))
    ∧ getSlipDecodedSize [0x41, 0xDB, 0xDC, 0xC0] = some 2
    ∧ getSlipDecodedSize [0x41, 0xDB, 0x42, 0xC0] = some 0 :=
  ⟨⟨slip_sizes_agree.1 [0x41, 0xC0, 0xDB], by decide⟩,
    slip_sizes_agree.2 [0x41, 0xDB, 0xDC, 0xC0] (by decide),
    slip_sizes_agree.2 [0x41, 0xDB, 0x42, 0xC0] (by decide),
    by decide, by decide⟩

/-- C35: for every source buffer of `n` bytes, `n` at least 1, `slipDecode` and
`getSlipDecodedSize` both have a defined result, that is, every byte they read (the last
byte of the buffer, the byte at `sourceIndex`, and the byte after an ESC) lies inside the
buffer; and `slipDecode` stores at most `n - 1` bytes. -/
theorem slipDecode_reads_inside (source : List Nat) (hn : 1 ≤ source.length) :
    ∃ w k, slipDecode source = some w ∧ getSlipDecodedSize source = some k
      ∧ w.bytes.length ≤ source.length - 1 := by
  have hne : source ≠ [] := by
    intro h; rw [h] at hn; simp at hn
  obtain ⟨w, hw, hb, hs⟩ := slipDecode_total source hne
  exact ⟨w, w.count, hw, hs, hb⟩

theorem slipDecode_reads_inside_witness :
    (∃ w k, slipDecode [0xDB, 0xDC, 0xDB, 0xC0] = some w
      ∧ getSlipDecodedSize [0xDB, 0xDC, 0xDB, 0xC0] = some k
      ∧ w.bytes.length ≤ [0xDB, 0xDC, 0xDB, 0xC0].length - 1)
    ∧ slipDecode [0xDB, 0xDC, 0xDB, 0xC0] = some ⟨[0xC0], 0⟩
    ∧ slipDecode [0xDB] = some ⟨[], 0⟩
    ∧ slipDecode [0x41, 0x42, 0xC0] = some ⟨[0x41, 0x42], 2⟩ :=
  ⟨slipDecode_reads_inside [0xDB, 0xDC, 0xDB, 0xC0] (by decide), by decide, by decide,
    by decide⟩

theorem slipEscape_flatten_no_end (x : List Nat) :
    (x.map slipEscape).flatten.count SlipEnd = 0 := by
  induction x with
  | nil => rfl
  | cons c rest ih =>
    simp only [List.map_cons, List.flatten_cons, List.count_append, ih, Nat.add_zero]
    unfold slipEscape
    by_cases h1 : c = SlipEnd
    · rw [if_pos h1]; decide
    · rw [if_neg h1]
      by_cases h2 : c = SlipEsc
      · rw [if_pos h2]; decide
      · rw [if_neg h2]
        simp only [List.count_cons, List.count_nil, beq_iff_eq, h1, if_false]

theorem slipEscape_flatten_esc (x : List Nat) :
    ∀ i, ((x.map slipEscape).flatten ++ [SlipEnd])[i]? = some SlipEsc →
      ((x.map slipEscape).flatten ++ [SlipEnd])[i + 1]? = some SlipEscEnd
      ∨ ((x.map slipEscape).flatten ++ [SlipEnd])[i + 1]? = some SlipEscEsc := by
  induction x with
  | nil =>
    intro i h
    cases i with
    | zero => simp at h; exact absurd h (by decide)
    | succ j => simp at h
  | cons c rest ih =>
    intro i h
    simp only [List.map_cons, List.flatten_cons, List.append_assoc] at h ⊢
    by_cases h1 : c = SlipEnd
    · have e : slipEscape c = [SlipEsc, SlipEscEnd] := by simp [slipEscape, h1]
      rw [e] at h ⊢
      cases i with
      | zero => left; simp
      | succ j =>
        cases j with
        | zero =>
          simp only [List.cons_append, List.nil_append, List.getElem?_cons_succ,
            List.getElem?_cons_zero, Option.some.injEq] at h
          exact absurd h (by decide)
        | succ k =>
          simp only [List.cons_append, List.nil_append, List.getElem?_cons_succ] at h ⊢
          exact ih k h
    · by_cases h2 : c = SlipEsc
      · have e : slipEscape c = [SlipEsc, SlipEscEsc] := by
          unfold slipEscape
          rw [if_neg h1, if_pos h2]
        rw [e] at h ⊢
        cases i with
        | zero => right; simp
        | succ j =>
          cases j with
          | zero =>
            simp only [List.cons_append, List.nil_append, List.getElem?_cons_succ,
              List.getElem?_cons_zero, Option.some.injEq] at h
            exact absurd h (by decide)
          | succ k =>
            simp only [List.cons_append, List.nil_append, List.getElem?_cons_succ] at h ⊢
            exact ih k h
      · have e : slipEscape c = [c] := by simp [slipEscape, h1, h2]
        rw [e] at h ⊢
        cases i with
        | zero =>
          simp only [List.cons_append, List.nil_append, List.getElem?_cons_zero,
            Option.some.injEq] at h
          exact absurd h h2
        | succ k =>
          simp only [List.cons_append, List.nil_append, List.getElem?_cons_succ] at h ⊢
          exact ih k h

/-- C36: for every byte sequence `x`, the bytes that `slipEncode` stores contain the END
byte 0xC0 exactly once, as the last byte, and every byte 0xDB among them is directly followed
by 0xDC or by 0xDD. -/
theorem slipEncode_framing (x : List Nat) :
    (slipEncode x).bytes.count 0xC0 = 1
    ∧ (slipEncode x).bytes.getLast? = some 0xC0
    ∧ (∀ i, (slipEncode x).bytes[i]? = some 0xDB →
        (slipEncode x).bytes[i + 1]? = some 0xDC ∨ (slipEncode x).bytes[i + 1]? = some 0xDD) := by
  have hb : (slipEncode x).bytes = (x.map slipEscape).flatten ++ [SlipEnd] := by
    simp only [slipEncode, slipEncodeLoop_eq, List.nil_append]
  rw [hb]
  refine ⟨?_, ?_, ?_⟩
  · have h0 := slipEscape_flatten_no_end x
    have e : (0xC0 : Nat) = SlipEnd := rfl
    rw [e, List.count_append, h0]
    rfl
  · rw [List.getLast?_concat]; rfl
  · exact slipEscape_flatten_esc x

theorem slipEncode_framing_witness :
    (slipEncode [0xC0, 0x41, 0xDB]).bytes = [0xDB, 0xDC, 0x41, 0xDB, 0xDD, 0xC0]
    ∧ (slipEncode [0xC0, 0x41, 0xDB]).bytes.count 0xC0 = 1
    ∧ ((slipEncode [0xC0, 0x41, 0xDB]).bytes[3 + 1]? = some 0xDC
      ∨ (slipEncode [0xC0, 0x41, 0xDB]).bytes[3 + 1]? = some 0xDD) :=
  ⟨by decide, (slipEncode_framing [0xC0, 0x41, 0xDB]).1,
    (slipEncode_framing [0xC0, 0x41, 0xDB]).2.2 3 (by decide)⟩

/-! ## Time tags from seconds and fraction: C32 -/

theorem OscTimeTag.ofSecondsFraction_value (s f : Nat) (hs : s < 2 ^ 32) (hf : f < 2 ^ 32) :
    OscTimeTag.ofSecondsFraction s f = s * 2 ^ 32 + f := by
  simp only [OscTimeTag.ofSecondsFraction, uint32Bytes, ofLittleEndianBytes, List.cons_append,
    List.nil_append]
  omega

/-- C32: for all 32-bit unsigned `s` and `f`, the time tag constructed by
`OscTimeTag (s, f)` has the 64-bit value `s * 2^32 + f`; `encodeArgument64` stores it as the
four bytes of `s`, most significant first, followed by the four bytes of `f`, most
significant first, and so do a bundle with that time tag (after "#bundle" and NUL) and an
argument holding that time tag. -/
theorem time_tag_seconds_fraction (s f : Nat) (hs : s < 2 ^ 32) (hf : f < 2 ^ 32) :
    OscTimeTag.ofSecondsFraction s f = s * 2 ^ 32 + f
    ∧ encodeArgument64 (OscTimeTag.ofSecondsFraction s f)
        = encodeArgument32 s ++ encodeArgument32 f
    ∧ ((OscBundle.withTimeTag (OscTimeTag.ofSecondsFraction s f)).encode 16).bytes
        = OscBundle.BundleHeader ++ [0] ++ encodeArgument32 s ++ encodeArgument32 f
    ∧ ((OscArgument.uninitialised.setTimeTag (OscTimeTag.ofSecondsFraction s f)).encode 8).bytes
        = encodeArgument32 s ++ encodeArgument32 f := by
  have hv := OscTimeTag.ofSecondsFraction_value s f hs hf
  have he : encodeArgument64 (s * 2 ^ 32 + f) = encodeArgument32 s ++ encodeArgument32 f := by
    simp only [encodeArgument64, encodeArgument32, List.cons_append, List.nil_append,
      List.cons.injEq, and_true]
    refine ⟨?_, ?_, ?_, ?_, ?_, ?_, ?_, ?_⟩ <;> omega
  rw [hv]
  refine ⟨rfl, he, ?_, ?_⟩
  · have hb : ∀ t : Nat, ((OscBundle.withTimeTag t).encode 16).bytes
        = OscBundle.BundleHeader ++ [0] ++ encodeArgument64 t := fun t => rfl
    rw [hb, he]
    simp only [List.append_assoc]
  · have ha : ∀ t : Nat, ((OscArgument.uninitialised.setTimeTag t).encode 8).bytes
        = encodeArgument64 (t % 2 ^ 64) := fun t => rfl
    rw [ha, Nat.mod_eq_of_lt (by omega), he]

theorem time_tag_seconds_fraction_witness :
    OscTimeTag.ofSecondsFraction 1 2 = 1 * 2 ^ 32 + 2
    ∧ encodeArgument64 (OscTimeTag.ofSecondsFraction 1 2)
        = encodeArgument32 1 ++ encodeArgument32 2
    ∧ ((OscBundle.withTimeTag (OscTimeTag.ofSecondsFraction 1 2)).encode 16).bytes
        = OscBundle.BundleHeader ++ [0] ++ encodeArgument32 1 ++ encodeArgument32 2
    ∧ ((OscArgument.uninitialised.setTimeTag (OscTimeTag.ofSecondsFraction 1 2)).encode 8).bytes
        = encodeArgument32 1 ++ encodeArgument32 2 :=
  time_tag_seconds_fraction 1 2 (by decide) (by decide)

/-! ## Unrecognised type tags, blobs set twice: C33, C39 -/

theorem OscArgument.getEncodedSizeAsserted_eq (a : OscArgument) :
    a.getEncodedSizeAsserted
      = if TypeTag.Recognised a.typeTag then some a.getEncodedSize else none := by
  unfold OscArgument.getEncodedSizeAsserted OscArgument.getEncodedSize TypeTag.Recognised
  simp only [Int32TypeTag, Float32TypeTag, StringTypeTag, BlobTypeTag, Int64TypeTag,
    Float64TypeTag, TimeTagTypeTag, AlternateStringTypeTag, CharacterTypeTag,
    RgbaColourTypeTag, MidiMessageTypeTag, TrueTypeTag, FalseTypeTag, NilTypeTag,
    InfinitumTypeTag, BeginArrayTypeTag, EndArrayTypeTag]
  split_ifs <;> first | rfl | omega

/-- C39 (the code at a failing input): `setBlob` only appends to `blobValue` with
`push_back`, it never clears it.  For every argument the blob afterwards is the old blob
followed by the given bytes.  On an argument holding the blob 01 02, `setBlob` of the one
byte 03 leaves the blob 01 02 03: `getBlobSize()` is 3, not 1, and `getBlob()` is not the one
given byte. -/
theorem setBlob_appends :
    (∀ (a : OscArgument) (bytes : List Nat) (n : Nat),
        (a.setBlob bytes n).map (fun r => (r.getType, r.getBlob))
          = if n ≤ bytes.length ∧ n < 2 ^ 32 then
              some (BlobTypeTag, a.getBlob ++ bytes.take n)
            else none)
    ∧ (OscArgument.uninitialised.setBlob [1, 2] 2).map (fun r => (r.getBlobSize, r.getBlob))
        = some (2, [1, 2])
    ∧ ((OscArgument.uninitialised.setBlob [1, 2] 2).bind (fun a => a.setBlob [3] 1)).map
          (fun r => (r.getType, r.getBlobSize, r.getBlob))
        = some (BlobTypeTag, 3, [1, 2, 3]) := by
  refine ⟨fun a bytes n => ?_, by decide, by decide⟩
  unfold OscArgument.setBlob
  by_cases h : n ≤ bytes.length ∧ n < 2 ^ 32
  · rw [if_pos h, if_pos h]; rfl
  · rw [if_neg h, if_neg h]; rfl

/-! ## A negative element size in a bundle: C34 -/

theorem decodeElements_negative_step (fuel : Nat) (b : OscBundle) :
    OscBundle.decodeElements (fuel + 1) b
        (ascii "#bundle" ++ [0] ++ [0, 0, 0, 0, 0, 0, 0, 1] ++ [0xFF, 0xFF, 0xFF, 0xFC]
          ++ ascii "/a" ++ [0, 0] ++ ascii "," ++ [0, 0, 0]) 28 16
      = OscBundle.decodeElements fuel
          (.mk b.getTimeTag b.header
            (b.elements ++ [.message ⟨b.getTimeTag, ascii "/a", []⟩]))
          (ascii "#bundle" ++ [0] ++ [0, 0, 0, 0, 0, 0, 0, 1] ++ [0xFF, 0xFF, 0xFF, 0xFC]
            ++ ascii "/a" ++ [0, 0] ++ ascii "," ++ [0, 0, 0]) 28 16 := by
  rw [OscBundle.decodeElements]
  have e4 : toSizeT (16 + 4) = 20 := by decide
  have hu : decodeArgument32
      ((ascii "#bundle" ++ [0] ++ [0, 0, 0, 0, 0, 0, 0, 1] ++ [0xFF, 0xFF, 0xFF, 0xFC]
        ++ ascii "/a" ++ [0, 0] ++ ascii "," ++ [0, 0, 0]).drop 16) = some 0xFFFFFFFC := by
    decide
  have hs : int32ToSizeT (asInt32 0xFFFFFFFC) = 2 ^ 64 - 4 := by decide
  have e5 : toSizeT (20 + (2 ^ 64 - 4)) = 16 := by decide
  have hc : OscContent.encodedContentIsMessage
      ((ascii "#bundle" ++ [0] ++ [0, 0, 0, 0, 0, 0, 0, 1] ++ [0xFF, 0xFF, 0xFF, 0xFC]
        ++ ascii "/a" ++ [0, 0] ++ ascii "," ++ [0, 0, 0]).drop 20) = some true := by
    decide
  have hm : OscMessage.createFromEncodedData
      ((ascii "#bundle" ++ [0] ++ [0, 0, 0, 0, 0, 0, 0, 1] ++ [0xFF, 0xFF, 0xFF, 0xFC]
        ++ ascii "/a" ++ [0, 0] ++ ascii "," ++ [0, 0, 0]).drop 20) (2 ^ 64 - 4)
      = some ⟨0, ascii "/a", []⟩ := by
    decide
  rw [if_neg (by decide), e4, if_neg (by decide), hu]
  simp only [hs, e5]
  rw [if_neg (by decide), hc]
  simp only [hm]
  rw [if_neg (by decide)]

theorem decodeElements_negative_none : ∀ (fuel : Nat) (b : OscBundle),
    OscBundle.decodeElements fuel b
        (ascii "#bundle" ++ [0] ++ [0, 0, 0, 0, 0, 0, 0, 1] ++ [0xFF, 0xFF, 0xFF, 0xFC]
          ++ ascii "/a" ++ [0, 0] ++ ascii "," ++ [0, 0, 0]) 28 16 = none
  | 0, _ => by rw [OscBundle.decodeElements]
  | fuel + 1, b => by
    rw [decodeElements_negative_step, decodeElements_negative_none fuel]

/-- C34 (the code at a failing input): in the 28 bytes "#bundle", NUL, the time tag 1,
FF FF FF FC and the message "/a" without arguments, the element at cursor 16 declares the
size -4.  As a `size_t` that is 2^64 - 4; the test `sourceIndex + elementSize.int32 >
sizeInBytes` computes 20 + (2^64 - 4) = 16 modulo 2^64 and does not reject; the message at
cursor 20 decodes as valid and is appended; `sourceIndex += elementSize.int32` leaves the
cursor at 16, where the iteration began.  Every iteration therefore repeats the previous one
with one more element in the bundle, and `decode` returns within no bound on the number of
iterations. -/
theorem bundle_decode_negative_size_loops :
    ((ascii "#bundle" ++ [0] ++ [0, 0, 0, 0, 0, 0, 0, 1] ++ [0xFF, 0xFF, 0xFF, 0xFC]
        ++ ascii "/a" ++ [0, 0] ++ ascii "," ++ [0, 0, 0]).length = 28
      ∧ asInt32 0xFFFFFFFC = -4 ∧ int32ToSizeT (-4) = 2 ^ 64 - 4
      ∧ toSizeT (toSizeT (16 + 4) + int32ToSizeT (-4)) = 16)
    ∧ (∀ (fuel : Nat) (b : OscBundle),
        OscBundle.decodeElements (fuel + 1) b
            (ascii "#bundle" ++ [0] ++ [0, 0, 0, 0, 0, 0, 0, 1] ++ [0xFF, 0xFF, 0xFF, 0xFC]
              ++ ascii "/a" ++ [0, 0] ++ ascii "," ++ [0, 0, 0]) 28 16
          = OscBundle.decodeElements fuel
              (.mk b.getTimeTag b.header
                (b.elements ++ [.message ⟨b.getTimeTag, ascii "/a", []⟩]))
              (ascii "#bundle" ++ [0] ++ [0, 0, 0, 0, 0, 0, 0, 1] ++ [0xFF, 0xFF, 0xFF, 0xFC]
                ++ ascii "/a" ++ [0, 0] ++ ascii "," ++ [0, 0, 0]) 28 16)
    ∧ (∀ fuel : Nat,
        OscBundle.decode fuel OscBundle.new
            (ascii "#bundle" ++ [0] ++ [0, 0, 0, 0, 0, 0, 0, 1] ++ [0xFF, 0xFF, 0xFF, 0xFC]
              ++ ascii "/a" ++ [0, 0] ++ ascii "," ++ [0, 0, 0]) 28 = none)
    ∧ OscBundle.createFromEncodedData
        (ascii "#bundle" ++ [0] ++ [0, 0, 0, 0, 0, 0, 0, 1] ++ [0xFF, 0xFF, 0xFF, 0xFC]
          ++ ascii "/a" ++ [0, 0] ++ ascii "," ++ [0, 0, 0]) 28 = none := by
  have hall : ∀ fuel : Nat,
      OscBundle.decode fuel OscBundle.new
          (ascii "#bundle" ++ [0] ++ [0, 0, 0, 0, 0, 0, 0, 1] ++ [0xFF, 0xFF, 0xFF, 0xFC]
            ++ ascii "/a" ++ [0, 0] ++ ascii "," ++ [0, 0, 0]) 28 = none := by
    intro fuel
    cases fuel with
    | zero => rw [OscBundle.decode]
    | succ f =>
      rw [OscBundle.decode_header f _ 28 1
        ([0xFF, 0xFF, 0xFF, 0xFC] ++ ascii "/a" ++ [0, 0] ++ ascii "," ++ [0, 0, 0])
        (by decide) (by decide) (by decide) (by decide)]
      exact decodeElements_negative_none f _
  refine ⟨⟨by decide, by decide, by decide, by decide⟩, decodeElements_negative_step, hall, ?_⟩
  unfold OscBundle.createFromEncodedData
  rw [hall]
  rfl

/-! ## Address pattern invariant, adding to a bundle: C37, C40 -/

theorem OscMessage.addressEmptyOrSlash_call (m : OscMessage) (c : OscMessage.Call)
    (h : m.AddressEmptyOrSlash) : (m.call c).AddressEmptyOrSlash := by
  have happ : ∀ text : List Nat, (m.appendAddressPattern text).1.AddressEmptyOrSlash := by
    intro text
    unfold OscMessage.appendAddressPattern
    by_cases ht : text.getD 0 0 ≠ 47
    · rw [if_pos ht]; exact h
    · rw [if_neg ht]
      right
      simp only [OscMessage.getAddressPattern]
      cases hm : m.addressPattern with
      | nil =>
        cases text with
        | nil => simp at ht
        | cons c rest =>
          simp only [List.getD_cons_zero, ne_eq, not_not] at ht
          simp [ht]
      | cons a rest =>
        rcases h with h | h
        · simp only [OscMessage.getAddressPattern] at h
          rw [hm] at h; cases h
        · simp only [OscMessage.getAddressPattern, hm, List.head?_cons] at h
          simp only [List.cons_append, List.head?_cons]
          exact h
  cases c with
  | setAddressPattern text => exact happ text
  | appendAddressPattern text => exact happ text
  | add argument => exact h
  | clear => left; rfl

theorem OscMessage.addressEmptyOrSlash_calls (cs : List OscMessage.Call) :
    ∀ m : OscMessage, m.AddressEmptyOrSlash → (m.calls cs).AddressEmptyOrSlash := by
  induction cs with
  | nil => intro m h; exact h
  | cons c rest ih =>
    intro m h
    exact ih (m.call c) (OscMessage.addressEmptyOrSlash_call m c h)

theorem OscMessage.addressEmptyOrSlash_decoded (source : List Nat) (sizeInBytes : Nat)
    (m : OscMessage) (h : OscMessage.createFromEncodedData source sizeInBytes = some m) :
    m.AddressEmptyOrSlash := by
  unfold OscMessage.createFromEncodedData at h
  cases hd : OscMessage.new.decode source sizeInBytes with
  | none => rw [hd] at h; cases h
  | some r =>
    obtain ⟨p, e⟩ := r
    rw [hd] at h
    simp only [Option.map_some', Option.some.injEq] at h
    subst h
    obtain ⟨h1, h2⟩ := OscMessage.decode_new_result source sizeInBytes p e hd
    by_cases he : e = .OscErrorNone
    · right; exact h2 he
    · left; rw [h1 he]; rfl

/-- C37: every `OscMessage` obtained from the default constructor, from the constructor
taking an address pattern, or as the result of `createFromEncodedData` on any buffer,
followed by any sequence of calls of `setAddressPattern`, `appendAddressPattern`, the `add`
functions and `clear`, has an address pattern that is empty or begins with '/'. -/
theorem message_address_invariant (cs : List OscMessage.Call) :
    (OscMessage.new.calls cs).AddressEmptyOrSlash
    ∧ (∀ text : List Nat, ((OscMessage.withAddress text).calls cs).AddressEmptyOrSlash)
    ∧ (∀ (source : List Nat) (sizeInBytes : Nat) (m : OscMessage),
        OscMessage.createFromEncodedData source sizeInBytes = some m →
        m.AddressEmptyOrSlash ∧ (m.calls cs).AddressEmptyOrSlash) := by
  refine ⟨?_, fun text => ?_, fun source sizeInBytes m h => ?_⟩
  · exact OscMessage.addressEmptyOrSlash_calls cs _ (Or.inl rfl)
  · have h0 : (OscMessage.withAddress text).AddressEmptyOrSlash :=
      OscMessage.addressEmptyOrSlash_call OscMessage.new (.setAddressPattern text) (Or.inl rfl)
    exact OscMessage.addressEmptyOrSlash_calls cs _ h0
  · have h0 := OscMessage.addressEmptyOrSlash_decoded source sizeInBytes m h
    exact ⟨h0, OscMessage.addressEmptyOrSlash_calls cs _ h0⟩

theorem message_address_invariant_witness :
    (⟨0, ascii "/a", []⟩ : OscMessage).AddressEmptyOrSlash
    ∧ ((⟨0, ascii "/a", []⟩ : OscMessage).calls
        [.appendAddressPattern (ascii "/b"), .add (OscArgument.uninitialised.setInt32 1),
          .setAddressPattern (ascii "c"), .clear,
          .appendAddressPattern (ascii "x/y")]).AddressEmptyOrSlash :=
  (message_address_invariant
    [.appendAddressPattern (ascii "/b"), .add (OscArgument.uninitialised.setInt32 1),
      .setAddressPattern (ascii "c"), .clear, .appendAddressPattern (ascii "x/y")]).2.2
    (ascii "/a" ++ [0, 0] ++ ascii "," ++ [0, 0, 0]) 8 ⟨0, ascii "/a", []⟩ (by decide)

/-- C40: for every bundle `B`: `addMessage` with a message that is not valid and `addBundle`
with a bundle that is not valid leave `B` as it was (elements, size, time tag); `addMessage`
and `addBundle` with valid content append exactly one element, a copy of the argument and of
its content type, after the earlier elements, which stay as they were, and leave the time
tag of `B` unchanged; in no case does the validity of `B` change. -/
theorem add_to_bundle_frame (B : OscBundle) :
    (∀ m : OscMessage, m.isValid = false → B.addMessage m = B)
    ∧ (∀ b : OscBundle, b.isValid = false → B.addBundle b = B)
    ∧ (∀ m : OscMessage, m.isValid = true →
        (B.addMessage m).elements = B.elements ++ [.message m]
        ∧ (B.addMessage m).size = B.size + 1
        ∧ (B.addMessage m).getTimeTag = B.getTimeTag)
    ∧ (∀ b : OscBundle, b.isValid = true →
        (B.addBundle b).elements = B.elements ++ [.bundle b]
        ∧ (B.addBundle b).size = B.size + 1
        ∧ (B.addBundle b).getTimeTag = B.getTimeTag)
    ∧ (∀ m : OscMessage, (B.addMessage m).isValid = B.isValid)
    ∧ (∀ b : OscBundle, (B.addBundle b).isValid = B.isValid) := by
  refine ⟨fun m h => ?_, fun b h => ?_, fun m h => ?_, fun b h => ?_, fun m => ?_, fun b => ?_⟩
  · unfold OscBundle.addMessage
    rw [h]; rfl
  · unfold OscBundle.addBundle
    rw [h]; rfl
  · unfold OscBundle.addMessage
    rw [h]
    simp [OscBundle.elements, OscBundle.size, OscBundle.getTimeTag]
  · unfold OscBundle.addBundle
    rw [h]
    simp [OscBundle.elements, OscBundle.size, OscBundle.getTimeTag]
  · unfold OscBundle.addMessage
    cases m.isValid <;> rfl
  · unfold OscBundle.addBundle
    cases b.isValid <;> rfl

theorem add_to_bundle_frame_witness :
    (OscBundle.withTimeTag 5).addMessage OscMessage.new = OscBundle.withTimeTag 5
    ∧ (((OscBundle.withTimeTag 5).addMessage (OscMessage.withAddress (ascii "/a"))).addBundle
          (OscBundle.withTimeTag 7)).elements
        = ((OscBundle.withTimeTag 5).addMessage (OscMessage.withAddress (ascii "/a"))).elements
          ++ [.bundle (OscBundle.withTimeTag 7)]
    ∧ ((OscBundle.withTimeTag 5).addMessage (OscMessage.withAddress (ascii "/a"))).elements
        = (OscBundle.withTimeTag 5).elements ++ [.message (OscMessage.withAddress (ascii "/a"))]
    ∧ (OscBundle.withTimeTag 5).addBundle (OscBundle.mk 0 (OscBundle.BundleHeader.set 0 0) [])
        = OscBundle.withTimeTag 5 :=
  ⟨(add_to_bundle_frame (OscBundle.withTimeTag 5)).1 OscMessage.new (by decide),
    ((add_to_bundle_frame
      ((OscBundle.withTimeTag 5).addMessage (OscMessage.withAddress (ascii "/a")))).2.2.2.1
      (OscBundle.withTimeTag 7) (by decide)).1,
    ((add_to_bundle_frame (OscBundle.withTimeTag 5)).2.2.1
      (OscMessage.withAddress (ascii "/a")) (by decide)).1,
    (add_to_bundle_frame (OscBundle.withTimeTag 5)).2.1
      (OscBundle.mk 0 (OscBundle.BundleHeader.set 0 0) []) (by decide)⟩

/-! ## Encoded sizes and the decoders' length checks: C38 -/

theorem getPaddedSize_ge_four (n : Nat) (h : 1 ≤ n) : 4 ≤ getPaddedSize n := by
  have h1 := getPaddedSize_mod n
  have h2 := getPaddedSize_bounds n
  omega

theorem OscMessage.size_ge_eight (m : OscMessage) : 8 ≤ m.getEncodedSize := by
  have h1 := getPaddedSize_ge_four (m.addressPattern.length + 1) (by omega)
  have h2 := getPaddedSize_ge_four (m.arguments.length + 1 + 1) (by omega)
  simp only [OscMessage.getEncodedSize]
  omega

/-- The codes that `OscMessage::decode` can return once its tests on the size have
passed. -/
theorem OscMessage.decode_codes_after_size (source : List Nat) (n : Nat) (r : OscMessage)
    (e : OscError) (h0 : n ≠ 0) (h4 : n % 4 = 0) (h8 : ¬ n < OscMessage.MinOscMessageSize)
    (h : OscMessage.new.decode source n = some (r, e)) :
    e ≠ .OscErrorMessageToShort ∧ e ≠ .OscErrorSizeIsNotMultipleOfFour
    ∧ e ≠ .OscErrorMessageSizeTooSmall := by
  have herr : ∀ e2 : OscError,
      (e2 = .OscErrorSourceEndsBeforeEndOfAddressPattern
        ∨ e2 = .OscErrorSourceEndsBeforeStartOfTypeTagString
        ∨ e2 = .OscErrorSourceEndsBeforeEndOfTypeTagString
        ∨ e2 = .OscErrorUnexpectedEndOfSource) →
      OscMessage.new.error e2 = (r, e) →
      e ≠ .OscErrorMessageToShort ∧ e ≠ .OscErrorSizeIsNotMultipleOfFour
      ∧ e ≠ .OscErrorMessageSizeTooSmall := by
    intro e2 hc heq
    simp only [OscMessage.error, Prod.mk.injEq] at heq
    obtain ⟨_, he⟩ := heq
    subst he
    rcases hc with hc | hc | hc | hc <;> rw [hc] <;> decide
  unfold OscMessage.decode at h
  rw [if_neg h0, if_neg (by omega), if_neg h8] at h
  cases hs0 : source[0]? with
  | none => rw [hs0] at h; cases h
  | some c0 =>
    rw [hs0] at h
    simp only at h
    by_cases c1 : c0 ≠ 47
    · rw [if_pos c1] at h
      simp only [Option.some.injEq, Prod.mk.injEq] at h
      rw [← h.2]; decide
    rw [if_neg c1] at h
    cases hl : stringLengthSafe source n with
    | none => rw [hl] at h; cases h
    | some addressLength =>
      rw [hl] at h
      simp only at h
      by_cases c2 : addressLength > n
      · rw [if_pos c2] at h
        simp only [Option.some.injEq, Prod.mk.injEq] at h
        rw [← h.2]; decide
      rw [if_neg c2] at h
      cases ha : OscMessage.decodeAddressPattern source n source.length 0
          OscMessage.new.addressPattern with
      | none => rw [ha] at h; cases h
      | some sa =>
        rw [ha] at h
        cases sa with
        | fail e2 =>
          simp only [Option.some.injEq] at h
          have := (OscMessage.decodeAddressPattern_result source n _ _ _ _ ha).1 e2 rfl
          exact herr e2 (Or.inl this) h
        | next ia =>
          obtain ⟨i, ap⟩ := ia
          simp only at h
          cases hk : OscMessage.decodeSkipToTypeTags source n source.length i with
          | none => rw [hk] at h; cases h
          | some sk =>
            rw [hk] at h
            cases sk with
            | fail e2 =>
              simp only [Option.some.injEq] at h
              have := OscMessage.decodeSkipToTypeTags_result source n _ _ e2 hk
              exact herr e2 (Or.inr (Or.inl this)) h
            | next j =>
              simp only at h
              cases hl2 : stringLengthSafe (source.drop j) (toSizeT (n + 2 ^ 64 - j)) with
              | none => rw [hl2] at h; cases h
              | some tl =>
                rw [hl2] at h
                simp only at h
                cases ht : OscMessage.decodeTypeTagString source n source.length j [] with
                | none => rw [ht] at h; cases h
                | some st =>
                  rw [ht] at h
                  cases st with
                  | fail e2 =>
                    simp only [Option.some.injEq] at h
                    have := OscMessage.decodeTypeTagString_result source n _ _ _ e2 ht
                    exact herr e2 (Or.inr (Or.inr (Or.inl this))) h
                  | next kt =>
                    obtain ⟨k, tags⟩ := kt
                    simp only at h
                    cases hv : OscMessage.decodeAdvanceToArguments n 4 k with
                    | fail e2 =>
                      rw [hv] at h
                      simp only [Option.some.injEq] at h
                      have := OscMessage.decodeAdvanceToArguments_result n _ _ e2 hv
                      exact herr e2 (Or.inr (Or.inr (Or.inr this))) h
                    | next k2 =>
                      rw [hv] at h
                      simp only at h
                      cases hg : OscMessage.decodeArguments source n tags k2
                          OscMessage.new.arguments with
                      | none => rw [hg] at h; cases h
                      | some sg =>
                        rw [hg] at h
                        cases sg with
                        | fail e2 =>
                          simp only [Option.some.injEq] at h
                          have := OscMessage.decodeArguments_result source n _ _ _ e2 hg
                          exact herr e2 (Or.inr (Or.inr (Or.inr this))) h
                        | next args =>
                          simp only [Option.some.injEq, Prod.mk.injEq] at h
                          rw [← h.2]; decide

namespace OscBundle

mutual
theorem size_of_headerInv : ∀ (b : OscBundle), b.headerInv = true →
    b.getEncodedSize % 4 = 0 ∧ 16 ≤ b.getEncodedSize
  | .mk timeTag header elements, hp => by
    simp only [headerInv, Bool.and_eq_true] at hp
    have hl := OscBundle.header_length_of_inv header hp.1
    have := elementsSize_of_headerInv elements hp.2
    simp only [getEncodedSize, hl]
    omega
theorem elementsSize_of_headerInv : ∀ (elements : List OscContent),
    elementsHeaderInv elements = true → getEncodedElementsSize elements % 4 = 0
  | [], _ => rfl
  | .message m :: elements, hp => by
    simp only [elementsHeaderInv] at hp
    have h1 := elementsSize_of_headerInv elements hp
    have h2 := OscMessage.size_mod_four_message m
    simp only [getEncodedElementsSize, OscContent.getEncodedSize]
    omega
  | .bundle b :: elements, hp => by
    simp only [elementsHeaderInv, Bool.and_eq_true] at hp
    have h1 := elementsSize_of_headerInv elements hp.2
    have h2 := (size_of_headerInv b hp.1).1
    simp only [getEncodedElementsSize, OscContent.getEncodedSize]
    omega
end

/-- The codes that the element loop of `OscBundle::decode` can return. -/
theorem decodeElements_codes : ∀ (fuel : Nat) (b : OscBundle) (source : List Nat)
    (sizeInBytes sourceIndex : Nat) (p : OscBundle) (e : OscError),
    decodeElements fuel b source sizeInBytes sourceIndex = some (p, e) →
    e = .OscErrorNone ∨ e = .OscErrorSourceEndsBeforeBundleElementSize
      ∨ e = .OscErrorUnexpectedEndOfSource ∨ e = .OscErrorMalformedElement
  | 0, _, _, _, _, _, _, h => by rw [decodeElements] at h; cases h
  | fuel + 1, b, source, sizeInBytes, sourceIndex, p, e, h => by
    have herr : ∀ e2 : OscError, some (b.error e2) = some (p, e) → e = e2 := by
      intro e2 heq
      simp only [OscBundle.error, Option.some.injEq, Prod.mk.injEq] at heq
      exact heq.2.symm
    rw [decodeElements] at h
    by_cases c1 : ¬ sourceIndex < sizeInBytes
    · rw [if_pos c1] at h
      simp only [Option.some.injEq, Prod.mk.injEq] at h
      exact Or.inl h.2.symm
    rw [if_neg c1] at h
    by_cases c2 : toSizeT (sourceIndex + 4) > sizeInBytes
    · rw [if_pos c2] at h
      exact Or.inr (Or.inl (herr _ h))
    rw [if_neg c2] at h
    cases hu : decodeArgument32 (source.drop sourceIndex) with
    | none => rw [hu] at h; cases h
    | some elementSize =>
      rw [hu] at h
      simp only at h
      by_cases c3 : toSizeT (toSizeT (sourceIndex + 4) + int32ToSizeT (asInt32 elementSize))
          > sizeInBytes
      · rw [if_pos c3] at h
        exact Or.inr (Or.inr (Or.inl (herr _ h)))
      rw [if_neg c3] at h
      cases hm : OscContent.encodedContentIsMessage (source.drop (toSizeT (sourceIndex + 4)))
        with
      | none => rw [hm] at h; cases h
      | some isM =>
        rw [hm] at h
        cases isM with
        | true =>
          simp only at h
          cases hp : OscMessage.createFromEncodedData (source.drop (toSizeT (sourceIndex + 4)))
              (int32ToSizeT (asInt32 elementSize)) with
          | none => rw [hp] at h; cases h
          | some q =>
            rw [hp] at h
            simp only at h
            by_cases c4 : ¬ q.isValid = true
            · rw [if_pos c4] at h
              exact Or.inr (Or.inr (Or.inr (herr _ h)))
            rw [if_neg c4] at h
            exact decodeElements_codes fuel _ _ _ _ _ _ h
        | false =>
          cases hb : OscContent.encodedContentIsBundle
              (source.drop (toSizeT (sourceIndex + 4))) with
          | none => rw [hb] at h; cases h
          | some isB =>
            rw [hb] at h
            cases isB with
            | false => exact Or.inr (Or.inr (Or.inr (herr _ h)))
            | true =>
              simp only at h
              cases hp : decode fuel OscBundle.new (source.drop (toSizeT (sourceIndex + 4)))
                  (int32ToSizeT (asInt32 elementSize)) with
              | none => rw [hp] at h; cases h
              | some qe =>
                obtain ⟨q, e3⟩ := qe
                rw [hp] at h
                simp only at h
                by_cases c4 : ¬ q.isValid = true
                · rw [if_pos c4] at h
                  exact Or.inr (Or.inr (Or.inr (herr _ h)))
                rw [if_neg c4] at h
                exact decodeElements_codes fuel _ _ _ _ _ _ h

/-- The codes that `OscBundle::decode` can return once its tests on the size have passed. -/
theorem bundle_codes_after_size (fuel : Nat) (source : List Nat) (n : Nat) (p : OscBundle)
    (e : OscError) (h4 : n % 4 = 0) (h16 : ¬ n < MinimumBundleSize)
    (h : decode fuel OscBundle.new source n = some (p, e)) :
    e ≠ .OscErrorSizeIsNotMultipleOfFour ∧ e ≠ .OscErrorBundleSizeTooSmall := by
  cases fuel with
  | zero => rw [decode] at h; cases h
  | succ f =>
    have herr : ∀ e2 : OscError, some (OscBundle.new.error e2) = some (p, e) → e = e2 := by
      intro e2 heq
      simp only [OscBundle.error, Option.some.injEq, Prod.mk.injEq] at heq
      exact heq.2.symm
    rw [decode, if_neg (by omega), if_neg h16] at h
    cases h0 : source[0]? with
    | none => rw [h0] at h; cases h
    | some c0 =>
      rw [h0] at h
      simp only at h
      by_cases c3 : c0 ≠ 35
      · rw [if_pos c3] at h
        rw [herr _ h]; decide
      rw [if_neg c3] at h
      cases hc : cString source with
      | none => rw [hc] at h; cases h
      | some text =>
        rw [hc] at h
        simp only at h
        by_cases c4 : OscBundle.new.header ≠ text
        · rw [if_pos c4] at h
          rw [herr _ h]; decide
        rw [if_neg c4] at h
        cases ht : decodeArgument64 (source.drop (OscBundle.new.header.length + 1)) with
        | none => rw [ht] at h; cases h
        | some timeTag =>
          rw [ht] at h
          simp only at h
          rcases decodeElements_codes f _ _ _ _ _ _ h with hh | hh | hh | hh <;>
            rw [hh] <;> decide

end OscBundle

/-- C38: for every `OscMessage` whose arguments have recognised type tags,
`getEncodedSize()` is a multiple of 4 and at least 8, which is `MinOscMessageSize`; for
every `OscBundle`, `getEncodedSize()` is a multiple of 4 and at least 16, which is
`MinimumBundleSize`; so `decode` of that many bytes passes the tests on the size: whatever
the source holds, it returns neither `OscErrorMessageToShort`,
`OscErrorSizeIsNotMultipleOfFour` nor `OscErrorMessageSizeTooSmall` for a message, and
neither `OscErrorSizeIsNotMultipleOfFour` nor `OscErrorBundleSizeTooSmall` for a bundle. -/
theorem encoded_sizes_pass_size_tests :
    (∀ m : OscMessage, (∀ a ∈ m.arguments, TypeTag.Recognised a.getType) →
        m.getEncodedSize % 4 = 0 ∧ OscMessage.MinOscMessageSize ≤ m.getEncodedSize
        ∧ OscMessage.MinOscMessageSize = 8
        ∧ ∀ (source : List Nat) (r : OscMessage) (e : OscError),
            OscMessage.new.decode source m.getEncodedSize = some (r, e) →
            e ≠ .OscErrorMessageToShort ∧ e ≠ .OscErrorSizeIsNotMultipleOfFour
            ∧ e ≠ .OscErrorMessageSizeTooSmall)
    ∧ (∀ b : OscBundle, b.headerInv = true →
        b.getEncodedSize % 4 = 0 ∧ OscBundle.MinimumBundleSize ≤ b.getEncodedSize
        ∧ OscBundle.MinimumBundleSize = 16
        ∧ ∀ (fuel : Nat) (source : List Nat) (p : OscBundle) (e : OscError),
            OscBundle.decode fuel OscBundle.new source b.getEncodedSize = some (p, e) →
            e ≠ .OscErrorSizeIsNotMultipleOfFour ∧ e ≠ .OscErrorBundleSizeTooSmall) := by
  constructor
  · intro m _
    have h4 := OscMessage.size_mod_four_message m
    have h8 := OscMessage.size_ge_eight m
    have hmin : OscMessage.MinOscMessageSize = 8 := rfl
    refine ⟨h4, by omega, hmin, fun source r e h => ?_⟩
    exact OscMessage.decode_codes_after_size source _ r e (by omega) h4 (by omega) h
  · intro b hb
    obtain ⟨h4, h16⟩ := OscBundle.size_of_headerInv b hb
    have hmin : OscBundle.MinimumBundleSize = 16 := rfl
    refine ⟨h4, by omega, hmin, fun fuel source p e h => ?_⟩
    exact OscBundle.bundle_codes_after_size fuel source _ p e h4 (by omega) h

theorem encoded_sizes_pass_size_tests_witness :
    (((OscMessage.withAddress (ascii "/ab")).addString (ascii "xyz")).getEncodedSize % 4 = 0
      ∧ OscMessage.MinOscMessageSize
          ≤ ((OscMessage.withAddress (ascii "/ab")).addString (ascii "xyz")).getEncodedSize)
    ∧ (((OscBundle.withTimeTag 1).addMessage
          ((OscMessage.withAddress (ascii "/ab")).addString (ascii "xyz"))).getEncodedSize % 4 = 0
      ∧ OscBundle.MinimumBundleSize
          ≤ ((OscBundle.withTimeTag 1).addMessage
              ((OscMessage.withAddress (ascii "/ab")).addString (ascii "xyz"))).getEncodedSize)
    ∧ ((OscBundle.withTimeTag 1).addMessage
          ((OscMessage.withAddress (ascii "/ab")).addString (ascii "xyz"))).getEncodedSize = 32 :=
  ⟨⟨(encoded_sizes_pass_size_tests.1
        ((OscMessage.withAddress (ascii "/ab")).addString (ascii "xyz")) (by decide)).1,
      (encoded_sizes_pass_size_tests.1
        ((OscMessage.withAddress (ascii "/ab")).addString (ascii "xyz")) (by decide)).2.1⟩,
    ⟨(encoded_sizes_pass_size_tests.2
        ((OscBundle.withTimeTag 1).addMessage
          ((OscMessage.withAddress (ascii "/ab")).addString (ascii "xyz"))) (by decide)).1,
      (encoded_sizes_pass_size_tests.2
        ((OscBundle.withTimeTag 1).addMessage
          ((OscMessage.withAddress (ascii "/ab")).addString (ascii "xyz"))) (by decide)).2.1⟩,
    by decide⟩

/-! ## OscMessage::decode on the members of the message: C15, C33 -/

namespace OscMessage

theorem inPlace_decodeAddressPattern_eq (source : List Nat) (sizeInBytes : Nat) :
    ∀ (fuel sourceIndex : Nat) (m : OscMessage),
    InPlace.decodeAddressPattern source sizeInBytes fuel sourceIndex m
      = (decodeAddressPattern source sizeInBytes fuel sourceIndex m.addressPattern).map
          (fun s => match s with
            | .fail e => InPlace.Flow.returned (m.clear, e)
            | .next (i, ap) => InPlace.Flow.next (i, { m with addressPattern := ap }))
  | 0, _, _ => rfl
  | fuel + 1, sourceIndex, m => by
    rw [InPlace.decodeAddressPattern, decodeAddressPattern]
    cases hc : source[sourceIndex]? with
    | none => rfl
    | some c =>
      simp only
      by_cases h0 : c = 0
      · rw [if_pos h0, if_pos h0]; rfl
      · rw [if_neg h0, if_neg h0]
        by_cases h1 : toUInt32 (sourceIndex + 1) ≥ sizeInBytes
        · rw [if_pos h1, if_pos h1]; rfl
        · rw [if_neg h1, if_neg h1]
          rw [inPlace_decodeAddressPattern_eq source sizeInBytes fuel _ _]
          rfl

theorem inPlace_decodeAddressPattern_result (source : List Nat) (sizeInBytes : Nat)
    (fuel sourceIndex : Nat) (m : OscMessage) (r : InPlace.Flow (Nat × OscMessage))
    (h : InPlace.decodeAddressPattern source sizeInBytes fuel sourceIndex m = some r) :
    (∀ x, r = .returned x →
        x = (m.clear, .OscErrorSourceEndsBeforeEndOfAddressPattern))
    ∧ (∀ i m1, r = .next (i, m1) →
        ∃ ap, decodeAddressPattern source sizeInBytes fuel sourceIndex m.addressPattern
            = some (.next (i, ap))
          ∧ m1 = { m with addressPattern := ap }) := by
  rw [inPlace_decodeAddressPattern_eq] at h
  cases ho : decodeAddressPattern source sizeInBytes fuel sourceIndex m.addressPattern with
  | none => rw [ho] at h; cases h
  | some s =>
    rw [ho] at h
    cases s with
    | fail e =>
      have he := (decodeAddressPattern_result _ _ _ _ _ _ ho).1 e rfl
      subst he
      simp only [Option.map_some', Option.some.injEq] at h
      subst h
      exact ⟨fun x hx => (by cases hx; rfl), fun i m1 hx => (by cases hx)⟩
    | next p =>
      obtain ⟨i0, ap⟩ := p
      simp only [Option.map_some', Option.some.injEq] at h
      subst h
      refine ⟨fun x hx => (by cases hx), fun i m1 hx => ?_⟩
      cases hx
      exact ⟨ap, rfl, rfl⟩

theorem inPlace_decodeArgument_result (argument : OscArgument) (source : List Nat)
    (sizeInBytes sourceIndex type : Nat) (e : OscError)
    (h : InPlace.decodeArgument argument source sizeInBytes sourceIndex type
      = some (.fail e)) :
    e = .OscErrorUnexpectedEndOfSource := by
  unfold InPlace.decodeArgument at h
  by_cases t1 : type = Int32TypeTag ∨ type = Float32TypeTag ∨ type = CharacterTypeTag
      ∨ type = RgbaColourTypeTag ∨ type = MidiMessageTypeTag
  · rw [if_pos t1] at h
    by_cases b : sourceIndex + 4 > sizeInBytes
    · rw [if_pos b] at h
      simp only [Option.some.injEq, Step.fail.injEq] at h
      exact h.symm
    · rw [if_neg b] at h
      cases hu : decodeArgument32 (source.drop sourceIndex) with
      | none => rw [hu] at h; cases h
      | some u =>
        rw [hu] at h
        simp only at h
        split_ifs at h
        · cases h
        · cases h
        · cases hc : source[toUInt32 (sourceIndex + 3)]? with
          | none => rw [hc] at h; cases h
          | some c => rw [hc] at h; cases h
        · cases h
        · cases h
  · rw [if_neg t1] at h
    by_cases t2 : type = StringTypeTag ∨ type = AlternateStringTypeTag
    · rw [if_pos t2] at h
      cases hl : stringLengthSafe (source.drop sourceIndex)
          (toSizeT (sizeInBytes + 2 ^ 64 - sourceIndex)) with
      | none => rw [hl] at h; cases h
      | some length =>
        rw [hl] at h
        simp only at h
        by_cases b : length = 0 ∨ getPaddedSize (sourceIndex + length + 1) > sizeInBytes
        · rw [if_pos b] at h
          simp only [Option.some.injEq, Step.fail.injEq] at h
          exact h.symm
        · rw [if_neg b] at h
          cases hs : decodeStringValue source sourceIndex source.length 0 [] with
          | none => rw [hs] at h; cases h
          | some string =>
            rw [hs] at h
            simp only at h
            split_ifs at h <;> cases h
    · rw [if_neg t2] at h
      by_cases t3 : type = BlobTypeTag
      · rw [if_pos t3] at h
        by_cases b : sourceIndex + 4 > sizeInBytes
        · rw [if_pos b] at h
          simp only [Option.some.injEq, Step.fail.injEq] at h
          exact h.symm
        · rw [if_neg b] at h
          cases hu : decodeArgument32 (source.drop sourceIndex) with
          | none => rw [hu] at h; cases h
          | some u =>
            rw [hu] at h
            simp only at h
            by_cases b2 : toSizeT (sourceIndex + 4
                + toSizeT (getPaddedSize (int32ToSizeT (asInt32 u)))) > sizeInBytes
            · rw [if_pos b2] at h
              simp only [Option.some.injEq, Step.fail.injEq] at h
              exact h.symm
            · rw [if_neg b2] at h
              cases hb : argument.setBlob (source.drop (sourceIndex + 4))
                  (int32ToSizeT (asInt32 u)) with
              | none => rw [hb] at h; cases h
              | some a => rw [hb] at h; cases h
      · rw [if_neg t3] at h
        by_cases t4 : type = Int64TypeTag ∨ type = Float64TypeTag ∨ type = TimeTagTypeTag
        · rw [if_pos t4] at h
          by_cases b : sourceIndex + 8 > sizeInBytes
          · rw [if_pos b] at h
            simp only [Option.some.injEq, Step.fail.injEq] at h
            exact h.symm
          · rw [if_neg b] at h
            cases hu : decodeArgument64 (source.drop sourceIndex) with
            | none => rw [hu] at h; cases h
            | some u =>
              rw [hu] at h
              simp only at h
              split_ifs at h <;> cases h
        · rw [if_neg t4] at h
          split_ifs at h <;> cases h

theorem inPlace_decodeArguments_result (source : List Nat) (sizeInBytes : Nat) :
    ∀ (types : List Nat) (indeterminate : Nat → Nat × Nat) (sourceIndex : Nat)
      (m : OscMessage) (r : InPlace.Flow OscMessage),
    InPlace.decodeArguments source sizeInBytes indeterminate types sourceIndex m = some r →
    (∀ x, r = .returned x → x = (m.clear, .OscErrorUnexpectedEndOfSource))
    ∧ (∀ m1, r = .next m1 →
        m1.addressPattern = m.addressPattern ∧ m1.timeTag = m.timeTag)
  | [], _, _, m, r, h => by
    rw [InPlace.decodeArguments] at h
    cases h
    exact ⟨fun x hx => (by cases hx), fun m1 hx => (by cases hx; exact ⟨rfl, rfl⟩)⟩
  | type :: rest, indeterminate, sourceIndex, m, r, h => by
    rw [InPlace.decodeArguments] at h
    cases hd : InPlace.decodeArgument
        (OscArgument.defaultConstructed (indeterminate 0).1 (indeterminate 0).2)
        source sizeInBytes sourceIndex type with
    | none => rw [hd] at h; cases h
    | some s =>
      rw [hd] at h
      cases s with
      | fail e =>
        have he := inPlace_decodeArgument_result _ _ _ _ _ _ hd
        subst he
        simp only [Option.some.injEq] at h
        subst h
        exact ⟨fun x hx => (by cases hx; rfl), fun m1 hx => (by cases hx)⟩
      | next a =>
        simp only at h
        obtain ⟨f1, f2⟩ := inPlace_decodeArguments_result source sizeInBytes rest _ _ _ r h
        exact ⟨fun x hx => f1 x hx, fun m1 hx => f2 m1 hx⟩

theorem inPlace_decode_result (indeterminate : Nat → Nat × Nat) (source : List Nat)
    (sizeInBytes : Nat) (m m1 : OscMessage) (e : OscError)
    (h : InPlace.decode indeterminate m source sizeInBytes = some (m1, e)) :
    (e ≠ .OscErrorNone → m1 = m ∨ m1 = m.clear)
    ∧ (e = .OscErrorNone → m.addressPattern = [] → m1.addressPattern.head? = some 47) := by
  have herr : ∀ (m2 : OscMessage) (e2 : OscError), e2 ≠ .OscErrorNone →
      m2.timeTag = m.timeTag → m2.error e2 = (m1, e) →
      (e ≠ .OscErrorNone → m1 = m ∨ m1 = m.clear)
      ∧ (e = .OscErrorNone → m.addressPattern = [] →
          m1.addressPattern.head? = some 47) := by
    intro m2 e2 hne ht heq
    simp only [OscMessage.error, OscMessage.clear, Prod.mk.injEq] at heq
    obtain ⟨hm, he⟩ := heq
    subst he
    refine ⟨fun _ => Or.inr ?_, fun hc => absurd hc hne⟩
    rw [← hm, ht]
    rfl
  have hearly : ∀ e2 : OscError, e2 ≠ .OscErrorNone → (m, e2) = (m1, e) →
      (e ≠ .OscErrorNone → m1 = m ∨ m1 = m.clear)
      ∧ (e = .OscErrorNone → m.addressPattern = [] →
          m1.addressPattern.head? = some 47) := by
    intro e2 hne heq
    simp only [Prod.mk.injEq] at heq
    obtain ⟨hm, he⟩ := heq
    subst he
    exact ⟨fun _ => Or.inl hm.symm, fun hc => absurd hc hne⟩
  unfold InPlace.decode at h
  by_cases c1 : sizeInBytes = 0
  · rw [if_pos c1] at h
    exact hearly _ (by decide) (Option.some.inj h)
  rw [if_neg c1] at h
  by_cases c2 : sizeInBytes % 4 ≠ 0
  · rw [if_pos c2] at h
    exact hearly _ (by decide) (Option.some.inj h)
  rw [if_neg c2] at h
  by_cases c3 : sizeInBytes < MinOscMessageSize
  · rw [if_pos c3] at h
    exact hearly _ (by decide) (Option.some.inj h)
  rw [if_neg c3] at h
  cases h0 : source[0]? with
  | none => rw [h0] at h; cases h
  | some c0 =>
    rw [h0] at h
    simp only at h
    by_cases c4 : c0 ≠ 47
    · rw [if_pos c4] at h
      exact hearly _ (by decide) (Option.some.inj h)
    rw [if_neg c4] at h
    have hc0 : c0 = 47 := by
      by_contra hx; exact c4 hx
    subst hc0
    cases hl : stringLengthSafe source sizeInBytes with
    | none => rw [hl] at h; cases h
    | some addressLength =>
      rw [hl] at h
      simp only at h
      by_cases c5 : addressLength > sizeInBytes
      · rw [if_pos c5] at h
        exact hearly _ (by decide) (Option.some.inj h)
      rw [if_neg c5] at h
      cases ha : InPlace.decodeAddressPattern source sizeInBytes source.length 0 m with
      | none => rw [ha] at h; cases h
      | some r1 =>
        rw [ha] at h
        obtain ⟨a1, a2⟩ := inPlace_decodeAddressPattern_result _ _ _ _ _ _ ha
        cases r1 with
        | returned x =>
          simp only at h
          have hx := a1 x rfl
          subst hx
          exact herr m _ (by decide) rfl (Option.some.inj h)
        | next p1 =>
          obtain ⟨i1, m2⟩ := p1
          simp only at h
          obtain ⟨ap, hap, hm2⟩ := a2 i1 m2 rfl
          subst hm2
          cases hs : decodeSkipToTypeTags source sizeInBytes source.length i1 with
          | none => rw [hs] at h; cases h
          | some r2 =>
            rw [hs] at h
            cases r2 with
            | fail e2 =>
              simp only at h
              have := decodeSkipToTypeTags_result _ _ _ _ _ hs
              exact herr _ e2 (by rw [this]; decide) rfl (Option.some.inj h)
            | next i2 =>
              simp only at h
              cases hl2 : stringLengthSafe (source.drop i2)
                  (toSizeT (sizeInBytes + 2 ^ 64 - i2)) with
              | none => rw [hl2] at h; cases h
              | some l2 =>
                rw [hl2] at h
                simp only at h
                cases ht : decodeTypeTagString source sizeInBytes source.length i2 [] with
                | none => rw [ht] at h; cases h
                | some r3 =>
                  rw [ht] at h
                  cases r3 with
                  | fail e3 =>
                    simp only at h
                    have := decodeTypeTagString_result _ _ _ _ _ _ ht
                    exact herr _ e3 (by rw [this]; decide) rfl (Option.some.inj h)
                  | next p3 =>
                    obtain ⟨i3, tags⟩ := p3
                    simp only at h
                    cases hadv : decodeAdvanceToArguments sizeInBytes 4 i3 with
                    | fail e4 =>
                      rw [hadv] at h
                      simp only at h
                      have := decodeAdvanceToArguments_result _ _ _ _ hadv
                      exact herr _ e4 (by rw [this]; decide) rfl (Option.some.inj h)
                    | next i4 =>
                      rw [hadv] at h
                      simp only at h
                      cases hargs : InPlace.decodeArguments source sizeInBytes indeterminate
                          tags i4 { m with addressPattern := ap } with
                      | none => rw [hargs] at h; cases h
                      | some r5 =>
                        rw [hargs] at h
                        obtain ⟨g1, g2⟩ := inPlace_decodeArguments_result _ _ _ _ _ _ _ hargs
                        cases r5 with
                        | returned x =>
                          simp only at h
                          have hx := g1 x rfl
                          subst hx
                          exact herr { m with addressPattern := ap } _ (by decide) rfl
                            (Option.some.inj h)
                        | next m3 =>
                          simp only [Option.some.injEq, Prod.mk.injEq] at h
                          obtain ⟨hm, he⟩ := h
                          subst hm
                          subst he
                          refine ⟨fun hc => absurd rfl hc, fun _ hnil => ?_⟩
                          rw [(g2 m3 rfl).1]
                          rw [hnil] at hap
                          exact decodeAddressPattern_head source sizeInBytes source.length
                            i1 ap h0 hap

theorem inPlace_decodeArguments_eq (source : List Nat) (sizeInBytes : Nat) :
    ∀ (types : List Nat) (sourceIndex : Nat) (m : OscMessage),
    InPlace.decodeArguments source sizeInBytes (fun _ => (0, 0)) types sourceIndex m
      = (decodeArguments source sizeInBytes types sourceIndex m.arguments).map
          (fun s => match s with
            | .fail e => InPlace.Flow.returned (m.clear, e)
            | .next arguments => InPlace.Flow.next { m with arguments := arguments })
  | [], _, _ => rfl
  | type :: rest, sourceIndex, m => by
    rw [InPlace.decodeArguments, decodeArguments]
    have hd : InPlace.decodeArgument (OscArgument.defaultConstructed 0 0) source sizeInBytes
        sourceIndex type = decodeArgument source sizeInBytes sourceIndex type := rfl
    simp only [hd]
    cases hr : decodeArgument source sizeInBytes sourceIndex type with
    | none => rfl
    | some s =>
      cases s with
      | fail e => rfl
      | next a =>
        simp only
        rw [inPlace_decodeArguments_eq source sizeInBytes rest _ _]
        rfl

/-- `OscMessage::decode` on the members of the message, with 0 in the members that the
constructor of the loop variable leaves unassigned, returns what `OscMessage.decode`
returns: on every message, every source and every size. -/
theorem inPlace_decode_eq (m : OscMessage) (source : List Nat) (sizeInBytes : Nat) :
    InPlace.decode (fun _ => (0, 0)) m source sizeInBytes = m.decode source sizeInBytes := by
  unfold InPlace.decode OscMessage.decode
  by_cases c1 : sizeInBytes = 0
  · rw [if_pos c1, if_pos c1]
  rw [if_neg c1, if_neg c1]
  by_cases c2 : sizeInBytes % 4 ≠ 0
  · rw [if_pos c2, if_pos c2]
  rw [if_neg c2, if_neg c2]
  by_cases c3 : sizeInBytes < MinOscMessageSize
  · rw [if_pos c3, if_pos c3]
  rw [if_neg c3, if_neg c3]
  cases h0 : source[0]? with
  | none => rfl
  | some c0 =>
    simp only
    by_cases c4 : c0 ≠ 47
    · rw [if_pos c4, if_pos c4]
    rw [if_neg c4, if_neg c4]
    cases hl : stringLengthSafe source sizeInBytes with
    | none => rfl
    | some addressLength =>
      simp only
      by_cases c5 : addressLength > sizeInBytes
      · rw [if_pos c5, if_pos c5]
      rw [if_neg c5, if_neg c5]
      rw [inPlace_decodeAddressPattern_eq]
      cases ha : decodeAddressPattern source sizeInBytes source.length 0 m.addressPattern with
      | none => rfl
      | some r1 =>
        cases r1 with
        | fail e1 => rfl
        | next p1 =>
          obtain ⟨i1, ap⟩ := p1
          simp only [Option.map_some']
          cases hs : decodeSkipToTypeTags source sizeInBytes source.length i1 with
          | none => rfl
          | some r2 =>
            cases r2 with
            | fail e2 => rfl
            | next i2 =>
              simp only
              cases hl2 : stringLengthSafe (source.drop i2)
                  (toSizeT (sizeInBytes + 2 ^ 64 - i2)) with
              | none => rfl
              | some l2 =>
                simp only
                cases ht : decodeTypeTagString source sizeInBytes source.length i2 [] with
                | none => rfl
                | some r3 =>
                  cases r3 with
                  | fail e3 => rfl
                  | next p3 =>
                    obtain ⟨i3, tags⟩ := p3
                    simp only
                    cases hadv : decodeAdvanceToArguments sizeInBytes 4 i3 with
                    | fail e4 => rfl
                    | next i4 =>
                      simp only
                      rw [inPlace_decodeArguments_eq]
                      cases hargs : decodeArguments source sizeInBytes tags i4 m.arguments with
                      | none => rfl
                      | some r5 =>
                        cases r5 with
                        | fail e5 => rfl
                        | next arguments => rfl

end OscMessage

/-- C15: whenever `OscMessage::decode`, called by `createFromEncodedData` on a new message,
returns, the message is empty exactly when the returned code is an error; after an error
the message has no address pattern and no argument; after `OscErrorNone` the message is
valid.  `decode` is the one that works on the members of the message: the characters of
the address and the arguments are pushed onto the message as they are read, and it is
`error ()`, through `clear ()`, that removes them.  So the loop reading the address and the
loop reading the arguments, started on any message whatever it holds already, leave through
`return error (...)` with a message without address pattern and without argument, and with
an error code.  All of this holds for every content of the members that the constructor of
the loop variable leaves unassigned.  `decode` does return for every source made of bytes
below 128 (`sizeInBytes` being at most the size of the source and below 2^32; the unassigned
members taken as 0). -/
theorem message_decode_transactional (indeterminate : Nat → Nat × Nat) (source : List Nat)
    (sizeInBytes : Nat) :
    (∀ m e, OscMessage.InPlace.decode indeterminate OscMessage.new source sizeInBytes
        = some (m, e) →
      OscMessage.InPlace.createFromEncodedData indeterminate source sizeInBytes = some m
      ∧ (m.isEmpty = true ↔ e ≠ .OscErrorNone)
      ∧ (e ≠ .OscErrorNone → m.addressPattern = [] ∧ m.arguments = [])
      ∧ (e = .OscErrorNone → m.isValid = true))
    ∧ (∀ (fuel sourceIndex : Nat) (m : OscMessage) (r : OscMessage × OscError),
        OscMessage.InPlace.decodeAddressPattern source sizeInBytes fuel sourceIndex m
          = some (.returned r) →
        r.1.addressPattern = [] ∧ r.1.arguments = [] ∧ r.2 ≠ .OscErrorNone)
    ∧ (∀ (typetagString : List Nat) (sourceIndex : Nat) (m : OscMessage)
        (r : OscMessage × OscError),
        OscMessage.InPlace.decodeArguments source sizeInBytes indeterminate typetagString
          sourceIndex m = some (.returned r) →
        r.1.addressPattern = [] ∧ r.1.arguments = [] ∧ r.2 ≠ .OscErrorNone)
    ∧ (sizeInBytes ≤ source.length → sizeInBytes < 2 ^ 32 → (∀ c ∈ source, c < 128) →
        ∃ m e, OscMessage.InPlace.decode (fun _ => (0, 0)) OscMessage.new source sizeInBytes
          = some (m, e)) := by
  refine ⟨fun m e h => ?_, fun fuel sourceIndex m r h => ?_,
    fun typetagString sourceIndex m r h => ?_, fun hs h32 hb => ?_⟩
  · obtain ⟨h1, h2⟩ := OscMessage.inPlace_decode_result indeterminate source sizeInBytes
      OscMessage.new m e h
    have hnew : ∀ he : e ≠ .OscErrorNone, m = OscMessage.new := by
      intro he
      rcases h1 he with hm | hm
      · exact hm
      · exact hm
    refine ⟨by simp [OscMessage.InPlace.createFromEncodedData, h], ?_, ?_, ?_⟩
    · by_cases he : e = .OscErrorNone
      · have hh := h2 he rfl
        cases hap : m.addressPattern with
        | nil => rw [hap] at hh; simp at hh
        | cons c cs => simp [OscMessage.isEmpty, hap, he]
      · rw [hnew he]
        simp [OscMessage.isEmpty, OscMessage.new, he]
    · intro he
      rw [hnew he]
      exact ⟨rfl, rfl⟩
    · intro he
      cases m with
      | mk t ap args => exact OscMessage.isValid_of_head t ap args (h2 he rfl)
  · have hr := (OscMessage.inPlace_decodeAddressPattern_result _ _ _ _ _ _ h).1 r rfl
    rw [hr]
    exact ⟨rfl, rfl, fun hc => (by cases hc)⟩
  · have hr := (OscMessage.inPlace_decodeArguments_result _ _ _ _ _ _ _ h).1 r rfl
    rw [hr]
    exact ⟨rfl, rfl, fun hc => (by cases hc)⟩
  · obtain ⟨⟨m, e⟩, hr⟩ := OscMessage.decode_total source sizeInBytes OscMessage.new hs h32 hb
    exact ⟨m, e, by rw [OscMessage.inPlace_decode_eq]; exact hr⟩

theorem message_decode_transactional_witness :
    (OscMessage.InPlace.createFromEncodedData (fun _ => (105, 5))
        (ascii "/a" ++ [0, 0] ++ ascii ",i" ++ [0, 0] ++ [0, 0, 0, 7]) 12
        = some ⟨0, ascii "/a", [(OscArgument.defaultConstructed 105 5).setInt32 7]⟩
      ∧ (OscMessage.mk 0 (ascii "/a")
          [(OscArgument.defaultConstructed 105 5).setInt32 7]).isValid = true)
    ∧ (OscMessage.InPlace.decode (fun _ => (105, 5)) OscMessage.new
          (ascii "/a" ++ [0, 0] ++ ascii ",ii" ++ [0] ++ [0, 0, 0, 7]) 12
        = some (OscMessage.new, .OscErrorUnexpectedEndOfSource)
      ∧ (OscMessage.new.isEmpty = true
          ↔ OscError.OscErrorUnexpectedEndOfSource ≠ OscError.OscErrorNone))
    ∧ (OscMessage.InPlace.decodeAddressPattern
          (ascii "/a" ++ [0, 0] ++ ascii ",ii" ++ [0] ++ [0, 0, 0, 7]) 12 12 0 OscMessage.new
        = some (.next (2, ⟨0, ascii "/a", []⟩))
      ∧ OscMessage.InPlace.decodeArgument (OscArgument.defaultConstructed 105 5)
          (ascii "/a" ++ [0, 0] ++ ascii ",ii" ++ [0] ++ [0, 0, 0, 7]) 12 8 105
        = some (.next ((OscArgument.defaultConstructed 105 5).setInt32 7))
      ∧ OscMessage.InPlace.decodeArguments
          (ascii "/a" ++ [0, 0] ++ ascii ",ii" ++ [0] ++ [0, 0, 0, 7]) 12 (fun _ => (105, 5))
          [105] 12 ⟨0, ascii "/a", [(OscArgument.defaultConstructed 105 5).setInt32 7]⟩
        = some (.returned (OscMessage.new, .OscErrorUnexpectedEndOfSource))
      ∧ (OscMessage.new.addressPattern = [] ∧ OscMessage.new.arguments = []
          ∧ OscError.OscErrorUnexpectedEndOfSource ≠ OscError.OscErrorNone))
    ∧ (OscMessage.InPlace.decodeAddressPattern (ascii "/ab" ++ [0]) 2 4 1
          ⟨0, ascii "/", []⟩
        = some (.returned (OscMessage.new, .OscErrorSourceEndsBeforeEndOfAddressPattern))
      ∧ (OscMessage.new.addressPattern = [] ∧ OscMessage.new.arguments = []
          ∧ OscError.OscErrorSourceEndsBeforeEndOfAddressPattern ≠ OscError.OscErrorNone))
    ∧ ∃ m e, OscMessage.InPlace.decode (fun _ => (0, 0)) OscMessage.new
        (ascii "/a" ++ [0, 0] ++ ascii ",i" ++ [0, 0] ++ [0, 0, 0, 7]) 12 = some (m, e) :=
  have h1 := (message_decode_transactional (fun _ => (105, 5))
    (ascii "/a" ++ [0, 0] ++ ascii ",i" ++ [0, 0] ++ [0, 0, 0, 7]) 12).1
    ⟨0, ascii "/a", [(OscArgument.defaultConstructed 105 5).setInt32 7]⟩ .OscErrorNone
    (by decide)
  have h2 := (message_decode_transactional (fun _ => (105, 5))
    (ascii "/a" ++ [0, 0] ++ ascii ",ii" ++ [0] ++ [0, 0, 0, 7]) 12).1
    OscMessage.new .OscErrorUnexpectedEndOfSource (by decide)
  have h3 := (message_decode_transactional (fun _ => (105, 5))
    (ascii "/a" ++ [0, 0] ++ ascii ",ii" ++ [0] ++ [0, 0, 0, 7]) 12).2.2.1
    [105] 12 ⟨0, ascii "/a", [(OscArgument.defaultConstructed 105 5).setInt32 7]⟩
    (OscMessage.new, .OscErrorUnexpectedEndOfSource) (by decide)
  have h4 := (message_decode_transactional (fun _ => (105, 5))
    (ascii "/ab" ++ [0]) 2).2.1 4 1 ⟨0, ascii "/", []⟩
    (OscMessage.new, .OscErrorSourceEndsBeforeEndOfAddressPattern) (by decide)
  ⟨⟨h1.1, h1.2.2.2 rfl⟩, ⟨by decide, h2.2.1⟩, ⟨by decide, by decide, by decide, h3⟩,
    ⟨by decide, h4⟩,
    (message_decode_transactional (fun _ => (0, 0))
      (ascii "/a" ++ [0, 0] ++ ascii ",i" ++ [0, 0] ++ [0, 0, 0, 7]) 12).2.2.2
      (by decide) (by decide) (by decide)⟩

theorem OscArgument.defaultConstructed_getEncodedSize (typeTag value : Nat) :
    (OscArgument.defaultConstructed typeTag value).getEncodedSize = 0
    ∨ (OscArgument.defaultConstructed typeTag value).getEncodedSize = 4
    ∨ (OscArgument.defaultConstructed typeTag value).getEncodedSize = 8 := by
  unfold OscArgument.getEncodedSize OscArgument.defaultConstructed
  simp only
  split_ifs
  · exact Or.inr (Or.inl rfl)
  · exact Or.inr (Or.inl rfl)
  · exact Or.inr (Or.inl rfl)
  · exact Or.inr (Or.inr rfl)
  · exact Or.inl rfl

theorem OscMessage.inPlace_decodeArgument_unrecognised (argument : OscArgument)
    (source : List Nat) (sizeInBytes sourceIndex type : Nat) (h : ¬ TypeTag.Recognised type) :
    OscMessage.InPlace.decodeArgument argument source sizeInBytes sourceIndex type
      = some (.next argument) := by
  unfold TypeTag.Recognised at h
  unfold OscMessage.InPlace.decodeArgument
  rw [if_neg (by tauto), if_neg (by tauto), if_neg (by tauto), if_neg (by tauto),
    if_neg (by tauto), if_neg (by tauto), if_neg (by tauto), if_neg (by tauto),
    if_neg (by tauto), if_neg (by tauto)]

theorem OscMessage.inPlace_decode_unknown_then_string (indeterminate : Nat → Nat × Nat) :
    OscMessage.InPlace.decode indeterminate OscMessage.new
        (ascii "/a" ++ [0, 0] ++ ascii ",xs" ++ [0]
          ++ [0, 0, 0, 0, 0, 0, 0, 0, 0, 0, 0, 0] ++ ascii "ab" ++ [0, 0]) 24
      = some (OscMessage.new, .OscErrorUnexpectedEndOfSource) := by
  have h : OscMessage.InPlace.decode indeterminate OscMessage.new
        (ascii "/a" ++ [0, 0] ++ ascii ",xs" ++ [0]
          ++ [0, 0, 0, 0, 0, 0, 0, 0, 0, 0, 0, 0] ++ ascii "ab" ++ [0, 0]) 24
      = (match OscMessage.InPlace.decodeArguments
          (ascii "/a" ++ [0, 0] ++ ascii ",xs" ++ [0]
            ++ [0, 0, 0, 0, 0, 0, 0, 0, 0, 0, 0, 0] ++ ascii "ab" ++ [0, 0]) 24
          (fun k => indeterminate (k + 1)) [115]
          (toUInt32 (8 + (OscArgument.defaultConstructed (indeterminate 0).1
            (indeterminate 0).2).getEncodedSize))
          ⟨0, ascii "/a",
            [OscArgument.defaultConstructed (indeterminate 0).1 (indeterminate 0).2]⟩ with
        | none => none
        | some (.returned r) => some r
        | some (.next m) => some (m, .OscErrorNone)) := rfl
  rw [h]
  rcases OscArgument.defaultConstructed_getEncodedSize (indeterminate 0).1
    (indeterminate 0).2 with h0 | h0 | h0
  · rw [h0]; rfl
  · rw [h0]; rfl
  · rw [h0]; rfl

theorem OscMessage.inPlace_decode_int_unknown_int (indeterminate : Nat → Nat × Nat) :
    (OscMessage.InPlace.decode indeterminate OscMessage.new
        (ascii "/a" ++ [0, 0] ++ ascii ",ixi" ++ [0, 0, 0, 0] ++ [0, 0, 0, 5] ++ [0, 0, 0, 6])
        20).map (fun r => (r.1.getAddressPattern, r.1.arguments.map OscArgument.getType, r.2))
      = if (OscArgument.defaultConstructed (indeterminate 1).1
            (indeterminate 1).2).getEncodedSize = 0
        then some (ascii "/a", [Int32TypeTag, (indeterminate 1).1, Int32TypeTag],
          .OscErrorNone)
        else some ([], [], .OscErrorUnexpectedEndOfSource) := by
  have h : OscMessage.InPlace.decode indeterminate OscMessage.new
        (ascii "/a" ++ [0, 0] ++ ascii ",ixi" ++ [0, 0, 0, 0] ++ [0, 0, 0, 5] ++ [0, 0, 0, 6])
        20
      = (match OscMessage.InPlace.decodeArguments
          (ascii "/a" ++ [0, 0] ++ ascii ",ixi" ++ [0, 0, 0, 0] ++ [0, 0, 0, 5]
            ++ [0, 0, 0, 6]) 20
          (fun k => indeterminate (k + 1 + 1)) [105]
          (toUInt32 (16 + (OscArgument.defaultConstructed (indeterminate 1).1
            (indeterminate 1).2).getEncodedSize))
          ⟨0, ascii "/a",
            [(OscArgument.defaultConstructed (indeterminate 0).1
                (indeterminate 0).2).setInt32 5,
              OscArgument.defaultConstructed (indeterminate 1).1 (indeterminate 1).2]⟩ with
        | none => none
        | some (.returned r) => some r
        | some (.next m) => some (m, .OscErrorNone)) := rfl
  rw [h]
  rcases OscArgument.defaultConstructed_getEncodedSize (indeterminate 1).1
    (indeterminate 1).2 with h0 | h0 | h0
  · rw [h0, if_pos rfl]; rfl
  · rw [h0, if_neg (by decide)]; rfl
  · rw [h0, if_neg (by decide)]; rfl

/-- C33 (the code at failing inputs).  For a type tag that is none of the seventeen of
`enum TypeTag` the `switch` of `OscMessage::decode` calls no setter: the loop variable
`OscArgument argument;` stays as its constructor left it, with `typeTag` and `value` never
assigned, and it is that argument which is pushed and whose `getEncodedSize ()` moves the
cursor (first part, for every content of the loop variable).  On an argument whose type tag
is none of the seventeen, `getEncodedSize` reaches its `default:` branch, `assert (false)`
(second part).  With that assertion compiled out the cursor moves by 0, 4 or 8, whatever
the unassigned type tag is (third part).  So `decode` of the 24 bytes "/a", 2 NULs, ",xs",
NUL, twelve bytes 00 of data for the unknown tag, "ab", 2 NULs reads an empty string at
offset 8, 12 or 16, returns `OscErrorUnexpectedEndOfSource` and clears the message, address
pattern included: for every content of the unassigned members (fourth and fifth part).
`decode` of the 20 bytes "/a", 2 NULs, ",ixi", 4 NULs, 00 00 00 05, 00 00 00 06, in which
the unknown tag has no data, returns `OscErrorNone`, with the unassigned type tag as the
type of the second argument, only when the unassigned type tag is one for which
`getEncodedSize` gives 0; otherwise the cursor skips the data of the last argument,
`decode` returns `OscErrorUnexpectedEndOfSource` and clears the message (sixth part); this
is what happens when the loop variable still holds the `'i'` and the 5 of the iteration
before (last part). -/
theorem unrecognised_type_tag_argument :
    (∀ (argument : OscArgument) (source : List Nat) (sizeInBytes sourceIndex type : Nat),
        TypeTag.Recognised type
        ∨ OscMessage.InPlace.decodeArgument argument source sizeInBytes sourceIndex type
            = some (.next argument))
    ∧ (∀ a : OscArgument, a.getEncodedSizeAsserted
        = if TypeTag.Recognised a.typeTag then some a.getEncodedSize else none)
    ∧ (∀ typeTag value : Nat,
        (OscArgument.defaultConstructed typeTag value).getEncodedSize = 0
        ∨ (OscArgument.defaultConstructed typeTag value).getEncodedSize = 4
        ∨ (OscArgument.defaultConstructed typeTag value).getEncodedSize = 8)
    ∧ (∀ indeterminate : Nat → Nat × Nat,
        OscMessage.InPlace.decode indeterminate OscMessage.new
            (ascii "/a" ++ [0, 0] ++ ascii ",xs" ++ [0]
              ++ [0, 0, 0, 0, 0, 0, 0, 0, 0, 0, 0, 0] ++ ascii "ab" ++ [0, 0]) 24
          = some (OscMessage.new, .OscErrorUnexpectedEndOfSource))
    ∧ (∀ indeterminate : Nat → Nat × Nat,
        (OscMessage.InPlace.createFromEncodedData indeterminate
            (ascii "/a" ++ [0, 0] ++ ascii ",xs" ++ [0]
              ++ [0, 0, 0, 0, 0, 0, 0, 0, 0, 0, 0, 0] ++ ascii "ab" ++ [0, 0]) 24).map
          (fun m => (m.getAddressPattern, m.isEmpty)) = some ([], true))
    ∧ (∀ indeterminate : Nat → Nat × Nat,
        (OscMessage.InPlace.decode indeterminate OscMessage.new
            (ascii "/a" ++ [0, 0] ++ ascii ",ixi" ++ [0, 0, 0, 0] ++ [0, 0, 0, 5]
              ++ [0, 0, 0, 6]) 20).map
          (fun r => (r.1.getAddressPattern, r.1.arguments.map OscArgument.getType, r.2))
        = if (OscArgument.defaultConstructed (indeterminate 1).1
              (indeterminate 1).2).getEncodedSize = 0
          then some (ascii "/a", [Int32TypeTag, (indeterminate 1).1, Int32TypeTag],
            .OscErrorNone)
          else some ([], [], .OscErrorUnexpectedEndOfSource))
    ∧ OscMessage.InPlace.decode (fun _ => (Int32TypeTag, 5)) OscMessage.new
          (ascii "/a" ++ [0, 0] ++ ascii ",ixi" ++ [0, 0, 0, 0] ++ [0, 0, 0, 5]
            ++ [0, 0, 0, 6]) 20
        = some (OscMessage.new, .OscErrorUnexpectedEndOfSource) := by
  refine ⟨fun argument source sizeInBytes sourceIndex type => ?_,
    OscArgument.getEncodedSizeAsserted_eq, OscArgument.defaultConstructed_getEncodedSize,
    OscMessage.inPlace_decode_unknown_then_string,
    fun indeterminate => ?_, OscMessage.inPlace_decode_int_unknown_int, by decide⟩
  · by_cases h : TypeTag.Recognised type
    · exact Or.inl h
    · exact Or.inr (OscMessage.inPlace_decodeArgument_unrecognised argument source
        sizeInBytes sourceIndex type h)
  · rw [OscMessage.InPlace.createFromEncodedData,
      OscMessage.inPlace_decode_unknown_then_string]
    rfl

end Osc
